import Mathlib

/-!
# Verification of the generalized-pruning DAG core (`gp_dag.cpp`)

This file gives a shallow embedding of the GPDAG construction and the
operation-vector generators of `src/gp_dag.cpp`, and proves (or refutes)
the specification claims about them.

Conventions of the embedding:
* `Bitset` is `List Bool`; the C++ `Bitset` concatenation `+` is list append,
  `~` is pointwise negation, `RotateSubsplit` swaps the two halves.
* C++ `std::unordered_map` / `std::map` are association lists; `SafeInsert`
  (which is fatal on a duplicate key) and `.at` (fatal on a missing key)
  return `Option`, and every function that can hit such a fatal path is
  `Option`-valued.  A `none` result corresponds to a `Failwith`/`Assert`
  abort (or to exhausted recursion fuel).
* The recursive functions of the source (`BuildNodesDepthFirst`,
  `RootwardDepthFirst`, `LeafwardDepthFirst`, and the two schedulers)
  take an explicit fuel argument bounding the recursion depth; `none` is
  returned when the fuel runs out.  All theorems about runs are stated
  for runs that return `some`, and totality theorems exhibit sufficient fuel.
-/

/-- Option-valued left fold: the shape of every C++ loop in `gp_dag.cpp`
whose body may hit a fatal path.  Iteration stops with `none` as soon as the
step function fails. -/
def foldlOpt {α σ : Type} (step : α → σ → Option σ) : List α → σ → Option σ
  | [], st => some st
  | x :: xs, st =>
    match step x st with
    | none => none
    | some st' => foldlOpt step xs st'

/-- Lookup in an association list (C++ `map.at` / `map.count`). -/
def mapFind {α β : Type} [DecidableEq α] : List (α × β) → α → Option β
  | [], _ => none
  | (k, v) :: rest, key => if k = key then some v else mapFind rest key

/-- C++ `SafeInsert` into a map: fails if the key is already present,
otherwise appends the binding. -/
def safeInsert {α β : Type} [DecidableEq α] (m : List (α × β)) (k : α) (v : β) :
    Option (List (α × β)) :=
  if (mapFind m k).isSome then none else some (m ++ [(k, v)])

/-- C++ `SafeInsert` into a set: fails if the element is already present. -/
def safeInsertSet (s : List Nat) (x : Nat) : Option (List Nat) :=
  if x ∈ s then none else some (x :: s)

/-- In-place update of a list element (C++ mutation of `dag_nodes_[i]`). -/
def listModify {α : Type} : List α → Nat → (α → α) → List α
  | [], _, _ => []
  | x :: xs, 0, f => f x :: xs
  | x :: xs, n + 1, f => x :: listModify xs n f

/-- A `Bitset` is a fixed-length bit vector; a subsplit over `T` taxa is a
bitset of length `2 * T` (two clades of length `T` concatenated).  C++
`Bitset::operator+` is concatenation, i.e. `List.append`. -/
abbrev Bitset := List Bool

/-- C++ `~b`: pointwise complement. -/
def bitsetComplement (b : Bitset) : Bitset := b.map not

/-- C++ `Bitset::RotateSubsplit`: swap the two halves of a subsplit. -/
def rotateSubsplit (b : Bitset) : Bitset :=
  b.drop (b.length / 2) ++ b.take (b.length / 2)

/-- C++ `Bitset::SplitChunk(i)`: the `i`-th of the two clade halves. -/
def splitChunk (b : Bitset) (i : Nat) : Bitset :=
  (b.drop (i * (b.length / 2))).take (b.length / 2)

/-- C++ `Bitset::Any`. -/
def bitsetAny (b : Bitset) : Bool := b.any id

/-- C++ `Bitset::SingletonOption`: the index of the single set bit, when
exactly one bit is set. -/
def singletonOption (b : Bitset) : Option Nat :=
  if b.count true = 1 then some (b.findIdx (· = true)) else none

/-- Number of set bits. -/
def countTrue (b : Bitset) : Nat := b.count true

/-- The bitset of length `T` with exactly bit `t` set
(C++ `Bitset fake(taxon_count_); fake.set(taxon_idx)`). -/
def oneHot (T t : Nat) : Bitset := (List.range T).map (fun i => decide (i = t))

/-- The fake subsplit for taxon `t`: an all-zero first clade and the singleton
`t` as second clade (`zero + fake` in `GPDAG::BuildNodes`). -/
def fakeSubsplit (T t : Nat) : Bitset := List.replicate T false ++ oneHot T t

/-- The six PLV buffer kinds (`PLVType` in `gp_dag.hpp`). -/
inductive PLVType : Type
  | P
  | P_HAT
  | P_HAT_TILDE
  | R_HAT
  | R
  | R_TILDE
deriving DecidableEq, Repr

/-- The GP operations emitted by the generators.  Modelled from the spec:
`gp_operation.hpp` is not under `src/`; the spec (§4.5) lists the instruction
kinds and their integer-index payloads, and the field layout below follows the
aggregate-initializer uses in `gp_dag.cpp`.  `SetToStationaryDistribution`
carries a PLV index and a rootsplit index; the one-argument aggregate
initializations in `SetLeafwardZero` zero-initialize the rootsplit index. -/
inductive GPOperation : Type
  | Zero (dest : Nat)
  | Multiply (dest a b : Nat)
  | Likelihood (paramIdx rBuf pBuf : Nat)
  | EvolvePLVWeightedBySBNParameter (dest paramIdx src : Nat)
  | IncrementMarginalLikelihood (rHatBuf rootsplitIdx pBuf : Nat)
  | OptimizeBranchLength (pBuf rBuf paramIdx : Nat)
  | SetToStationaryDistribution (buf rootsplitIdx : Nat)
  | UpdateSBNProbabilities (start stop : Nat)
deriving DecidableEq, Repr

abbrev GPOperationVector := List GPOperation

/-- A DAG node (`GPDAGNode` in `gp_dag_node.hpp`, not under `src/`):
per the spec (§3), identity is a dense integer id, and the node holds its
subsplit bit-vector and four adjacency lists
(leafward/rootward × sorted/rotated). -/
structure GPDAGNode : Type where
  id : Nat
  subsplit : Bitset
  leafwardSorted : List Nat
  leafwardRotated : List Nat
  rootwardSorted : List Nat
  rootwardRotated : List Nat
deriving DecidableEq, Repr

/-- C++ `GPDAGNode::GetBitset(rotated)`. -/
def GPDAGNode.getBitset (n : GPDAGNode) (rotated : Bool) : Bitset :=
  if rotated then rotateSubsplit n.subsplit else n.subsplit

def GPDAGNode.addLeafwardSorted (n : GPDAGNode) (i : Nat) : GPDAGNode :=
  { n with leafwardSorted := n.leafwardSorted ++ [i] }

def GPDAGNode.addLeafwardRotated (n : GPDAGNode) (i : Nat) : GPDAGNode :=
  { n with leafwardRotated := n.leafwardRotated ++ [i] }

def GPDAGNode.addRootwardSorted (n : GPDAGNode) (i : Nat) : GPDAGNode :=
  { n with rootwardSorted := n.rootwardSorted ++ [i] }

def GPDAGNode.addRootwardRotated (n : GPDAGNode) (i : Nat) : GPDAGNode :=
  { n with rootwardRotated := n.rootwardRotated ++ [i] }

/-- The GPDAG state: the member fields of class `GPDAG`. -/
structure GPDAG : Type where
  taxon_count : Nat := 0
  rootsplits : List Bitset := []
  parent_to_range : List (Bitset × (Nat × Nat)) := []
  index_to_child : List (Nat × Bitset) := []
  dag_nodes : List GPDAGNode := []
  subsplit_to_index : List (Bitset × Nat) := []
  gpcsp_indexer : List (Bitset × Nat) := []
  subsplit_to_range : List (Bitset × (Nat × Nat)) := []
  rootsplit_and_pcsp_count : Nat := 0
deriving DecidableEq, Repr

/-- Modelled from the spec: `GPDAGNode::IsLeaf` (`gp_dag_node.hpp` is not
under `src/`).  Per the spec (§3), "a node is a leaf iff it is one of the
first T ids". -/
def nodeIsLeaf (dag : GPDAG) (n : GPDAGNode) : Bool :=
  n.id < dag.taxon_count

/-- Modelled from the spec: `GPDAGNode::IsRoot` (`gp_dag_node.hpp` is not
under `src/`).  Per the spec (§3), "a node is a root (rootsplit node) iff its
subsplit equals `rootsplit + complement(rootsplit)` for some rootsplit in the
sample". -/
def nodeIsRoot (dag : GPDAG) (n : GPDAGNode) : Bool :=
  dag.rootsplits.any (fun r => n.subsplit == r ++ bitsetComplement r)

/-- `GPDAG::NodeCount`. -/
def nodeCount (dag : GPDAG) : Nat := dag.dag_nodes.length

/-- `GPDAG::GetPLVIndexStatic`: the flat PLV index for a buffer kind.
The source `switch` covers the six enumerators; the default (fatal) branch is
modelled separately by `getPLVIndexStaticRaw`. -/
def getPLVIndexStatic (plv_type : PLVType) (node_count src_idx : Nat) : Nat :=
  match plv_type with
  | PLVType.P => src_idx
  | PLVType.P_HAT => node_count + src_idx
  | PLVType.P_HAT_TILDE => 2 * node_count + src_idx
  | PLVType.R_HAT => 3 * node_count + src_idx
  | PLVType.R => 4 * node_count + src_idx
  | PLVType.R_TILDE => 5 * node_count + src_idx

/-- Modelled from the spec: the `PLVType` enum declaration is not under
`src/`; the C++ `switch` in `GetPLVIndexStatic` dispatches on the enum's
underlying integral value and its `default` branch calls
`Failwith("Invalid PLV index requested.")`.  Here the kind is the raw
integral code (enumerators `0..5` in declaration order) and the fatal default
branch is `none`. -/
def getPLVIndexStaticRaw (plv_code node_count src_idx : Nat) : Option Nat :=
  match plv_code with
  | 0 => some src_idx
  | 1 => some (node_count + src_idx)
  | 2 => some (2 * node_count + src_idx)
  | 3 => some (3 * node_count + src_idx)
  | 4 => some (4 * node_count + src_idx)
  | 5 => some (5 * node_count + src_idx)
  | _ => none

/-- The per-kind offset as the spec words it: "a flat index =
`kind_offset(kind) * N + node_id`" (spec §3, §4.3).  This is the spec-side
definition, to be compared with `getPLVIndexStatic`. -/
def specKindOffset (plv_type : PLVType) : Nat :=
  match plv_type with
  | PLVType.P => 0
  | PLVType.P_HAT => 1
  | PLVType.P_HAT_TILDE => 2
  | PLVType.R_HAT => 3
  | PLVType.R => 4
  | PLVType.R_TILDE => 5

/-- `GPDAG::GetPLVIndex`. -/
def getPLVIndex (dag : GPDAG) (plv_type : PLVType) (src_idx : Nat) : Nat :=
  getPLVIndexStatic plv_type dag.dag_nodes.length src_idx

/-!
## DAG construction (`ProcessTrees`, `BuildNodes`, `BuildEdges`,
`BuildPCSPIndexer`)
-/

/-- `GPDAG::ProcessTrees`.  Modelled from the spec where the harvest helpers
are missing from `src/`: `RootedSBNMaps::RootsplitCounterOf` and
`RootedSBNMaps::PCSSCounterOf` (from `sbn_maps`) and `Bitset::ChildSubsplit`
(from `bitset.cpp`) are not under `src/`.  Per the spec (§4.2 Step 1) the
harvest yields the set of distinct rootsplits and, parent subsplit by parent
subsplit, the list of that parent's distinct child subsplits; we therefore
take the counters' key sequences directly as input, with the per-edge child
already converted to the child's full subsplit (the `Bitset::ChildSubsplit`
conversion is folded into the harvested input). -/
def processTrees (taxonCount : Nat) (rootsplitCounter : List Bitset)
    (pcssCounter : List (Bitset × List Bitset)) : Option GPDAG := do
  -- Start by adding the rootsplits.
  let rootsplits := rootsplitCounter
  let index := rootsplitCounter.length
  -- Now add the PCSSs.
  let st ← foldlOpt
    (fun (pc : Bitset × List Bitset)
         (st : List (Bitset × (Nat × Nat)) × List (Nat × Bitset) × Nat) => do
      let (parent_to_range, index_to_child, index) := st
      let (parent, child_counter) := pc
      let parent_to_range ←
        safeInsert parent_to_range parent (index, index + child_counter.length)
      let st' ← foldlOpt
        (fun (child : Bitset) (st' : List (Nat × Bitset) × Nat) => do
          let (index_to_child, index) := st'
          let index_to_child ← safeInsert index_to_child index child
          pure (index_to_child, index + 1))
        child_counter (index_to_child, index)
      pure (parent_to_range, st'.1, st'.2))
    pcssCounter ([], [], index)
  pure { taxon_count := taxonCount
         rootsplits := rootsplits
         parent_to_range := st.1
         index_to_child := st.2.1
         rootsplit_and_pcsp_count := st.2.2 }

/-- `GPDAG::CreateAndInsertNode`. -/
def createAndInsertNode (dag : GPDAG) (subsplit : Bitset) : Option GPDAG := do
  let id := dag.dag_nodes.length
  let subsplit_to_index ← safeInsert dag.subsplit_to_index subsplit id
  pure { dag with
         subsplit_to_index := subsplit_to_index
         dag_nodes := dag.dag_nodes ++
           [{ id := id, subsplit := subsplit, leafwardSorted := [],
              leafwardRotated := [], rootwardSorted := [], rootwardRotated := [] }] }

/-- Look up a consecutive index range in `index_to_child_`
(the loop body of `GetChildrenSubsplits`). -/
def lookupRange (m : List (Nat × Bitset)) : Nat → Nat → Option (List Bitset)
  | _, 0 => some []
  | start, n + 1 => do
    let child ← mapFind m start
    let rest ← lookupRange m (start + 1) n
    pure (child :: rest)

/-- `GPDAG::GetChildrenSubsplits`. -/
def getChildrenSubsplits (dag : GPDAG) (subsplit : Bitset)
    (include_fake_subsplits : Bool) : Option (List Bitset) :=
  match mapFind dag.parent_to_range subsplit with
  | some (start, stop) => lookupRange dag.index_to_child start (stop - start)
  | none =>
    if include_fake_subsplits then
      -- A subsplit has a fake subsplit as a child if the first chunk is
      -- non-zero and the second chunk has exactly one bit set.
      if bitsetAny (splitChunk subsplit 0) &&
         (singletonOption (splitChunk subsplit 1)).isSome then
        some [List.replicate (subsplit.length / 2) false ++ splitChunk subsplit 1]
      else some []
    else some []

/-- `GPDAG::BuildNodesDepthFirst`: post-order depth-first creation of the
nodes reachable from a subsplit.  The state is the growing DAG together with
`visited_subsplits`; `fuel` bounds the recursion depth. -/
def buildNodesDepthFirst :
    Nat → Bitset → GPDAG × List Bitset → Option (GPDAG × List Bitset)
  | 0, _, _ => none
  | fuel + 1, subsplit, (dag, visited) => do
    let visited := subsplit :: visited
    let cs ← getChildrenSubsplits dag subsplit false
    let st ← foldlOpt
      (fun c (st : GPDAG × List Bitset) =>
        if c ∈ st.2 then some st else buildNodesDepthFirst fuel c st)
      cs (dag, visited)
    let cs' ← getChildrenSubsplits st.1 (rotateSubsplit subsplit) false
    let st' ← foldlOpt
      (fun c (st : GPDAG × List Bitset) =>
        if c ∈ st.2 then some st else buildNodesDepthFirst fuel c st)
      cs' st
    let dag' ← createAndInsertNode st'.1 subsplit
    pure (dag', st'.2)

/-- `GPDAG::BuildNodes`: the fake-leaf nodes first (ids `[0, T)`), then a
depth-first pass from every rootsplit. -/
def buildNodes (fuel : Nat) (dag : GPDAG) : Option GPDAG := do
  let dag ← foldlOpt
    (fun taxon_idx d =>
      createAndInsertNode d (fakeSubsplit d.taxon_count taxon_idx))
    (List.range dag.taxon_count) dag
  let st ← foldlOpt
    (fun rootsplit st =>
      buildNodesDepthFirst fuel (rootsplit ++ bitsetComplement rootsplit) st)
    dag.rootsplits (dag, [])
  pure st.1

/-- `GPDAG::ConnectNodes`. -/
def connectNodes (dag : GPDAG) (idx : Nat) (rotated : Bool) : Option GPDAG := do
  let node ← dag.dag_nodes.get? idx
  let subsplit := node.getBitset rotated
  let children ← getChildrenSubsplits dag subsplit true
  foldlOpt
    (fun child_subsplit (d : GPDAG) => do
      let child_id ← mapFind d.subsplit_to_index child_subsplit
      if rotated then
        pure { d with dag_nodes :=
          (listModify (listModify d.dag_nodes idx (·.addLeafwardRotated child_id))
            child_id (·.addRootwardRotated idx)) }
      else
        pure { d with dag_nodes :=
          (listModify (listModify d.dag_nodes idx (·.addLeafwardSorted child_id))
            child_id (·.addRootwardSorted idx)) })
    children dag

/-- `GPDAG::BuildEdges`. -/
def buildEdges (dag : GPDAG) : Option GPDAG :=
  foldlOpt
    (fun i d => do
      let d ← connectNodes d i false
      connectNodes d i true)
    (List.range' dag.taxon_count (dag.dag_nodes.length - dag.taxon_count)) dag

/-- `GPDAG::IterateOverRealNodes`, generalized over the accumulated state.
The `Assert(taxon_count_ < dag_nodes_.size())` is the `none` branch. -/
def iterateOverRealNodes {σ : Type} (dag : GPDAG)
    (f : GPDAGNode → σ → Option σ) (init : σ) : Option σ :=
  if dag.taxon_count < dag.dag_nodes.length then
    foldlOpt f (dag.dag_nodes.drop dag.taxon_count) init
  else none

/-- The per-node body of `GPDAG::BuildPCSPIndexer`: one contiguous block of
indices for the node's sorted children, then one for its rotated children. -/
def pcspIndexerStep (dag : GPDAG) (node : GPDAGNode)
    (st : List (Bitset × Nat) × List (Bitset × (Nat × Nat)) × Nat) :
    Option (List (Bitset × Nat) × List (Bitset × (Nat × Nat)) × Nat) := do
  let (gpcsp_indexer, subsplit_to_range, idx) := st
  let child_count := node.leafwardSorted.length
  let (gpcsp_indexer, subsplit_to_range, idx) ←
    if 0 < child_count then do
      let subsplit_to_range ←
        safeInsert subsplit_to_range node.subsplit (idx, idx + child_count)
      let st' ← foldlOpt
        (fun child_idx (st' : List (Bitset × Nat) × Nat) => do
          let child ← dag.dag_nodes.get? child_idx
          let gpcsp ← safeInsert st'.1 (node.subsplit ++ child.subsplit) st'.2
          pure (gpcsp, st'.2 + 1))
        node.leafwardSorted (gpcsp_indexer, idx)
      pure (st'.1, subsplit_to_range, st'.2)
    else pure (gpcsp_indexer, subsplit_to_range, idx)
  let child_count := node.leafwardRotated.length
  if 0 < child_count then do
    let subsplit_to_range ←
      safeInsert subsplit_to_range (rotateSubsplit node.subsplit)
        (idx, idx + child_count)
    let st' ← foldlOpt
      (fun child_idx (st' : List (Bitset × Nat) × Nat) => do
        let child ← dag.dag_nodes.get? child_idx
        let gpcsp ←
          safeInsert st'.1 (rotateSubsplit node.subsplit ++ child.subsplit) st'.2
        pure (gpcsp, st'.2 + 1))
      node.leafwardRotated (gpcsp_indexer, idx)
    pure (st'.1, subsplit_to_range, st'.2)
  else pure (gpcsp_indexer, subsplit_to_range, idx)

/-- `GPDAG::BuildPCSPIndexer`: rootsplits first (indices `[0, R)`), then a
contiguous block per real node and orientation. -/
def buildPCSPIndexer (dag : GPDAG) : Option GPDAG := do
  let init ← foldlOpt
    (fun rootsplit (st : List (Bitset × Nat) × Nat) => do
      let gpcsp ←
        safeInsert st.1 (rootsplit ++ bitsetComplement rootsplit) st.2
      pure (gpcsp, st.2 + 1))
    dag.rootsplits ([], 0)
  let st ← iterateOverRealNodes dag (pcspIndexerStep dag) (init.1, [], init.2)
  pure { dag with gpcsp_indexer := st.1, subsplit_to_range := st.2.1 }

/-- The `GPDAG(tree_collection)` constructor: `ProcessTrees`, `BuildNodes`,
`BuildEdges`, `BuildPCSPIndexer`, in that order. -/
def buildGPDAG (taxonCount : Nat) (rootsplitCounter : List Bitset)
    (pcssCounter : List (Bitset × List Bitset)) (fuel : Nat) : Option GPDAG := do
  let dag ← processTrees taxonCount rootsplitCounter pcssCounter
  let dag ← buildNodes fuel dag
  let dag ← buildEdges dag
  buildPCSPIndexer dag

/-!
## Operation-vector generators
-/

/-- `GPDAG::MarginalLikelihood`: one `IncrementMarginalLikelihood` per
rootsplit, in rootsplit order.  The recursion carries the running rootsplit
index. -/
def marginalLikelihoodFrom (dag : GPDAG) :
    List Bitset → Nat → Option GPOperationVector
  | [], _ => some []
  | rootsplit :: rest, rootsplit_idx => do
    let root_subsplit := rootsplit ++ bitsetComplement rootsplit
    let root_idx ← mapFind dag.subsplit_to_index root_subsplit
    let ops ← marginalLikelihoodFrom dag rest (rootsplit_idx + 1)
    pure (GPOperation.IncrementMarginalLikelihood
            (getPLVIndex dag PLVType.R_HAT root_idx) rootsplit_idx
            (getPLVIndex dag PLVType.P root_idx) :: ops)

/-- `GPDAG::MarginalLikelihood`. -/
def marginalLikelihood (dag : GPDAG) : Option GPOperationVector :=
  marginalLikelihoodFrom dag dag.rootsplits 0

/-- The body of the sorted-children loop of `GPDAG::ComputeLikelihoods`. -/
def likelihoodOpsForNode (dag : GPDAG) (node : GPDAGNode) :
    Option GPOperationVector := do
  let sorted ← foldlOpt
    (fun child_idx (ops : GPOperationVector) => do
      let child_node ← dag.dag_nodes.get? child_idx
      let gpcsp_idx ←
        mapFind dag.gpcsp_indexer (node.subsplit ++ child_node.subsplit)
      pure (ops ++ [GPOperation.Likelihood gpcsp_idx
              (getPLVIndex dag PLVType.R node.id)
              (getPLVIndex dag PLVType.P child_node.id)]))
    node.leafwardSorted []
  foldlOpt
    (fun child_idx (ops : GPOperationVector) => do
      let child_node ← dag.dag_nodes.get? child_idx
      let gpcsp_idx ←
        mapFind dag.gpcsp_indexer
          (rotateSubsplit node.subsplit ++ child_node.subsplit)
      pure (ops ++ [GPOperation.Likelihood gpcsp_idx
              (getPLVIndex dag PLVType.R_TILDE node.id)
              (getPLVIndex dag PLVType.P child_node.id)]))
    node.leafwardRotated sorted

/-- `GPDAG::ComputeLikelihoods`: per real node, a `Likelihood` per sorted
child (with `R`) and per rotated child (with `R~`), then the
marginal-likelihood operations. -/
def computeLikelihoods (dag : GPDAG) : Option GPOperationVector := do
  let operations ← iterateOverRealNodes dag
    (fun node ops => do pure (ops ++ (← likelihoodOpsForNode dag node))) []
  let marginal_likelihood_operations ← marginalLikelihood dag
  pure (operations ++ marginal_likelihood_operations)

/-- `GPDAG::SetRhatToStationary`: a `SetToStationaryDistribution` on each
rootsplit's `R̂`, carrying the rootsplit index. -/
def setRhatToStationaryFrom (dag : GPDAG) :
    List Bitset → Nat → Option GPOperationVector
  | [], _ => some []
  | rootsplit :: rest, rootsplit_idx => do
    let root_idx ←
      mapFind dag.subsplit_to_index (rootsplit ++ bitsetComplement rootsplit)
    let ops ← setRhatToStationaryFrom dag rest (rootsplit_idx + 1)
    pure (GPOperation.SetToStationaryDistribution
            (getPLVIndex dag PLVType.R_HAT root_idx) rootsplit_idx :: ops)

/-- `GPDAG::SetRhatToStationary`. -/
def setRhatToStationary (dag : GPDAG) : Option GPOperationVector :=
  setRhatToStationaryFrom dag dag.rootsplits 0

/-- The common depth-first traversal core of `RootwardDepthFirst` and
`LeafwardDepthFirst`: mark the node visited (`SafeInsert`: fatal if already
present), recurse into each unvisited neighbor, and append the node to the
visit order afterwards.  The source's two consecutive neighbor loops (sorted,
then rotated) are the single fold over the concatenated adjacency list. -/
def depthFirstTraverse (adj : Nat → Option (List Nat)) :
    Nat → Nat → List Nat × List Nat → Option (List Nat × List Nat)
  | 0, _, _ => none
  | fuel + 1, id, (visit_order, visited_nodes) => do
    let visited_nodes ← safeInsertSet visited_nodes id
    let neighbors ← adj id
    let st ← foldlOpt
      (fun child_id (st : List Nat × List Nat) =>
        if child_id ∈ st.2 then some st else depthFirstTraverse adj fuel child_id st)
      neighbors (visit_order, visited_nodes)
    pure (st.1 ++ [id], st.2)

/-- The rootward adjacency used by `RootwardDepthFirst`
(`GetRootwardSorted`, then `GetRootwardRotated`). -/
def rootwardAdj (dag : GPDAG) (id : Nat) : Option (List Nat) := do
  let node ← dag.dag_nodes.get? id
  pure (node.rootwardSorted ++ node.rootwardRotated)

/-- The leafward adjacency used by `LeafwardDepthFirst`
(`GetLeafwardSorted`, then `GetLeafwardRotated`). -/
def leafwardAdj (dag : GPDAG) (id : Nat) : Option (List Nat) := do
  let node ← dag.dag_nodes.get? id
  pure (node.leafwardSorted ++ node.leafwardRotated)

/-- `RootwardDepthFirst`. -/
def rootwardDepthFirst (dag : GPDAG) (fuel id : Nat)
    (st : List Nat × List Nat) : Option (List Nat × List Nat) :=
  depthFirstTraverse (rootwardAdj dag) fuel id st

/-- `LeafwardDepthFirst`. -/
def leafwardDepthFirst (dag : GPDAG) (fuel id : Nat)
    (st : List Nat × List Nat) : Option (List Nat × List Nat) :=
  depthFirstTraverse (leafwardAdj dag) fuel id st

/-- `GPDAG::LeafwardPassTraversal`: `RootwardDepthFirst` from every leaf. -/
def leafwardPassTraversal (dag : GPDAG) (fuel : Nat) : Option (List Nat) := do
  let st ← foldlOpt
    (fun leaf_idx st => rootwardDepthFirst dag fuel leaf_idx st)
    (List.range dag.taxon_count) ([], [])
  pure st.1

/-- `GPDAG::RootwardPassTraversal`: `LeafwardDepthFirst` from every
rootsplit node. -/
def rootwardPassTraversal (dag : GPDAG) (fuel : Nat) : Option (List Nat) := do
  let st ← foldlOpt
    (fun rootsplit st => do
      let root_idx ←
        mapFind dag.subsplit_to_index (rootsplit ++ bitsetComplement rootsplit)
      leafwardDepthFirst dag fuel root_idx st)
    dag.rootsplits ([], [])
  pure st.1

/-- `GPDAG::AddRootwardWeightedSumAccumulateOperations`. -/
def addRootwardWeightedSumAccumulateOperations (dag : GPDAG)
    (node : GPDAGNode) (rotated : Bool) (operations : GPOperationVector) :
    Option GPOperationVector := do
  let child_idxs := if rotated then node.leafwardRotated else node.leafwardSorted
  let plv_type := if rotated then PLVType.P_HAT_TILDE else PLVType.P_HAT
  let parent_subsplit := node.getBitset rotated
  foldlOpt
    (fun child_idx (ops : GPOperationVector) => do
      let child_node ← dag.dag_nodes.get? child_idx
      let pcsp := parent_subsplit ++ child_node.subsplit
      -- `if (!gpcsp_indexer_.count(pcsp)) Failwith("Non-existent PCSP index.")`
      let gpcsp_idx ← mapFind dag.gpcsp_indexer pcsp
      pure (ops ++ [GPOperation.EvolvePLVWeightedBySBNParameter
              (getPLVIndex dag plv_type node.id) gpcsp_idx
              (getPLVIndex dag PLVType.P child_idx)]))
    child_idxs operations

/-- `GPDAG::AddLeafwardWeightedSumAccumulateOperations`. -/
def addLeafwardWeightedSumAccumulateOperations (dag : GPDAG)
    (node : GPDAGNode) (operations : GPOperationVector) :
    Option GPOperationVector := do
  let subsplit := node.subsplit
  let ops ← foldlOpt
    (fun parent_idx (ops : GPOperationVector) => do
      let parent_node ← dag.dag_nodes.get? parent_idx
      let parent_subsplit := parent_node.subsplit
      let gpcsp_idx ← mapFind dag.gpcsp_indexer (parent_subsplit ++ subsplit)
      pure (ops ++ [GPOperation.EvolvePLVWeightedBySBNParameter
              (getPLVIndex dag PLVType.R_HAT node.id) gpcsp_idx
              (getPLVIndex dag PLVType.R parent_node.id)]))
    node.rootwardSorted operations
  foldlOpt
    (fun parent_idx (ops : GPOperationVector) => do
      let parent_node ← dag.dag_nodes.get? parent_idx
      let parent_subsplit := rotateSubsplit parent_node.subsplit
      let gpcsp_idx ← mapFind dag.gpcsp_indexer (parent_subsplit ++ subsplit)
      pure (ops ++ [GPOperation.EvolvePLVWeightedBySBNParameter
              (getPLVIndex dag PLVType.R_HAT node.id) gpcsp_idx
              (getPLVIndex dag PLVType.R_TILDE parent_node.id)]))
    node.rootwardRotated ops

/-- `GPDAG::OptimizeSBNParameters`: emit an `UpdateSBNProbabilities` over the
subsplit's recorded parameter range when that range spans more than one
index.  Stored ranges satisfy `start ≤ stop`, so the `Nat` subtraction
matches the C++ `size_t` subtraction. -/
def optimizeSBNParameters (dag : GPDAG) (subsplit : Bitset)
    (operations : GPOperationVector) : GPOperationVector :=
  match mapFind dag.subsplit_to_range subsplit with
  | some param_range =>
    if param_range.2 - param_range.1 > 1 then
      operations ++ [GPOperation.UpdateSBNProbabilities param_range.1 param_range.2]
    else operations
  | none => operations

/-- `GPDAG::RootwardPass(visit_order)`. -/
def rootwardPassOps (dag : GPDAG) (visit_order : List Nat) :
    Option GPOperationVector :=
  foldlOpt
    (fun node_idx (ops : GPOperationVector) => do
      let node ← dag.dag_nodes.get? node_idx
      if nodeIsLeaf dag node then pure ops
      else do
        let ops ← addRootwardWeightedSumAccumulateOperations dag node false ops
        let ops ← addRootwardWeightedSumAccumulateOperations dag node true ops
        pure (ops ++ [GPOperation.Multiply node_idx
                (getPLVIndex dag PLVType.P_HAT node_idx)
                (getPLVIndex dag PLVType.P_HAT_TILDE node_idx)]))
    visit_order []

/-- `GPDAG::RootwardPass()`. -/
def rootwardPass (dag : GPDAG) (fuel : Nat) : Option GPOperationVector := do
  rootwardPassOps dag (← rootwardPassTraversal dag fuel)

/-- `GPDAG::LeafwardPass(visit_order)`. -/
def leafwardPassOps (dag : GPDAG) (visit_order : List Nat) :
    Option GPOperationVector :=
  foldlOpt
    (fun node_idx (ops : GPOperationVector) => do
      let node ← dag.dag_nodes.get? node_idx
      let ops ← addLeafwardWeightedSumAccumulateOperations dag node ops
      pure (ops ++
        [GPOperation.Multiply (getPLVIndex dag PLVType.R node_idx)
           (getPLVIndex dag PLVType.R_HAT node_idx)
           (getPLVIndex dag PLVType.P_HAT_TILDE node_idx),
         GPOperation.Multiply (getPLVIndex dag PLVType.R_TILDE node_idx)
           (getPLVIndex dag PLVType.R_HAT node_idx)
           (getPLVIndex dag PLVType.P_HAT node_idx)]))
    visit_order []

/-- `GPDAG::LeafwardPass()`. -/
def leafwardPass (dag : GPDAG) (fuel : Nat) : Option GPOperationVector := do
  leafwardPassOps dag (← leafwardPassTraversal dag fuel)

/-- `GPDAG::SetRootwardZero`: `Zero` on `P`, `P̂`, `P̂~` for every node id in
`[taxon_count, node_count)`. -/
def setRootwardZero (dag : GPDAG) : GPOperationVector :=
  (List.range' dag.taxon_count (dag.dag_nodes.length - dag.taxon_count)).flatMap
    (fun i =>
      [GPOperation.Zero (getPLVIndex dag PLVType.P i),
       GPOperation.Zero (getPLVIndex dag PLVType.P_HAT i),
       GPOperation.Zero (getPLVIndex dag PLVType.P_HAT_TILDE i)])

/-- `GPDAG::SetLeafwardZero`: `Zero` on `R̂`, `R`, `R~` for every node id in
`[0, node_count)`, then a `SetToStationaryDistribution` on each rootsplit's
`R̂` (one-argument aggregate initialization: rootsplit index `0`). -/
def setLeafwardZero (dag : GPDAG) : Option GPOperationVector := do
  let zeros := (List.range dag.dag_nodes.length).flatMap
    (fun i =>
      [GPOperation.Zero (getPLVIndex dag PLVType.R_HAT i),
       GPOperation.Zero (getPLVIndex dag PLVType.R i),
       GPOperation.Zero (getPLVIndex dag PLVType.R_TILDE i)])
  foldlOpt
    (fun rootsplit (ops : GPOperationVector) => do
      let root_idx ←
        mapFind dag.subsplit_to_index (rootsplit ++ bitsetComplement rootsplit)
      pure (ops ++ [GPOperation.SetToStationaryDistribution
              (getPLVIndex dag PLVType.R_HAT root_idx) 0]))
    dag.rootsplits zeros

/-- `GPDAG::UpdateRHat`. -/
def updateRHat (dag : GPDAG) (node_id : Nat) (rotated : Bool)
    (operations : GPOperationVector) : Option GPOperationVector := do
  let node ← dag.dag_nodes.get? node_id
  let src_plv_type := if rotated then PLVType.R_TILDE else PLVType.R
  let parent_nodes := if rotated then node.rootwardRotated else node.rootwardSorted
  foldlOpt
    (fun parent_id (ops : GPOperationVector) => do
      let parent_node ← dag.dag_nodes.get? parent_id
      let pcsp₀ :=
        if rotated then rotateSubsplit parent_node.subsplit
        else parent_node.subsplit
      let pcsp := pcsp₀ ++ node.subsplit
      let gpcsp_idx ← mapFind dag.gpcsp_indexer pcsp
      pure (ops ++ [GPOperation.EvolvePLVWeightedBySBNParameter
              (getPLVIndex dag PLVType.R_HAT node_id) gpcsp_idx
              (getPLVIndex dag src_plv_type parent_id)]))
    parent_nodes operations

/-- `GPDAG::UpdatePHatComputeLikelihood`. -/
def updatePHatComputeLikelihood (dag : GPDAG) (node_id child_node_id : Nat)
    (rotated : Bool) (operations : GPOperationVector) :
    Option GPOperationVector := do
  let node ← dag.dag_nodes.get? node_id
  let child_node ← dag.dag_nodes.get? child_node_id
  let pcsp₀ :=
    if rotated then rotateSubsplit node.subsplit else node.subsplit
  let pcsp := pcsp₀ ++ child_node.subsplit
  let gpcsp_idx ← mapFind dag.gpcsp_indexer pcsp
  pure (operations ++
    [GPOperation.EvolvePLVWeightedBySBNParameter
       (getPLVIndex dag (if rotated then PLVType.P_HAT_TILDE else PLVType.P_HAT)
         node_id)
       gpcsp_idx (getPLVIndex dag PLVType.P child_node_id),
     GPOperation.Likelihood gpcsp_idx
       (getPLVIndex dag (if rotated then PLVType.R_TILDE else PLVType.R) node.id)
       (getPLVIndex dag PLVType.P child_node.id)])

/-- `GPDAG::OptimizeBranchLengthUpdatePHat`. -/
def optimizeBranchLengthUpdatePHat (dag : GPDAG) (node_id child_node_id : Nat)
    (rotated : Bool) (operations : GPOperationVector) :
    Option GPOperationVector := do
  let node ← dag.dag_nodes.get? node_id
  let child_node ← dag.dag_nodes.get? child_node_id
  let pcsp₀ :=
    if rotated then rotateSubsplit node.subsplit else node.subsplit
  let pcsp := pcsp₀ ++ child_node.subsplit
  let gpcsp_idx ← mapFind dag.gpcsp_indexer pcsp
  let _ := child_node
  pure (operations ++
    [GPOperation.OptimizeBranchLength
       (getPLVIndex dag PLVType.P child_node_id)
       (getPLVIndex dag (if rotated then PLVType.R_TILDE else PLVType.R) node_id)
       gpcsp_idx,
     GPOperation.EvolvePLVWeightedBySBNParameter
       (getPLVIndex dag (if rotated then PLVType.P_HAT_TILDE else PLVType.P_HAT)
         node_id)
       gpcsp_idx (getPLVIndex dag PLVType.P child_node_id)])

/-- `GPDAG::ScheduleBranchLengthOptimization`.  The state is the pair of the
accumulated operation vector and `visited_nodes`; `fuel` bounds the recursion
depth. -/
def scheduleBranchLengthOptimization (dag : GPDAG) :
    Nat → Nat → GPOperationVector × List Nat →
    Option (GPOperationVector × List Nat)
  | 0, _, _ => none
  | fuel + 1, node_id, (operations, visited_nodes) => do
    let visited_nodes := node_id :: visited_nodes
    let node ← dag.dag_nodes.get? node_id
    let operations ←
      if !nodeIsRoot dag node then do
        -- Compute R_HAT(s) = \sum_{t : s < t} q(s|t) P(s|t) r(t).
        let operations := operations ++
          [GPOperation.Zero (getPLVIndex dag PLVType.R_HAT node_id)]
        let operations ← updateRHat dag node_id false operations
        let operations ← updateRHat dag node_id true operations
        -- Update r(s) and r_tilde(s).
        pure (operations ++
          [GPOperation.Multiply (getPLVIndex dag PLVType.R node_id)
             (getPLVIndex dag PLVType.R_HAT node_id)
             (getPLVIndex dag PLVType.P_HAT_TILDE node_id),
           GPOperation.Multiply (getPLVIndex dag PLVType.R_TILDE node_id)
             (getPLVIndex dag PLVType.R_HAT node_id)
             (getPLVIndex dag PLVType.P_HAT node_id)])
      else pure operations
    if nodeIsLeaf dag node then pure (operations, visited_nodes)
    else do
      let operations := operations ++
        [GPOperation.Zero (getPLVIndex dag PLVType.P_HAT node_id)]
      let st ← foldlOpt
        (fun child_id (st : GPOperationVector × List Nat) => do
          let st ←
            if child_id ∈ st.2 then pure st
            else scheduleBranchLengthOptimization dag fuel child_id st
          let ops ← optimizeBranchLengthUpdatePHat dag node_id child_id false st.1
          pure (ops, st.2))
        node.leafwardSorted (operations, visited_nodes)
      -- Update r_tilde(t) = r_hat(t) \circ p_hat(t).
      let operations := st.1 ++
        [GPOperation.Multiply (getPLVIndex dag PLVType.R_TILDE node_id)
           (getPLVIndex dag PLVType.R_HAT node_id)
           (getPLVIndex dag PLVType.P_HAT node_id),
         GPOperation.Zero (getPLVIndex dag PLVType.P_HAT_TILDE node_id)]
      let st' ← foldlOpt
        (fun child_id (st' : GPOperationVector × List Nat) => do
          let st' ←
            if child_id ∈ st'.2 then pure st'
            else scheduleBranchLengthOptimization dag fuel child_id st'
          let ops ← optimizeBranchLengthUpdatePHat dag node_id child_id true st'.1
          pure (ops, st'.2))
        node.leafwardRotated (operations, st.2)
      -- Update r(t), then p(t).
      pure (st'.1 ++
        [GPOperation.Multiply (getPLVIndex dag PLVType.R node_id)
           (getPLVIndex dag PLVType.R_HAT node_id)
           (getPLVIndex dag PLVType.P_HAT_TILDE node_id),
         GPOperation.Multiply (getPLVIndex dag PLVType.P node_id)
           (getPLVIndex dag PLVType.P_HAT node_id)
           (getPLVIndex dag PLVType.P_HAT_TILDE node_id)], st'.2)

/-- `GPDAG::BranchLengthOptimization`. -/
def branchLengthOptimization (dag : GPDAG) (fuel : Nat) :
    Option GPOperationVector := do
  let st ← foldlOpt
    (fun rootsplit (st : GPOperationVector × List Nat) => do
      let root_id ←
        mapFind dag.subsplit_to_index (rootsplit ++ bitsetComplement rootsplit)
      scheduleBranchLengthOptimization dag fuel root_id st)
    dag.rootsplits ([], [])
  pure st.1

/-- `GPDAG::ScheduleSBNParametersOptimization`. -/
def scheduleSBNParametersOptimization (dag : GPDAG) :
    Nat → Nat → GPOperationVector × List Nat →
    Option (GPOperationVector × List Nat)
  | 0, _, _ => none
  | fuel + 1, node_id, (operations, visited_nodes) => do
    let visited_nodes := node_id :: visited_nodes
    let node ← dag.dag_nodes.get? node_id
    let operations ←
      if !nodeIsRoot dag node then do
        -- We compute R_HAT(s) = \sum_{t : s < t} q(s|t) P(s|t) r(t).
        let operations := operations ++
          [GPOperation.Zero (getPLVIndex dag PLVType.R_HAT node_id)]
        let operations ← updateRHat dag node_id false operations
        let operations ← updateRHat dag node_id true operations
        -- Update r(s) and r_tilde(s) using rhat(s).
        pure (operations ++
          [GPOperation.Multiply (getPLVIndex dag PLVType.R node_id)
             (getPLVIndex dag PLVType.R_HAT node_id)
             (getPLVIndex dag PLVType.P_HAT_TILDE node_id),
           GPOperation.Multiply (getPLVIndex dag PLVType.R_TILDE node_id)
             (getPLVIndex dag PLVType.R_HAT node_id)
             (getPLVIndex dag PLVType.P_HAT node_id)])
      else pure operations
    if nodeIsLeaf dag node then pure (operations, visited_nodes)
    else do
      let operations := operations ++
        [GPOperation.Zero (getPLVIndex dag PLVType.P_HAT node_id)]
      let st ← foldlOpt
        (fun child_id (st : GPOperationVector × List Nat) => do
          let st ←
            if child_id ∈ st.2 then pure st
            else scheduleSBNParametersOptimization dag fuel child_id st
          let ops ← updatePHatComputeLikelihood dag node_id child_id false st.1
          pure (ops, st.2))
        node.leafwardSorted (operations, visited_nodes)
      let operations := optimizeSBNParameters dag node.subsplit st.1
      -- Update r_tilde(t) = r_hat(t) \circ p_hat(t).
      let operations := operations ++
        [GPOperation.Multiply (getPLVIndex dag PLVType.R_TILDE node_id)
           (getPLVIndex dag PLVType.R_HAT node_id)
           (getPLVIndex dag PLVType.P_HAT node_id),
         GPOperation.Zero (getPLVIndex dag PLVType.P_HAT_TILDE node_id)]
      let st' ← foldlOpt
        (fun child_id (st' : GPOperationVector × List Nat) => do
          let st' ←
            if child_id ∈ st'.2 then pure st'
            else scheduleSBNParametersOptimization dag fuel child_id st'
          let ops ← updatePHatComputeLikelihood dag node_id child_id true st'.1
          pure (ops, st'.2))
        node.leafwardRotated (operations, st.2)
      let operations := optimizeSBNParameters dag (rotateSubsplit node.subsplit) st'.1
      -- Update r(t), then p(t).
      pure (operations ++
        [GPOperation.Multiply (getPLVIndex dag PLVType.R node_id)
           (getPLVIndex dag PLVType.R_HAT node_id)
           (getPLVIndex dag PLVType.P_HAT_TILDE node_id),
         GPOperation.Multiply (getPLVIndex dag PLVType.P node_id)
           (getPLVIndex dag PLVType.P_HAT node_id)
           (getPLVIndex dag PLVType.P_HAT_TILDE node_id)], st'.2)

/-- The per-rootsplit loop body of `GPDAG::SBNParameterOptimization`:
schedule from the rootsplit's node, then emit that rootsplit's
`IncrementMarginalLikelihood`.  The recursion carries the running rootsplit
index. -/
def sbnParameterOptimizationFrom (dag : GPDAG) (fuel : Nat) :
    List Bitset → Nat → GPOperationVector × List Nat →
    Option (GPOperationVector × List Nat)
  | [], _, st => some st
  | rootsplit :: rest, rootsplit_idx, st => do
    let root_id ←
      mapFind dag.subsplit_to_index (rootsplit ++ bitsetComplement rootsplit)
    let st ← scheduleSBNParametersOptimization dag fuel root_id st
    let node_id := root_id
    let st := (st.1 ++
      [GPOperation.IncrementMarginalLikelihood
         (getPLVIndex dag PLVType.R_HAT node_id) rootsplit_idx
         (getPLVIndex dag PLVType.P node_id)], st.2)
    sbnParameterOptimizationFrom dag fuel rest (rootsplit_idx + 1) st

/-- `GPDAG::SBNParameterOptimization`. -/
def sbnParameterOptimization (dag : GPDAG) (fuel : Nat) :
    Option GPOperationVector := do
  let st ← sbnParameterOptimizationFrom dag fuel dag.rootsplits 0 ([], [])
  -- Optimize SBN parameters for the rootsplits.
  pure (st.1 ++
    [GPOperation.UpdateSBNProbabilities 0 dag.rootsplits.length])

/-!
## A concrete harvested input and its DAG

Two rooted topologies over the taxa `{A, B, C}`: `((A,B),C)` with rootsplit
`{A,B}|{C}` and one internal edge splitting `{A,B}`, and `((A,C),B)` with
rootsplit `{A,C}|{B}` and one internal edge splitting `{A,C}`.
-/

def exampleRootsplitCounter : List Bitset :=
  [[true, true, false], [true, false, true]]

/-- The child subsplit `({A},{B})` harvested under parent `({C},{A,B})`. -/
def exampleChildAB : Bitset := [true, false, false, false, true, false]

/-- The child subsplit `({A},{C})` harvested under parent `({B},{A,C})`. -/
def exampleChildAC : Bitset := [true, false, false, false, false, true]

def examplePCSSCounter : List (Bitset × List Bitset) :=
  [([false, false, true, true, true, false], [exampleChildAB]),
   ([false, true, false, true, false, true], [exampleChildAC])]

/-- The DAG built from the example input (fuel 20 is ample). -/
def exampleDag : GPDAG :=
  (buildGPDAG 3 exampleRootsplitCounter examplePCSSCounter 20).getD {}

/-!
## Claim C4: the PLV index scheme
-/

/-- Claim C4: `GetPLVIndexStatic(kind, N, node_id)` equals
`kind_offset(kind) * N + node_id` for the six buffer kinds with offsets
`P=0, P̂=1, P̂~=2, R̂=3, R=4, R~=5`; for node ids below `N`, distinct
`(kind, node_id)` pairs map to distinct flat indices; and a request with an
unrecognized kind code is fatal (the default branch of the `switch`). -/
theorem getPLVIndexStatic_offset_scheme
    (pt pt' : PLVType) (N i i' : Nat) (hi : i < N) (hi' : i' < N) :
    getPLVIndexStatic pt N i = specKindOffset pt * N + i ∧
    (getPLVIndexStatic pt N i = getPLVIndexStatic pt' N i' → pt = pt' ∧ i = i') ∧
    (∀ code j, 6 ≤ code → getPLVIndexStaticRaw code N j = none) := by
  refine ⟨?_, ?_, ?_⟩
  · cases pt <;> simp [getPLVIndexStatic, specKindOffset]
  · intro h
    cases pt <;> cases pt' <;>
      simp only [getPLVIndexStatic] at h <;> first
        | exact ⟨rfl, by omega⟩
        | (exfalso; omega)
  · intro code j h
    match code, h with
    | n + 6, _ => rfl

theorem getPLVIndexStatic_offset_scheme_witness :
    (1 < 3 ∧ 2 < 3) ∧
    (getPLVIndexStatic PLVType.P_HAT 3 1 =
        specKindOffset PLVType.P_HAT * 3 + 1 ∧
      (getPLVIndexStatic PLVType.P_HAT 3 1 =
          getPLVIndexStatic PLVType.R_TILDE 3 2 →
        PLVType.P_HAT = PLVType.R_TILDE ∧ 1 = 2) ∧
      (∀ code j, 6 ≤ code → getPLVIndexStaticRaw code 3 j = none)) :=
  ⟨⟨by decide, by decide⟩,
    getPLVIndexStatic_offset_scheme PLVType.P_HAT PLVType.R_TILDE 3 1 2
      (by decide) (by decide)⟩

/-!
## Spec-side claim shapes (for refutation)
-/

/-- The key set that claim C2 asserts for `gpcsp_indexer_`, following the
claim's words: the full rootsplit subsplits together with the harvested
PCSPs (harvested parent subsplit concatenated with harvested child
subsplit). -/
def specClaimedIndexerKeys (rootsplitCounter : List Bitset)
    (pcssCounter : List (Bitset × List Bitset)) : List Bitset :=
  rootsplitCounter.map (fun r => r ++ bitsetComplement r) ++
    pcssCounter.flatMap (fun pc => pc.2.map (fun c => pc.1 ++ c))

/-- The operation vector that claim C6 asserts for
`SBNParameterOptimization`, following the claim's words: the whole recursive
scheduling pass first, then one `IncrementMarginalLikelihood` per rootsplit
(all after the whole recursive pass), then the final
`UpdateSBNProbabilities` over `[0, R)`. -/
def specSBNParameterOptimizationClaimed (dag : GPDAG) (fuel : Nat) :
    Option GPOperationVector := do
  let st ← foldlOpt
    (fun rootsplit (st : GPOperationVector × List Nat) => do
      let root_id ←
        mapFind dag.subsplit_to_index (rootsplit ++ bitsetComplement rootsplit)
      scheduleSBNParametersOptimization dag fuel root_id st)
    dag.rootsplits ([], [])
  let imls ← marginalLikelihood dag
  pure (st.1 ++ imls ++
    [GPOperation.UpdateSBNProbabilities 0 dag.rootsplits.length])

/-- Counterexample to claim C2.  In the example DAG, `gpcsp_indexer_` maps
the PCSP `S1 + fake(C)` (the edge from the rootsplit node `({A,B},{C})` to
the fake leaf `C`) to index 4, yet that PCSP is neither a rootsplit key nor a
harvested PCSP; moreover the assigned indices run over `[0, 10)` while
`{rootsplits} ∪ {harvested PCSPs}` has only `rootsplit_and_pcsp_count_ = 4`
elements.  So `gpcsp_indexer_` is not a bijection between
`{rootsplits} ∪ {all harvested PCSPs}` and `[0, P)`. -/
theorem gpcsp_indexer_harvest_bijection_counterexample :
    mapFind exampleDag.gpcsp_indexer
      (([true,true,false] ++ bitsetComplement [true,true,false]) ++
        fakeSubsplit 3 2) = some 4 ∧
    (specClaimedIndexerKeys exampleRootsplitCounter examplePCSSCounter).contains
      (([true,true,false] ++ bitsetComplement [true,true,false]) ++
        fakeSubsplit 3 2) = false ∧
    exampleDag.rootsplit_and_pcsp_count = 4 ∧
    exampleDag.gpcsp_indexer.map Prod.snd = List.range 10 := by decide

/-- Counterexample to claim C5.  In the example DAG the rootsplit node
`({A,B},{C})` (id 4) is scheduled by `SBNParameterOptimization` — its
`Zero(P̂)` block marker appears — and its sorted-children parameter range is
the recorded singleton `[4, 5)`, yet no `UpdateSBNProbabilities` over
`[4, 5)` is emitted anywhere: `OptimizeSBNParameters` skips ranges that do
not span more than one index. -/
theorem sbn_update_probabilities_unconditional_counterexample :
    ((sbnParameterOptimization exampleDag 20).getD []).count
        (GPOperation.Zero (getPLVIndex exampleDag PLVType.P_HAT 4)) = 1 ∧
    mapFind exampleDag.subsplit_to_range
        ([true,true,false] ++ bitsetComplement [true,true,false]) = some (4, 5) ∧
    ((sbnParameterOptimization exampleDag 20).getD []).count
        (GPOperation.UpdateSBNProbabilities 4 5) = 0 := by decide

/-- Counterexample to claim C6.  With two rootsplits, the operation at
position 37 of the example `SBNParameterOptimization` vector is the first
rootsplit's `IncrementMarginalLikelihood`, and it is followed at position 38
by a `Zero` of the recursive scheduling pass for the second rootsplit: the
per-rootsplit `IncrementMarginalLikelihood`s are interleaved with the
recursive pass, not all emitted after it, so the vector differs from the
claimed shape. -/
theorem sbn_top_level_trailing_imls_counterexample :
    ((sbnParameterOptimization exampleDag 20).getD [])[37]? =
      some (GPOperation.IncrementMarginalLikelihood 25 0 4) ∧
    ((sbnParameterOptimization exampleDag 20).getD [])[38]? =
      some (GPOperation.Zero 13) ∧
    decide (sbnParameterOptimization exampleDag 20 =
      specSBNParameterOptimizationClaimed exampleDag 20) = false := by decide

/-- Counterexample to claim C7.  `SetRootwardZero` loops only over
`[taxon_count, node_count)`: in the example DAG (7 nodes, 3 of them fake
leaves) no `Zero` is emitted for the `P` buffer of node 0. -/
theorem setRootwardZero_every_node_counterexample :
    (setRootwardZero exampleDag).count
        (GPOperation.Zero (getPLVIndex exampleDag PLVType.P 0)) = 0 ∧
    nodeCount exampleDag = 7 ∧ exampleDag.taxon_count = 3 := by decide

/-- Counterexample to claim C8.  In the example DAG the upward traversal
order is `[4, 3, 6, 5, 0, 1, 2]`; node 4 has a leafward edge to node 2, yet
node 4 appears at position 0, before node 2 at position 6 — the order does
not place a node after the nodes reachable from it via leafward edges (it
places it after the nodes reachable via rootward edges). -/
theorem upward_order_after_leafward_counterexample :
    leafwardPassTraversal exampleDag 20 = some [4, 3, 6, 5, 0, 1, 2] ∧
    ((leafwardAdj exampleDag 4).getD []).contains 2 = true ∧
    ([4, 3, 6, 5, 0, 1, 2].indexOf 4 < [4, 3, 6, 5, 0, 1, 2].indexOf 2) := by
  decide

/-!
## Generic lemmas about the embedding combinators
-/

theorem foldlOpt_nil {α σ : Type} (step : α → σ → Option σ) (st : σ) :
    foldlOpt step [] st = some st := rfl

theorem foldlOpt_cons {α σ : Type} (step : α → σ → Option σ) (x : α)
    (xs : List α) (st : σ) :
    foldlOpt step (x :: xs) st =
      match step x st with
      | none => none
      | some st' => foldlOpt step xs st' := rfl

theorem foldlOpt_append_list {α σ : Type} (step : α → σ → Option σ)
    (xs ys : List α) :
    ∀ st, foldlOpt step (xs ++ ys) st =
      (foldlOpt step xs st).bind (foldlOpt step ys) := by
  induction xs with
  | nil => intro st; rfl
  | cons x xs ih =>
    intro st
    simp only [List.cons_append, foldlOpt_cons]
    cases step x st with
    | none => rfl
    | some st' => exact ih st'

/-- If every step of a fold over operation vectors appends to its
accumulator, the whole fold appends to its accumulator. -/
theorem foldlOpt_appends {α : Type}
    {step : α → GPOperationVector → Option GPOperationVector}
    (hstep : ∀ x ops, step x ops = (step x []).map (ops ++ ·)) :
    ∀ (l : List α) (ops : GPOperationVector),
      foldlOpt step l ops = (foldlOpt step l []).map (ops ++ ·) := by
  intro l
  induction l with
  | nil => intro ops; simp [foldlOpt_nil]
  | cons x xs ih =>
    intro ops
    simp only [foldlOpt_cons]
    rw [hstep x ops]
    cases hx : step x [] with
    | none => rfl
    | some e =>
      simp only [Option.map_some']
      rw [ih (ops ++ e), ih e]
      cases foldlOpt step xs [] with
      | none => rfl
      | some rest => simp [List.append_assoc]

theorem mapFind_append {α β : Type} [DecidableEq α] (m m' : List (α × β))
    (k : α) :
    mapFind (m ++ m') k =
      match mapFind m k with
      | some v => some v
      | none => mapFind m' k := by
  induction m with
  | nil => rfl
  | cons p rest ih =>
    obtain ⟨k', v'⟩ := p
    simp only [List.cons_append, mapFind]
    by_cases h : k' = k <;> simp [h, ih]

theorem safeInsert_some {α β : Type} [DecidableEq α] {m m' : List (α × β)}
    {k : α} {v : β} (h : safeInsert m k v = some m') :
    m' = m ++ [(k, v)] ∧ mapFind m k = none := by
  unfold safeInsert at h
  by_cases hm : (mapFind m k).isSome
  · simp [hm] at h
  · simp [hm] at h
    exact ⟨h.symm, Option.not_isSome_iff_eq_none.mp hm⟩

theorem mapFind_mem {α β : Type} [DecidableEq α] {m : List (α × β)} {k : α}
    {v : β} (h : mapFind m k = some v) : (k, v) ∈ m := by
  induction m with
  | nil => simp [mapFind] at h
  | cons p rest ih =>
    obtain ⟨k', v'⟩ := p
    simp only [mapFind] at h
    by_cases hk : k' = k
    · simp [hk] at h
      subst hk h
      exact List.mem_cons_self _ _
    · simp [hk] at h
      exact List.mem_cons_of_mem _ (ih h)

theorem listModify_length {α : Type} (l : List α) (i : Nat) (f : α → α) :
    (listModify l i f).length = l.length := by
  induction l generalizing i with
  | nil => rfl
  | cons x xs ih =>
    cases i with
    | zero => rfl
    | succ n => simp [listModify, ih]

theorem listModify_get?_ne {α : Type} (l : List α) (i j : Nat) (f : α → α)
    (h : i ≠ j) : (listModify l i f).get? j = l.get? j := by
  induction l generalizing i j with
  | nil => rfl
  | cons x xs ih =>
    cases i with
    | zero =>
      cases j with
      | zero => exact absurd rfl h
      | succ m => rfl
    | succ n =>
      cases j with
      | zero => rfl
      | succ m => exact ih n m (by omega)

theorem listModify_get?_eq {α : Type} (l : List α) (i : Nat) (f : α → α) :
    (listModify l i f).get? i = (l.get? i).map f := by
  induction l generalizing i with
  | nil => rfl
  | cons x xs ih =>
    cases i with
    | zero => rfl
    | succ n => exact ih n

theorem count_flatMap_ops {α : Type} (f : α → GPOperationVector)
    (a : GPOperation) :
    ∀ l : List α, ((l.flatMap f).count a) =
      (l.map (fun i => (f i).count a)).sum := by
  intro l
  induction l with
  | nil => rfl
  | cons x xs ih => simp [List.count_append, ih]

/-- The count of `Zero (k * N + i)` in a run of per-node `Zero` triples with
offsets `off`, `off + N`, `off + 2 * N`:  exactly the indicator of
`i ∈ [s, s + n)`, provided `i < N` and the block offsets stay in distinct
`N`-sized bands. -/
theorem count_zero_triples (N off i k : Nat) (hi : i < N) (hk : k < 3) :
    ∀ n s, s + n ≤ N →
    (((List.range' s n).flatMap (fun j =>
        [GPOperation.Zero (off + j), GPOperation.Zero (off + N + j),
         GPOperation.Zero (off + 2 * N + j)])).count
      (GPOperation.Zero (off + k * N + i))) =
      if s ≤ i ∧ i < s + n then 1 else 0 := by
  intro n
  induction n with
  | zero =>
    intro s _
    have hno : ¬(s ≤ i ∧ i < s) := by omega
    simp [hno]
  | succ m ih =>
    intro s hs
    rw [List.range'_succ]
    simp only [List.flatMap_cons, List.count_append]
    rw [ih (s + 1) (by omega)]
    have hcount :
        ([GPOperation.Zero (off + s), GPOperation.Zero (off + N + s),
          GPOperation.Zero (off + 2 * N + s)].count
          (GPOperation.Zero (off + k * N + i))) =
        if s = i then 1 else 0 := by
      simp only [List.count_cons, List.count_nil, beq_iff_eq,
        GPOperation.Zero.injEq]
      interval_cases k <;> (split_ifs <;> omega)
    rw [hcount]
    split_ifs <;> omega

/-- The trailing fold of `setLeafwardZero` appends one
`SetToStationaryDistribution` per rootsplit. -/
theorem setLeafwardZero_fold_structure (dag : GPDAG) :
    ∀ (l : List Bitset) (acc ops : GPOperationVector),
      foldlOpt
        (fun rootsplit (ops : GPOperationVector) => do
          let root_idx ←
            mapFind dag.subsplit_to_index
              (rootsplit ++ bitsetComplement rootsplit)
          pure (ops ++ [GPOperation.SetToStationaryDistribution
                  (getPLVIndex dag PLVType.R_HAT root_idx) 0]))
        l acc = some ops →
      (∃ Δ, ops = acc ++ Δ ∧
        ∀ op ∈ Δ, ∃ b, op = GPOperation.SetToStationaryDistribution b 0) ∧
      (∀ r ∈ l, ∃ rid,
        mapFind dag.subsplit_to_index (r ++ bitsetComplement r) = some rid ∧
        GPOperation.SetToStationaryDistribution
          (getPLVIndex dag PLVType.R_HAT rid) 0 ∈ ops) := by
  intro l
  induction l with
  | nil =>
    intro acc ops h
    simp only [foldlOpt_nil, Option.some.injEq] at h
    subst h
    exact ⟨⟨[], by simp⟩, by simp⟩
  | cons r rest ih =>
    intro acc ops h
    simp only [foldlOpt_cons] at h
    cases hfind : mapFind dag.subsplit_to_index (r ++ bitsetComplement r) with
    | none => simp [hfind] at h
    | some rid =>
      simp only [hfind, Option.bind_eq_bind, Option.some_bind] at h
      obtain ⟨⟨Δ, hΔ, hΔops⟩, hmem⟩ := ih _ _ h
      constructor
      · refine ⟨[GPOperation.SetToStationaryDistribution
            (getPLVIndex dag PLVType.R_HAT rid) 0] ++ Δ, by simp [hΔ], ?_⟩
        intro op hop
        rcases List.mem_append.mp hop with h1 | h2
        · simp at h1
          exact ⟨_, h1⟩
        · exact hΔops op h2
      · intro r' hr'
        rcases List.mem_cons.mp hr' with h1 | h2
        · subst h1
          exact ⟨rid, hfind, by simp [hΔ]⟩
        · exact hmem r' h2

/-- Claim C7 (amended): `SetRootwardZero` emits a `Zero` for each of `P`,
`P̂`, `P̂~` of every **non-fake** node and none for the fake-leaf nodes,
while `SetLeafwardZero` emits a `Zero` for each of `R̂`, `R`, `R~` of every
node of the DAG and additionally one `SetToStationaryDistribution` on the
`R̂` buffer of each rootsplit's root node. -/
theorem set_zero_generators_characterization (dag : GPDAG)
    (ops : GPOperationVector) (h : setLeafwardZero dag = some ops) :
    (∀ i k, k < 3 → i < nodeCount dag →
      (setRootwardZero dag).count
          (GPOperation.Zero (k * nodeCount dag + i)) =
        if dag.taxon_count ≤ i then 1 else 0) ∧
    (∀ i k, k < 3 → i < nodeCount dag →
      ops.count (GPOperation.Zero ((3 + k) * nodeCount dag + i)) = 1) ∧
    (∀ r ∈ dag.rootsplits, ∃ root_idx,
      mapFind dag.subsplit_to_index (r ++ bitsetComplement r) = some root_idx ∧
      GPOperation.SetToStationaryDistribution
        (getPLVIndex dag PLVType.R_HAT root_idx) 0 ∈ ops) := by
  have hsrz : setRootwardZero dag =
      (List.range' dag.taxon_count
        (dag.dag_nodes.length - dag.taxon_count)).flatMap
        (fun j => [GPOperation.Zero (0 + j),
           GPOperation.Zero (0 + dag.dag_nodes.length + j),
           GPOperation.Zero (0 + 2 * dag.dag_nodes.length + j)]) := by
    simp [setRootwardZero, getPLVIndex, getPLVIndexStatic]
  have hzeros :
      ((List.range dag.dag_nodes.length).flatMap
        (fun i => [GPOperation.Zero (getPLVIndex dag PLVType.R_HAT i),
           GPOperation.Zero (getPLVIndex dag PLVType.R i),
           GPOperation.Zero (getPLVIndex dag PLVType.R_TILDE i)])) =
      (List.range' 0 dag.dag_nodes.length).flatMap
        (fun j => [GPOperation.Zero (3 * dag.dag_nodes.length + j),
           GPOperation.Zero (3 * dag.dag_nodes.length + dag.dag_nodes.length + j),
           GPOperation.Zero
             (3 * dag.dag_nodes.length + 2 * dag.dag_nodes.length + j)]) := by
    rw [List.range_eq_range']
    refine List.flatMap_congr ?_
    intro x _
    simp [getPLVIndex, getPLVIndexStatic]
    omega
  simp only [setLeafwardZero, hzeros] at h
  obtain ⟨⟨Δ, hΔ, hΔops⟩, hmem⟩ := setLeafwardZero_fold_structure dag _ _ _ h
  have hΔzero : ∀ x, Δ.count (GPOperation.Zero x) = 0 := by
    intro x
    rw [List.count_eq_zero]
    intro hx
    obtain ⟨b, hb⟩ := hΔops _ hx
    exact GPOperation.noConfusion hb
  have hnc : nodeCount dag = dag.dag_nodes.length := rfl
  refine ⟨?_, ?_, ?_⟩
  · intro i k hk hi
    rw [hsrz]
    rw [show GPOperation.Zero (k * nodeCount dag + i) =
        GPOperation.Zero (0 + k * dag.dag_nodes.length + i) from by
      simp [nodeCount]]
    by_cases hT : dag.taxon_count ≤ dag.dag_nodes.length
    · rw [count_zero_triples (dag.dag_nodes.length) 0 i k hi hk
        (dag.dag_nodes.length - dag.taxon_count) dag.taxon_count (by omega)]
      have hi' : i < dag.dag_nodes.length := hi
      split_ifs <;> omega
    · have hi' : i < dag.dag_nodes.length := hi
      have hn : dag.dag_nodes.length - dag.taxon_count = 0 := by omega
      have hno : ¬ dag.taxon_count ≤ i := by omega
      simp [hn, hno]
  · intro i k hk hi
    rw [hΔ, List.count_append]
    rw [show GPOperation.Zero ((3 + k) * nodeCount dag + i) =
        GPOperation.Zero
          (3 * dag.dag_nodes.length + k * dag.dag_nodes.length + i) from by
      simp [nodeCount]; ring_nf]
    rw [count_zero_triples (dag.dag_nodes.length) (3 * dag.dag_nodes.length)
      i k hi hk dag.dag_nodes.length 0 (by omega)]
    rw [hΔzero]
    have hi' : i < dag.dag_nodes.length := hi
    split_ifs <;> omega
  · exact hmem

/-- The computed `setLeafwardZero` vector of the example DAG. -/
def exampleLeafwardZeroOps : GPOperationVector :=
  (setLeafwardZero exampleDag).getD []

theorem set_zero_generators_characterization_witness :
    setLeafwardZero exampleDag = some exampleLeafwardZeroOps ∧
    (setRootwardZero exampleDag).count
        (GPOperation.Zero (1 * nodeCount exampleDag + 3)) = 1 :=
  ⟨by decide, by
    have h := set_zero_generators_characterization exampleDag
      exampleLeafwardZeroOps (by decide)
    have h3 := h.1 3 1 (by decide) (by decide)
    rwa [if_pos (show exampleDag.taxon_count ≤ 3 by decide)] at h3⟩


/-!
## Prefix structure of the operation-emitting functions

Every emitter appends to its accumulated operation vector; these lemmas state
that the input vector is a prefix of the output vector.
-/

theorem foldlOpt_ops_prefix {α : Type}
    {step : α → GPOperationVector → Option GPOperationVector}
    (hstep : ∀ x ops ops', step x ops = some ops' → ops <+: ops') :
    ∀ (l : List α) (ops ops' : GPOperationVector),
      foldlOpt step l ops = some ops' → ops <+: ops' := by
  intro l
  induction l with
  | nil =>
    intro ops ops' h
    simp only [foldlOpt_nil, Option.some.injEq] at h
    exact h ▸ List.prefix_refl ops
  | cons x xs ih =>
    intro ops ops' h
    simp only [foldlOpt_cons] at h
    cases hx : step x ops with
    | none => simp [hx] at h
    | some mid =>
      rw [hx] at h
      exact (hstep x ops mid hx).trans (ih mid ops' h)

theorem foldlOpt_pair_prefix {α : Type}
    {step : α → GPOperationVector × List Nat →
      Option (GPOperationVector × List Nat)}
    (hstep : ∀ x st st', step x st = some st' → st.1 <+: st'.1) :
    ∀ (l : List α) (st st' : GPOperationVector × List Nat),
      foldlOpt step l st = some st' → st.1 <+: st'.1 := by
  intro l
  induction l with
  | nil =>
    intro st st' h
    simp only [foldlOpt_nil, Option.some.injEq] at h
    exact h ▸ List.prefix_refl st.1
  | cons x xs ih =>
    intro st st' h
    simp only [foldlOpt_cons] at h
    cases hx : step x st with
    | none => simp [hx] at h
    | some mid =>
      rw [hx] at h
      exact (hstep x st mid hx).trans (ih mid st' h)

theorem updateRHat_prefix (dag : GPDAG) (node_id : Nat) (rotated : Bool)
    (ops ops' : GPOperationVector)
    (h : updateRHat dag node_id rotated ops = some ops') :
    ops <+: ops' := by
  unfold updateRHat at h
  simp only [Option.bind_eq_bind] at h
  rw [Option.bind_eq_some] at h
  obtain ⟨node, hn, h⟩ := h
  refine foldlOpt_ops_prefix ?_ _ _ _ h
  intro x o o' hx
  rw [Option.bind_eq_some] at hx
  obtain ⟨p, hp, hx⟩ := hx
  rw [Option.bind_eq_some] at hx
  obtain ⟨g, hg, hx⟩ := hx
  simp only [Option.pure_def, Option.some.injEq] at hx
  exact ⟨_, hx⟩

theorem updatePHatComputeLikelihood_prefix (dag : GPDAG)
    (node_id child_node_id : Nat) (rotated : Bool)
    (ops ops' : GPOperationVector)
    (h : updatePHatComputeLikelihood dag node_id child_node_id rotated ops =
      some ops') : ops <+: ops' := by
  unfold updatePHatComputeLikelihood at h
  simp only [Option.bind_eq_bind] at h
  rw [Option.bind_eq_some] at h
  obtain ⟨node, hn, h⟩ := h
  rw [Option.bind_eq_some] at h
  obtain ⟨child, hc, h⟩ := h
  rw [Option.bind_eq_some] at h
  obtain ⟨g, hg, h⟩ := h
  simp only [Option.pure_def, Option.some.injEq] at h
  exact ⟨_, h⟩

theorem optimizeBranchLengthUpdatePHat_prefix (dag : GPDAG)
    (node_id child_node_id : Nat) (rotated : Bool)
    (ops ops' : GPOperationVector)
    (h : optimizeBranchLengthUpdatePHat dag node_id child_node_id rotated ops =
      some ops') : ops <+: ops' := by
  unfold optimizeBranchLengthUpdatePHat at h
  simp only [Option.bind_eq_bind] at h
  rw [Option.bind_eq_some] at h
  obtain ⟨node, hn, h⟩ := h
  rw [Option.bind_eq_some] at h
  obtain ⟨child, hc, h⟩ := h
  rw [Option.bind_eq_some] at h
  obtain ⟨g, hg, h⟩ := h
  simp only [Option.pure_def, Option.some.injEq] at h
  exact ⟨_, h⟩

theorem optimizeSBNParameters_appends (dag : GPDAG) (subsplit : Bitset)
    (ops : GPOperationVector) :
    optimizeSBNParameters dag subsplit ops =
      ops ++ optimizeSBNParameters dag subsplit [] := by
  unfold optimizeSBNParameters
  cases mapFind dag.subsplit_to_range subsplit with
  | none => simp
  | some r =>
    by_cases hr : r.2 - r.1 > 1 <;> simp [hr]

theorem optimizeSBNParameters_prefix (dag : GPDAG) (subsplit : Bitset)
    (ops : GPOperationVector) :
    ops <+: optimizeSBNParameters dag subsplit ops :=
  ⟨_, (optimizeSBNParameters_appends dag subsplit ops).symm⟩

/-- The recursive SBN-parameter scheduler only appends to the accumulated
operation vector. -/
theorem scheduleSBNParametersOptimization_prefix (dag : GPDAG) :
    ∀ (fuel node_id : Nat) (st st' : GPOperationVector × List Nat),
      scheduleSBNParametersOptimization dag fuel node_id st = some st' →
      st.1 <+: st'.1 := by
  intro fuel
  induction fuel with
  | zero =>
    intro node_id st st' h
    exact absurd h (by simp [scheduleSBNParametersOptimization])
  | succ fuel ih =>
    intro node_id st st' h
    obtain ⟨ops, vis⟩ := st
    unfold scheduleSBNParametersOptimization at h
    simp only [Option.bind_eq_bind, Option.pure_def] at h
    rw [Option.bind_eq_some] at h
    obtain ⟨node, hn, h⟩ := h
    have hsortedstep : ∀ (x : Nat) (s s' : GPOperationVector × List Nat),
        (if x ∈ s.2 then
            (some s).bind fun y =>
              (updatePHatComputeLikelihood dag node_id x false y.1).bind
                fun ops => some (ops, y.2)
          else
            (scheduleSBNParametersOptimization dag fuel x s).bind fun y =>
              (updatePHatComputeLikelihood dag node_id x false y.1).bind
                fun ops => some (ops, y.2)) = some s' → s.1 <+: s'.1 := by
      intro x s s' hx
      by_cases hmem : x ∈ s.2
      · simp only [hmem, if_true, Option.some_bind] at hx
        rw [Option.bind_eq_some] at hx
        obtain ⟨o, ho, hx⟩ := hx
        simp only [Option.some.injEq] at hx
        have := updatePHatComputeLikelihood_prefix dag node_id x false _ _ ho
        rw [← hx]
        exact this
      · simp only [hmem, if_false] at hx
        rw [Option.bind_eq_some] at hx
        obtain ⟨m, hm, hx⟩ := hx
        rw [Option.bind_eq_some] at hx
        obtain ⟨o, ho, hx⟩ := hx
        simp only [Option.some.injEq] at hx
        have h1 := ih x s m hm
        have h2 := updatePHatComputeLikelihood_prefix dag node_id x false _ _ ho
        rw [← hx]
        exact h1.trans h2
    have hrotstep : ∀ (x : Nat) (s s' : GPOperationVector × List Nat),
        (if x ∈ s.2 then
            (some s).bind fun y =>
              (updatePHatComputeLikelihood dag node_id x true y.1).bind
                fun ops => some (ops, y.2)
          else
            (scheduleSBNParametersOptimization dag fuel x s).bind fun y =>
              (updatePHatComputeLikelihood dag node_id x true y.1).bind
                fun ops => some (ops, y.2)) = some s' → s.1 <+: s'.1 := by
      intro x s s' hx
      by_cases hmem : x ∈ s.2
      · simp only [hmem, if_true, Option.some_bind] at hx
        rw [Option.bind_eq_some] at hx
        obtain ⟨o, ho, hx⟩ := hx
        simp only [Option.some.injEq] at hx
        have := updatePHatComputeLikelihood_prefix dag node_id x true _ _ ho
        rw [← hx]
        exact this
      · simp only [hmem, if_false] at hx
        rw [Option.bind_eq_some] at hx
        obtain ⟨m, hm, hx⟩ := hx
        rw [Option.bind_eq_some] at hx
        obtain ⟨o, ho, hx⟩ := hx
        simp only [Option.some.injEq] at hx
        have h1 := ih x s m hm
        have h2 := updatePHatComputeLikelihood_prefix dag node_id x true _ _ ho
        rw [← hx]
        exact h1.trans h2
    have hrest : ∀ (ops₁ : GPOperationVector), ops <+: ops₁ →
        ∀ (hr : (if nodeIsLeaf dag node = true then
            some (ops₁, node_id :: vis)
          else
            (foldlOpt
              (fun child_id st =>
                if child_id ∈ st.2 then
                  (some st).bind fun y =>
                    (updatePHatComputeLikelihood dag node_id child_id false
                      y.1).bind fun ops => some (ops, y.2)
                else
                  (scheduleSBNParametersOptimization dag fuel child_id st).bind
                    fun y =>
                    (updatePHatComputeLikelihood dag node_id child_id false
                      y.1).bind fun ops => some (ops, y.2))
              node.leafwardSorted
              (ops₁ ++ [GPOperation.Zero (getPLVIndex dag PLVType.P_HAT node_id)],
                node_id :: vis)).bind
            fun st =>
            (foldlOpt
              (fun child_id st' =>
                if child_id ∈ st'.2 then
                  (some st').bind fun y =>
                    (updatePHatComputeLikelihood dag node_id child_id true
                      y.1).bind fun ops => some (ops, y.2)
                else
                  (scheduleSBNParametersOptimization dag fuel child_id st').bind
                    fun y =>
                    (updatePHatComputeLikelihood dag node_id child_id true
                      y.1).bind fun ops => some (ops, y.2))
              node.leafwardRotated
              (optimizeSBNParameters dag node.subsplit st.1 ++
                  [GPOperation.Multiply (getPLVIndex dag PLVType.R_TILDE node_id)
                     (getPLVIndex dag PLVType.R_HAT node_id)
                     (getPLVIndex dag PLVType.P_HAT node_id),
                   GPOperation.Zero (getPLVIndex dag PLVType.P_HAT_TILDE node_id)],
                st.2)).bind
            fun st' =>
            some
              (optimizeSBNParameters dag (rotateSubsplit node.subsplit) st'.1 ++
                  [GPOperation.Multiply (getPLVIndex dag PLVType.R node_id)
                     (getPLVIndex dag PLVType.R_HAT node_id)
                     (getPLVIndex dag PLVType.P_HAT_TILDE node_id),
                   GPOperation.Multiply (getPLVIndex dag PLVType.P node_id)
                     (getPLVIndex dag PLVType.P_HAT node_id)
                     (getPLVIndex dag PLVType.P_HAT_TILDE node_id)],
                st'.2)) = some st'), ops <+: st'.1 := by
      intro ops₁ hpre hr
      by_cases hleaf : nodeIsLeaf dag node
      · simp only [hleaf, if_true, Option.some.injEq] at hr
        rw [← hr]
        exact hpre
      · simp only [hleaf, Bool.false_eq_true, if_false] at hr
        rw [Option.bind_eq_some] at hr
        obtain ⟨st₂, hst₂, hr⟩ := hr
        rw [Option.bind_eq_some] at hr
        obtain ⟨st₃, hst₃, hr⟩ := hr
        simp only [Option.some.injEq] at hr
        have hp₂ :
            (ops₁ ++ [GPOperation.Zero (getPLVIndex dag PLVType.P_HAT node_id)])
              <+: st₂.1 :=
          foldlOpt_pair_prefix hsortedstep _ _ _ hst₂
        have hp₃ : (optimizeSBNParameters dag node.subsplit st₂.1 ++
            [GPOperation.Multiply (getPLVIndex dag PLVType.R_TILDE node_id)
               (getPLVIndex dag PLVType.R_HAT node_id)
               (getPLVIndex dag PLVType.P_HAT node_id),
             GPOperation.Zero (getPLVIndex dag PLVType.P_HAT_TILDE node_id)])
              <+: st₃.1 :=
          foldlOpt_pair_prefix hrotstep _ _ _ hst₃
        have hfinal : st'.1 =
            optimizeSBNParameters dag (rotateSubsplit node.subsplit) st₃.1 ++
              [GPOperation.Multiply (getPLVIndex dag PLVType.R node_id)
                 (getPLVIndex dag PLVType.R_HAT node_id)
                 (getPLVIndex dag PLVType.P_HAT_TILDE node_id),
               GPOperation.Multiply (getPLVIndex dag PLVType.P node_id)
                 (getPLVIndex dag PLVType.P_HAT node_id)
                 (getPLVIndex dag PLVType.P_HAT_TILDE node_id)] := by
          rw [← hr]
        calc ops <+: ops₁ := hpre
          _ <+: ops₁ ++ [GPOperation.Zero (getPLVIndex dag PLVType.P_HAT node_id)] :=
            List.prefix_append _ _
          _ <+: st₂.1 := hp₂
          _ <+: optimizeSBNParameters dag node.subsplit st₂.1 :=
            optimizeSBNParameters_prefix dag _ _
          _ <+: optimizeSBNParameters dag node.subsplit st₂.1 ++
              [GPOperation.Multiply (getPLVIndex dag PLVType.R_TILDE node_id)
                 (getPLVIndex dag PLVType.R_HAT node_id)
                 (getPLVIndex dag PLVType.P_HAT node_id),
               GPOperation.Zero (getPLVIndex dag PLVType.P_HAT_TILDE node_id)] :=
            List.prefix_append _ _
          _ <+: st₃.1 := hp₃
          _ <+: optimizeSBNParameters dag (rotateSubsplit node.subsplit) st₃.1 :=
            optimizeSBNParameters_prefix dag _ _
          _ <+: st'.1 := by
            rw [hfinal]
            exact List.prefix_append _ _
    by_cases hroot : nodeIsRoot dag node
    · simp only [hroot, Bool.not_true, Bool.false_eq_true, if_false,
        Option.some_bind] at h
      exact hrest ops (List.prefix_refl ops) h
    · have hroot' : nodeIsRoot dag node = false := by
        simpa using hroot
      simp only [hroot', Bool.not_false, if_true] at h
      rw [Option.bind_eq_some] at h
      obtain ⟨o1, ho1, h⟩ := h
      rw [Option.bind_eq_some] at h
      obtain ⟨o2, ho2, h⟩ := h
      simp only [Option.some_bind] at h
      have h1 := updateRHat_prefix dag node_id false _ _ ho1
      have h2 := updateRHat_prefix dag node_id true _ _ ho2
      refine hrest _ ?_ h
      calc ops <+: ops ++ [GPOperation.Zero (getPLVIndex dag PLVType.R_HAT node_id)] :=
          List.prefix_append _ _
        _ <+: o1 := h1
        _ <+: o2 := h2
        _ <+: o2 ++ [GPOperation.Multiply (getPLVIndex dag PLVType.R node_id)
               (getPLVIndex dag PLVType.R_HAT node_id)
               (getPLVIndex dag PLVType.P_HAT_TILDE node_id),
             GPOperation.Multiply (getPLVIndex dag PLVType.R_TILDE node_id)
               (getPLVIndex dag PLVType.R_HAT node_id)
               (getPLVIndex dag PLVType.P_HAT node_id)] :=
          List.prefix_append _ _

/-- The recursive branch-length scheduler only appends to the accumulated
operation vector. -/
theorem scheduleBranchLengthOptimization_prefix (dag : GPDAG) :
    ∀ (fuel node_id : Nat) (st st' : GPOperationVector × List Nat),
      scheduleBranchLengthOptimization dag fuel node_id st = some st' →
      st.1 <+: st'.1 := by
  intro fuel
  induction fuel with
  | zero =>
    intro node_id st st' h
    exact absurd h (by simp [scheduleBranchLengthOptimization])
  | succ fuel ih =>
    intro node_id st st' h
    obtain ⟨ops, vis⟩ := st
    unfold scheduleBranchLengthOptimization at h
    simp only [Option.bind_eq_bind, Option.pure_def] at h
    rw [Option.bind_eq_some] at h
    obtain ⟨node, hn, h⟩ := h
    have hsortedstep : ∀ (x : Nat) (s s' : GPOperationVector × List Nat),
        (if x ∈ s.2 then
            (some s).bind fun y =>
              (optimizeBranchLengthUpdatePHat dag node_id x false y.1).bind
                fun ops => some (ops, y.2)
          else
            (scheduleBranchLengthOptimization dag fuel x s).bind fun y =>
              (optimizeBranchLengthUpdatePHat dag node_id x false y.1).bind
                fun ops => some (ops, y.2)) = some s' → s.1 <+: s'.1 := by
      intro x s s' hx
      by_cases hmem : x ∈ s.2
      · simp only [hmem, if_true, Option.some_bind] at hx
        rw [Option.bind_eq_some] at hx
        obtain ⟨o, ho, hx⟩ := hx
        simp only [Option.some.injEq] at hx
        have := optimizeBranchLengthUpdatePHat_prefix dag node_id x false _ _ ho
        rw [← hx]
        exact this
      · simp only [hmem, if_false] at hx
        rw [Option.bind_eq_some] at hx
        obtain ⟨m, hm, hx⟩ := hx
        rw [Option.bind_eq_some] at hx
        obtain ⟨o, ho, hx⟩ := hx
        simp only [Option.some.injEq] at hx
        have h1 := ih x s m hm
        have h2 := optimizeBranchLengthUpdatePHat_prefix dag node_id x false _ _ ho
        rw [← hx]
        exact h1.trans h2
    have hrotstep : ∀ (x : Nat) (s s' : GPOperationVector × List Nat),
        (if x ∈ s.2 then
            (some s).bind fun y =>
              (optimizeBranchLengthUpdatePHat dag node_id x true y.1).bind
                fun ops => some (ops, y.2)
          else
            (scheduleBranchLengthOptimization dag fuel x s).bind fun y =>
              (optimizeBranchLengthUpdatePHat dag node_id x true y.1).bind
                fun ops => some (ops, y.2)) = some s' → s.1 <+: s'.1 := by
      intro x s s' hx
      by_cases hmem : x ∈ s.2
      · simp only [hmem, if_true, Option.some_bind] at hx
        rw [Option.bind_eq_some] at hx
        obtain ⟨o, ho, hx⟩ := hx
        simp only [Option.some.injEq] at hx
        have := optimizeBranchLengthUpdatePHat_prefix dag node_id x true _ _ ho
        rw [← hx]
        exact this
      · simp only [hmem, if_false] at hx
        rw [Option.bind_eq_some] at hx
        obtain ⟨m, hm, hx⟩ := hx
        rw [Option.bind_eq_some] at hx
        obtain ⟨o, ho, hx⟩ := hx
        simp only [Option.some.injEq] at hx
        have h1 := ih x s m hm
        have h2 := optimizeBranchLengthUpdatePHat_prefix dag node_id x true _ _ ho
        rw [← hx]
        exact h1.trans h2
    have hrest : ∀ (ops₁ : GPOperationVector), ops <+: ops₁ →
        ∀ (hr : (if nodeIsLeaf dag node = true then
            some (ops₁, node_id :: vis)
          else
            (foldlOpt
              (fun child_id st =>
                if child_id ∈ st.2 then
                  (some st).bind fun y =>
                    (optimizeBranchLengthUpdatePHat dag node_id child_id false
                      y.1).bind fun ops => some (ops, y.2)
                else
                  (scheduleBranchLengthOptimization dag fuel child_id st).bind
                    fun y =>
                    (optimizeBranchLengthUpdatePHat dag node_id child_id false
                      y.1).bind fun ops => some (ops, y.2))
              node.leafwardSorted
              (ops₁ ++ [GPOperation.Zero (getPLVIndex dag PLVType.P_HAT node_id)],
                node_id :: vis)).bind
            fun st =>
            (foldlOpt
              (fun child_id st' =>
                if child_id ∈ st'.2 then
                  (some st').bind fun y =>
                    (optimizeBranchLengthUpdatePHat dag node_id child_id true
                      y.1).bind fun ops => some (ops, y.2)
                else
                  (scheduleBranchLengthOptimization dag fuel child_id st').bind
                    fun y =>
                    (optimizeBranchLengthUpdatePHat dag node_id child_id true
                      y.1).bind fun ops => some (ops, y.2))
              node.leafwardRotated
              (st.1 ++
                  [GPOperation.Multiply (getPLVIndex dag PLVType.R_TILDE node_id)
                     (getPLVIndex dag PLVType.R_HAT node_id)
                     (getPLVIndex dag PLVType.P_HAT node_id),
                   GPOperation.Zero (getPLVIndex dag PLVType.P_HAT_TILDE node_id)],
                st.2)).bind
            fun st' =>
            some
              (st'.1 ++
                  [GPOperation.Multiply (getPLVIndex dag PLVType.R node_id)
                     (getPLVIndex dag PLVType.R_HAT node_id)
                     (getPLVIndex dag PLVType.P_HAT_TILDE node_id),
                   GPOperation.Multiply (getPLVIndex dag PLVType.P node_id)
                     (getPLVIndex dag PLVType.P_HAT node_id)
                     (getPLVIndex dag PLVType.P_HAT_TILDE node_id)],
                st'.2)) = some st'), ops <+: st'.1 := by
      intro ops₁ hpre hr
      by_cases hleaf : nodeIsLeaf dag node
      · simp only [hleaf, if_true, Option.some.injEq] at hr
        rw [← hr]
        exact hpre
      · simp only [hleaf, Bool.false_eq_true, if_false] at hr
        rw [Option.bind_eq_some] at hr
        obtain ⟨st₂, hst₂, hr⟩ := hr
        rw [Option.bind_eq_some] at hr
        obtain ⟨st₃, hst₃, hr⟩ := hr
        simp only [Option.some.injEq] at hr
        have hp₂ :
            (ops₁ ++ [GPOperation.Zero (getPLVIndex dag PLVType.P_HAT node_id)])
              <+: st₂.1 :=
          foldlOpt_pair_prefix hsortedstep _ _ _ hst₂
        have hp₃ : (st₂.1 ++
            [GPOperation.Multiply (getPLVIndex dag PLVType.R_TILDE node_id)
               (getPLVIndex dag PLVType.R_HAT node_id)
               (getPLVIndex dag PLVType.P_HAT node_id),
             GPOperation.Zero (getPLVIndex dag PLVType.P_HAT_TILDE node_id)])
              <+: st₃.1 :=
          foldlOpt_pair_prefix hrotstep _ _ _ hst₃
        calc ops <+: ops₁ := hpre
          _ <+: ops₁ ++ [GPOperation.Zero (getPLVIndex dag PLVType.P_HAT node_id)] :=
            List.prefix_append _ _
          _ <+: st₂.1 := hp₂
          _ <+: st₂.1 ++
              [GPOperation.Multiply (getPLVIndex dag PLVType.R_TILDE node_id)
                 (getPLVIndex dag PLVType.R_HAT node_id)
                 (getPLVIndex dag PLVType.P_HAT node_id),
               GPOperation.Zero (getPLVIndex dag PLVType.P_HAT_TILDE node_id)] :=
            List.prefix_append _ _
          _ <+: st₃.1 := hp₃
          _ <+: st'.1 := by
            rw [← hr]
            exact List.prefix_append _ _
    by_cases hroot : nodeIsRoot dag node
    · simp only [hroot, Bool.not_true, Bool.false_eq_true, if_false,
        Option.some_bind] at h
      exact hrest ops (List.prefix_refl ops) h
    · have hroot' : nodeIsRoot dag node = false := by
        simpa using hroot
      simp only [hroot', Bool.not_false, if_true] at h
      rw [Option.bind_eq_some] at h
      obtain ⟨o1, ho1, h⟩ := h
      rw [Option.bind_eq_some] at h
      obtain ⟨o2, ho2, h⟩ := h
      simp only [Option.some_bind] at h
      have h1 := updateRHat_prefix dag node_id false _ _ ho1
      have h2 := updateRHat_prefix dag node_id true _ _ ho2
      refine hrest _ ?_ h
      calc ops <+: ops ++ [GPOperation.Zero (getPLVIndex dag PLVType.R_HAT node_id)] :=
          List.prefix_append _ _
        _ <+: o1 := h1
        _ <+: o2 := h2
        _ <+: o2 ++ [GPOperation.Multiply (getPLVIndex dag PLVType.R node_id)
               (getPLVIndex dag PLVType.R_HAT node_id)
               (getPLVIndex dag PLVType.P_HAT_TILDE node_id),
             GPOperation.Multiply (getPLVIndex dag PLVType.R_TILDE node_id)
               (getPLVIndex dag PLVType.R_HAT node_id)
               (getPLVIndex dag PLVType.P_HAT node_id)] :=
          List.prefix_append _ _


/-- The concatenation shape of the `SBNParameterOptimization` top level:
for each rootsplit in order, the operations of the recursive scheduling pass
started at that rootsplit's node followed immediately by that rootsplit's
`IncrementMarginalLikelihood`. -/
def stageConcat (dag : GPDAG) :
    List (GPOperationVector × Nat) → Nat → GPOperationVector
  | [], _ => []
  | (Δ, rid) :: rest, i =>
    Δ ++ [GPOperation.IncrementMarginalLikelihood
            (getPLVIndex dag PLVType.R_HAT rid) i
            (getPLVIndex dag PLVType.P rid)] ++ stageConcat dag rest (i + 1)

theorem sbnPOFrom_stages (dag : GPDAG) (fuel : Nat) :
    ∀ (l : List Bitset) (idx : Nat) (st res : GPOperationVector × List Nat),
      sbnParameterOptimizationFrom dag fuel l idx st = some res →
      ∃ stages : List (GPOperationVector × Nat),
        stages.length = l.length ∧
        res.1 = st.1 ++ stageConcat dag stages idx ∧
        ∀ j (hj : j < stages.length),
          (∃ r, l.get? j = some r ∧
            mapFind dag.subsplit_to_index (r ++ bitsetComplement r) =
              some (stages.get ⟨j, hj⟩).2) ∧
          ∃ acc vis vis',
            scheduleSBNParametersOptimization dag fuel (stages.get ⟨j, hj⟩).2
              (acc, vis) = some (acc ++ (stages.get ⟨j, hj⟩).1, vis') := by
  intro l
  induction l with
  | nil =>
    intro idx st res h
    simp only [sbnParameterOptimizationFrom, Option.some.injEq] at h
    exact ⟨[], rfl, by simp [← h, stageConcat], fun j hj => absurd hj (by simp)⟩
  | cons r rest ih =>
    intro idx st res h
    unfold sbnParameterOptimizationFrom at h
    simp only [Option.bind_eq_bind, Option.pure_def] at h
    rw [Option.bind_eq_some] at h
    obtain ⟨rid, hrid, h⟩ := h
    rw [Option.bind_eq_some] at h
    obtain ⟨stm, hsched, h⟩ := h
    obtain ⟨Δ, hΔ⟩ :=
      scheduleSBNParametersOptimization_prefix dag fuel rid st stm hsched
    obtain ⟨stages', hlen, hops, hper⟩ := ih (idx + 1) _ res h
    refine ⟨(Δ, rid) :: stages', by simp [hlen], ?_, ?_⟩
    · rw [hops]
      simp only [stageConcat, ← hΔ]
      simp [List.append_assoc]
    · intro j hj
      cases j with
      | zero =>
        refine ⟨⟨r, rfl, hrid⟩, st.1, st.2, stm.2, ?_⟩
        simp only [List.get]
        rw [hΔ]
        rw [show (st.1, st.2) = st from rfl]
        rw [hsched]
      | succ j =>
        have hj' : j < stages'.length := by
          simpa using hj
        obtain ⟨⟨r', hr', hfind⟩, w⟩ := hper j hj'
        exact ⟨⟨r', by simpa using hr', hfind⟩, w⟩

/-- Claim C6 (amended): the operation vector returned by
`SBNParameterOptimization` consists, for each rootsplit in order, of the
operations of the recursive scheduling pass started at that rootsplit's node
followed immediately by that rootsplit's `IncrementMarginalLikelihood`
(carrying the rootsplit's position), and finally a single
`UpdateSBNProbabilities` over the rootsplit index range `[0, R)`.  (The
per-rootsplit `IncrementMarginalLikelihood`s are interleaved with the
recursive pass, not all emitted after it.) -/
theorem sbn_parameter_optimization_structure (dag : GPDAG) (fuel : Nat)
    (ops : GPOperationVector) (h : sbnParameterOptimization dag fuel = some ops) :
    ∃ stages : List (GPOperationVector × Nat),
      stages.length = dag.rootsplits.length ∧
      ops = stageConcat dag stages 0 ++
        [GPOperation.UpdateSBNProbabilities 0 dag.rootsplits.length] ∧
      ∀ j (hj : j < stages.length),
        (∃ r, dag.rootsplits.get? j = some r ∧
          mapFind dag.subsplit_to_index (r ++ bitsetComplement r) =
            some (stages.get ⟨j, hj⟩).2) ∧
        ∃ acc vis vis',
          scheduleSBNParametersOptimization dag fuel (stages.get ⟨j, hj⟩).2
            (acc, vis) = some (acc ++ (stages.get ⟨j, hj⟩).1, vis') := by
  unfold sbnParameterOptimization at h
  simp only [Option.bind_eq_bind, Option.pure_def] at h
  rw [Option.bind_eq_some] at h
  obtain ⟨stfin, hfrom, h⟩ := h
  simp only [Option.some.injEq] at h
  obtain ⟨stages, hlen, hops, hper⟩ := sbnPOFrom_stages dag fuel _ _ _ _ hfrom
  refine ⟨stages, hlen, ?_, hper⟩
  rw [← h, hops]
  simp

/-- The operations `OptimizeSBNParameters` emits on an empty accumulator:
an `UpdateSBNProbabilities` over the recorded range when it spans more than
one index, and nothing otherwise. -/
theorem optimizeSBNParameters_emit (dag : GPDAG) (subsplit : Bitset) :
    optimizeSBNParameters dag subsplit [] =
      match mapFind dag.subsplit_to_range subsplit with
      | some r =>
        if r.2 - r.1 > 1 then [GPOperation.UpdateSBNProbabilities r.1 r.2]
        else []
      | none => [] := by
  unfold optimizeSBNParameters
  cases mapFind dag.subsplit_to_range subsplit with
  | none => rfl
  | some r => by_cases hr : r.2 - r.1 > 1 <;> simp [hr]

/-- Claim C5 (amended): for a scheduled non-leaf node, the SBN scheduler
emits, immediately after the node's sorted-child loop, exactly
`OptimizeSBNParameters` of the node's subsplit — an `UpdateSBNProbabilities`
over the recorded sorted-children range when that range spans more than one
index, and nothing otherwise — and immediately after the rotated-child loop,
the same for the rotated subsplit. -/
theorem scheduleSBN_update_probabilities_placement (dag : GPDAG)
    (fuel node_id : Nat) (ops : GPOperationVector) (vis : List Nat)
    (st' : GPOperationVector × List Nat) (node : GPDAGNode)
    (h : scheduleSBNParametersOptimization dag (fuel + 1) node_id (ops, vis) =
      some st')
    (hn : dag.dag_nodes.get? node_id = some node)
    (hleaf : nodeIsLeaf dag node = false) :
    ∃ pre loopS loopR : GPOperationVector,
      st'.1 = ops ++ pre ++
        [GPOperation.Zero (getPLVIndex dag PLVType.P_HAT node_id)] ++ loopS ++
        optimizeSBNParameters dag node.subsplit [] ++
        [GPOperation.Multiply (getPLVIndex dag PLVType.R_TILDE node_id)
           (getPLVIndex dag PLVType.R_HAT node_id)
           (getPLVIndex dag PLVType.P_HAT node_id),
         GPOperation.Zero (getPLVIndex dag PLVType.P_HAT_TILDE node_id)] ++
        loopR ++
        optimizeSBNParameters dag (rotateSubsplit node.subsplit) [] ++
        [GPOperation.Multiply (getPLVIndex dag PLVType.R node_id)
           (getPLVIndex dag PLVType.R_HAT node_id)
           (getPLVIndex dag PLVType.P_HAT_TILDE node_id),
         GPOperation.Multiply (getPLVIndex dag PLVType.P node_id)
           (getPLVIndex dag PLVType.P_HAT node_id)
           (getPLVIndex dag PLVType.P_HAT_TILDE node_id)] ∧
      (optimizeSBNParameters dag node.subsplit [] =
        match mapFind dag.subsplit_to_range node.subsplit with
        | some r =>
          if r.2 - r.1 > 1 then [GPOperation.UpdateSBNProbabilities r.1 r.2]
          else []
        | none => []) ∧
      (optimizeSBNParameters dag (rotateSubsplit node.subsplit) [] =
        match mapFind dag.subsplit_to_range (rotateSubsplit node.subsplit) with
        | some r =>
          if r.2 - r.1 > 1 then [GPOperation.UpdateSBNProbabilities r.1 r.2]
          else []
        | none => []) := by
  unfold scheduleSBNParametersOptimization at h
  simp only [Option.bind_eq_bind, Option.pure_def] at h
  rw [Option.bind_eq_some] at h
  obtain ⟨node', hn', h⟩ := h
  rw [hn] at hn'
  injection hn' with hnn
  subst hnn
  have hrest : ∀ (ops₁ : GPOperationVector), (∃ pre, ops₁ = ops ++ pre) →
      ∀ (hr : (if nodeIsLeaf dag node = true then
          some (ops₁, node_id :: vis)
        else
          (foldlOpt
            (fun child_id st =>
              if child_id ∈ st.2 then
                (some st).bind fun y =>
                  (updatePHatComputeLikelihood dag node_id child_id false
                    y.1).bind fun ops => some (ops, y.2)
              else
                (scheduleSBNParametersOptimization dag fuel child_id st).bind
                  fun y =>
                  (updatePHatComputeLikelihood dag node_id child_id false
                    y.1).bind fun ops => some (ops, y.2))
            node.leafwardSorted
            (ops₁ ++ [GPOperation.Zero (getPLVIndex dag PLVType.P_HAT node_id)],
              node_id :: vis)).bind
          fun st =>
          (foldlOpt
            (fun child_id st' =>
              if child_id ∈ st'.2 then
                (some st').bind fun y =>
                  (updatePHatComputeLikelihood dag node_id child_id true
                    y.1).bind fun ops => some (ops, y.2)
              else
                (scheduleSBNParametersOptimization dag fuel child_id st').bind
                  fun y =>
                  (updatePHatComputeLikelihood dag node_id child_id true
                    y.1).bind fun ops => some (ops, y.2))
            node.leafwardRotated
            (optimizeSBNParameters dag node.subsplit st.1 ++
                [GPOperation.Multiply (getPLVIndex dag PLVType.R_TILDE node_id)
                   (getPLVIndex dag PLVType.R_HAT node_id)
                   (getPLVIndex dag PLVType.P_HAT node_id),
                 GPOperation.Zero (getPLVIndex dag PLVType.P_HAT_TILDE node_id)],
              st.2)).bind
          fun st' =>
          some
            (optimizeSBNParameters dag (rotateSubsplit node.subsplit) st'.1 ++
                [GPOperation.Multiply (getPLVIndex dag PLVType.R node_id)
                   (getPLVIndex dag PLVType.R_HAT node_id)
                   (getPLVIndex dag PLVType.P_HAT_TILDE node_id),
                 GPOperation.Multiply (getPLVIndex dag PLVType.P node_id)
                   (getPLVIndex dag PLVType.P_HAT node_id)
                   (getPLVIndex dag PLVType.P_HAT_TILDE node_id)],
              st'.2)) = some st'),
      ∃ pre loopS loopR : GPOperationVector,
        st'.1 = ops ++ pre ++
          [GPOperation.Zero (getPLVIndex dag PLVType.P_HAT node_id)] ++ loopS ++
          optimizeSBNParameters dag node.subsplit [] ++
          [GPOperation.Multiply (getPLVIndex dag PLVType.R_TILDE node_id)
             (getPLVIndex dag PLVType.R_HAT node_id)
             (getPLVIndex dag PLVType.P_HAT node_id),
           GPOperation.Zero (getPLVIndex dag PLVType.P_HAT_TILDE node_id)] ++
          loopR ++
          optimizeSBNParameters dag (rotateSubsplit node.subsplit) [] ++
          [GPOperation.Multiply (getPLVIndex dag PLVType.R node_id)
             (getPLVIndex dag PLVType.R_HAT node_id)
             (getPLVIndex dag PLVType.P_HAT_TILDE node_id),
           GPOperation.Multiply (getPLVIndex dag PLVType.P node_id)
             (getPLVIndex dag PLVType.P_HAT node_id)
             (getPLVIndex dag PLVType.P_HAT_TILDE node_id)] := by
    intro ops₁ hpre hr
    obtain ⟨pre, hpre⟩ := hpre
    simp only [hleaf, Bool.false_eq_true, if_false] at hr
    rw [Option.bind_eq_some] at hr
    obtain ⟨st₂, hst₂, hr⟩ := hr
    rw [Option.bind_eq_some] at hr
    obtain ⟨st₃, hst₃, hr⟩ := hr
    simp only [Option.some.injEq] at hr
    obtain ⟨loopS, hloopS⟩ :
        ∃ t, (ops₁ ++
          [GPOperation.Zero (getPLVIndex dag PLVType.P_HAT node_id)]) ++ t =
          st₂.1 := by
      refine foldlOpt_pair_prefix ?_ _ _ _ hst₂
      intro x s s' hx
      by_cases hmem : x ∈ s.2
      · simp only [hmem, if_true, Option.some_bind] at hx
        rw [Option.bind_eq_some] at hx
        obtain ⟨o, ho, hx⟩ := hx
        simp only [Option.some.injEq] at hx
        have := updatePHatComputeLikelihood_prefix dag node_id x false _ _ ho
        rw [← hx]
        exact this
      · simp only [hmem, if_false] at hx
        rw [Option.bind_eq_some] at hx
        obtain ⟨m, hm, hx⟩ := hx
        rw [Option.bind_eq_some] at hx
        obtain ⟨o, ho, hx⟩ := hx
        simp only [Option.some.injEq] at hx
        have h1 := scheduleSBNParametersOptimization_prefix dag fuel x s m hm
        have h2 := updatePHatComputeLikelihood_prefix dag node_id x false _ _ ho
        rw [← hx]
        exact h1.trans h2
    obtain ⟨loopR, hloopR⟩ :
        ∃ t, (optimizeSBNParameters dag node.subsplit st₂.1 ++
          [GPOperation.Multiply (getPLVIndex dag PLVType.R_TILDE node_id)
             (getPLVIndex dag PLVType.R_HAT node_id)
             (getPLVIndex dag PLVType.P_HAT node_id),
           GPOperation.Zero (getPLVIndex dag PLVType.P_HAT_TILDE node_id)]) ++
          t = st₃.1 := by
      refine foldlOpt_pair_prefix ?_ _ _ _ hst₃
      intro x s s' hx
      by_cases hmem : x ∈ s.2
      · simp only [hmem, if_true, Option.some_bind] at hx
        rw [Option.bind_eq_some] at hx
        obtain ⟨o, ho, hx⟩ := hx
        simp only [Option.some.injEq] at hx
        have := updatePHatComputeLikelihood_prefix dag node_id x true _ _ ho
        rw [← hx]
        exact this
      · simp only [hmem, if_false] at hx
        rw [Option.bind_eq_some] at hx
        obtain ⟨m, hm, hx⟩ := hx
        rw [Option.bind_eq_some] at hx
        obtain ⟨o, ho, hx⟩ := hx
        simp only [Option.some.injEq] at hx
        have h1 := scheduleSBNParametersOptimization_prefix dag fuel x s m hm
        have h2 := updatePHatComputeLikelihood_prefix dag node_id x true _ _ ho
        rw [← hx]
        exact h1.trans h2
    refine ⟨pre, loopS, loopR, ?_⟩
    have hfin : st'.1 =
        optimizeSBNParameters dag (rotateSubsplit node.subsplit) st₃.1 ++
          [GPOperation.Multiply (getPLVIndex dag PLVType.R node_id)
             (getPLVIndex dag PLVType.R_HAT node_id)
             (getPLVIndex dag PLVType.P_HAT_TILDE node_id),
           GPOperation.Multiply (getPLVIndex dag PLVType.P node_id)
             (getPLVIndex dag PLVType.P_HAT node_id)
             (getPLVIndex dag PLVType.P_HAT_TILDE node_id)] := by
      rw [← hr]
    rw [hfin, optimizeSBNParameters_appends dag (rotateSubsplit node.subsplit),
      ← hloopR, optimizeSBNParameters_appends dag node.subsplit, ← hloopS,
      hpre]
  have hemit₁ := optimizeSBNParameters_emit dag node.subsplit
  have hemit₂ := optimizeSBNParameters_emit dag (rotateSubsplit node.subsplit)
  by_cases hroot : nodeIsRoot dag node
  · simp only [hroot, Bool.not_true, Bool.false_eq_true, if_false,
      Option.some_bind] at h
    obtain ⟨pre, loopS, loopR, hshape⟩ := hrest ops ⟨[], by simp⟩ h
    exact ⟨pre, loopS, loopR, hshape, hemit₁, hemit₂⟩
  · have hroot' : nodeIsRoot dag node = false := by
      simpa using hroot
    simp only [hroot', Bool.not_false, if_true] at h
    rw [Option.bind_eq_some] at h
    obtain ⟨o1, ho1, h⟩ := h
    rw [Option.bind_eq_some] at h
    obtain ⟨o2, ho2, h⟩ := h
    simp only [Option.some_bind] at h
    obtain ⟨t1, ht1⟩ := updateRHat_prefix dag node_id false _ _ ho1
    obtain ⟨t2, ht2⟩ := updateRHat_prefix dag node_id true _ _ ho2
    obtain ⟨pre, loopS, loopR, hshape⟩ := hrest _
      ⟨[GPOperation.Zero (getPLVIndex dag PLVType.R_HAT node_id)] ++ t1 ++ t2 ++
        [GPOperation.Multiply (getPLVIndex dag PLVType.R node_id)
           (getPLVIndex dag PLVType.R_HAT node_id)
           (getPLVIndex dag PLVType.P_HAT_TILDE node_id),
         GPOperation.Multiply (getPLVIndex dag PLVType.R_TILDE node_id)
           (getPLVIndex dag PLVType.R_HAT node_id)
           (getPLVIndex dag PLVType.P_HAT node_id)],
       by rw [← ht2, ← ht1]; simp [List.append_assoc]⟩ h
    exact ⟨pre, loopS, loopR, hshape, hemit₁, hemit₂⟩

/-- The computed `SBNParameterOptimization` vector of the example DAG. -/
def exampleSbnOps : GPOperationVector :=
  (sbnParameterOptimization exampleDag 20).getD []

theorem sbn_parameter_optimization_structure_witness :
    sbnParameterOptimization exampleDag 20 = some exampleSbnOps ∧
    (∃ stages : List (GPOperationVector × Nat),
      stages.length = exampleDag.rootsplits.length ∧
      exampleSbnOps = stageConcat exampleDag stages 0 ++
        [GPOperation.UpdateSBNProbabilities 0 exampleDag.rootsplits.length] ∧
      ∀ j (hj : j < stages.length),
        (∃ r, exampleDag.rootsplits.get? j = some r ∧
          mapFind exampleDag.subsplit_to_index (r ++ bitsetComplement r) =
            some (stages.get ⟨j, hj⟩).2) ∧
        ∃ acc vis vis',
          scheduleSBNParametersOptimization exampleDag 20
            (stages.get ⟨j, hj⟩).2 (acc, vis) =
            some (acc ++ (stages.get ⟨j, hj⟩).1, vis')) :=
  ⟨by decide,
    sbn_parameter_optimization_structure exampleDag 20 exampleSbnOps (by decide)⟩

/-- The state computed by the SBN scheduler started at the example DAG's
first rootsplit node (id 4). -/
def exampleSchedNode4 : GPOperationVector × List Nat :=
  (scheduleSBNParametersOptimization exampleDag 20 4 ([], [])).getD ([], [])

/-- Node 4 of the example DAG. -/
def exampleNode4 : GPDAGNode :=
  (exampleDag.dag_nodes.get? 4).getD
    { id := 0, subsplit := [], leafwardSorted := [], leafwardRotated := [],
      rootwardSorted := [], rootwardRotated := [] }

theorem scheduleSBN_update_probabilities_placement_witness :
    (scheduleSBNParametersOptimization exampleDag 20 4 ([], []) =
        some exampleSchedNode4 ∧
      exampleDag.dag_nodes.get? 4 = some exampleNode4 ∧
      nodeIsLeaf exampleDag exampleNode4 = false) ∧
    (∃ pre loopS loopR : GPOperationVector,
      exampleSchedNode4.1 = [] ++ pre ++
        [GPOperation.Zero (getPLVIndex exampleDag PLVType.P_HAT 4)] ++ loopS ++
        optimizeSBNParameters exampleDag exampleNode4.subsplit [] ++
        [GPOperation.Multiply (getPLVIndex exampleDag PLVType.R_TILDE 4)
           (getPLVIndex exampleDag PLVType.R_HAT 4)
           (getPLVIndex exampleDag PLVType.P_HAT 4),
         GPOperation.Zero (getPLVIndex exampleDag PLVType.P_HAT_TILDE 4)] ++
        loopR ++
        optimizeSBNParameters exampleDag
          (rotateSubsplit exampleNode4.subsplit) [] ++
        [GPOperation.Multiply (getPLVIndex exampleDag PLVType.R 4)
           (getPLVIndex exampleDag PLVType.R_HAT 4)
           (getPLVIndex exampleDag PLVType.P_HAT_TILDE 4),
         GPOperation.Multiply (getPLVIndex exampleDag PLVType.P 4)
           (getPLVIndex exampleDag PLVType.P_HAT 4)
           (getPLVIndex exampleDag PLVType.P_HAT_TILDE 4)] ∧
      (optimizeSBNParameters exampleDag exampleNode4.subsplit [] =
        match mapFind exampleDag.subsplit_to_range exampleNode4.subsplit with
        | some r =>
          if r.2 - r.1 > 1 then [GPOperation.UpdateSBNProbabilities r.1 r.2]
          else []
        | none => []) ∧
      (optimizeSBNParameters exampleDag
          (rotateSubsplit exampleNode4.subsplit) [] =
        match mapFind exampleDag.subsplit_to_range
            (rotateSubsplit exampleNode4.subsplit) with
        | some r =>
          if r.2 - r.1 > 1 then [GPOperation.UpdateSBNProbabilities r.1 r.2]
          else []
        | none => [])) :=
  ⟨⟨by decide, by decide, by decide⟩,
    scheduleSBN_update_probabilities_placement exampleDag 19 4 [] []
      exampleSchedNode4 exampleNode4 (by decide) (by decide) (by decide)⟩


/-!
## Construction invariants
-/

/-- The fields that `BuildNodes` never modifies. -/
def staticEq (d d' : GPDAG) : Prop :=
  d'.taxon_count = d.taxon_count ∧ d'.rootsplits = d.rootsplits ∧
  d'.parent_to_range = d.parent_to_range ∧
  d'.index_to_child = d.index_to_child ∧
  d'.gpcsp_indexer = d.gpcsp_indexer ∧
  d'.subsplit_to_range = d.subsplit_to_range ∧
  d'.rootsplit_and_pcsp_count = d.rootsplit_and_pcsp_count

theorem staticEq_refl (d : GPDAG) : staticEq d d :=
  ⟨rfl, rfl, rfl, rfl, rfl, rfl, rfl⟩

theorem staticEq_trans {a b c : GPDAG} (h₁ : staticEq a b) (h₂ : staticEq b c) :
    staticEq a c := by
  obtain ⟨e1, e2, e3, e4, e5, e6, e7⟩ := h₁
  obtain ⟨f1, f2, f3, f4, f5, f6, f7⟩ := h₂
  exact ⟨f1.trans e1, f2.trans e2, f3.trans e3, f4.trans e4, f5.trans e5,
    f6.trans e6, f7.trans e7⟩

theorem getChildrenSubsplits_staticEq {d d' : GPDAG} (h : staticEq d d')
    (s : Bitset) (b : Bool) :
    getChildrenSubsplits d' s b = getChildrenSubsplits d s b := by
  unfold getChildrenSubsplits
  rw [h.2.2.1, h.2.2.2.1]

/-- A subsplit has been registered in `subsplit_to_index_`. -/
def createdIn (dag : GPDAG) (s : Bitset) : Prop :=
  (mapFind dag.subsplit_to_index s).isSome

/-- The depth-first child relation used by `BuildNodesDepthFirst`: the
children of the subsplit or of its rotation, without fake subsplits. -/
def childOfDFS (dag : GPDAG) (s c : Bitset) : Prop :=
  (∃ cs, getChildrenSubsplits dag s false = some cs ∧ c ∈ cs) ∨
  (∃ cs, getChildrenSubsplits dag (rotateSubsplit s) false = some cs ∧ c ∈ cs)

/-- Reachability through the depth-first child relation. -/
inductive ChildStar (dag : GPDAG) : Bitset → Bitset → Prop
  | refl (s : Bitset) : ChildStar dag s s
  | tail {s m c : Bitset} : ChildStar dag s m → childOfDFS dag m c →
      ChildStar dag s c

theorem childOfDFS_staticEq {d d' : GPDAG} (h : staticEq d d') {s c : Bitset} :
    childOfDFS d' s c ↔ childOfDFS d s c := by
  unfold childOfDFS
  rw [getChildrenSubsplits_staticEq h, getChildrenSubsplits_staticEq h]

theorem childStar_staticEq {d d' : GPDAG} (h : staticEq d d') {s c : Bitset}
    (hc : ChildStar d s c) : ChildStar d' s c := by
  induction hc with
  | refl => exact ChildStar.refl _
  | tail _ hstep ih =>
    exact ChildStar.tail ih ((childOfDFS_staticEq h).mpr hstep)

/-- Static harvest soundness: the taxon count is `T`, and every depth-first
child has a subsplit of length `2 * T` with strictly fewer set bits than its
parent key. -/
structure StaticOK (T : Nat) (dag : GPDAG) : Prop where
  taxon : dag.taxon_count = T
  decr : ∀ s cs, getChildrenSubsplits dag s false = some cs →
    ∀ c ∈ cs, c.length = 2 * T ∧ countTrue c < countTrue s

theorem StaticOK.of_staticEq {T : Nat} {d d' : GPDAG} (h : staticEq d d')
    (hs : StaticOK T d) : StaticOK T d' where
  taxon := h.1.trans hs.taxon
  decr := fun s cs hcs => hs.decr s cs ((getChildrenSubsplits_staticEq h s false) ▸ hcs)

/-- The node-array/index-map invariants maintained by node creation. -/
structure NodesOK (T : Nat) (dag : GPDAG) : Prop where
  sync : dag.subsplit_to_index = dag.dag_nodes.map (fun n => (n.subsplit, n.id))
  ids : ∀ i (h : i < dag.dag_nodes.length), (dag.dag_nodes.get ⟨i, h⟩).id = i
  len2T : ∀ n ∈ dag.dag_nodes, n.subsplit.length = 2 * T
  adjEmpty : ∀ n ∈ dag.dag_nodes, n.leafwardSorted = [] ∧
    n.leafwardRotated = [] ∧ n.rootwardSorted = [] ∧ n.rootwardRotated = []
  nodupKeys : (dag.subsplit_to_index.map Prod.fst).Nodup

theorem rotateSubsplit_countTrue (b : Bitset) :
    countTrue (rotateSubsplit b) = countTrue b := by
  unfold rotateSubsplit countTrue
  rw [List.count_append]
  conv_rhs => rw [← List.take_append_drop (b.length / 2) b]
  rw [List.count_append]
  omega

theorem rotateSubsplit_length (b : Bitset) :
    (rotateSubsplit b).length = b.length := by
  unfold rotateSubsplit
  simp
  omega

/-- A found index points at a node with that subsplit, below the array
length. -/
theorem mapFind_sync {T : Nat} {dag : GPDAG} (hok : NodesOK T dag)
    {v : Bitset} {q : Nat} (h : mapFind dag.subsplit_to_index v = some q) :
    ∃ hq : q < dag.dag_nodes.length, (dag.dag_nodes.get ⟨q, hq⟩).subsplit = v := by
  have hmem := mapFind_mem h
  rw [hok.sync] at hmem
  obtain ⟨n, hn, heq⟩ := List.mem_map.mp hmem
  obtain ⟨⟨i, hi⟩, hget⟩ := List.mem_iff_get.mp hn
  have hid := hok.ids i hi
  rw [hget] at hid
  have hsub : n.subsplit = v := congrArg Prod.fst heq
  have hidq : n.id = q := congrArg Prod.snd heq
  refine ⟨by omega, ?_⟩
  have : (⟨q, by omega⟩ : Fin dag.dag_nodes.length) = ⟨i, hi⟩ := by
    apply Fin.ext
    simp
    omega
  rw [this, hget, hsub]

/-- `createdIn` indices are below the array length. -/
theorem createdIn_lt {T : Nat} {dag : GPDAG} (hok : NodesOK T dag)
    {v : Bitset} {q : Nat} (h : mapFind dag.subsplit_to_index v = some q) :
    q < dag.dag_nodes.length :=
  (mapFind_sync hok h).fst

theorem key_not_mem_of_mapFind_none {α β : Type} [DecidableEq α]
    {m : List (α × β)} {k : α} (h : mapFind m k = none) :
    k ∉ m.map Prod.fst := by
  induction m with
  | nil => simp
  | cons p rest ih =>
    obtain ⟨k', v⟩ := p
    simp only [mapFind] at h
    by_cases hk : k' = k
    · rw [if_pos hk] at h
      exact absurd h (by simp)
    · rw [if_neg hk] at h
      simp only [List.map_cons, List.mem_cons]
      rintro (h1 | h2)
      · exact hk h1.symm
      · exact ih h h2

theorem createAndInsertNode_spec {T : Nat} {dag dag' : GPDAG} {s : Bitset}
    (h : createAndInsertNode dag s = some dag') (hok : NodesOK T dag)
    (hlen : s.length = 2 * T) :
    staticEq dag dag' ∧ NodesOK T dag' ∧
    dag'.dag_nodes = dag.dag_nodes ++
      [{ id := dag.dag_nodes.length, subsplit := s, leafwardSorted := [],
         leafwardRotated := [], rootwardSorted := [], rootwardRotated := [] }] ∧
    mapFind dag'.subsplit_to_index s = some dag.dag_nodes.length ∧
    mapFind dag.subsplit_to_index s = none ∧
    (∀ v, (mapFind dag.subsplit_to_index v).isSome →
      mapFind dag'.subsplit_to_index v = mapFind dag.subsplit_to_index v) := by
  unfold createAndInsertNode at h
  simp only [Option.bind_eq_bind, Option.pure_def] at h
  rw [Option.bind_eq_some] at h
  obtain ⟨m, hm, h⟩ := h
  simp only [Option.some.injEq] at h
  obtain ⟨hm', hnone⟩ := safeInsert_some hm
  subst hm'
  subst h
  have hfind : ∀ v, (mapFind dag.subsplit_to_index v).isSome →
      mapFind (dag.subsplit_to_index ++ [(s, dag.dag_nodes.length)]) v =
        mapFind dag.subsplit_to_index v := by
    intro v hv
    rw [mapFind_append]
    cases hx : mapFind dag.subsplit_to_index v with
    | none => rw [hx] at hv; simp at hv
    | some q => rfl
  have hnew : mapFind (dag.subsplit_to_index ++ [(s, dag.dag_nodes.length)]) s =
      some dag.dag_nodes.length := by
    rw [mapFind_append, hnone]
    simp [mapFind]
  refine ⟨⟨rfl, rfl, rfl, rfl, rfl, rfl, rfl⟩, ?_, rfl, hnew, hnone, hfind⟩
  constructor
  · rw [hok.sync]
    simp
  · intro i hi
    simp only [List.length_append, List.length_cons, List.length_nil] at hi
    by_cases hlt : i < dag.dag_nodes.length
    · have hg : (dag.dag_nodes ++
          [({ id := dag.dag_nodes.length, subsplit := s, leafwardSorted := [],
              leafwardRotated := [], rootwardSorted := [],
              rootwardRotated := [] } : GPDAGNode)]).get ⟨i, by simpa using hi⟩ =
          dag.dag_nodes.get ⟨i, hlt⟩ := by
        simp [List.get_eq_getElem, List.getElem_append_left hlt]
      rw [hg]
      exact hok.ids i hlt
    · have hieq : i = dag.dag_nodes.length := by omega
      subst hieq
      simp [List.get_eq_getElem, List.getElem_append_right]
  · intro n hn
    rcases List.mem_append.mp hn with h1 | h2
    · exact hok.len2T n h1
    · simp at h2
      subst h2
      exact hlen
  · intro n hn
    rcases List.mem_append.mp hn with h1 | h2
    · exact hok.adjEmpty n h1
    · simp at h2
      subst h2
      exact ⟨rfl, rfl, rfl, rfl⟩
  · rw [List.map_append]
    refine List.Nodup.append hok.nodupKeys (by simp) ?_
    intro x hx hy
    simp only [List.map_cons, List.map_nil, List.mem_singleton] at hy
    subst hy
    exact key_not_mem_of_mapFind_none hnone hx


theorem childStar_trans {dag : GPDAG} {a b c : Bitset}
    (h₁ : ChildStar dag a b) (h₂ : ChildStar dag b c) : ChildStar dag a c := by
  induction h₂ with
  | refl => exact h₁
  | tail _ hstep ih => exact ChildStar.tail ih hstep

/-- Post-order property of node `i`: every depth-first child of its subsplit
is registered with a strictly smaller index. -/
def postOrderAt (dag : GPDAG) (i : Nat) : Prop :=
  ∀ n, dag.dag_nodes.get? i = some n → ∀ c, childOfDFS dag n.subsplit c →
    ∃ q, mapFind dag.subsplit_to_index c = some q ∧ q < i

theorem postOrderAt_mono {d d' : GPDAG} (hst : staticEq d d')
    (hpre : d.dag_nodes <+: d'.dag_nodes)
    (hfind : ∀ v, (mapFind d.subsplit_to_index v).isSome →
      mapFind d'.subsplit_to_index v = mapFind d.subsplit_to_index v)
    {i : Nat} (hi : i < d.dag_nodes.length) (hpo : postOrderAt d i) :
    postOrderAt d' i := by
  intro n hn c hc
  obtain ⟨t, ht⟩ := hpre
  rw [← ht, List.get?_append hi] at hn
  obtain ⟨q, hq, hqi⟩ := hpo n hn c ((childOfDFS_staticEq hst).mp hc)
  refine ⟨q, ?_, hqi⟩
  rw [hfind c (by simp [hq]), hq]

theorem createdIn_mono {d d' : GPDAG}
    (hfind : ∀ v, (mapFind d.subsplit_to_index v).isSome →
      mapFind d'.subsplit_to_index v = mapFind d.subsplit_to_index v)
    {v : Bitset} (h : createdIn d v) : createdIn d' v := by
  unfold createdIn at h ⊢
  rw [hfind v h]
  exact h

theorem childStar_countTrue {T : Nat} {dag : GPDAG} (hst : StaticOK T dag)
    {s v : Bitset} (h : ChildStar dag s v) : countTrue v ≤ countTrue s := by
  induction h with
  | refl => exact Nat.le_refl _
  | tail _ hstep ih =>
    rcases hstep with ⟨cs, hcs, hmem⟩ | ⟨cs, hcs, hmem⟩
    · exact Nat.le_trans (Nat.le_of_lt (hst.decr _ _ hcs _ hmem).2) ih
    · have := (hst.decr _ _ hcs _ hmem).2
      rw [rotateSubsplit_countTrue] at this
      exact Nat.le_trans (Nat.le_of_lt this) ih

theorem childStar_len {T : Nat} {dag : GPDAG} (hst : StaticOK T dag)
    {s v : Bitset} (h : ChildStar dag s v) (hs : s.length = 2 * T) :
    v.length = 2 * T := by
  induction h with
  | refl => exact hs
  | tail _ hstep _ =>
    rcases hstep with ⟨cs, hcs, hmem⟩ | ⟨cs, hcs, hmem⟩
    · exact (hst.decr _ _ hcs _ hmem).1
    · exact (hst.decr _ _ hcs _ hmem).1

theorem mapFind_none_mono {d d' : GPDAG}
    (hfind : ∀ v, (mapFind d.subsplit_to_index v).isSome →
      mapFind d'.subsplit_to_index v = mapFind d.subsplit_to_index v)
    {v : Bitset} (h : mapFind d'.subsplit_to_index v = none) :
    mapFind d.subsplit_to_index v = none := by
  cases hx : mapFind d.subsplit_to_index v with
  | none => rfl
  | some q =>
    rw [hfind v (by rw [hx]; rfl), hx] at h
    exact absurd h (by simp)

/-- The full postcondition of a successful `buildNodesDepthFirst` call. -/
structure BndfPost (T : Nat) (s : Bitset) (dag : GPDAG) (visited : List Bitset)
    (dag' : GPDAG) (visited' : List Bitset) : Prop where
  static : staticEq dag dag'
  nodesOK : NodesOK T dag'
  nodesPrefix : dag.dag_nodes <+: dag'.dag_nodes
  visMono : ∀ v ∈ visited, v ∈ visited'
  created : createdIn dag' s
  findMono : ∀ v, (mapFind dag.subsplit_to_index v).isSome →
    mapFind dag'.subsplit_to_index v = mapFind dag.subsplit_to_index v
  visNew : ∀ v ∈ visited', v ∈ visited ∨ (createdIn dag' v ∧ ChildStar dag s v)
  postorder : ∀ i, dag.dag_nodes.length ≤ i → postOrderAt dag' i
  newStar : ∀ i, dag.dag_nodes.length ≤ i → ∀ n, dag'.dag_nodes.get? i = some n →
    ChildStar dag s n.subsplit
  visNotOld : ∀ v ∈ visited', v ∈ visited ∨
    mapFind dag.subsplit_to_index v = none
  visParent : ∀ v ∈ visited', v ∈ visited ∨ v = s ∨
    ∃ p, p ∈ visited' ∧ childOfDFS dag p v
  newVis : ∀ i, dag.dag_nodes.length ≤ i → ∀ n,
    dag'.dag_nodes.get? i = some n → n.subsplit ∈ visited'

/-- The postcondition of a successful run of the children loop of
`buildNodesDepthFirst`, for a list of children whose bit counts are all below
the bound `B`. -/
structure BndfFoldPost (T B : Nat) (cs : List Bitset) (dag : GPDAG)
    (visited : List Bitset) (dag' : GPDAG) (visited' : List Bitset) : Prop where
  static : staticEq dag dag'
  nodesOK : NodesOK T dag'
  nodesPrefix : dag.dag_nodes <+: dag'.dag_nodes
  visMono : ∀ v ∈ visited, v ∈ visited'
  findMono : ∀ v, (mapFind dag.subsplit_to_index v).isSome →
    mapFind dag'.subsplit_to_index v = mapFind dag.subsplit_to_index v
  visNew : ∀ v ∈ visited', v ∈ visited ∨
    (createdIn dag' v ∧ ∃ c ∈ cs, ChildStar dag c v)
  postorder : ∀ i, dag.dag_nodes.length ≤ i → postOrderAt dag' i
  newStar : ∀ i, dag.dag_nodes.length ≤ i → ∀ n, dag'.dag_nodes.get? i = some n →
    ∃ c ∈ cs, ChildStar dag c n.subsplit
  allCreated : ∀ c ∈ cs, createdIn dag' c
  visBound : (∀ v ∈ visited, createdIn dag v ∨ B ≤ countTrue v) →
    ∀ v ∈ visited', createdIn dag' v ∨ B ≤ countTrue v
  visNotOld : ∀ v ∈ visited', v ∈ visited ∨
    mapFind dag.subsplit_to_index v = none
  visParent : ∀ v ∈ visited', v ∈ visited ∨ (∃ c ∈ cs, v = c) ∨
    ∃ p, p ∈ visited' ∧ childOfDFS dag p v
  newVis : ∀ i, dag.dag_nodes.length ≤ i → ∀ n,
    dag'.dag_nodes.get? i = some n → n.subsplit ∈ visited'


theorem staticEq_symm {d d' : GPDAG} (h : staticEq d d') : staticEq d' d := by
  obtain ⟨e1, e2, e3, e4, e5, e6, e7⟩ := h
  exact ⟨e1.symm, e2.symm, e3.symm, e4.symm, e5.symm, e6.symm, e7.symm⟩

theorem postOrderAt_of_ge {dag : GPDAG} {i : Nat}
    (h : dag.dag_nodes.length ≤ i) : postOrderAt dag i := by
  intro n hn
  rw [List.get?_eq_none.mpr h] at hn
  exact absurd hn (by simp)

theorem bndf_spec {T : Nat} :
    ∀ (fuel : Nat) (s : Bitset) (dag : GPDAG) (visited : List Bitset)
      (dag' : GPDAG) (visited' : List Bitset),
      buildNodesDepthFirst fuel s (dag, visited) = some (dag', visited') →
      StaticOK T dag → NodesOK T dag → s.length = 2 * T →
      (∀ v ∈ visited, createdIn dag v ∨ countTrue s < countTrue v) →
      BndfPost T s dag visited dag' visited' := by
  intro fuel
  induction fuel with
  | zero =>
    intro s dag visited dag' visited' h
    exact absurd h (by simp [buildNodesDepthFirst])
  | succ fuel ih =>
    have foldSpec : ∀ (B : Nat) (cs : List Bitset) (dag₀ : GPDAG)
        (vis₀ : List Bitset) (dag₁ : GPDAG) (vis₁ : List Bitset),
        foldlOpt
          (fun c st =>
            if c ∈ st.2 then some st else buildNodesDepthFirst fuel c st)
          cs (dag₀, vis₀) = some (dag₁, vis₁) →
        StaticOK T dag₀ → NodesOK T dag₀ →
        (∀ c ∈ cs, c.length = 2 * T ∧ countTrue c < B) →
        (∀ v ∈ vis₀, createdIn dag₀ v ∨ B ≤ countTrue v) →
        BndfFoldPost T B cs dag₀ vis₀ dag₁ vis₁ := by
      intro B cs
      induction cs with
      | nil =>
        intro dag₀ vis₀ dag₁ vis₁ h hst hok hcs hvis
        simp only [foldlOpt_nil, Option.some.injEq, Prod.mk.injEq] at h
        obtain ⟨h1, h2⟩ := h
        subst h1
        subst h2
        refine ⟨staticEq_refl _, hok, List.prefix_refl _, fun v hv => hv,
          fun v hv => rfl, fun v hv => Or.inl hv, ?_, ?_, by simp, fun hb => hb,
          fun v hv => Or.inl hv, fun v hv => Or.inl hv, ?_⟩
        · intro i hi
          exact postOrderAt_of_ge hi
        · intro i hi n hn
          rw [List.get?_eq_none.mpr hi] at hn
          exact absurd hn (by simp)
        · intro i hi n hn
          rw [List.get?_eq_none.mpr hi] at hn
          exact absurd hn (by simp)
      | cons c cs ihc =>
        intro dag₀ vis₀ dag₁ vis₁ h hst hok hcs hvis
        simp only [foldlOpt_cons] at h
        by_cases hmem : c ∈ vis₀
        · simp only [hmem, if_true] at h
          have hcreated₀ : createdIn dag₀ c := by
            rcases hvis c hmem with hc | hc
            · exact hc
            · exact absurd hc (by have := (hcs c (by simp)).2; omega)
          have post := ihc dag₀ vis₀ dag₁ vis₁ h hst hok
            (fun x hx => hcs x (by simp [hx])) hvis
          refine ⟨post.static, post.nodesOK, post.nodesPrefix, post.visMono,
            post.findMono, ?_, post.postorder, ?_, ?_, post.visBound,
            post.visNotOld, ?_, post.newVis⟩
          · intro v hv
            rcases post.visNew v hv with h1 | ⟨h2, c', hc', hstar⟩
            · exact Or.inl h1
            · exact Or.inr ⟨h2, c', by simp [hc'], hstar⟩
          · intro i hi n hn
            obtain ⟨c', hc', hstar⟩ := post.newStar i hi n hn
            exact ⟨c', by simp [hc'], hstar⟩
          · intro x hx
            rcases List.mem_cons.mp hx with h1 | h2
            · subst h1
              exact createdIn_mono post.findMono hcreated₀
            · exact post.allCreated x h2
          · intro v hv
            rcases post.visParent v hv with h1 | ⟨c', hc', h2⟩ | h3
            · exact Or.inl h1
            · exact Or.inr (Or.inl ⟨c', by simp [hc'], h2⟩)
            · exact Or.inr (Or.inr h3)
        · simp only [hmem, if_false] at h
          cases hb : buildNodesDepthFirst fuel c (dag₀, vis₀) with
          | none => rw [hb] at h; simp at h
          | some stm =>
            rw [hb] at h
            obtain ⟨dagm, vism⟩ := stm
            have hclen := (hcs c (by simp)).1
            have hcB := (hcs c (by simp)).2
            have p1 := ih c dag₀ vis₀ dagm vism hb hst hok hclen
              (fun v hv => by
                rcases hvis v hv with h1 | h1
                · exact Or.inl h1
                · exact Or.inr (by omega))
            have hstm : StaticOK T dagm := StaticOK.of_staticEq p1.static hst
            have hvism : ∀ v ∈ vism, createdIn dagm v ∨ B ≤ countTrue v := by
              intro v hv
              rcases p1.visNew v hv with h1 | ⟨h2, _⟩
              · rcases hvis v h1 with h3 | h3
                · exact Or.inl (createdIn_mono p1.findMono h3)
                · exact Or.inr h3
              · exact Or.inl h2
            have p2 := ihc dagm vism dag₁ vis₁ h hstm p1.nodesOK
              (fun x hx => hcs x (by simp [hx])) hvism
            have hfind : ∀ v, (mapFind dag₀.subsplit_to_index v).isSome →
                mapFind dag₁.subsplit_to_index v =
                  mapFind dag₀.subsplit_to_index v := by
              intro v hv
              rw [p2.findMono v (by rw [p1.findMono v hv]; exact hv),
                p1.findMono v hv]
            refine ⟨staticEq_trans p1.static p2.static, p2.nodesOK,
              p1.nodesPrefix.trans p2.nodesPrefix,
              fun v hv => p2.visMono v (p1.visMono v hv), hfind,
              ?_, ?_, ?_, ?_, ?_, ?_, ?_, ?_⟩
            · intro v hv
              rcases p2.visNew v hv with h1 | ⟨h2, c', hc', hstar⟩
              · rcases p1.visNew v h1 with h3 | ⟨h4, hstar⟩
                · exact Or.inl h3
                · exact Or.inr ⟨createdIn_mono p2.findMono h4, c, by simp,
                    childStar_staticEq (staticEq_symm (staticEq_refl _)) hstar⟩
              · exact Or.inr ⟨h2, c', by simp [hc'],
                  childStar_staticEq (staticEq_symm p1.static) hstar⟩
            · intro i hi
              by_cases him : dagm.dag_nodes.length ≤ i
              · exact p2.postorder i him
              · have hi' : i < dagm.dag_nodes.length := by omega
                exact postOrderAt_mono p2.static p2.nodesPrefix p2.findMono hi'
                  (p1.postorder i hi)
            · intro i hi n hn
              by_cases him : dagm.dag_nodes.length ≤ i
              · obtain ⟨c', hc', hstar⟩ := p2.newStar i him n hn
                exact ⟨c', by simp [hc'],
                  childStar_staticEq (staticEq_symm p1.static) hstar⟩
              · have hi' : i < dagm.dag_nodes.length := by omega
                obtain ⟨t, ht⟩ := p2.nodesPrefix
                rw [← ht, List.get?_append hi'] at hn
                exact ⟨c, by simp, p1.newStar i hi n hn⟩
            · intro x hx
              rcases List.mem_cons.mp hx with h1 | h2
              · subst h1
                exact createdIn_mono p2.findMono p1.created
              · exact p2.allCreated x h2
            · intro hb' v hv
              exact p2.visBound hvism v hv
            · intro v hv
              rcases p2.visNotOld v hv with h1 | h1
              · rcases p1.visNotOld v h1 with h2 | h2
                · exact Or.inl h2
                · exact Or.inr h2
              · exact Or.inr (mapFind_none_mono p1.findMono h1)
            · intro v hv
              rcases p2.visParent v hv with h1 | ⟨c', hc', h2⟩ | ⟨p, hp, hpc⟩
              · rcases p1.visParent v h1 with h3 | h4 | ⟨p, hp, hpc⟩
                · exact Or.inl h3
                · exact Or.inr (Or.inl ⟨c, by simp, h4⟩)
                · exact Or.inr (Or.inr ⟨p, p2.visMono p hp, hpc⟩)
              · exact Or.inr (Or.inl ⟨c', by simp [hc'], h2⟩)
              · exact Or.inr (Or.inr
                  ⟨p, hp, (childOfDFS_staticEq p1.static).mp hpc⟩)
            · intro i hi n hn
              by_cases him : dagm.dag_nodes.length ≤ i
              · exact p2.newVis i him n hn
              · have hi' : i < dagm.dag_nodes.length := by omega
                obtain ⟨t, ht⟩ := p2.nodesPrefix
                rw [← ht, List.get?_append hi'] at hn
                exact p2.visMono _ (p1.newVis i hi n hn)
    intro s dag visited dag' visited' h hst hok hslen hpre
    unfold buildNodesDepthFirst at h
    simp only [Option.bind_eq_bind, Option.pure_def] at h
    rw [Option.bind_eq_some] at h
    obtain ⟨cs, hcs0, h⟩ := h
    rw [Option.bind_eq_some] at h
    obtain ⟨stm, hfold1, h⟩ := h
    rw [Option.bind_eq_some] at h
    obtain ⟨cs', hcs1, h⟩ := h
    rw [Option.bind_eq_some] at h
    obtain ⟨stn, hfold2, h⟩ := h
    rw [Option.bind_eq_some] at h
    obtain ⟨dagF, hcreate, h⟩ := h
    simp only [Option.some.injEq, Prod.mk.injEq] at h
    obtain ⟨hdF, hvF⟩ := h
    subst hdF
    obtain ⟨dagm, vism⟩ := stm
    obtain ⟨dagn, visn⟩ := stn
    subst hvF
    have hcsprop : ∀ c ∈ cs, c.length = 2 * T ∧ countTrue c < countTrue s :=
      fun c hc => hst.decr s cs hcs0 c hc
    have hpre₀ : ∀ v ∈ s :: visited, createdIn dag v ∨
        countTrue s ≤ countTrue v := by
      intro v hv
      rcases List.mem_cons.mp hv with h1 | h2
      · subst h1
        exact Or.inr (Nat.le_refl _)
      · rcases hpre v h2 with h3 | h3
        · exact Or.inl h3
        · exact Or.inr (Nat.le_of_lt h3)
    have p1 := foldSpec (countTrue s) cs dag (s :: visited) dagm vism hfold1
      hst hok hcsprop hpre₀
    have hstm : StaticOK T dagm := StaticOK.of_staticEq p1.static hst
    have hcs1' : getChildrenSubsplits dag (rotateSubsplit s) false = some cs' := by
      rw [← getChildrenSubsplits_staticEq p1.static]
      exact hcs1
    have hcsprop' : ∀ c ∈ cs', c.length = 2 * T ∧ countTrue c < countTrue s := by
      intro c hc
      have := hst.decr (rotateSubsplit s) cs' hcs1' c hc
      rwa [rotateSubsplit_countTrue] at this
    have p2 := foldSpec (countTrue s) cs' dagm vism dagn visn hfold2
      hstm p1.nodesOK hcsprop' (p1.visBound hpre₀)
    have hcreatespec := createAndInsertNode_spec hcreate p2.nodesOK hslen
    obtain ⟨cstatic, cok, cnodes, cnew, cnone, cfind⟩ := hcreatespec
    have hfindAll : ∀ v, (mapFind dag.subsplit_to_index v).isSome →
        mapFind dagF.subsplit_to_index v = mapFind dag.subsplit_to_index v := by
      intro v hv
      have h1 : (mapFind dagm.subsplit_to_index v).isSome := by
        rw [p1.findMono v hv]; exact hv
      have h2 : (mapFind dagn.subsplit_to_index v).isSome := by
        rw [p2.findMono v h1]; exact h1
      rw [cfind v h2, p2.findMono v h1, p1.findMono v hv]
    have hchildS : ∀ c ∈ cs, childOfDFS dag s c := fun c hc =>
      Or.inl ⟨cs, hcs0, hc⟩
    have hchildR : ∀ c ∈ cs', childOfDFS dag s c := fun c hc =>
      Or.inr ⟨cs', hcs1', hc⟩
    refine ⟨staticEq_trans (staticEq_trans p1.static p2.static) cstatic, cok,
      (p1.nodesPrefix.trans p2.nodesPrefix).trans ⟨_, cnodes.symm⟩,
      ?_, by simp [createdIn, cnew], hfindAll, ?_, ?_, ?_, ?_, ?_, ?_⟩
    · intro v hv
      exact p2.visMono v (p1.visMono v (by simp [hv]))
    · intro v hv
      rcases p2.visNew v hv with h1 | ⟨h2, c', hc', hstar⟩
      · rcases p1.visNew v h1 with h3 | ⟨h4, c0, hc0, hstar⟩
        · rcases List.mem_cons.mp h3 with h5 | h6
          · subst h5
            exact Or.inr ⟨by simp [createdIn, cnew], ChildStar.refl _⟩
          · exact Or.inl h6
        · refine Or.inr ⟨createdIn_mono cfind (createdIn_mono p2.findMono h4), ?_⟩
          exact childStar_trans
            (ChildStar.tail (ChildStar.refl s) (hchildS c0 hc0)) hstar
      · refine Or.inr ⟨createdIn_mono cfind h2, ?_⟩
        have hstar' : ChildStar dag c' v :=
          childStar_staticEq (staticEq_symm p1.static) hstar
        exact childStar_trans
          (ChildStar.tail (ChildStar.refl s) (hchildR c' hc')) hstar'
    · intro i hi
      have hlen1 : dag.dag_nodes.length ≤ dagm.dag_nodes.length :=
        p1.nodesPrefix.length_le
      have hlen2 : dagm.dag_nodes.length ≤ dagn.dag_nodes.length :=
        p2.nodesPrefix.length_le
      have hlenF : dagF.dag_nodes.length = dagn.dag_nodes.length + 1 := by
        rw [cnodes]
        simp
      by_cases hge : dagF.dag_nodes.length ≤ i
      · exact postOrderAt_of_ge hge
      · by_cases heq : i = dagn.dag_nodes.length
        · subst heq
          intro n hn c hc
          rw [cnodes, List.get?_concat_length] at hn
          simp only [Option.some.injEq] at hn
          subst hn
          have hc' : childOfDFS dag s c := by
            have := (childOfDFS_staticEq
              (staticEq_trans (staticEq_trans p1.static p2.static) cstatic)).mp hc
            simpa using this
          rcases hc' with ⟨cs₂, hcs₂, hcmem⟩ | ⟨cs₂, hcs₂, hcmem⟩
          · rw [hcs0] at hcs₂
            injection hcs₂ with hcs₂
            subst hcs₂
            have hcr := p1.allCreated c hcmem
            cases hq : mapFind dagm.subsplit_to_index c with
            | none =>
              unfold createdIn at hcr
              rw [hq] at hcr
              simp at hcr
            | some q =>
              have hqlt : q < dagm.dag_nodes.length :=
                createdIn_lt p1.nodesOK hq
              have hmid : mapFind dagn.subsplit_to_index c = some q := by
                rw [p2.findMono c (by simp [hq]), hq]
              refine ⟨q, ?_, by omega⟩
              rw [cfind c (by simp [hmid]), hmid]
          · rw [hcs1'] at hcs₂
            injection hcs₂ with hcs₂
            subst hcs₂
            have hcr := p2.allCreated c hcmem
            cases hq : mapFind dagn.subsplit_to_index c with
            | none =>
              unfold createdIn at hcr
              rw [hq] at hcr
              simp at hcr
            | some q =>
              have hqlt : q < dagn.dag_nodes.length :=
                createdIn_lt p2.nodesOK hq
              refine ⟨q, ?_, by omega⟩
              rw [cfind c (by simp [hq]), hq]
        · have hin : i < dagn.dag_nodes.length := by omega
          have hpartial : postOrderAt dagn i := by
            by_cases him : dagm.dag_nodes.length ≤ i
            · exact p2.postorder i him
            · exact postOrderAt_mono p2.static p2.nodesPrefix p2.findMono
                (by omega) (p1.postorder i hi)
          exact postOrderAt_mono cstatic ⟨_, cnodes.symm⟩ cfind hin hpartial
    · intro i hi n hn
      have hlen1 : dag.dag_nodes.length ≤ dagm.dag_nodes.length :=
        p1.nodesPrefix.length_le
      have hlen2 : dagm.dag_nodes.length ≤ dagn.dag_nodes.length :=
        p2.nodesPrefix.length_le
      by_cases hge : dagn.dag_nodes.length + 1 ≤ i
      · rw [cnodes] at hn
        rw [List.get?_eq_none.mpr (by simp; omega)] at hn
        exact absurd hn (by simp)
      · by_cases heq : i = dagn.dag_nodes.length
        · subst heq
          rw [cnodes, List.get?_concat_length] at hn
          simp only [Option.some.injEq] at hn
          subst hn
          exact ChildStar.refl s
        · have hin : i < dagn.dag_nodes.length := by omega
          rw [cnodes, List.get?_append hin] at hn
          by_cases him : dagm.dag_nodes.length ≤ i
          · obtain ⟨c', hc', hstar⟩ := p2.newStar i him n hn
            have hstar' : ChildStar dag c' n.subsplit :=
              childStar_staticEq (staticEq_symm p1.static) hstar
            exact childStar_trans
              (ChildStar.tail (ChildStar.refl s) (hchildR c' hc')) hstar'
          · have hi' : i < dagm.dag_nodes.length := by omega
            obtain ⟨t, ht⟩ := p2.nodesPrefix
            rw [← ht, List.get?_append hi'] at hn
            obtain ⟨c', hc', hstar⟩ := p1.newStar i hi n hn
            exact childStar_trans
              (ChildStar.tail (ChildStar.refl s) (hchildS c' hc')) hstar
    · intro v hv
      rcases p2.visNotOld v hv with h1 | h1
      · rcases p1.visNotOld v h1 with h2 | h2
        · rcases List.mem_cons.mp h2 with h3 | h4
          · subst h3
            exact Or.inr (mapFind_none_mono p1.findMono
              (mapFind_none_mono p2.findMono cnone))
          · exact Or.inl h4
        · exact Or.inr h2
      · exact Or.inr (mapFind_none_mono p1.findMono h1)
    · intro v hv
      rcases p2.visParent v hv with h1 | ⟨c', hc', h2⟩ | ⟨p, hp, hpc⟩
      · rcases p1.visParent v h1 with h3 | ⟨c0, hc0, h4⟩ | ⟨p, hp, hpc⟩
        · rcases List.mem_cons.mp h3 with h5 | h6
          · exact Or.inr (Or.inl h5)
          · exact Or.inl h6
        · refine Or.inr (Or.inr ⟨s, p2.visMono s (p1.visMono s (by simp)), ?_⟩)
          rw [h4]
          exact hchildS c0 hc0
        · exact Or.inr (Or.inr ⟨p, p2.visMono p hp, hpc⟩)
      · refine Or.inr (Or.inr ⟨s, p2.visMono s (p1.visMono s (by simp)), ?_⟩)
        rw [h2]
        exact hchildR c' hc'
      · exact Or.inr (Or.inr
          ⟨p, hp, (childOfDFS_staticEq p1.static).mp hpc⟩)
    · intro i hi n hn
      have hlen1 : dag.dag_nodes.length ≤ dagm.dag_nodes.length :=
        p1.nodesPrefix.length_le
      have hlen2 : dagm.dag_nodes.length ≤ dagn.dag_nodes.length :=
        p2.nodesPrefix.length_le
      by_cases hge : dagn.dag_nodes.length + 1 ≤ i
      · rw [cnodes] at hn
        rw [List.get?_eq_none.mpr (by simp; omega)] at hn
        exact absurd hn (by simp)
      · by_cases heq : i = dagn.dag_nodes.length
        · subst heq
          rw [cnodes, List.get?_concat_length] at hn
          simp only [Option.some.injEq] at hn
          subst hn
          exact p2.visMono s (p1.visMono s (by simp))
        · have hin : i < dagn.dag_nodes.length := by omega
          rw [cnodes, List.get?_append hin] at hn
          by_cases him : dagm.dag_nodes.length ≤ i
          · exact p2.newVis i him n hn
          · have hi' : i < dagm.dag_nodes.length := by omega
            obtain ⟨t, ht⟩ := p2.nodesPrefix
            rw [← ht, List.get?_append hi'] at hn
            exact p2.visMono _ (p1.newVis i hi n hn)

theorem mapFind_none_of_keys {α β : Type} [DecidableEq α]
    {m : List (α × β)} {key : α} (h : ∀ kv ∈ m, kv.1 ≠ key) :
    mapFind m key = none := by
  induction m with
  | nil => rfl
  | cons p rest ih =>
    obtain ⟨k, v⟩ := p
    have hk : k ≠ key := h (k, v) (by simp)
    simp only [mapFind, hk, if_false]
    exact ih (fun kv hkv => h kv (by simp [hkv]))

theorem lookupRange_append (m m₂ : List (Nat × Bitset)) :
    ∀ (s n : Nat) (ch : List Bitset), lookupRange m s n = some ch →
      lookupRange (m ++ m₂) s n = some ch := by
  intro s n
  induction n generalizing s with
  | zero => intro ch h; exact h
  | succ n ih =>
    intro ch h
    unfold lookupRange at h ⊢
    simp only [Option.bind_eq_bind, Option.pure_def] at h ⊢
    rw [Option.bind_eq_some] at h
    obtain ⟨c, hc, h⟩ := h
    rw [Option.bind_eq_some] at h
    obtain ⟨rest, hrest, h⟩ := h
    rw [Option.bind_eq_some]
    refine ⟨c, ?_, ?_⟩
    · rw [mapFind_append, hc]
    · rw [Option.bind_eq_some]
      exact ⟨rest, ih s.succ rest hrest, h⟩

/-- The inner loop of `ProcessTrees`: inserting a parent's children at
consecutive indices starting at `idx`. -/
theorem processTrees_inner (children : List Bitset) :
    ∀ (itc : List (Nat × Bitset)) (idx : Nat)
      (st' : List (Nat × Bitset) × Nat),
    foldlOpt
      (fun (child : Bitset) (st' : List (Nat × Bitset) × Nat) => do
        let (index_to_child, index) := st'
        let index_to_child ← safeInsert index_to_child index child
        pure (index_to_child, index + 1))
      children (itc, idx) = some st' →
    (∀ kv ∈ itc, kv.1 < idx) →
    st'.2 = idx + children.length ∧
    (∀ kv ∈ st'.1, kv.1 < st'.2) ∧
    (∃ m₂, st'.1 = itc ++ m₂) ∧
    lookupRange st'.1 idx children.length = some children := by
  induction children with
  | nil =>
    intro itc idx st' h hkeys
    simp only [foldlOpt_nil, Option.some.injEq] at h
    subst h
    exact ⟨rfl, by simpa using hkeys, ⟨[], by simp⟩, rfl⟩
  | cons c cs ih =>
    intro itc idx st' h hkeys
    rw [foldlOpt_cons] at h
    have hnone : mapFind itc idx = none :=
      mapFind_none_of_keys (fun kv hkv => Nat.ne_of_lt (hkeys kv hkv))
    have hstep : (do
        let (index_to_child, index) := (itc, idx)
        let index_to_child ← safeInsert index_to_child index c
        pure (index_to_child, index + 1) :
          Option (List (Nat × Bitset) × Nat)) =
        some (itc ++ [(idx, c)], idx + 1) := by
      simp [safeInsert, hnone]
    rw [hstep] at h
    have hkeys' : ∀ kv ∈ itc ++ [(idx, c)], kv.1 < idx + 1 := by
      intro kv hkv
      rcases List.mem_append.mp hkv with h1 | h2
      · exact Nat.lt_succ_of_lt (hkeys kv h1)
      · simp at h2
        subst h2
        exact Nat.lt_succ_self idx
    obtain ⟨hlen, hkeysOut, ⟨m₂, hm₂⟩, hrange⟩ := ih _ _ _ h hkeys'
    refine ⟨by simp [hlen]; omega, hkeysOut, ⟨(idx, c) :: m₂, by simp [hm₂]⟩, ?_⟩
    show lookupRange st'.1 idx (cs.length + 1) = some (c :: cs)
    unfold lookupRange
    simp only [Option.bind_eq_bind, Option.pure_def]
    rw [Option.bind_eq_some]
    refine ⟨c, ?_, ?_⟩
    · rw [hm₂, List.append_assoc, mapFind_append, hnone]
      simp [mapFind]
    · rw [Option.bind_eq_some]
      exact ⟨cs, hrange, rfl⟩

/-- The outer loop of `ProcessTrees`, generalized over a per-entry predicate
`Pred` on parent/children pairs. -/
theorem processTrees_outer (Pred : Bitset → List Bitset → Prop)
    (pcss : List (Bitset × List Bitset)) :
    ∀ (ptr : List (Bitset × (Nat × Nat))) (itc : List (Nat × Bitset))
      (idx : Nat) (st : List (Bitset × (Nat × Nat)) × List (Nat × Bitset) × Nat),
    foldlOpt
      (fun (pc : Bitset × List Bitset)
           (st : List (Bitset × (Nat × Nat)) × List (Nat × Bitset) × Nat) => do
        let (parent_to_range, index_to_child, index) := st
        let (parent, child_counter) := pc
        let parent_to_range ←
          safeInsert parent_to_range parent (index, index + child_counter.length)
        let st' ← foldlOpt
          (fun (child : Bitset) (st' : List (Nat × Bitset) × Nat) => do
            let (index_to_child, index) := st'
            let index_to_child ← safeInsert index_to_child index child
            pure (index_to_child, index + 1))
          child_counter (index_to_child, index)
        pure (parent_to_range, st'.1, st'.2))
      pcss (ptr, itc, idx) = some st →
    (∀ pc ∈ pcss, Pred pc.1 pc.2) →
    (∀ kv ∈ itc, kv.1 < idx) →
    (∀ p a b, mapFind ptr p = some (a, b) →
      ∃ ch, Pred p ch ∧ lookupRange itc a (b - a) = some ch) →
    (∀ p a b, mapFind st.1 p = some (a, b) →
      ∃ ch, Pred p ch ∧ lookupRange st.2.1 a (b - a) = some ch) := by
  induction pcss with
  | nil =>
    intro ptr itc idx st h hpred hkeys hmap
    simp only [foldlOpt_nil, Option.some.injEq] at h
    subst h
    exact hmap
  | cons pc pcss ih =>
    intro ptr itc idx st h hpred hkeys hmap
    obtain ⟨parent, ch⟩ := pc
    rw [foldlOpt_cons] at h
    cases hstep : (do
        let (parent_to_range, index_to_child, index) := (ptr, itc, idx)
        let (parent, child_counter) := (parent, ch)
        let parent_to_range ←
          safeInsert parent_to_range parent (index, index + child_counter.length)
        let st' ← foldlOpt
          (fun (child : Bitset) (st' : List (Nat × Bitset) × Nat) => do
            let (index_to_child, index) := st'
            let index_to_child ← safeInsert index_to_child index child
            pure (index_to_child, index + 1))
          child_counter (index_to_child, index)
        pure (parent_to_range, st'.1, st'.2) :
          Option (List (Bitset × (Nat × Nat)) × List (Nat × Bitset) × Nat)) with
    | none => rw [hstep] at h; exact absurd h (by simp)
    | some mid =>
      rw [hstep] at h
      simp only [Option.bind_eq_bind, Option.pure_def] at hstep
      rw [Option.bind_eq_some] at hstep
      obtain ⟨ptr', hptr', hstep⟩ := hstep
      rw [Option.bind_eq_some] at hstep
      obtain ⟨st'', hst'', hstep⟩ := hstep
      simp only [Option.some.injEq] at hstep
      obtain ⟨hp, hnone⟩ := safeInsert_some hptr'
      subst hp
      obtain ⟨hlen, hkeysOut, ⟨m₂, hm₂⟩, hrange⟩ :=
        processTrees_inner ch itc idx st'' hst'' hkeys
      subst hstep
      refine ih _ _ _ st h (fun x hx => hpred x (by simp [hx])) hkeysOut ?_
      intro p a b hfind
      rw [mapFind_append] at hfind
      cases hold : mapFind ptr p with
      | some r =>
        rw [hold] at hfind
        simp only [Option.some.injEq] at hfind
        subst hfind
        obtain ⟨ch₀, hch₀, hr₀⟩ := hmap p a b hold
        rw [hm₂]
        exact ⟨ch₀, hch₀, lookupRange_append itc m₂ a (b - a) ch₀ hr₀⟩
      | none =>
        rw [hold] at hfind
        simp only [mapFind] at hfind
        by_cases hpar : parent = p
        · rw [if_pos hpar] at hfind
          simp only [Option.some.injEq, Prod.mk.injEq] at hfind
          obtain ⟨ha, hb⟩ := hfind
          subst ha
          subst hb
          subst hpar
          refine ⟨ch, hpred (parent, ch) (by simp), ?_⟩
          have : idx + ch.length - idx = ch.length := by omega
          rw [this]
          exact hrange
        · rw [if_neg hpar] at hfind
          exact absurd hfind (by simp [mapFind])

/-- `NodesOK` for a DAG with no nodes. -/
theorem nodesOK_empty {T : Nat} {dag : GPDAG} (hn : dag.dag_nodes = [])
    (hs : dag.subsplit_to_index = []) : NodesOK T dag := by
  constructor
  · rw [hn, hs]; rfl
  · intro i h; rw [hn] at h; exact absurd h (by simp)
  · intro n h; rw [hn] at h; exact absurd h (by simp)
  · intro n h; rw [hn] at h; exact absurd h (by simp)
  · rw [hs]; exact List.nodup_nil

/-- Well-formedness of the harvested input: rootsplits are distinct and of
length `T`; parent subsplits are of length `2 * T`; every harvested child is
of length `2 * T` with strictly fewer set bits than its parent. -/
def InputWF (T : Nat) (rootsplitCounter : List Bitset)
    (pcssCounter : List (Bitset × List Bitset)) : Prop :=
  rootsplitCounter.Nodup ∧
  (∀ r ∈ rootsplitCounter, r.length = T ∧ bitsetAny r = true) ∧
  (∀ pc ∈ pcssCounter, pc.1.length = 2 * T ∧ pc.2.Nodup ∧
    ∀ c ∈ pc.2, c.length = 2 * T ∧ countTrue c < countTrue pc.1)

instance (T : Nat) (rc : List Bitset) (pcss : List (Bitset × List Bitset)) :
    Decidable (InputWF T rc pcss) := by
  unfold InputWF
  infer_instance

/-- Postcondition of `ProcessTrees`: the static fields are recorded, there are
no nodes yet, and the range maps encode exactly the harvested children. -/
theorem processTrees_spec {T : Nat} {rc : List Bitset}
    {pcss : List (Bitset × List Bitset)} {dag : GPDAG}
    (h : processTrees T rc pcss = some dag) (hwf : InputWF T rc pcss) :
    dag.taxon_count = T ∧ dag.rootsplits = rc ∧ dag.dag_nodes = [] ∧
    dag.subsplit_to_index = [] ∧
    (∀ p a b, mapFind dag.parent_to_range p = some (a, b) →
      ∃ ch, lookupRange dag.index_to_child a (b - a) = some ch ∧ ch.Nodup ∧
        ∀ c ∈ ch, c.length = 2 * T ∧ countTrue c < countTrue p) ∧
    StaticOK T dag ∧ NodesOK T dag := by
  unfold processTrees at h
  simp only [Option.bind_eq_bind, Option.pure_def] at h
  rw [Option.bind_eq_some] at h
  obtain ⟨st, hst, h⟩ := h
  simp only [Option.some.injEq] at h
  have hmap := processTrees_outer
    (fun p ch => p.length = 2 * T ∧ ch.Nodup ∧ ∀ c ∈ ch,
      c.length = 2 * T ∧ countTrue c < countTrue p)
    pcss [] [] rc.length st hst
    (fun pc hpc => hwf.2.2 pc hpc)
    (by intro kv hkv; exact absurd hkv (by simp))
    (by intro p a b hfind; exact absurd hfind (by simp [mapFind]))
  subst h
  refine ⟨rfl, rfl, rfl, rfl, ?_, ?_, nodesOK_empty rfl rfl⟩
  · intro p a b hfind
    obtain ⟨ch, ⟨hplen, hnd, hch⟩, hrange⟩ := hmap p a b hfind
    exact ⟨ch, hrange, hnd, hch⟩
  constructor
  · rfl
  · intro s cs hcs c hc
    unfold getChildrenSubsplits at hcs
    have hcs' : (match mapFind st.1 s with
        | some (start, stop) => lookupRange st.2.1 start (stop - start)
        | none => some []) = some cs := hcs
    split at hcs'
    · rename_i a b hfind
      obtain ⟨ch, ⟨hplen, hnd, hch⟩, hrange⟩ := hmap s a b hfind
      rw [hrange] at hcs'
      simp only [Option.some.injEq] at hcs'
      subst hcs'
      exact hch c hc
    · simp only [Option.some.injEq] at hcs'
      subst hcs'
      exact absurd hc (by simp)

theorem oneHot_length (T t : Nat) : (oneHot T t).length = T := by
  unfold oneHot
  simp

theorem fakeSubsplit_length (T t : Nat) : (fakeSubsplit T t).length = 2 * T := by
  unfold fakeSubsplit
  rw [List.length_append, List.length_replicate, oneHot_length]
  omega

theorem bitsetComplement_length (b : Bitset) :
    (bitsetComplement b).length = b.length := by
  unfold bitsetComplement
  simp

/-- The fake-leaf loop of `BuildNodes`: starting from a DAG whose node array
has length `a`, it appends the fake-leaf nodes for taxa `[a, a + n)` in
order. -/
theorem fakesLoop_spec {T : Nat} :
    ∀ (n a : Nat) (dag₀ dag₁ : GPDAG),
    foldlOpt
      (fun taxon_idx d =>
        createAndInsertNode d (fakeSubsplit d.taxon_count taxon_idx))
      (List.range' a n) dag₀ = some dag₁ →
    dag₀.taxon_count = T → NodesOK T dag₀ → dag₀.dag_nodes.length = a →
    staticEq dag₀ dag₁ ∧ NodesOK T dag₁ ∧ dag₀.dag_nodes <+: dag₁.dag_nodes ∧
    dag₁.dag_nodes.length = a + n ∧
    (∀ v, (mapFind dag₀.subsplit_to_index v).isSome →
      mapFind dag₁.subsplit_to_index v = mapFind dag₀.subsplit_to_index v) ∧
    (∀ t, a ≤ t → t < a + n →
      dag₁.dag_nodes.get? t = some
        { id := t, subsplit := fakeSubsplit T t, leafwardSorted := [],
          leafwardRotated := [], rootwardSorted := [],
          rootwardRotated := [] } ∧
      mapFind dag₁.subsplit_to_index (fakeSubsplit T t) = some t) := by
  intro n
  induction n with
  | zero =>
    intro a dag₀ dag₁ h htx hok hlen
    simp only [List.range'_zero, foldlOpt_nil, Option.some.injEq] at h
    subst h
    exact ⟨staticEq_refl _, hok, List.prefix_refl _, by omega,
      fun v hv => rfl, fun t ht1 ht2 => absurd ht2 (by omega)⟩
  | succ n ih =>
    intro a dag₀ dag₁ h htx hok hlen
    rw [List.range'_succ, foldlOpt_cons] at h
    cases hstep : createAndInsertNode dag₀ (fakeSubsplit dag₀.taxon_count a) with
    | none => rw [hstep] at h; exact absurd h (by simp)
    | some dagm =>
      rw [hstep] at h
      rw [htx] at hstep
      obtain ⟨cstatic, cok, cnodes, cfound, cnone, cfind⟩ :=
        createAndInsertNode_spec hstep hok (fakeSubsplit_length T a)
      have hmtx : dagm.taxon_count = T := cstatic.1.trans htx
      have hmlen : dagm.dag_nodes.length = a + 1 := by
        rw [cnodes]
        simp [hlen]
      obtain ⟨istatic, iok, iprefix, ilen, ifind, iget⟩ :=
        ih (a + 1) dagm dag₁ h hmtx cok hmlen
      refine ⟨staticEq_trans cstatic istatic, iok,
        List.IsPrefix.trans ⟨_, cnodes.symm⟩ iprefix,
        by omega, ?_, ?_⟩
      · intro v hv
        rw [ifind v (by rw [cfind v hv]; exact hv), cfind v hv]
      · intro t ht1 ht2
        by_cases hta : t = a
        · subst hta
          obtain ⟨tl, htl⟩ := iprefix
          constructor
          · subst hlen
            rw [← htl, List.get?_append (by omega), cnodes,
              List.get?_concat_length]
          · have hsome : (mapFind dagm.subsplit_to_index
                (fakeSubsplit T t)).isSome := by
              rw [hlen] at cfound
              rw [cfound]
              rfl
            rw [ifind _ hsome]
            rw [hlen] at cfound
            exact cfound
        · exact iget t (by omega) (by omega)

/-- The depth-first loop of `BuildNodes` over the rootsplits. -/
theorem rootsLoop_spec {T : Nat} (fuel : Nat) (roots : List Bitset) :
    ∀ (dag₀ : GPDAG) (vis₀ : List Bitset) (st : GPDAG × List Bitset),
    foldlOpt
      (fun rootsplit st =>
        buildNodesDepthFirst fuel (rootsplit ++ bitsetComplement rootsplit) st)
      roots (dag₀, vis₀) = some st →
    StaticOK T dag₀ → NodesOK T dag₀ →
    (∀ r ∈ roots, r.length = T) →
    (∀ v ∈ vis₀, createdIn dag₀ v) →
    staticEq dag₀ st.1 ∧ NodesOK T st.1 ∧ dag₀.dag_nodes <+: st.1.dag_nodes ∧
    (∀ v, (mapFind dag₀.subsplit_to_index v).isSome →
      mapFind st.1.subsplit_to_index v = mapFind dag₀.subsplit_to_index v) ∧
    (∀ r ∈ roots, createdIn st.1 (r ++ bitsetComplement r)) ∧
    (∀ v ∈ st.2, createdIn st.1 v) ∧
    (∀ i, dag₀.dag_nodes.length ≤ i → postOrderAt st.1 i) ∧
    (∀ i, dag₀.dag_nodes.length ≤ i → ∀ n, st.1.dag_nodes.get? i = some n →
      ∃ r ∈ roots, ChildStar dag₀ (r ++ bitsetComplement r) n.subsplit) ∧
    (∀ v ∈ vis₀, v ∈ st.2) ∧
    (∀ v ∈ st.2, v ∈ vis₀ ∨ mapFind dag₀.subsplit_to_index v = none) ∧
    (∀ v ∈ st.2, v ∈ vis₀ ∨ (∃ r ∈ roots, v = r ++ bitsetComplement r) ∨
      ∃ p, p ∈ st.2 ∧ childOfDFS dag₀ p v) ∧
    (∀ i, dag₀.dag_nodes.length ≤ i → ∀ n, st.1.dag_nodes.get? i = some n →
      n.subsplit ∈ st.2) := by
  induction roots with
  | nil =>
    intro dag₀ vis₀ st h hst hok hroots hvis
    simp only [foldlOpt_nil, Option.some.injEq] at h
    subst h
    refine ⟨staticEq_refl _, hok, List.prefix_refl _, fun v hv => rfl,
      by simp, hvis, fun i hi => postOrderAt_of_ge hi, ?_,
      fun v hv => hv, fun v hv => Or.inl hv, fun v hv => Or.inl hv, ?_⟩
    · intro i hi n hn
      rw [List.get?_eq_none.mpr hi] at hn
      exact absurd hn (by simp)
    · intro i hi n hn
      rw [List.get?_eq_none.mpr hi] at hn
      exact absurd hn (by simp)
  | cons r roots ihr =>
    intro dag₀ vis₀ st h hst hok hroots hvis
    rw [foldlOpt_cons] at h
    cases hstep : buildNodesDepthFirst fuel (r ++ bitsetComplement r)
        (dag₀, vis₀) with
    | none => rw [hstep] at h; exact absurd h (by simp)
    | some mid =>
      rw [hstep] at h
      obtain ⟨dagm, vism⟩ := mid
      have hrlen : (r ++ bitsetComplement r).length = 2 * T := by
        rw [List.length_append, bitsetComplement_length,
          hroots r (by simp)]
        omega
      have p1 := bndf_spec fuel (r ++ bitsetComplement r) dag₀ vis₀ dagm vism
        hstep hst hok hrlen
        (fun v hv => Or.inl (hvis v hv))
      have hvism : ∀ v ∈ vism, createdIn dagm v := by
        intro v hv
        rcases p1.visNew v hv with h1 | ⟨h2, _⟩
        · exact createdIn_mono p1.findMono (hvis v h1)
        · exact h2
      obtain ⟨istatic, iok, iprefix, ifind, iroots, ivis, ipost, istar,
          imono, inotold, iparent, invis⟩ :=
        ihr dagm vism st h (StaticOK.of_staticEq p1.static hst) p1.nodesOK
          (fun x hx => hroots x (by simp [hx])) hvism
      have hfind : ∀ v, (mapFind dag₀.subsplit_to_index v).isSome →
          mapFind st.1.subsplit_to_index v = mapFind dag₀.subsplit_to_index v := by
        intro v hv
        have hm := p1.findMono v hv
        rw [ifind v (by rw [hm]; exact hv), hm]
      have hlen1 : dag₀.dag_nodes.length ≤ dagm.dag_nodes.length :=
        p1.nodesPrefix.length_le
      refine ⟨staticEq_trans p1.static istatic, iok,
        p1.nodesPrefix.trans iprefix, hfind, ?_, ivis, ?_, ?_,
        fun v hv => imono v (p1.visMono v hv), ?_, ?_, ?_⟩
      · intro x hx
        rcases List.mem_cons.mp hx with h1 | h2
        · subst h1
          exact createdIn_mono ifind p1.created
        · exact iroots x h2
      · intro i hi
        by_cases him : dagm.dag_nodes.length ≤ i
        · exact ipost i him
        · have hi' : i < dagm.dag_nodes.length := by omega
          exact postOrderAt_mono istatic iprefix ifind hi'
            (p1.postorder i hi)
      · intro i hi n hn
        by_cases him : dagm.dag_nodes.length ≤ i
        · obtain ⟨r', hr', hstar⟩ := istar i him n hn
          exact ⟨r', by simp [hr'],
            childStar_staticEq (staticEq_symm p1.static) hstar⟩
        · have hi' : i < dagm.dag_nodes.length := by omega
          obtain ⟨tl, htl⟩ := iprefix
          rw [← htl, List.get?_append hi'] at hn
          exact ⟨r, by simp, p1.newStar i hi n hn⟩
      · intro v hv
        rcases inotold v hv with h1 | h1
        · rcases p1.visNotOld v h1 with h2 | h2
          · exact Or.inl h2
          · exact Or.inr h2
        · exact Or.inr (mapFind_none_mono p1.findMono h1)
      · intro v hv
        rcases iparent v hv with h1 | ⟨r', hr', h2⟩ | ⟨p, hp, hpc⟩
        · rcases p1.visParent v h1 with h3 | h4 | ⟨p, hp, hpc⟩
          · exact Or.inl h3
          · exact Or.inr (Or.inl ⟨r, by simp, h4⟩)
          · exact Or.inr (Or.inr ⟨p, imono p hp, hpc⟩)
        · exact Or.inr (Or.inl ⟨r', by simp [hr'], h2⟩)
        · exact Or.inr (Or.inr
            ⟨p, hp, (childOfDFS_staticEq p1.static).mp hpc⟩)
      · intro i hi n hn
        by_cases him : dagm.dag_nodes.length ≤ i
        · exact invis i him n hn
        · have hi' : i < dagm.dag_nodes.length := by omega
          obtain ⟨tl, htl⟩ := iprefix
          rw [← htl, List.get?_append hi'] at hn
          exact imono _ (p1.newVis i hi n hn)

/-- Postcondition of `BuildNodes` from an empty node array: the fake-leaf
nodes occupy ids `[0, T)`, every rootsplit's full subsplit is registered,
every real node is in post-order position, and every real node's subsplit is
depth-first reachable from some rootsplit. -/
theorem buildNodes_spec {T fuel : Nat} {dag₀ dag₁ : GPDAG}
    (h : buildNodes fuel dag₀ = some dag₁)
    (hst : StaticOK T dag₀) (hok : NodesOK T dag₀)
    (hempty : dag₀.dag_nodes = [])
    (hroots : ∀ r ∈ dag₀.rootsplits, r.length = T) :
    staticEq dag₀ dag₁ ∧ NodesOK T dag₁ ∧ T ≤ dag₁.dag_nodes.length ∧
    (∀ t, t < T → dag₁.dag_nodes.get? t = some
      { id := t, subsplit := fakeSubsplit T t, leafwardSorted := [],
        leafwardRotated := [], rootwardSorted := [],
        rootwardRotated := [] } ∧
      mapFind dag₁.subsplit_to_index (fakeSubsplit T t) = some t) ∧
    (∀ r ∈ dag₀.rootsplits, createdIn dag₁ (r ++ bitsetComplement r)) ∧
    (∀ i, T ≤ i → postOrderAt dag₁ i) ∧
    (∀ i, T ≤ i → ∀ n, dag₁.dag_nodes.get? i = some n →
      ∃ r ∈ dag₀.rootsplits,
        ChildStar dag₀ (r ++ bitsetComplement r) n.subsplit) ∧
    (∃ vis : List Bitset,
      (∀ i, T ≤ i → ∀ n, dag₁.dag_nodes.get? i = some n →
        n.subsplit ∈ vis) ∧
      (∀ v ∈ vis, (mapFind dag₁.subsplit_to_index v).isSome) ∧
      (∀ v ∈ vis, ∀ t, t < T → v ≠ fakeSubsplit T t) ∧
      (∀ v ∈ vis, (∃ r ∈ dag₀.rootsplits, v = r ++ bitsetComplement r) ∨
        ∃ p, p ∈ vis ∧ childOfDFS dag₁ p v)) := by
  unfold buildNodes at h
  simp only [Option.bind_eq_bind, Option.pure_def] at h
  rw [Option.bind_eq_some] at h
  obtain ⟨dagF, hF, h⟩ := h
  rw [Option.bind_eq_some] at h
  obtain ⟨st, hR, h⟩ := h
  simp only [Option.some.injEq] at h
  subst h
  rw [hst.taxon, List.range_eq_range'] at hF
  obtain ⟨fstatic, fok, fprefix, flen, ffind, fget⟩ :=
    fakesLoop_spec T 0 dag₀ dagF hF hst.taxon hok (by rw [hempty]; rfl)
  rw [fstatic.2.1] at hR
  obtain ⟨rstatic, rok, rprefix, rfind, rroots, rvis, rpost, rstar,
      rmono, rnotold, rparent, rnewvis⟩ :=
    rootsLoop_spec fuel dag₀.rootsplits dagF [] st hR
      (StaticOK.of_staticEq fstatic hst) fok hroots
      (by intro v hv; exact absurd hv (by simp))
  refine ⟨staticEq_trans fstatic rstatic, rok, ?_, ?_, rroots, ?_, ?_, ?_⟩
  · have := rprefix.length_le
    omega
  · intro t ht
    obtain ⟨hget, hfnd⟩ := fget t (by omega) (by omega)
    constructor
    · obtain ⟨tl, htl⟩ := rprefix
      rw [← htl, List.get?_append (by omega)]
      exact hget
    · rw [rfind _ (by rw [hfnd]; rfl)]
      exact hfnd
  · intro i hi
    exact rpost i (by omega)
  · intro i hi n hn
    obtain ⟨r, hr, hstar⟩ := rstar i (by omega) n hn
    exact ⟨r, hr, childStar_staticEq (staticEq_symm fstatic) hstar⟩
  · refine ⟨st.2, ?_, ?_, ?_, ?_⟩
    · intro i hi n hn
      exact rnewvis i (by omega) n hn
    · intro v hv
      exact rvis v hv
    · intro v hv t ht hveq
      rcases rnotold v hv with h1 | h1
      · exact absurd h1 (by simp)
      · rw [hveq, (fget t (by omega) (by omega)).2] at h1
        exact absurd h1 (by simp)
    · intro v hv
      rcases rparent v hv with h1 | h1 | ⟨p, hp, hpc⟩
      · exact absurd h1 (by simp)
      · exact Or.inl h1
      · exact Or.inr ⟨p, hp, (childOfDFS_staticEq rstatic).mpr hpc⟩

/-- A found index points at a node with that subsplit (generic form, not
requiring the adjacency lists to be empty). -/
theorem mapFind_sync_of {dag : GPDAG}
    (hsync : dag.subsplit_to_index =
      dag.dag_nodes.map (fun n => (n.subsplit, n.id)))
    (hids : ∀ i (h : i < dag.dag_nodes.length),
      (dag.dag_nodes.get ⟨i, h⟩).id = i)
    {v : Bitset} {q : Nat} (h : mapFind dag.subsplit_to_index v = some q) :
    ∃ hq : q < dag.dag_nodes.length,
      (dag.dag_nodes.get ⟨q, hq⟩).subsplit = v := by
  have hmem := mapFind_mem h
  rw [hsync] at hmem
  obtain ⟨n, hn, heq⟩ := List.mem_map.mp hmem
  obtain ⟨⟨i, hi⟩, hget⟩ := List.mem_iff_get.mp hn
  have hid := hids i hi
  rw [hget] at hid
  have hsub : n.subsplit = v := congrArg Prod.fst heq
  have hidq : n.id = q := congrArg Prod.snd heq
  refine ⟨by omega, ?_⟩
  have : (⟨q, by omega⟩ : Fin dag.dag_nodes.length) = ⟨i, hi⟩ := by
    apply Fin.ext
    simp
    omega
  rw [this, hget, hsub]

/-- Two subsplit keys mapping to the same node index are equal. -/
theorem mapFind_inj_of {dag : GPDAG}
    (hsync : dag.subsplit_to_index =
      dag.dag_nodes.map (fun n => (n.subsplit, n.id)))
    (hids : ∀ i (h : i < dag.dag_nodes.length),
      (dag.dag_nodes.get ⟨i, h⟩).id = i)
    {k₁ k₂ : Bitset} {q : Nat} (h₁ : mapFind dag.subsplit_to_index k₁ = some q)
    (h₂ : mapFind dag.subsplit_to_index k₂ = some q) : k₁ = k₂ := by
  obtain ⟨hq₁, he₁⟩ := mapFind_sync_of hsync hids h₁
  obtain ⟨hq₂, he₂⟩ := mapFind_sync_of hsync hids h₂
  rw [← he₁, ← he₂]

theorem oneHot_succ_zero (T : Nat) :
    oneHot (T + 1) 0 = true :: List.replicate T false := by
  unfold oneHot
  rw [List.range_succ_eq_map]
  simp [List.eq_replicate, List.map_map]

theorem oneHot_succ_succ (T t : Nat) :
    oneHot (T + 1) (t + 1) = false :: oneHot T t := by
  unfold oneHot
  rw [List.range_succ_eq_map]
  simp [List.map_map]

/-- A bit vector with exactly one set bit is a one-hot vector. -/
theorem eq_oneHot_of_count_one :
    ∀ (b : Bitset), b.count true = 1 →
      ∃ t, t < b.length ∧ b = oneHot b.length t := by
  intro b
  induction b with
  | nil => intro h; exact absurd h (by simp)
  | cons x xs ih =>
    intro h
    cases x with
    | true =>
      have hz : xs.count true = 0 := by
        rw [List.count_cons_self] at h
        omega
      have hrep : xs = List.replicate xs.length false := by
        rw [List.eq_replicate]
        refine ⟨rfl, ?_⟩
        intro a ha
        cases a with
        | false => rfl
        | true => exact absurd (List.count_pos_iff_mem.mpr ha) (by omega)
      refine ⟨0, by simp, ?_⟩
      rw [List.length_cons, oneHot_succ_zero]
      rw [← hrep]
    | false =>
      have hx : xs.count true = 1 := by
        rw [List.count_cons_of_ne (by simp)] at h
        exact h
      obtain ⟨t, ht, hxs⟩ := ih hx
      refine ⟨t + 1, by simp; omega, ?_⟩
      rw [List.length_cons, oneHot_succ_succ, ← hxs]

theorem splitChunk_one_length {T : Nat} {s : Bitset} (hlen : s.length = 2 * T) :
    (splitChunk s 1).length = T := by
  unfold splitChunk
  simp [hlen]
  omega

/-- The fake child produced by `GetChildrenSubsplits` is a fake-leaf subsplit
for some taxon. -/
theorem fake_child_eq {T : Nat} {s : Bitset} (hlen : s.length = 2 * T)
    (hc : (singletonOption (splitChunk s 1)).isSome) :
    ∃ t, t < T ∧
      List.replicate (s.length / 2) false ++ splitChunk s 1 =
        fakeSubsplit T t := by
  unfold singletonOption at hc
  by_cases hcount : (splitChunk s 1).count true = 1
  · obtain ⟨t, ht, hs⟩ := eq_oneHot_of_count_one _ hcount
    rw [splitChunk_one_length hlen] at ht hs
    refine ⟨t, ht, ?_⟩
    unfold fakeSubsplit
    rw [hs, hlen]
    have : 2 * T / 2 = T := by omega
    rw [this]
  · rw [if_neg hcount] at hc
    exact absurd hc (by simp)

/-- Looking up a list of subsplit keys (the per-child `subsplit_to_index_.at`
calls of `ConnectNodes`). -/
def mapFindAll (m : List (Bitset × Nat)) : List Bitset → Option (List Nat)
  | [] => some []
  | c :: cs => do
    let q ← mapFind m c
    let qs ← mapFindAll m cs
    pure (q :: qs)

theorem mapFindAll_mem {m : List (Bitset × Nat)} :
    ∀ {cs : List Bitset} {qs : List Nat}, mapFindAll m cs = some qs →
      ∀ c ∈ cs, ∃ q, mapFind m c = some q ∧ q ∈ qs := by
  intro cs
  induction cs with
  | nil => intro qs h c hc; exact absurd hc (by simp)
  | cons c₀ cs ih =>
    intro qs h c hc
    unfold mapFindAll at h
    simp only [Option.bind_eq_bind, Option.pure_def] at h
    rw [Option.bind_eq_some] at h
    obtain ⟨q₀, hq₀, h⟩ := h
    rw [Option.bind_eq_some] at h
    obtain ⟨qs', hqs', h⟩ := h
    simp only [Option.some.injEq] at h
    subst h
    rcases List.mem_cons.mp hc with h1 | h2
    · subst h1
      exact ⟨q₀, hq₀, by simp⟩
    · obtain ⟨q, hq, hm⟩ := ih hqs' c h2
      exact ⟨q, hq, by simp [hm]⟩

theorem mapFindAll_mem_rev {m : List (Bitset × Nat)} :
    ∀ {cs : List Bitset} {qs : List Nat}, mapFindAll m cs = some qs →
      ∀ q ∈ qs, ∃ c ∈ cs, mapFind m c = some q := by
  intro cs
  induction cs with
  | nil =>
    intro qs h q hq
    unfold mapFindAll at h
    simp only [Option.some.injEq] at h
    subst h
    exact absurd hq (by simp)
  | cons c₀ cs ih =>
    intro qs h q hq
    unfold mapFindAll at h
    simp only [Option.bind_eq_bind, Option.pure_def] at h
    rw [Option.bind_eq_some] at h
    obtain ⟨q₀, hq₀, h⟩ := h
    rw [Option.bind_eq_some] at h
    obtain ⟨qs', hqs', h⟩ := h
    simp only [Option.some.injEq] at h
    subst h
    rcases List.mem_cons.mp hq with h1 | h2
    · subst h1
      exact ⟨c₀, by simp, hq₀⟩
    · obtain ⟨c, hc, hm⟩ := ih hqs' q h2
      exact ⟨c, by simp [hc], hm⟩

theorem mapFindAll_total {m : List (Bitset × Nat)} :
    ∀ {cs : List Bitset}, (∀ c ∈ cs, (mapFind m c).isSome) →
      ∃ qs, mapFindAll m cs = some qs := by
  intro cs
  induction cs with
  | nil => intro h; exact ⟨[], rfl⟩
  | cons c₀ cs ih =>
    intro h
    obtain ⟨qs', hqs'⟩ := ih (fun c hc => h c (by simp [hc]))
    cases hq : mapFind m c₀ with
    | none =>
      have := h c₀ (by simp)
      rw [hq] at this
      exact absurd this (by simp)
    | some q₀ =>
      refine ⟨q₀ :: qs', ?_⟩
      unfold mapFindAll
      rw [hq, hqs']
      rfl

theorem mapFindAll_length {m : List (Bitset × Nat)} :
    ∀ {cs : List Bitset} {qs : List Nat}, mapFindAll m cs = some qs →
      qs.length = cs.length := by
  intro cs
  induction cs with
  | nil =>
    intro qs h
    unfold mapFindAll at h
    simp only [Option.some.injEq] at h
    subst h
    rfl
  | cons c₀ cs ih =>
    intro qs h
    unfold mapFindAll at h
    simp only [Option.bind_eq_bind, Option.pure_def] at h
    rw [Option.bind_eq_some] at h
    obtain ⟨q₀, hq₀, h⟩ := h
    rw [Option.bind_eq_some] at h
    obtain ⟨qs', hqs', h⟩ := h
    simp only [Option.some.injEq] at h
    subst h
    simp [ih hqs']

theorem mapFindAll_get {m : List (Bitset × Nat)} :
    ∀ {cs : List Bitset} {qs : List Nat}, mapFindAll m cs = some qs →
      ∀ j c, cs.get? j = some c → ∃ q, qs.get? j = some q ∧
        mapFind m c = some q := by
  intro cs
  induction cs with
  | nil => intro qs h j c hc; exact absurd hc (by simp)
  | cons c₀ cs ih =>
    intro qs h j c hc
    unfold mapFindAll at h
    simp only [Option.bind_eq_bind, Option.pure_def] at h
    rw [Option.bind_eq_some] at h
    obtain ⟨q₀, hq₀, h⟩ := h
    rw [Option.bind_eq_some] at h
    obtain ⟨qs', hqs', h⟩ := h
    simp only [Option.some.injEq] at h
    subst h
    cases j with
    | zero =>
      simp only [List.get?_cons_zero, Option.some.injEq] at hc
      subst hc
      exact ⟨q₀, rfl, hq₀⟩
    | succ j' =>
      simp only [List.get?_cons_succ] at hc
      obtain ⟨q, hq, hm⟩ := ih hqs' j' c hc
      exact ⟨q, by simpa using hq, hm⟩

theorem mapFindAll_nodup {m : List (Bitset × Nat)}
    (hinj : ∀ k₁ k₂ q, mapFind m k₁ = some q → mapFind m k₂ = some q →
      k₁ = k₂) :
    ∀ {cs : List Bitset} {qs : List Nat}, mapFindAll m cs = some qs →
      cs.Nodup → qs.Nodup := by
  intro cs
  induction cs with
  | nil =>
    intro qs h _
    unfold mapFindAll at h
    simp only [Option.some.injEq] at h
    subst h
    exact List.nodup_nil
  | cons c₀ cs ih =>
    intro qs h hnd
    unfold mapFindAll at h
    simp only [Option.bind_eq_bind, Option.pure_def] at h
    rw [Option.bind_eq_some] at h
    obtain ⟨q₀, hq₀, h⟩ := h
    rw [Option.bind_eq_some] at h
    obtain ⟨qs', hqs', h⟩ := h
    simp only [Option.some.injEq] at h
    subst h
    rw [List.nodup_cons] at hnd ⊢
    refine ⟨?_, ih hqs' hnd.2⟩
    intro hq₀mem
    obtain ⟨c, hc, hm⟩ := mapFindAll_mem_rev hqs' q₀ hq₀mem
    exact hnd.1 (by rw [hinj c₀ c q₀ hq₀ hm]; exact hc)

/-- The effect of one `ConnectNodes` iteration on the parent node. -/
def addLw (rotated : Bool) (n : GPDAGNode) (q : Nat) : GPDAGNode :=
  if rotated then n.addLeafwardRotated q else n.addLeafwardSorted q

/-- The effect of one `ConnectNodes` iteration on the child node. -/
def connectChildAdd (rotated : Bool) (n : GPDAGNode) (idx : Nat) : GPDAGNode :=
  if rotated then n.addRootwardRotated idx else n.addRootwardSorted idx

/-- The accumulated effect of a `ConnectNodes` call on the parent node. -/
def connectParentAdd (rotated : Bool) (n : GPDAGNode) (qs : List Nat) :
    GPDAGNode :=
  if rotated then { n with leafwardRotated := n.leafwardRotated ++ qs }
  else { n with leafwardSorted := n.leafwardSorted ++ qs }

theorem connectParentAdd_nil (rotated : Bool) (n : GPDAGNode) :
    connectParentAdd rotated n [] = n := by
  cases rotated <;> simp [connectParentAdd]

theorem connectParentAdd_cons (rotated : Bool) (n : GPDAGNode) (q : Nat)
    (qs : List Nat) :
    connectParentAdd rotated n (q :: qs) =
      connectParentAdd rotated (addLw rotated n q) qs := by
  cases rotated <;>
    simp [connectParentAdd, addLw, GPDAGNode.addLeafwardRotated,
      GPDAGNode.addLeafwardSorted]

/-- The children loop of `ConnectNodes`: the parent's oriented leafward list
is extended by the child ids in order, each child's oriented rootward list is
extended by the parent id, and nothing else changes. -/
theorem connectFold_spec (rotated : Bool) (idx : Nat) :
    ∀ (cs : List Bitset) (d d' : GPDAG) (qs : List Nat),
    foldlOpt
      (fun child_subsplit (d : GPDAG) => do
        let child_id ← mapFind d.subsplit_to_index child_subsplit
        if rotated then
          pure { d with dag_nodes :=
            (listModify (listModify d.dag_nodes idx (·.addLeafwardRotated child_id))
              child_id (·.addRootwardRotated idx)) }
        else
          pure { d with dag_nodes :=
            (listModify (listModify d.dag_nodes idx (·.addLeafwardSorted child_id))
              child_id (·.addRootwardSorted idx)) })
      cs d = some d' →
    mapFindAll d.subsplit_to_index cs = some qs →
    qs.Nodup → idx ∉ qs →
    d'.taxon_count = d.taxon_count ∧ d'.rootsplits = d.rootsplits ∧
    d'.parent_to_range = d.parent_to_range ∧
    d'.index_to_child = d.index_to_child ∧
    d'.subsplit_to_index = d.subsplit_to_index ∧
    d'.gpcsp_indexer = d.gpcsp_indexer ∧
    d'.subsplit_to_range = d.subsplit_to_range ∧
    d'.rootsplit_and_pcsp_count = d.rootsplit_and_pcsp_count ∧
    d'.dag_nodes.length = d.dag_nodes.length ∧
    (∀ j nj, d.dag_nodes.get? j = some nj →
      (j = idx →
        d'.dag_nodes.get? j = some (connectParentAdd rotated nj qs)) ∧
      (j ≠ idx → j ∈ qs →
        d'.dag_nodes.get? j = some (connectChildAdd rotated nj idx)) ∧
      (j ≠ idx → j ∉ qs → d'.dag_nodes.get? j = some nj)) := by
  intro cs
  induction cs with
  | nil =>
    intro d d' qs h hqs hnd hidx
    simp only [foldlOpt_nil, Option.some.injEq] at h
    subst h
    unfold mapFindAll at hqs
    simp only [Option.some.injEq] at hqs
    subst hqs
    refine ⟨rfl, rfl, rfl, rfl, rfl, rfl, rfl, rfl, rfl, ?_⟩
    intro j nj hj
    exact ⟨fun _ => by rw [hj, connectParentAdd_nil],
      fun _ hmem => absurd hmem (by simp), fun _ _ => hj⟩
  | cons c cs ih =>
    intro d d' qs h hqs hnd hidx
    unfold mapFindAll at hqs
    simp only [Option.bind_eq_bind, Option.pure_def] at hqs
    rw [Option.bind_eq_some] at hqs
    obtain ⟨q₀, hq₀, hqs⟩ := hqs
    rw [Option.bind_eq_some] at hqs
    obtain ⟨qs', hqs', hqs⟩ := hqs
    simp only [Option.some.injEq] at hqs
    subst hqs
    have hidx₀ : idx ≠ q₀ := by
      intro hcontra
      exact hidx (by simp [hcontra])
    have hidx' : idx ∉ qs' := fun hmem => hidx (by simp [hmem])
    rw [List.nodup_cons] at hnd
    rw [foldlOpt_cons] at h
    have hstep : (do
        let child_id ← mapFind d.subsplit_to_index c
        if rotated then
          pure { d with dag_nodes :=
            (listModify (listModify d.dag_nodes idx (·.addLeafwardRotated child_id))
              child_id (·.addRootwardRotated idx)) }
        else
          pure { d with dag_nodes :=
            (listModify (listModify d.dag_nodes idx (·.addLeafwardSorted child_id))
              child_id (·.addRootwardSorted idx)) } : Option GPDAG) =
        some { d with dag_nodes :=
          (listModify (listModify d.dag_nodes idx (fun n => addLw rotated n q₀))
            q₀ (fun n => connectChildAdd rotated n idx)) } := by
      cases rotated <;>
        simp [hq₀, addLw, connectChildAdd]
    rw [hstep] at h
    obtain ⟨e1, e2, e3, e4, e5, e6, e7, e8, hlen, hget⟩ :=
      ih _ d' qs' h hqs' hnd.2 hidx'
    have hmidlen : (listModify
        (listModify d.dag_nodes idx (fun n => addLw rotated n q₀))
        q₀ (fun n => connectChildAdd rotated n idx)).length =
        d.dag_nodes.length := by
      rw [listModify_length, listModify_length]
    refine ⟨e1, e2, e3, e4, e5, e6, e7, e8, by rw [hlen]; exact hmidlen, ?_⟩
    intro j nj hj
    refine ⟨?_, ?_, ?_⟩
    · intro hji
      rw [hji] at hj ⊢
      have hmid : (listModify
          (listModify d.dag_nodes idx (fun n => addLw rotated n q₀))
          q₀ (fun n => connectChildAdd rotated n idx)).get? idx =
          some (addLw rotated nj q₀) := by
        rw [listModify_get?_ne _ _ _ _ (by omega), listModify_get?_eq, hj]
        rfl
      have := (hget idx (addLw rotated nj q₀) hmid).1 rfl
      rw [this, connectParentAdd_cons]
    · intro hji hmem
      rcases List.mem_cons.mp hmem with h1 | h2
      · rw [h1] at hj ⊢
        have hmid : (listModify
            (listModify d.dag_nodes idx (fun n => addLw rotated n q₀))
            q₀ (fun n => connectChildAdd rotated n idx)).get? q₀ =
            some (connectChildAdd rotated nj idx) := by
          rw [listModify_get?_eq, listModify_get?_ne _ _ _ _ (by omega), hj]
          rfl
        exact (hget q₀ (connectChildAdd rotated nj idx) hmid).2.2
          (by omega) hnd.1
      · have hjq : j ≠ q₀ := by
          intro hc
          subst hc
          exact hnd.1 h2
        have hmid : (listModify
            (listModify d.dag_nodes idx (fun n => addLw rotated n q₀))
            q₀ (fun n => connectChildAdd rotated n idx)).get? j = some nj := by
          rw [listModify_get?_ne _ _ _ _ (by omega),
            listModify_get?_ne _ _ _ _ (by omega), hj]
        exact (hget j nj hmid).2.1 hji h2
    · intro hji hmem
      have hjq : j ≠ q₀ := by
        intro hc
        exact hmem (by simp [hc])
      have hmem' : j ∉ qs' := fun hc => hmem (by simp [hc])
      have hmid : (listModify
          (listModify d.dag_nodes idx (fun n => addLw rotated n q₀))
          q₀ (fun n => connectChildAdd rotated n idx)).get? j = some nj := by
        rw [listModify_get?_ne _ _ _ _ (by omega),
          listModify_get?_ne _ _ _ _ (by omega), hj]
      exact (hget j nj hmid).2.2 hji hmem'

/-- `GPDAG::ConnectNodes`, characterized.  The conclusions are those of the
children loop. -/
theorem connectNodes_spec {dag dag' : GPDAG} {idx : Nat} {rotated : Bool}
    {node : GPDAGNode} {cs : List Bitset} {qs : List Nat}
    (h : connectNodes dag idx rotated = some dag')
    (hnode : dag.dag_nodes.get? idx = some node)
    (hcs : getChildrenSubsplits dag (node.getBitset rotated) true = some cs)
    (hqs : mapFindAll dag.subsplit_to_index cs = some qs)
    (hnd : qs.Nodup) (hidx : idx ∉ qs) :
    dag'.taxon_count = dag.taxon_count ∧ dag'.rootsplits = dag.rootsplits ∧
    dag'.parent_to_range = dag.parent_to_range ∧
    dag'.index_to_child = dag.index_to_child ∧
    dag'.subsplit_to_index = dag.subsplit_to_index ∧
    dag'.gpcsp_indexer = dag.gpcsp_indexer ∧
    dag'.subsplit_to_range = dag.subsplit_to_range ∧
    dag'.rootsplit_and_pcsp_count = dag.rootsplit_and_pcsp_count ∧
    dag'.dag_nodes.length = dag.dag_nodes.length ∧
    (∀ j nj, dag.dag_nodes.get? j = some nj →
      (j = idx →
        dag'.dag_nodes.get? j = some (connectParentAdd rotated nj qs)) ∧
      (j ≠ idx → j ∈ qs →
        dag'.dag_nodes.get? j = some (connectChildAdd rotated nj idx)) ∧
      (j ≠ idx → j ∉ qs → dag'.dag_nodes.get? j = some nj)) := by
  unfold connectNodes at h
  simp only [Option.bind_eq_bind, Option.pure_def] at h
  rw [Option.bind_eq_some] at h
  obtain ⟨node', hnode', h⟩ := h
  rw [hnode] at hnode'
  simp only [Option.some.injEq] at hnode'
  subst hnode'
  rw [Option.bind_eq_some] at h
  obtain ⟨cs', hcs', h⟩ := h
  rw [hcs] at hcs'
  simp only [Option.some.injEq] at hcs'
  subst hcs'
  exact connectFold_spec rotated idx cs dag dag' qs h hqs hnd hidx

/-- `GetChildrenSubsplits` always succeeds when every recorded parent range
can be resolved. -/
theorem getChildrenSubsplits_total {dag : GPDAG}
    (hr : ∀ p a b, mapFind dag.parent_to_range p = some (a, b) →
      ∃ ch, lookupRange dag.index_to_child a (b - a) = some ch)
    (s : Bitset) (b : Bool) : ∃ cs, getChildrenSubsplits dag s b = some cs := by
  cases hfind : mapFind dag.parent_to_range s with
  | some r =>
    obtain ⟨a', b'⟩ := r
    obtain ⟨ch, hch⟩ := hr s a' b' hfind
    refine ⟨ch, ?_⟩
    unfold getChildrenSubsplits
    rw [hfind]
    exact hch
  | none =>
    unfold getChildrenSubsplits
    rw [hfind]
    cases b with
    | false => exact ⟨[], rfl⟩
    | true =>
      by_cases hg : bitsetAny (splitChunk s 0) &&
          (singletonOption (splitChunk s 1)).isSome
      · exact ⟨[List.replicate (s.length / 2) false ++ splitChunk s 1],
          by simp [hg]⟩
      · exact ⟨[], by simp [hg]⟩

/-- The invariant of the `BuildEdges` loop after the parents `[T, i)` have
been connected. -/
structure EdgeState (T : Nat) (dagN : GPDAG) (i : Nat) (d : GPDAG) :
    Prop where
  static : d.taxon_count = dagN.taxon_count ∧ d.rootsplits = dagN.rootsplits ∧
    d.parent_to_range = dagN.parent_to_range ∧
    d.index_to_child = dagN.index_to_child ∧
    d.subsplit_to_index = dagN.subsplit_to_index ∧
    d.gpcsp_indexer = dagN.gpcsp_indexer ∧
    d.subsplit_to_range = dagN.subsplit_to_range ∧
    d.rootsplit_and_pcsp_count = dagN.rootsplit_and_pcsp_count
  len : d.dag_nodes.length = dagN.dag_nodes.length
  base : ∀ j nj n0, d.dag_nodes.get? j = some nj →
    dagN.dag_nodes.get? j = some n0 →
    nj.id = n0.id ∧ nj.subsplit = n0.subsplit
  lwUnproc : ∀ j nj, d.dag_nodes.get? j = some nj → (j < T ∨ i ≤ j) →
    nj.leafwardSorted = [] ∧ nj.leafwardRotated = []
  lwDone : ∀ j nj, d.dag_nodes.get? j = some nj → T ≤ j → j < i →
    (∃ cs qs, getChildrenSubsplits d nj.subsplit true = some cs ∧
      mapFindAll d.subsplit_to_index cs = some qs ∧
      nj.leafwardSorted = qs) ∧
    (∃ cs qs,
      getChildrenSubsplits d (rotateSubsplit nj.subsplit) true = some cs ∧
      mapFindAll d.subsplit_to_index cs = some qs ∧
      nj.leafwardRotated = qs)
  rootward : ∀ j nj, d.dag_nodes.get? j = some nj →
    (∀ w ∈ nj.rootwardSorted, T ≤ w ∧ j < w ∧ w < i ∧
      ∃ nw, d.dag_nodes.get? w = some nw ∧ j ∈ nw.leafwardSorted) ∧
    (∀ w ∈ nj.rootwardRotated, T ≤ w ∧ j < w ∧ w < i ∧
      ∃ nw, d.dag_nodes.get? w = some nw ∧ j ∈ nw.leafwardRotated)

/-- The children of one orientation of a connected parent: the id lookups all
succeed, give distinct ids, and every id is below the parent's. -/
theorem connect_children_props {T : Nat} {dagN d : GPDAG} {i : Nat}
    {n0 : GPDAGNode} (hok : NodesOK T dagN)
    (hpost : postOrderAt dagN i)
    (hr : ∀ p a b, mapFind dagN.parent_to_range p = some (a, b) →
      ∃ ch, lookupRange dagN.index_to_child a (b - a) = some ch ∧ ch.Nodup ∧
        ∀ c ∈ ch, c.length = 2 * T ∧ countTrue c < countTrue p)
    (hfake : ∀ t, t < T →
      mapFind dagN.subsplit_to_index (fakeSubsplit T t) = some t)
    (hpr : d.parent_to_range = dagN.parent_to_range)
    (hic : d.index_to_child = dagN.index_to_child)
    (hsi : d.subsplit_to_index = dagN.subsplit_to_index)
    (hn0 : dagN.dag_nodes.get? i = some n0)
    (hT : T ≤ i) (rotated : Bool) {cs : List Bitset}
    (hcs : getChildrenSubsplits d
      (if rotated then rotateSubsplit n0.subsplit else n0.subsplit) true =
        some cs) :
    ∃ qs, mapFindAll d.subsplit_to_index cs = some qs ∧ qs.Nodup ∧
      ∀ q ∈ qs, q < i := by
  have hlen2T : n0.subsplit.length = 2 * T :=
    hok.len2T n0 (List.get?_mem hn0)
  have hckey : (∀ c ∈ cs, ∃ q,
      mapFind dagN.subsplit_to_index c = some q ∧ q < i) ∧ cs.Nodup := by
    unfold getChildrenSubsplits at hcs
    rw [hpr, hic] at hcs
    cases hfind : mapFind dagN.parent_to_range
        (if rotated then rotateSubsplit n0.subsplit else n0.subsplit) with
    | some r =>
      obtain ⟨a, b⟩ := r
      rw [hfind] at hcs
      have hcs2 : lookupRange dagN.index_to_child a (b - a) = some cs := hcs
      obtain ⟨ch, hch, hchnd, hchp⟩ := hr _ a b hfind
      rw [hcs2] at hch
      simp only [Option.some.injEq] at hch
      subst hch
      refine ⟨?_, hchnd⟩
      intro c hc
      have hchild : childOfDFS dagN n0.subsplit c := by
        cases rotated with
        | false =>
          refine Or.inl ⟨cs, ?_, hc⟩
          unfold getChildrenSubsplits
          rw [if_neg (by simp)] at hfind
          rw [hfind]
          exact hcs2
        | true =>
          refine Or.inr ⟨cs, ?_, hc⟩
          unfold getChildrenSubsplits
          rw [if_pos rfl] at hfind
          rw [hfind]
          exact hcs2
      exact hpost n0 hn0 c hchild
    | none =>
      rw [hfind] at hcs
      set s' := if rotated then rotateSubsplit n0.subsplit else n0.subsplit
        with hs'
      have hslen : s'.length = 2 * T := by
        cases rotated with
        | false => simpa [hs'] using hlen2T
        | true =>
          rw [hs']
          simp only [if_true]
          rw [rotateSubsplit_length]
          exact hlen2T
      have hcs3 : (if bitsetAny (splitChunk s' 0) &&
          (singletonOption (splitChunk s' 1)).isSome then
          some [List.replicate (s'.length / 2) false ++ splitChunk s' 1]
        else some ([] : List Bitset)) = some cs := hcs
      by_cases hg : (bitsetAny (splitChunk s' 0) &&
          (singletonOption (splitChunk s' 1)).isSome) = true
      · rw [if_pos hg] at hcs3
        simp only [Option.some.injEq] at hcs3
        subst hcs3
        refine ⟨?_, by simp⟩
        intro c hc
        simp only [List.mem_singleton] at hc
        subst hc
        obtain ⟨t, ht, hfc⟩ := fake_child_eq hslen
          (by
            have := hg
            rw [Bool.and_eq_true] at this
            exact this.2)
        rw [hfc]
        exact ⟨t, hfake t ht, by omega⟩
      · rw [if_neg hg] at hcs3
        simp only [Option.some.injEq] at hcs3
        subst hcs3
        exact ⟨fun c hc => absurd hc (by simp), by simp⟩
  obtain ⟨qs, hqs⟩ :=
    (mapFindAll_total (fun c hc => by
      obtain ⟨q, hq, _⟩ := hckey.1 c hc
      rw [hq]
      rfl) :
      ∃ qs, mapFindAll dagN.subsplit_to_index cs = some qs)
  refine ⟨qs, by rw [hsi]; exact hqs, ?_, ?_⟩
  · exact mapFindAll_nodup
      (fun k₁ k₂ q h₁ h₂ => mapFind_inj_of hok.sync hok.ids h₁ h₂)
      hqs hckey.2
  · intro q hq
    obtain ⟨c, hc, hm⟩ := mapFindAll_mem_rev hqs q hq
    obtain ⟨q', hq', hlt⟩ := hckey.1 c hc
    rw [hm] at hq'
    simp only [Option.some.injEq] at hq'
    omega

theorem connectParentAdd_keep (rotated : Bool) (n : GPDAGNode)
    (qs : List Nat) :
    (connectParentAdd rotated n qs).id = n.id ∧
    (connectParentAdd rotated n qs).subsplit = n.subsplit ∧
    (connectParentAdd rotated n qs).rootwardSorted = n.rootwardSorted ∧
    (connectParentAdd rotated n qs).rootwardRotated = n.rootwardRotated := by
  cases rotated <;> simp [connectParentAdd]

theorem connectChildAdd_keep (rotated : Bool) (n : GPDAGNode) (idx : Nat) :
    (connectChildAdd rotated n idx).id = n.id ∧
    (connectChildAdd rotated n idx).subsplit = n.subsplit ∧
    (connectChildAdd rotated n idx).leafwardSorted = n.leafwardSorted ∧
    (connectChildAdd rotated n idx).leafwardRotated = n.leafwardRotated := by
  cases rotated <;>
    simp [connectChildAdd, GPDAGNode.addRootwardRotated,
      GPDAGNode.addRootwardSorted]

/-- One iteration of the `BuildEdges` loop (both orientations of parent `i`)
advances the invariant. -/
theorem buildEdges_step {T : Nat} {dagN d dmid d' : GPDAG} {i : Nat}
    (hok : NodesOK T dagN)
    (hpost : postOrderAt dagN i)
    (hr : ∀ p a b, mapFind dagN.parent_to_range p = some (a, b) →
      ∃ ch, lookupRange dagN.index_to_child a (b - a) = some ch ∧ ch.Nodup ∧
        ∀ c ∈ ch, c.length = 2 * T ∧ countTrue c < countTrue p)
    (hfake : ∀ t, t < T →
      mapFind dagN.subsplit_to_index (fakeSubsplit T t) = some t)
    (hes : EdgeState T dagN i d)
    (hT : T ≤ i) (hiN : i < dagN.dag_nodes.length)
    (h1 : connectNodes d i false = some dmid)
    (h2 : connectNodes dmid i true = some d') :
    EdgeState T dagN (i + 1) d' := by
  have hdlen0 := hes.len
  obtain ⟨n0, hn0⟩ : ∃ n0, dagN.dag_nodes.get? i = some n0 := by
    rw [List.get?_eq_get hiN]
    exact ⟨_, rfl⟩
  obtain ⟨nd, hnd⟩ : ∃ nd, d.dag_nodes.get? i = some nd := by
    rw [List.get?_eq_get (by omega : i < d.dag_nodes.length)]
    exact ⟨_, rfl⟩
  have hbase := hes.base i nd n0 hnd hn0
  have hndlw := hes.lwUnproc i nd hnd (Or.inr (Nat.le_refl i))
  have hrd : ∀ p a b, mapFind d.parent_to_range p = some (a, b) →
      ∃ ch, lookupRange d.index_to_child a (b - a) = some ch := by
    intro p a b hfind
    rw [hes.static.2.2.1] at hfind
    obtain ⟨ch, hch, _, _⟩ := hr p a b hfind
    rw [hes.static.2.2.2.1]
    exact ⟨ch, hch⟩
  obtain ⟨cs₁, hcs₁⟩ := getChildrenSubsplits_total hrd nd.subsplit true
  have hcs₁' : getChildrenSubsplits d (nd.getBitset false) true = some cs₁ := by
    unfold GPDAGNode.getBitset
    simpa using hcs₁
  obtain ⟨qs₁, hqs₁, hnd₁, hb₁⟩ := connect_children_props hok hpost hr hfake
    hes.static.2.2.1 hes.static.2.2.2.1 hes.static.2.2.2.2.1 hn0 hT false
    (by rw [hbase.2] at hcs₁; exact hcs₁)
  have hi₁ : i ∉ qs₁ := fun hmem => by have := hb₁ i hmem; omega
  obtain ⟨e1a, e2a, e3a, e4a, e5a, e6a, e7a, e8a, hlenA, hget1⟩ :=
    connectNodes_spec h1 hnd hcs₁' hqs₁ hnd₁ hi₁
  have hmidnode : dmid.dag_nodes.get? i =
      some (connectParentAdd false nd qs₁) := (hget1 i nd hnd).1 rfl
  have hmidstatic : dmid.parent_to_range = dagN.parent_to_range ∧
      dmid.index_to_child = dagN.index_to_child ∧
      dmid.subsplit_to_index = dagN.subsplit_to_index :=
    ⟨e3a.trans hes.static.2.2.1, e4a.trans hes.static.2.2.2.1,
      e5a.trans hes.static.2.2.2.2.1⟩
  have hrdm : ∀ p a b, mapFind dmid.parent_to_range p = some (a, b) →
      ∃ ch, lookupRange dmid.index_to_child a (b - a) = some ch := by
    intro p a b hfind
    rw [hmidstatic.1] at hfind
    obtain ⟨ch, hch, _, _⟩ := hr p a b hfind
    rw [hmidstatic.2.1]
    exact ⟨ch, hch⟩
  obtain ⟨cs₂, hcs₂⟩ := getChildrenSubsplits_total hrdm
    (rotateSubsplit nd.subsplit) true
  have hcs₂' : getChildrenSubsplits dmid
      ((connectParentAdd false nd qs₁).getBitset true) true = some cs₂ := by
    unfold GPDAGNode.getBitset
    simpa [(connectParentAdd_keep false nd qs₁).2.1] using hcs₂
  obtain ⟨qs₂, hqs₂, hnd₂, hb₂⟩ := connect_children_props hok hpost hr hfake
    hmidstatic.1 hmidstatic.2.1 hmidstatic.2.2 hn0 hT true
    (by rw [hbase.2] at hcs₂; exact hcs₂)
  have hi₂ : i ∉ qs₂ := fun hmem => by have := hb₂ i hmem; omega
  obtain ⟨e1b, e2b, e3b, e4b, e5b, e6b, e7b, e8b, hlenB, hget2⟩ :=
    connectNodes_spec h2 hmidnode hcs₂' hqs₂ hnd₂ hi₂
  have hpt : ∀ j nj, d.dag_nodes.get? j = some nj →
      ∃ nj', d'.dag_nodes.get? j = some nj' ∧ nj'.id = nj.id ∧
        nj'.subsplit = nj.subsplit ∧
        nj'.leafwardSorted =
          (if j = i then nj.leafwardSorted ++ qs₁ else nj.leafwardSorted) ∧
        nj'.leafwardRotated =
          (if j = i then nj.leafwardRotated ++ qs₂ else nj.leafwardRotated) ∧
        nj'.rootwardSorted =
          (if j ∈ qs₁ then nj.rootwardSorted ++ [i] else nj.rootwardSorted) ∧
        nj'.rootwardRotated =
          (if j ∈ qs₂ then nj.rootwardRotated ++ [i]
           else nj.rootwardRotated) := by
    intro j nj hj
    by_cases hji : j = i
    · have hjq₁ : j ∉ qs₁ := by rw [hji]; exact hi₁
      have hjq₂ : j ∉ qs₂ := by rw [hji]; exact hi₂
      have hm : dmid.dag_nodes.get? j =
          some (connectParentAdd false nj qs₁) := (hget1 j nj hj).1 hji
      have hf : d'.dag_nodes.get? j =
          some (connectParentAdd true (connectParentAdd false nj qs₁) qs₂) :=
        (hget2 j (connectParentAdd false nj qs₁) hm).1 hji
      refine ⟨_, hf, ?_, ?_, ?_, ?_, ?_, ?_⟩ <;>
        simp [connectParentAdd, hji, hi₁, hi₂]
    · by_cases hq1 : j ∈ qs₁
      · have hm : dmid.dag_nodes.get? j =
            some (connectChildAdd false nj i) := (hget1 j nj hj).2.1 hji hq1
        by_cases hq2 : j ∈ qs₂
        · have hf : d'.dag_nodes.get? j =
              some (connectChildAdd true (connectChildAdd false nj i) i) :=
            (hget2 j (connectChildAdd false nj i) hm).2.1 hji hq2
          refine ⟨_, hf, ?_, ?_, ?_, ?_, ?_, ?_⟩ <;>
            simp [connectChildAdd, GPDAGNode.addRootwardSorted,
              GPDAGNode.addRootwardRotated, hji, hq1, hq2]
        · have hf : d'.dag_nodes.get? j =
              some (connectChildAdd false nj i) :=
            (hget2 j (connectChildAdd false nj i) hm).2.2 hji hq2
          refine ⟨_, hf, ?_, ?_, ?_, ?_, ?_, ?_⟩ <;>
            simp [connectChildAdd, GPDAGNode.addRootwardSorted,
              GPDAGNode.addRootwardRotated, hji, hq1, hq2]
      · have hm : dmid.dag_nodes.get? j = some nj := (hget1 j nj hj).2.2 hji hq1
        by_cases hq2 : j ∈ qs₂
        · have hf : d'.dag_nodes.get? j =
              some (connectChildAdd true nj i) :=
            (hget2 j nj hm).2.1 hji hq2
          refine ⟨_, hf, ?_, ?_, ?_, ?_, ?_, ?_⟩ <;>
            simp [connectChildAdd, GPDAGNode.addRootwardSorted,
              GPDAGNode.addRootwardRotated, hji, hq1, hq2]
        · have hf : d'.dag_nodes.get? j = some nj := (hget2 j nj hm).2.2 hji hq2
          refine ⟨_, hf, ?_, ?_, ?_, ?_, ?_, ?_⟩ <;>
            simp [hji, hq1, hq2]
  have hlen' : d'.dag_nodes.length = dagN.dag_nodes.length := by
    rw [hlenB, hlenA, hes.len]
  have hrev : ∀ j nj', d'.dag_nodes.get? j = some nj' →
      ∃ nj, d.dag_nodes.get? j = some nj ∧ nj'.id = nj.id ∧
        nj'.subsplit = nj.subsplit ∧
        nj'.leafwardSorted =
          (if j = i then nj.leafwardSorted ++ qs₁ else nj.leafwardSorted) ∧
        nj'.leafwardRotated =
          (if j = i then nj.leafwardRotated ++ qs₂ else nj.leafwardRotated) ∧
        nj'.rootwardSorted =
          (if j ∈ qs₁ then nj.rootwardSorted ++ [i] else nj.rootwardSorted) ∧
        nj'.rootwardRotated =
          (if j ∈ qs₂ then nj.rootwardRotated ++ [i]
           else nj.rootwardRotated) := by
    intro j nj' hj'
    have hdlen := hes.len
    have hjlen : j < d.dag_nodes.length := by
      have : j < d'.dag_nodes.length := by
        by_contra hcon
        rw [List.get?_eq_none.mpr (by omega)] at hj'
        exact absurd hj' (by simp)
      omega
    obtain ⟨nj, hnj⟩ : ∃ nj, d.dag_nodes.get? j = some nj := by
      rw [List.get?_eq_get hjlen]
      exact ⟨_, rfl⟩
    obtain ⟨nj'', hnj'', hrest⟩ := hpt j nj hnj
    rw [hj'] at hnj''
    simp only [Option.some.injEq] at hnj''
    subst hnj''
    exact ⟨nj, hnj, hrest⟩
  have hdd' : staticEq d d' := by
    refine ⟨?_, ?_, ?_, ?_, ?_, ?_, ?_⟩
    · rw [e1b, e1a]
    · rw [e2b, e2a]
    · rw [e3b, e3a]
    · rw [e4b, e4a]
    · rw [e6b, e6a]
    · rw [e7b, e7a]
    · rw [e8b, e8a]
  have hsi' : d'.subsplit_to_index = d.subsplit_to_index := by rw [e5b, e5a]
  constructor
  · exact ⟨e1b.trans (e1a.trans hes.static.1),
      e2b.trans (e2a.trans hes.static.2.1),
      e3b.trans (e3a.trans hes.static.2.2.1),
      e4b.trans (e4a.trans hes.static.2.2.2.1),
      e5b.trans (e5a.trans hes.static.2.2.2.2.1),
      e6b.trans (e6a.trans hes.static.2.2.2.2.2.1),
      e7b.trans (e7a.trans hes.static.2.2.2.2.2.2.1),
      e8b.trans (e8a.trans hes.static.2.2.2.2.2.2.2)⟩
  · exact hlen'
  · intro j nj' n0j hj' hn0j
    obtain ⟨nj, hnj, hid, hsub, _⟩ := hrev j nj' hj'
    have := hes.base j nj n0j hnj hn0j
    exact ⟨hid.trans this.1, hsub.trans this.2⟩
  · intro j nj' hj' hside
    have hji : j ≠ i := by rcases hside with h | h <;> omega
    obtain ⟨nj, hnj, _, _, hlS, hlR, _, _⟩ := hrev j nj' hj'
    rw [if_neg hji] at hlS hlR
    have := hes.lwUnproc j nj hnj (by omega)
    exact ⟨hlS.trans this.1, hlR.trans this.2⟩
  · intro j nj' hj' hTj hji1
    obtain ⟨nj, hnj, _, hsub, hlS, hlR, _, _⟩ := hrev j nj' hj'
    by_cases hji : j = i
    · rw [if_pos hji] at hlS hlR
      have hnjnd : nj = nd := by
        rw [hji] at hnj
        rw [hnj] at hnd
        exact (Option.some.injEq _ _).mp hnd
      subst hnjnd
      constructor
      · refine ⟨cs₁, qs₁, ?_, ?_, ?_⟩
        · rw [getChildrenSubsplits_staticEq hdd', hsub]
          exact hcs₁
        · rw [hsi']
          exact hqs₁
        · rw [hlS, hndlw.1]
          simp
      · refine ⟨cs₂, qs₂, ?_, ?_, ?_⟩
        · have hstm : staticEq dmid d' :=
            ⟨e1b, e2b, e3b, e4b, e6b, e7b, e8b⟩
          rw [getChildrenSubsplits_staticEq hstm, hsub]
          exact hcs₂
        · rw [e5b]
          exact hqs₂
        · rw [hlR, hndlw.2]
          simp
    · rw [if_neg hji] at hlS hlR
      obtain ⟨hSonly, hRonly⟩ := hes.lwDone j nj hnj hTj (by omega)
      constructor
      · obtain ⟨cs, qs, hcs, hqs, hlw⟩ := hSonly
        refine ⟨cs, qs, ?_, ?_, ?_⟩
        · rw [getChildrenSubsplits_staticEq hdd', hsub]
          exact hcs
        · rw [hsi']
          exact hqs
        · rw [hlS]
          exact hlw
      · obtain ⟨cs, qs, hcs, hqs, hlw⟩ := hRonly
        refine ⟨cs, qs, ?_, ?_, ?_⟩
        · rw [getChildrenSubsplits_staticEq hdd', hsub]
          exact hcs
        · rw [hsi']
          exact hqs
        · rw [hlR]
          exact hlw
  · intro j nj' hj'
    obtain ⟨nj, hnj, _, _, _, _, hrS, hrR⟩ := hrev j nj' hj'
    obtain ⟨hold, holdR⟩ := hes.rootward j nj hnj
    have htrans : ∀ w, w < i →
        (∀ nw, d.dag_nodes.get? w = some nw →
          ∃ nw', d'.dag_nodes.get? w = some nw' ∧
            nw.leafwardSorted = nw'.leafwardSorted ∧
            nw.leafwardRotated = nw'.leafwardRotated) := by
      intro w hw nw hnw
      obtain ⟨nw', hnw', _, _, hwS, hwR, _, _⟩ := hpt w nw hnw
      rw [if_neg (by omega)] at hwS hwR
      exact ⟨nw', hnw', hwS.symm, hwR.symm⟩
    constructor
    · intro w hw
      rw [hrS] at hw
      by_cases hq1 : j ∈ qs₁
      · rw [if_pos hq1] at hw
        rcases List.mem_append.mp hw with hw1 | hw2
        · obtain ⟨hTw, hjw, hwi, nw, hnw, hmem⟩ := hold w hw1
          obtain ⟨nw', hnw', heS, _⟩ := htrans w hwi nw hnw
          exact ⟨hTw, hjw, by omega, nw', hnw', heS ▸ hmem⟩
        · simp only [List.mem_singleton] at hw2
          obtain ⟨nfin, hnfin, _, _, hfS, _, _, _⟩ := hpt i nd hnd
          rw [if_pos rfl] at hfS
          refine ⟨by omega, by have := hb₁ j hq1; omega, by omega,
            nfin, ?_, ?_⟩
          · rw [hw2]
            exact hnfin
          · rw [hfS]
            exact List.mem_append.mpr (Or.inr hq1)
      · rw [if_neg hq1] at hw
        obtain ⟨hTw, hjw, hwi, nw, hnw, hmem⟩ := hold w hw
        obtain ⟨nw', hnw', heS, _⟩ := htrans w hwi nw hnw
        exact ⟨hTw, hjw, by omega, nw', hnw', heS ▸ hmem⟩
    · intro w hw
      rw [hrR] at hw
      by_cases hq2 : j ∈ qs₂
      · rw [if_pos hq2] at hw
        rcases List.mem_append.mp hw with hw1 | hw2
        · obtain ⟨hTw, hjw, hwi, nw, hnw, hmem⟩ := holdR w hw1
          obtain ⟨nw', hnw', _, heR⟩ := htrans w hwi nw hnw
          exact ⟨hTw, hjw, by omega, nw', hnw', heR ▸ hmem⟩
        · simp only [List.mem_singleton] at hw2
          obtain ⟨nfin, hnfin, _, _, _, hfR, _, _⟩ := hpt i nd hnd
          rw [if_pos rfl] at hfR
          refine ⟨by omega, by have := hb₂ j hq2; omega, by omega,
            nfin, ?_, ?_⟩
          · rw [hw2]
            exact hnfin
          · rw [hfR]
            exact List.mem_append.mpr (Or.inr hq2)
      · rw [if_neg hq2] at hw
        obtain ⟨hTw, hjw, hwi, nw, hnw, hmem⟩ := holdR w hw
        obtain ⟨nw', hnw', _, heR⟩ := htrans w hwi nw hnw
        exact ⟨hTw, hjw, by omega, nw', hnw', heR ▸ hmem⟩

/-- The `BuildEdges` loop over a parent id range. -/
theorem buildEdges_fold {T : Nat} {dagN : GPDAG}
    (hok : NodesOK T dagN)
    (hpost : ∀ i, T ≤ i → postOrderAt dagN i)
    (hr : ∀ p a b, mapFind dagN.parent_to_range p = some (a, b) →
      ∃ ch, lookupRange dagN.index_to_child a (b - a) = some ch ∧ ch.Nodup ∧
        ∀ c ∈ ch, c.length = 2 * T ∧ countTrue c < countTrue p)
    (hfake : ∀ t, t < T →
      mapFind dagN.subsplit_to_index (fakeSubsplit T t) = some t) :
    ∀ (n i : Nat) (d d' : GPDAG),
    foldlOpt
      (fun i d => do
        let d ← connectNodes d i false
        connectNodes d i true)
      (List.range' i n) d = some d' →
    EdgeState T dagN i d → T ≤ i → i + n ≤ dagN.dag_nodes.length →
    EdgeState T dagN (i + n) d' := by
  intro n
  induction n with
  | zero =>
    intro i d d' h hes hT hb
    simp only [List.range'_zero, foldlOpt_nil, Option.some.injEq] at h
    subst h
    exact hes
  | succ n ih =>
    intro i d d' h hes hT hb
    rw [List.range'_succ, foldlOpt_cons] at h
    cases hstep : (do
        let dm ← connectNodes d i false
        connectNodes dm i true : Option GPDAG) with
    | none => rw [hstep] at h; exact absurd h (by simp)
    | some dnext =>
      rw [hstep] at h
      simp only [Option.bind_eq_bind] at hstep
      rw [Option.bind_eq_some] at hstep
      obtain ⟨dmid, h1, h2⟩ := hstep
      have hnext := buildEdges_step hok (hpost i hT) hr hfake hes hT
        (by omega) h1 h2
      have := ih (i + 1) dnext d' h hnext (by omega) (by omega)
      have harith : i + 1 + n = i + (n + 1) := by omega
      rw [harith] at this
      exact this

/-- Postcondition of `BuildEdges`: the final edge invariant over the whole
node array. -/
theorem buildEdges_spec {T : Nat} {dagN dE : GPDAG}
    (h : buildEdges dagN = some dE)
    (hok : NodesOK T dagN) (htaxon : dagN.taxon_count = T)
    (hT : T ≤ dagN.dag_nodes.length)
    (hpost : ∀ i, T ≤ i → postOrderAt dagN i)
    (hr : ∀ p a b, mapFind dagN.parent_to_range p = some (a, b) →
      ∃ ch, lookupRange dagN.index_to_child a (b - a) = some ch ∧ ch.Nodup ∧
        ∀ c ∈ ch, c.length = 2 * T ∧ countTrue c < countTrue p)
    (hfake : ∀ t, t < T →
      mapFind dagN.subsplit_to_index (fakeSubsplit T t) = some t) :
    EdgeState T dagN dagN.dag_nodes.length dE := by
  unfold buildEdges at h
  rw [htaxon] at h
  have hinit : EdgeState T dagN T dagN := by
    constructor
    · exact ⟨rfl, rfl, rfl, rfl, rfl, rfl, rfl, rfl⟩
    · rfl
    · intro j nj n0 hj hn0
      rw [hj] at hn0
      simp only [Option.some.injEq] at hn0
      subst hn0
      exact ⟨rfl, rfl⟩
    · intro j nj hj hside
      have := hok.adjEmpty nj (List.get?_mem hj)
      exact ⟨this.1, this.2.1⟩
    · intro j nj hj hTj hjT
      omega
    · intro j nj hj
      have := hok.adjEmpty nj (List.get?_mem hj)
      constructor
      · intro w hw
        rw [this.2.2.1] at hw
        exact absurd hw (by simp)
      · intro w hw
        rw [this.2.2.2] at hw
        exact absurd hw (by simp)
  have := buildEdges_fold hok hpost hr hfake
    (dagN.dag_nodes.length - T) T dagN dE h hinit (Nat.le_refl T)
    (by omega)
  have harith : T + (dagN.dag_nodes.length - T) = dagN.dag_nodes.length := by
    omega
  rw [harith] at this
  exact this

/-- The rootsplit loop of `BuildPCSPIndexer`: the `j`-th rootsplit's full
subsplit is assigned index `idx₀ + j`, densely. -/
theorem pcspRootsFold :
    ∀ (rs : List Bitset) (m : List (Bitset × Nat)) (idx : Nat)
      (st : List (Bitset × Nat) × Nat),
    foldlOpt
      (fun rootsplit (st : List (Bitset × Nat) × Nat) => do
        let gpcsp ←
          safeInsert st.1 (rootsplit ++ bitsetComplement rootsplit) st.2
        pure (gpcsp, st.2 + 1)) rs (m, idx) = some st →
    idx = m.length →
    st.2 = st.1.length ∧ st.2 = idx + rs.length ∧
    (∃ m2, st.1 = m ++ m2 ∧
      ∀ kv ∈ m2, ∃ r ∈ rs, kv.1 = r ++ bitsetComplement r) ∧
    (m.map Prod.snd = List.range m.length →
      st.1.map Prod.snd = List.range st.1.length) ∧
    ((m.map Prod.fst).Nodup → (st.1.map Prod.fst).Nodup) ∧
    (∀ k, (mapFind m k).isSome → mapFind st.1 k = mapFind m k) ∧
    (∀ j r, rs.get? j = some r →
      mapFind st.1 (r ++ bitsetComplement r) = some (idx + j)) := by
  intro rs
  induction rs with
  | nil =>
    intro m idx st h hidx
    simp only [foldlOpt_nil, Option.some.injEq] at h
    subst h
    exact ⟨hidx, by simp, ⟨[], by simp⟩, fun h => h, fun h => h,
      fun k hk => rfl, fun j r hj => absurd hj (by simp)⟩
  | cons r₀ rs ih =>
    intro m idx st h hidx
    rw [foldlOpt_cons] at h
    cases hstep : safeInsert m (r₀ ++ bitsetComplement r₀) idx with
    | none =>
      rw [show (do
          let gpcsp ← safeInsert m (r₀ ++ bitsetComplement r₀) idx
          pure (gpcsp, idx + 1) : Option (List (Bitset × Nat) × Nat)) = none
        by rw [hstep]; rfl] at h
      exact absurd h (by simp)
    | some m₁ =>
      rw [show (do
          let gpcsp ← safeInsert m (r₀ ++ bitsetComplement r₀) idx
          pure (gpcsp, idx + 1) : Option (List (Bitset × Nat) × Nat)) =
          some (m₁, idx + 1) by rw [hstep]; rfl] at h
      obtain ⟨hm₁, hnone⟩ := safeInsert_some hstep
      subst hm₁
      have hlen₁ : idx + 1 = (m ++ [(r₀ ++ bitsetComplement r₀, idx)]).length := by
        simp [hidx]
      obtain ⟨i1, i2, ⟨m2, hm2, hm2k⟩, i4, i5, i6, i7⟩ := ih _ _ st h hlen₁
      refine ⟨i1, by simp at i2 ⊢; omega, ?_, ?_, ?_, ?_, ?_⟩
      · refine ⟨[(r₀ ++ bitsetComplement r₀, idx)] ++ m2, by simp [hm2], ?_⟩
        intro kv hkv
        rcases List.mem_append.mp hkv with h1 | h2
        · simp only [List.mem_singleton] at h1
          subst h1
          exact ⟨r₀, by simp, rfl⟩
        · obtain ⟨r, hr, hk⟩ := hm2k kv h2
          exact ⟨r, by simp [hr], hk⟩
      · intro hdense
        refine i4 ?_
        rw [List.map_append, hdense, hidx]
        simp [List.range_succ]
      · intro hnd
        refine i5 ?_
        rw [List.map_append]
        refine List.Nodup.append hnd (by simp) ?_
        intro x hx hy
        simp only [List.map_cons, List.map_nil, List.mem_singleton] at hy
        subst hy
        exact key_not_mem_of_mapFind_none hnone hx
      · intro k hk
        have hk₁ : (mapFind (m ++ [(r₀ ++ bitsetComplement r₀, idx)]) k).isSome := by
          rw [mapFind_append]
          cases hx : mapFind m k with
          | none => rw [hx] at hk; exact absurd hk (by simp)
          | some v => rfl
        rw [i6 k hk₁, mapFind_append]
        cases hx : mapFind m k with
        | none => rw [hx] at hk; exact absurd hk (by simp)
        | some v => rfl
      · intro j r hj
        cases j with
        | zero =>
          simp only [List.get?_cons_zero, Option.some.injEq] at hj
          subst hj
          have hfirst : mapFind (m ++ [(r₀ ++ bitsetComplement r₀, idx)])
              (r₀ ++ bitsetComplement r₀) = some idx := by
            rw [mapFind_append, hnone]
            simp [mapFind]
          rw [i6 _ (by rw [hfirst]; rfl), hfirst]
          simp
        | succ j' =>
          simp only [List.get?_cons_succ] at hj
          have := i7 j' r hj
          rw [this]
          congr 1
          omega

/-- The inner child loop of one `BuildPCSPIndexer` block: consecutive indices
for the keys `p ++ child.subsplit`. -/
theorem pcspInnerFold (dag : GPDAG) (p : Bitset) :
    ∀ (ids : List Nat) (m : List (Bitset × Nat)) (idx : Nat)
      (st : List (Bitset × Nat) × Nat),
    foldlOpt
      (fun child_idx (st' : List (Bitset × Nat) × Nat) => do
        let child ← dag.dag_nodes.get? child_idx
        let gpcsp ← safeInsert st'.1 (p ++ child.subsplit) st'.2
        pure (gpcsp, st'.2 + 1)) ids (m, idx) = some st →
    idx = m.length →
    st.2 = st.1.length ∧ st.2 = idx + ids.length ∧
    (∃ m2, st.1 = m ++ m2 ∧ ∀ kv ∈ m2, ∃ q c, q ∈ ids ∧
      dag.dag_nodes.get? q = some c ∧ kv.1 = p ++ c.subsplit) ∧
    (m.map Prod.snd = List.range m.length →
      st.1.map Prod.snd = List.range st.1.length) ∧
    ((m.map Prod.fst).Nodup → (st.1.map Prod.fst).Nodup) ∧
    (∀ k, (mapFind m k).isSome → mapFind st.1 k = mapFind m k) ∧
    (∀ q ∈ ids, ∃ c, dag.dag_nodes.get? q = some c ∧
      (mapFind st.1 (p ++ c.subsplit)).isSome) := by
  intro ids
  induction ids with
  | nil =>
    intro m idx st h hidx
    simp only [foldlOpt_nil, Option.some.injEq] at h
    subst h
    exact ⟨hidx, by simp, ⟨[], by simp⟩, fun h => h, fun h => h,
      fun k hk => rfl, fun q hq => absurd hq (by simp)⟩
  | cons q₀ ids ih =>
    intro m idx st h hidx
    rw [foldlOpt_cons] at h
    cases hc₀ : dag.dag_nodes.get? q₀ with
    | none =>
      rw [show (do
          let child ← dag.dag_nodes.get? q₀
          let gpcsp ← safeInsert m (p ++ child.subsplit) idx
          pure (gpcsp, idx + 1) : Option (List (Bitset × Nat) × Nat)) = none
        by rw [hc₀]; rfl] at h
      exact absurd h (by simp)
    | some c₀ =>
      cases hstep : safeInsert m (p ++ c₀.subsplit) idx with
      | none =>
        rw [show (do
            let child ← dag.dag_nodes.get? q₀
            let gpcsp ← safeInsert m (p ++ child.subsplit) idx
            pure (gpcsp, idx + 1) : Option (List (Bitset × Nat) × Nat)) = none
          by rw [hc₀]; simp only [Option.bind_eq_bind, Option.some_bind];
             rw [hstep]; rfl] at h
        exact absurd h (by simp)
      | some m₁ =>
        rw [show (do
            let child ← dag.dag_nodes.get? q₀
            let gpcsp ← safeInsert m (p ++ child.subsplit) idx
            pure (gpcsp, idx + 1) : Option (List (Bitset × Nat) × Nat)) =
            some (m₁, idx + 1)
          by rw [hc₀]; simp only [Option.bind_eq_bind, Option.some_bind];
             rw [hstep]; rfl] at h
        obtain ⟨hm₁, hnone⟩ := safeInsert_some hstep
        subst hm₁
        have hlen₁ : idx + 1 = (m ++ [(p ++ c₀.subsplit, idx)]).length := by
          simp [hidx]
        obtain ⟨i1, i2, ⟨m2, hm2, hm2k⟩, i4, i5, i6, i7⟩ := ih _ _ st h hlen₁
        have hkeep : ∀ k, (mapFind m k).isSome → mapFind st.1 k = mapFind m k := by
          intro k hk
          have hk₁ : (mapFind (m ++ [(p ++ c₀.subsplit, idx)]) k).isSome := by
            rw [mapFind_append]
            cases hx : mapFind m k with
            | none => rw [hx] at hk; exact absurd hk (by simp)
            | some v => rfl
          rw [i6 k hk₁, mapFind_append]
          cases hx : mapFind m k with
          | none => rw [hx] at hk; exact absurd hk (by simp)
          | some v => rfl
        refine ⟨i1, by simp at i2 ⊢; omega, ?_, ?_, ?_, hkeep, ?_⟩
        · refine ⟨[(p ++ c₀.subsplit, idx)] ++ m2, by simp [hm2], ?_⟩
          intro kv hkv
          rcases List.mem_append.mp hkv with h1 | h2
          · simp only [List.mem_singleton] at h1
            subst h1
            exact ⟨q₀, c₀, by simp, hc₀, rfl⟩
          · obtain ⟨q, c, hq, hcq, hk⟩ := hm2k kv h2
            exact ⟨q, c, by simp [hq], hcq, hk⟩
        · intro hdense
          refine i4 ?_
          rw [List.map_append, hdense, hidx]
          simp [List.range_succ]
        · intro hnd
          refine i5 ?_
          rw [List.map_append]
          refine List.Nodup.append hnd (by simp) ?_
          intro x hx hy
          simp only [List.map_cons, List.map_nil, List.mem_singleton] at hy
          subst hy
          exact key_not_mem_of_mapFind_none hnone hx
        · intro q hq
          rcases List.mem_cons.mp hq with h1 | h2
          · subst h1
            refine ⟨c₀, hc₀, ?_⟩
            have hfirst : mapFind (m ++ [(p ++ c₀.subsplit, idx)])
                (p ++ c₀.subsplit) = some idx := by
              rw [mapFind_append, hnone]
              simp [mapFind]
            rw [i6 _ (by rw [hfirst]; rfl), hfirst]
            rfl
          · exact i7 q h2

/-- One orientation block of `pcspIndexerStep`. -/
theorem pcspHalf (dag : GPDAG) (p : Bitset) (ids : List Nat)
    {g : List (Bitset × Nat)} {sr : List (Bitset × (Nat × Nat))} {idx : Nat}
    {out : List (Bitset × Nat) × List (Bitset × (Nat × Nat)) × Nat}
    (h : (if 0 < ids.length then do
        let subsplit_to_range ← safeInsert sr p (idx, idx + ids.length)
        let st' ← foldlOpt
          (fun child_idx (st' : List (Bitset × Nat) × Nat) => do
            let child ← dag.dag_nodes.get? child_idx
            let gpcsp ← safeInsert st'.1 (p ++ child.subsplit) st'.2
            pure (gpcsp, st'.2 + 1)) ids (g, idx)
        pure (st'.1, subsplit_to_range, st'.2)
      else pure (g, sr, idx) :
        Option (List (Bitset × Nat) × List (Bitset × (Nat × Nat)) × Nat)) =
      some out)
    (hidx : idx = g.length) :
    out.2.2 = out.1.length ∧
    (∃ m2, out.1 = g ++ m2 ∧ ∀ kv ∈ m2, ∃ q c, q ∈ ids ∧
      dag.dag_nodes.get? q = some c ∧ kv.1 = p ++ c.subsplit) ∧
    (g.map Prod.snd = List.range g.length →
      out.1.map Prod.snd = List.range out.1.length) ∧
    ((g.map Prod.fst).Nodup → (out.1.map Prod.fst).Nodup) ∧
    (∀ k, (mapFind g k).isSome → mapFind out.1 k = mapFind g k) ∧
    (∀ q ∈ ids, ∃ c, dag.dag_nodes.get? q = some c ∧
      (mapFind out.1 (p ++ c.subsplit)).isSome) := by
  by_cases hS : 0 < ids.length
  · rw [if_pos hS] at h
    simp only [Option.bind_eq_bind, Option.pure_def] at h
    rw [Option.bind_eq_some] at h
    obtain ⟨sr', hsr', h⟩ := h
    rw [Option.bind_eq_some] at h
    obtain ⟨stS, hfold, h⟩ := h
    simp only [Option.some.injEq] at h
    subst h
    obtain ⟨i1, i2, i3, i4, i5, i6, i7⟩ :=
      pcspInnerFold dag p ids g idx stS hfold hidx
    exact ⟨i1, i3, i4, i5, i6, i7⟩
  · rw [if_neg hS] at h
    simp only [Option.pure_def, Option.some.injEq] at h
    subst h
    have hids : ids = [] := List.eq_nil_of_length_eq_zero (by omega)
    subst hids
    exact ⟨hidx, ⟨[], by simp⟩, fun h => h, fun h => h, fun k hk => rfl,
      fun q hq => absurd hq (by simp)⟩

/-- One orientation block of `pcspIndexerStep`, with its do-continuation. -/
theorem pcspHalf2 (dag : GPDAG) (p : Bitset) (ids : List Nat) {σ : Type}
    (k : List (Bitset × Nat) × List (Bitset × (Nat × Nat)) × Nat → Option σ)
    {g : List (Bitset × Nat)} {sr : List (Bitset × (Nat × Nat))} {idx : Nat}
    {out : σ}
    (h : (if 0 < ids.length then
        (safeInsert sr p (idx, idx + ids.length)).bind fun subsplit_to_range =>
          (foldlOpt
            (fun child_idx (st' : List (Bitset × Nat) × Nat) =>
              (dag.dag_nodes.get? child_idx).bind fun child =>
                (safeInsert st'.1 (p ++ child.subsplit) st'.2).bind fun gpcsp =>
                  some (gpcsp, st'.2 + 1)) ids (g, idx)).bind fun st' =>
            (some (st'.1, subsplit_to_range, st'.2)).bind k
      else (some (g, sr, idx)).bind k) = some out)
    (hidx : idx = g.length) :
    ∃ gA srA idxA, k (gA, srA, idxA) = some out ∧ idxA = gA.length ∧
      (∃ m2, gA = g ++ m2 ∧ ∀ kv ∈ m2, ∃ q c, q ∈ ids ∧
        dag.dag_nodes.get? q = some c ∧ kv.1 = p ++ c.subsplit) ∧
      (g.map Prod.snd = List.range g.length →
        gA.map Prod.snd = List.range gA.length) ∧
      ((g.map Prod.fst).Nodup → (gA.map Prod.fst).Nodup) ∧
      (∀ k₀, (mapFind g k₀).isSome → mapFind gA k₀ = mapFind g k₀) ∧
      (∀ q ∈ ids, ∃ c, dag.dag_nodes.get? q = some c ∧
        (mapFind gA (p ++ c.subsplit)).isSome) := by
  by_cases hS : 0 < ids.length
  · rw [if_pos hS] at h
    rw [Option.bind_eq_some] at h
    obtain ⟨sr', hsr', h⟩ := h
    rw [Option.bind_eq_some] at h
    obtain ⟨stS, hfold, h⟩ := h
    simp only [Option.some_bind] at h
    obtain ⟨i1, i2, i3, i4, i5, i6, i7⟩ :=
      pcspInnerFold dag p ids g idx stS hfold hidx
    exact ⟨stS.1, sr', stS.2, h, i1, i3, i4, i5, i6, i7⟩
  · rw [if_neg hS] at h
    simp only [Option.some_bind] at h
    have hids : ids = [] := List.eq_nil_of_length_eq_zero (by omega)
    subst hids
    exact ⟨g, sr, idx, h, hidx, ⟨[], by simp⟩, fun h => h, fun h => h,
      fun k₀ hk => rfl, fun q hq => absurd hq (by simp)⟩

/-- The per-node body of `BuildPCSPIndexer`, characterized. -/
theorem pcspIndexerStep_spec {dag : GPDAG} {node : GPDAGNode}
    {g : List (Bitset × Nat)} {sr : List (Bitset × (Nat × Nat))} {idx : Nat}
    {st' : List (Bitset × Nat) × List (Bitset × (Nat × Nat)) × Nat}
    (h : pcspIndexerStep dag node (g, sr, idx) = some st')
    (hidx : idx = g.length) :
    st'.2.2 = st'.1.length ∧
    (∃ m2, st'.1 = g ++ m2 ∧ ∀ kv ∈ m2,
      (∃ q c, q ∈ node.leafwardSorted ∧ dag.dag_nodes.get? q = some c ∧
        kv.1 = node.subsplit ++ c.subsplit) ∨
      (∃ q c, q ∈ node.leafwardRotated ∧ dag.dag_nodes.get? q = some c ∧
        kv.1 = rotateSubsplit node.subsplit ++ c.subsplit)) ∧
    (g.map Prod.snd = List.range g.length →
      st'.1.map Prod.snd = List.range st'.1.length) ∧
    ((g.map Prod.fst).Nodup → (st'.1.map Prod.fst).Nodup) ∧
    (∀ k, (mapFind g k).isSome → mapFind st'.1 k = mapFind g k) ∧
    (∀ q ∈ node.leafwardSorted, ∃ c, dag.dag_nodes.get? q = some c ∧
      (mapFind st'.1 (node.subsplit ++ c.subsplit)).isSome) ∧
    (∀ q ∈ node.leafwardRotated, ∃ c, dag.dag_nodes.get? q = some c ∧
      (mapFind st'.1 (rotateSubsplit node.subsplit ++ c.subsplit)).isSome) := by
  unfold pcspIndexerStep at h
  simp only [Option.bind_eq_bind, Option.pure_def] at h
  obtain ⟨gA, srA, idxA, hk, a1, ⟨m2a, hm2a, hm2ak⟩, a3, a4, a5, a6⟩ :=
    pcspHalf2 dag node.subsplit node.leafwardSorted _ h hidx
  have h2 : (if 0 < node.leafwardRotated.length then do
      let subsplit_to_range ← safeInsert srA (rotateSubsplit node.subsplit)
        (idxA, idxA + node.leafwardRotated.length)
      let st2 ← foldlOpt
        (fun child_idx (st2 : List (Bitset × Nat) × Nat) => do
          let child ← dag.dag_nodes.get? child_idx
          let gpcsp ←
            safeInsert st2.1 (rotateSubsplit node.subsplit ++ child.subsplit)
              st2.2
          pure (gpcsp, st2.2 + 1)) node.leafwardRotated (gA, idxA)
      pure (st2.1, subsplit_to_range, st2.2)
    else pure (gA, srA, idxA) :
      Option (List (Bitset × Nat) × List (Bitset × (Nat × Nat)) × Nat)) =
      some st' := hk
  obtain ⟨b1, ⟨m2b, hm2b, hm2bk⟩, b3, b4, b5, b6⟩ :=
    pcspHalf dag (rotateSubsplit node.subsplit) node.leafwardRotated h2 a1
  refine ⟨b1, ?_, ?_, ?_, ?_, ?_, b6⟩
  · refine ⟨m2a ++ m2b, by rw [hm2b, hm2a, List.append_assoc], ?_⟩
    intro kv hkv
    rcases List.mem_append.mp hkv with h1 | h2
    · obtain ⟨q, c, hq, hc, hk⟩ := hm2ak kv h1
      exact Or.inl ⟨q, c, hq, hc, hk⟩
    · obtain ⟨q, c, hq, hc, hk⟩ := hm2bk kv h2
      exact Or.inr ⟨q, c, hq, hc, hk⟩
  · intro hdense
    exact b3 (a3 hdense)
  · intro hnd
    exact b4 (a4 hnd)
  · intro k hk
    rw [b5 k (by rw [a5 k hk]; exact hk), a5 k hk]
  · intro q hq
    obtain ⟨c, hc, hsome⟩ := a6 q hq
    refine ⟨c, hc, ?_⟩
    rw [b5 _ hsome]
    exact hsome

/-- The real-node loop of `BuildPCSPIndexer`. -/
theorem pcspNodesFold (dag : GPDAG) :
    ∀ (ns : List GPDAGNode) (g : List (Bitset × Nat))
      (sr : List (Bitset × (Nat × Nat))) (idx : Nat)
      (st : List (Bitset × Nat) × List (Bitset × (Nat × Nat)) × Nat),
    foldlOpt (pcspIndexerStep dag) ns (g, sr, idx) = some st →
    idx = g.length →
    st.2.2 = st.1.length ∧
    (∃ m2, st.1 = g ++ m2 ∧ ∀ kv ∈ m2, ∃ n ∈ ns,
      (∃ q c, q ∈ n.leafwardSorted ∧ dag.dag_nodes.get? q = some c ∧
        kv.1 = n.subsplit ++ c.subsplit) ∨
      (∃ q c, q ∈ n.leafwardRotated ∧ dag.dag_nodes.get? q = some c ∧
        kv.1 = rotateSubsplit n.subsplit ++ c.subsplit)) ∧
    (g.map Prod.snd = List.range g.length →
      st.1.map Prod.snd = List.range st.1.length) ∧
    ((g.map Prod.fst).Nodup → (st.1.map Prod.fst).Nodup) ∧
    (∀ k, (mapFind g k).isSome → mapFind st.1 k = mapFind g k) ∧
    (∀ n ∈ ns,
      (∀ q ∈ n.leafwardSorted, ∃ c, dag.dag_nodes.get? q = some c ∧
        (mapFind st.1 (n.subsplit ++ c.subsplit)).isSome) ∧
      (∀ q ∈ n.leafwardRotated, ∃ c, dag.dag_nodes.get? q = some c ∧
        (mapFind st.1 (rotateSubsplit n.subsplit ++ c.subsplit)).isSome)) := by
  intro ns
  induction ns with
  | nil =>
    intro g sr idx st h hidx
    simp only [foldlOpt_nil, Option.some.injEq] at h
    subst h
    exact ⟨hidx, ⟨[], by simp⟩, fun h => h, fun h => h, fun k hk => rfl,
      fun n hn => absurd hn (by simp)⟩
  | cons n₀ ns ih =>
    intro g sr idx st h hidx
    rw [foldlOpt_cons] at h
    cases hstep : pcspIndexerStep dag n₀ (g, sr, idx) with
    | none => rw [hstep] at h; exact absurd h (by simp)
    | some mid =>
      rw [hstep] at h
      obtain ⟨g1, sr1, idx1⟩ := mid
      obtain ⟨a1, ⟨m2a, hm2a, hm2ak⟩, a3, a4, a5, a6, a7⟩ :=
        pcspIndexerStep_spec hstep hidx
      simp only at a1 hm2a
      obtain ⟨b1, ⟨m2b, hm2b, hm2bk⟩, b3, b4, b5, b6⟩ :=
        ih g1 sr1 idx1 st h a1
      refine ⟨b1, ?_, ?_, ?_, ?_, ?_⟩
      · refine ⟨m2a ++ m2b, by rw [hm2b, hm2a, List.append_assoc], ?_⟩
        intro kv hkv
        rcases List.mem_append.mp hkv with h1 | h2
        · exact ⟨n₀, by simp, hm2ak kv h1⟩
        · obtain ⟨n, hn, horig⟩ := hm2bk kv h2
          exact ⟨n, by simp [hn], horig⟩
      · intro hdense
        exact b3 (a3 hdense)
      · intro hnd
        exact b4 (a4 hnd)
      · intro k hk
        rw [b5 k (by rw [a5 k hk]; exact hk), a5 k hk]
      · intro n hn
        rcases List.mem_cons.mp hn with h1 | h2
        · subst h1
          constructor
          · intro q hq
            obtain ⟨c, hc, hsome⟩ := a6 q hq
            refine ⟨c, hc, ?_⟩
            rw [b5 _ hsome]
            exact hsome
          · intro q hq
            obtain ⟨c, hc, hsome⟩ := a7 q hq
            refine ⟨c, hc, ?_⟩
            rw [b5 _ hsome]
            exact hsome
        · exact b6 n h2

/-- Postcondition of `BuildPCSPIndexer`: dense distinct values, the rootsplit
block `[0, R)`, key origins, and presence of every leafward edge key. -/
theorem buildPCSPIndexer_spec {dag dag' : GPDAG}
    (h : buildPCSPIndexer dag = some dag') :
    dag'.taxon_count = dag.taxon_count ∧ dag'.rootsplits = dag.rootsplits ∧
    dag'.parent_to_range = dag.parent_to_range ∧
    dag'.index_to_child = dag.index_to_child ∧
    dag'.subsplit_to_index = dag.subsplit_to_index ∧
    dag'.dag_nodes = dag.dag_nodes ∧
    dag'.rootsplit_and_pcsp_count = dag.rootsplit_and_pcsp_count ∧
    dag'.gpcsp_indexer.map Prod.snd = List.range dag'.gpcsp_indexer.length ∧
    (dag'.gpcsp_indexer.map Prod.fst).Nodup ∧
    (∀ j r, dag.rootsplits.get? j = some r →
      mapFind dag'.gpcsp_indexer (r ++ bitsetComplement r) = some j) ∧
    (∀ kv ∈ dag'.gpcsp_indexer,
      (∃ r ∈ dag.rootsplits, kv.1 = r ++ bitsetComplement r) ∨
      (∃ n ∈ dag.dag_nodes.drop dag.taxon_count,
        (∃ q c, q ∈ n.leafwardSorted ∧ dag.dag_nodes.get? q = some c ∧
          kv.1 = n.subsplit ++ c.subsplit) ∨
        (∃ q c, q ∈ n.leafwardRotated ∧ dag.dag_nodes.get? q = some c ∧
          kv.1 = rotateSubsplit n.subsplit ++ c.subsplit))) ∧
    (∀ n ∈ dag.dag_nodes.drop dag.taxon_count,
      (∀ q ∈ n.leafwardSorted, ∃ c, dag.dag_nodes.get? q = some c ∧
        (mapFind dag'.gpcsp_indexer (n.subsplit ++ c.subsplit)).isSome) ∧
      (∀ q ∈ n.leafwardRotated, ∃ c, dag.dag_nodes.get? q = some c ∧
        (mapFind dag'.gpcsp_indexer
          (rotateSubsplit n.subsplit ++ c.subsplit)).isSome)) := by
  unfold buildPCSPIndexer at h
  simp only [Option.bind_eq_bind, Option.pure_def] at h
  rw [Option.bind_eq_some] at h
  obtain ⟨init, hinit, h⟩ := h
  rw [Option.bind_eq_some] at h
  obtain ⟨st, hst, h⟩ := h
  simp only [Option.some.injEq] at h
  obtain ⟨g₀, idx₀⟩ := init
  obtain ⟨r1, r2, ⟨m2r, hm2r, hm2rk⟩, r4, r5, r6, r7⟩ :=
    pcspRootsFold dag.rootsplits [] 0 (g₀, idx₀) hinit rfl
  simp only at r1 r2 hm2r
  unfold iterateOverRealNodes at hst
  by_cases hguard : dag.taxon_count < dag.dag_nodes.length
  · rw [if_pos hguard] at hst
    obtain ⟨n1, ⟨m2n, hm2n, hm2nk⟩, n3, n4, n5, n6⟩ :=
      pcspNodesFold dag (dag.dag_nodes.drop dag.taxon_count) g₀ [] idx₀ st
        hst r1
    have hdense₀ : g₀.map Prod.snd = List.range g₀.length := r4 rfl
    have hnodup₀ : (g₀.map Prod.fst).Nodup := r5 List.nodup_nil
    subst h
    refine ⟨rfl, rfl, rfl, rfl, rfl, rfl, rfl, n3 hdense₀, n4 hnodup₀,
      ?_, ?_, ?_⟩
    · intro j r hj
      have := r7 j r hj
      rw [n5 _ (by rw [this]; rfl), this]
      simp
    · intro kv hkv
      rw [hm2n] at hkv
      rcases List.mem_append.mp hkv with h1 | h2
      · rw [hm2r] at h1
        simp only [List.nil_append] at h1
        exact Or.inl (hm2rk kv h1)
      · exact Or.inr (hm2nk kv h2)
    · exact n6
  · rw [if_neg hguard] at hst
    exact absurd hst (by simp)

/-- Reachability along the leafward adjacency lists of the built DAG. -/
inductive LeafwardReach (dag : GPDAG) : Nat → Nat → Prop
  | edge {i q : Nat} {n : GPDAGNode} : dag.dag_nodes.get? i = some n →
      q ∈ n.leafwardSorted ++ n.leafwardRotated → LeafwardReach dag i q
  | step {i j k : Nat} : LeafwardReach dag i j → LeafwardReach dag j k →
      LeafwardReach dag i k

theorem mapFind_isSome_of_key_mem {α β : Type} [DecidableEq α]
    {m : List (α × β)} {k : α} (h : k ∈ m.map Prod.fst) :
    (mapFind m k).isSome := by
  induction m with
  | nil => exact absurd h (by simp)
  | cons p rest ih =>
    obtain ⟨k', v⟩ := p
    by_cases hk : k' = k
    · simp [mapFind, hk]
    · simp only [mapFind, hk, if_false]
      simp only [List.map_cons, List.mem_cons] at h
      rcases h with h1 | h2
      · exact absurd h1.symm hk
      · exact ih h2

/-- With distinct keys in sync with the node array, a node's subsplit looks
up its own position. -/
theorem mapFind_self {dag : GPDAG}
    (hsync : dag.subsplit_to_index =
      dag.dag_nodes.map (fun n => (n.subsplit, n.id)))
    (hids : ∀ i (h : i < dag.dag_nodes.length),
      (dag.dag_nodes.get ⟨i, h⟩).id = i)
    (hnodup : (dag.subsplit_to_index.map Prod.fst).Nodup)
    {i : Nat} {n : GPDAGNode} (h : dag.dag_nodes.get? i = some n) :
    mapFind dag.subsplit_to_index n.subsplit = some i := by
  have hkeys : dag.subsplit_to_index.map Prod.fst =
      dag.dag_nodes.map (fun n => n.subsplit) := by
    rw [hsync, List.map_map]
    rfl
  have hmem : n.subsplit ∈ dag.subsplit_to_index.map Prod.fst := by
    rw [hkeys]
    exact List.mem_map.mpr ⟨n, List.get?_mem h, rfl⟩
  have hsome := mapFind_isSome_of_key_mem hmem
  cases hfind : mapFind dag.subsplit_to_index n.subsplit with
  | none => rw [hfind] at hsome; exact absurd hsome (by simp)
  | some j =>
    obtain ⟨hj, hsub⟩ := mapFind_sync_of hsync hids hfind
    have hilen : i < dag.dag_nodes.length := by
      by_contra hcon
      rw [List.get?_eq_none.mpr (by omega)] at h
      exact absurd h (by simp)
    rw [hkeys] at hnodup
    have hsub' : dag.dag_nodes[j].subsplit = n.subsplit := hsub
    have hgets : (dag.dag_nodes.map (fun n => n.subsplit)).get? j =
        (dag.dag_nodes.map (fun n => n.subsplit)).get? i := by
      rw [List.get?_map, List.get?_map, h, List.get?_eq_get hj]
      simp [hsub']
    have := List.get?_inj (by simpa using hj) hnodup hgets
    rw [this]

/-- Distinct positions in the node array carry distinct subsplits. -/
theorem subsplit_inj {dag : GPDAG}
    (hsync : dag.subsplit_to_index =
      dag.dag_nodes.map (fun n => (n.subsplit, n.id)))
    (hids : ∀ i (h : i < dag.dag_nodes.length),
      (dag.dag_nodes.get ⟨i, h⟩).id = i)
    (hnodup : (dag.subsplit_to_index.map Prod.fst).Nodup)
    {i j : Nat} {ni nj : GPDAGNode} (hi : dag.dag_nodes.get? i = some ni)
    (hj : dag.dag_nodes.get? j = some nj)
    (hsub : ni.subsplit = nj.subsplit) : i = j := by
  have h1 := mapFind_self hsync hids hnodup hi
  have h2 := mapFind_self hsync hids hnodup hj
  rw [hsub, h2] at h1
  simp only [Option.some.injEq] at h1
  omega

theorem count_true_add_count_false (b : Bitset) :
    b.count true + b.count false = b.length := by
  induction b with
  | nil => rfl
  | cons x xs ih =>
    cases x <;> simp [List.count_cons] <;> omega

theorem countTrue_complement (b : Bitset) :
    countTrue (bitsetComplement b) = b.length - countTrue b := by
  unfold countTrue bitsetComplement
  have h1 : (b.map not).count true = b.count false := by
    induction b with
    | nil => rfl
    | cons x xs ih =>
      cases x <;> simp [List.count_cons, ih]
  rw [h1]
  have := count_true_add_count_false b
  omega

theorem countTrue_root_full {T : Nat} {r : Bitset} (hlen : r.length = T) :
    countTrue (r ++ bitsetComplement r) = T := by
  unfold countTrue
  rw [List.count_append]
  have h1 := countTrue_complement r
  unfold countTrue at h1
  have h2 : r.count true ≤ r.length := List.count_le_length true r
  omega

/-- A rootsplit with a set bit has a full subsplit distinct from every
fake-leaf subsplit. -/
theorem root_full_ne_fake {T : Nat} {r : Bitset} (hlen : r.length = T)
    (hany : bitsetAny r = true) (t : Nat) :
    r ++ bitsetComplement r ≠ fakeSubsplit T t := by
  intro heq
  unfold fakeSubsplit at heq
  have htake := congrArg (List.take T) heq
  rw [List.take_append_eq_append_take] at htake
  simp [hlen] at htake
  have htr : List.take T r = r := by
    rw [← hlen]
    exact List.take_length r
  rw [htr] at htake
  unfold bitsetAny at hany
  rw [htake] at hany
  simp at hany

theorem getChildrenSubsplits_congr {d d' : GPDAG}
    (h1 : d'.parent_to_range = d.parent_to_range)
    (h2 : d'.index_to_child = d.index_to_child) (s : Bitset) (b : Bool) :
    getChildrenSubsplits d' s b = getChildrenSubsplits d s b := by
  unfold getChildrenSubsplits
  rw [h1, h2]

theorem childOfDFS_congr {d d' : GPDAG}
    (h1 : d'.parent_to_range = d.parent_to_range)
    (h2 : d'.index_to_child = d.index_to_child) {s c : Bitset} :
    childOfDFS d' s c ↔ childOfDFS d s c := by
  unfold childOfDFS
  rw [getChildrenSubsplits_congr h1 h2, getChildrenSubsplits_congr h1 h2]

/-- A non-empty fake-free children lookup agrees with the fake-including
one. -/
theorem getChildren_true_of_false_mem {dag : GPDAG} {s c : Bitset}
    {cs : List Bitset} (h : getChildrenSubsplits dag s false = some cs)
    (hc : c ∈ cs) : getChildrenSubsplits dag s true = some cs := by
  unfold getChildrenSubsplits at h ⊢
  cases hfind : mapFind dag.parent_to_range s with
  | some r =>
    rw [hfind] at h
    exact h
  | none =>
    rw [hfind] at h
    have h' : (some ([] : List Bitset)) = some cs := h
    simp only [Option.some.injEq] at h'
    subst h'
    exact absurd hc (by simp)

/-- Everything the generator-level proofs need about a DAG produced by the
four construction steps from a well-formed harvest. -/
structure BuiltDAG (T : Nat) (dag : GPDAG) : Prop where
  taxon : dag.taxon_count = T
  sync : dag.subsplit_to_index = dag.dag_nodes.map (fun n => (n.subsplit, n.id))
  ids : ∀ i (h : i < dag.dag_nodes.length), (dag.dag_nodes.get ⟨i, h⟩).id = i
  len2T : ∀ n ∈ dag.dag_nodes, n.subsplit.length = 2 * T
  nodupKeys : (dag.subsplit_to_index.map Prod.fst).Nodup
  tle : T ≤ dag.dag_nodes.length
  fakes : ∀ t, t < T → ∀ n, dag.dag_nodes.get? t = some n →
    n.subsplit = fakeSubsplit T t ∧ n.leafwardSorted = [] ∧
    n.leafwardRotated = []
  fakeFind : ∀ t, t < T →
    mapFind dag.subsplit_to_index (fakeSubsplit T t) = some t
  rootsLen : ∀ r ∈ dag.rootsplits, r.length = T
  rootsAny : ∀ r ∈ dag.rootsplits, bitsetAny r = true
  rootsNodup : dag.rootsplits.Nodup
  rootsCreated : ∀ r ∈ dag.rootsplits,
    (mapFind dag.subsplit_to_index (r ++ bitsetComplement r)).isSome
  ranges : ∀ p a b, mapFind dag.parent_to_range p = some (a, b) →
    ∃ ch, lookupRange dag.index_to_child a (b - a) = some ch ∧ ch.Nodup ∧
      ∀ c ∈ ch, c.length = 2 * T ∧ countTrue c < countTrue p
  lw : ∀ i n, dag.dag_nodes.get? i = some n → T ≤ i →
    (∃ cs qs, getChildrenSubsplits dag n.subsplit true = some cs ∧
      mapFindAll dag.subsplit_to_index cs = some qs ∧
      n.leafwardSorted = qs) ∧
    (∃ cs qs,
      getChildrenSubsplits dag (rotateSubsplit n.subsplit) true = some cs ∧
      mapFindAll dag.subsplit_to_index cs = some qs ∧
      n.leafwardRotated = qs)
  edgeDecr : ∀ i n, dag.dag_nodes.get? i = some n →
    ∀ q ∈ n.leafwardSorted ++ n.leafwardRotated, q < i
  rootward : ∀ j n, dag.dag_nodes.get? j = some n →
    (∀ w ∈ n.rootwardSorted, T ≤ w ∧ j < w ∧ w < dag.dag_nodes.length ∧
      ∃ nw, dag.dag_nodes.get? w = some nw ∧ j ∈ nw.leafwardSorted) ∧
    (∀ w ∈ n.rootwardRotated, T ≤ w ∧ j < w ∧ w < dag.dag_nodes.length ∧
      ∃ nw, dag.dag_nodes.get? w = some nw ∧ j ∈ nw.leafwardRotated)
  postorder : ∀ i, T ≤ i → postOrderAt dag i
  idxDense : dag.gpcsp_indexer.map Prod.snd =
    List.range dag.gpcsp_indexer.length
  idxNodup : (dag.gpcsp_indexer.map Prod.fst).Nodup
  idxRoots : ∀ j r, dag.rootsplits.get? j = some r →
    mapFind dag.gpcsp_indexer (r ++ bitsetComplement r) = some j
  idxOrigin : ∀ kv ∈ dag.gpcsp_indexer,
    (∃ r ∈ dag.rootsplits, kv.1 = r ++ bitsetComplement r) ∨
    (∃ n ∈ dag.dag_nodes.drop T,
      (∃ q c, q ∈ n.leafwardSorted ∧ dag.dag_nodes.get? q = some c ∧
        kv.1 = n.subsplit ++ c.subsplit) ∨
      (∃ q c, q ∈ n.leafwardRotated ∧ dag.dag_nodes.get? q = some c ∧
        kv.1 = rotateSubsplit n.subsplit ++ c.subsplit))
  idxEdges : ∀ n ∈ dag.dag_nodes.drop T,
    (∀ q ∈ n.leafwardSorted, ∃ c, dag.dag_nodes.get? q = some c ∧
      (mapFind dag.gpcsp_indexer (n.subsplit ++ c.subsplit)).isSome) ∧
    (∀ q ∈ n.leafwardRotated, ∃ c, dag.dag_nodes.get? q = some c ∧
      (mapFind dag.gpcsp_indexer
        (rotateSubsplit n.subsplit ++ c.subsplit)).isSome)
  reach : ∀ i n, dag.dag_nodes.get? i = some n → T ≤ i →
    ∃ root_id, (∃ r ∈ dag.rootsplits,
      mapFind dag.subsplit_to_index (r ++ bitsetComplement r) =
        some root_id) ∧
      (root_id = i ∨ LeafwardReach dag root_id i)

/-- The `GPDAG` constructor produces a DAG satisfying all of the structural
invariants above. -/
theorem buildGPDAG_spec {T : Nat} {rc : List Bitset}
    {pcss : List (Bitset × List Bitset)} {fuel : Nat} {dag : GPDAG}
    (h : buildGPDAG T rc pcss fuel = some dag) (hwf : InputWF T rc pcss) :
    BuiltDAG T dag ∧ dag.rootsplits = rc := by
  unfold buildGPDAG at h
  simp only [Option.bind_eq_bind, Option.pure_def] at h
  rw [Option.bind_eq_some] at h
  obtain ⟨dagP, hP, h⟩ := h
  rw [Option.bind_eq_some] at h
  obtain ⟨dagN, hN, h⟩ := h
  rw [Option.bind_eq_some] at h
  obtain ⟨dagE, hE, h⟩ := h
  obtain ⟨hPtx, hProots, hPnodes, hPsti, hPranges, hPstatic, hPok⟩ :=
    processTrees_spec hP hwf
  obtain ⟨nstatic, nok, ntle, nfakes, nroots, npost, nstar, vis,
      hvis1, hvis2, hvis3, hvis4⟩ :=
    buildNodes_spec hN hPstatic hPok hPnodes
      (fun r hr => by
        rw [hProots] at hr
        exact (hwf.2.1 r hr).1)
  have htxN : dagN.taxon_count = T := nstatic.1.trans hPtx
  have hrangesN : ∀ p a b, mapFind dagN.parent_to_range p = some (a, b) →
      ∃ ch, lookupRange dagN.index_to_child a (b - a) = some ch ∧ ch.Nodup ∧
        ∀ c ∈ ch, c.length = 2 * T ∧ countTrue c < countTrue p := by
    intro p a b hfind
    rw [nstatic.2.2.1] at hfind
    obtain ⟨ch, h1, h2, h3⟩ := hPranges p a b hfind
    rw [nstatic.2.2.2.1]
    exact ⟨ch, h1, h2, h3⟩
  have hfakeN : ∀ t, t < T →
      mapFind dagN.subsplit_to_index (fakeSubsplit T t) = some t :=
    fun t ht => (nfakes t ht).2
  have hes := buildEdges_spec hE nok htxN ntle npost hrangesN hfakeN
  obtain ⟨ixt, ixr, ixpr, ixic, ixsti, ixnodes, ixcount, ixdense, ixnodup,
      ixroots, ixorigin, ixedges⟩ := buildPCSPIndexer_spec h
  have hlenE : dagE.dag_nodes.length = dagN.dag_nodes.length := hes.len
  have htxE : dagE.taxon_count = T := hes.static.1.trans htxN
  have hstiE : dagE.subsplit_to_index = dagN.subsplit_to_index :=
    hes.static.2.2.2.2.1
  have hnodesF : dag.dag_nodes = dagE.dag_nodes := ixnodes
  have hstiF : dag.subsplit_to_index = dagN.subsplit_to_index := by
    rw [ixsti, hstiE]
  have htxF : dag.taxon_count = T := by rw [ixt, htxE]
  have hlenF : dag.dag_nodes.length = dagN.dag_nodes.length := by
    rw [hnodesF, hlenE]
  have hrootsF : dag.rootsplits = rc := by
    rw [ixr, hes.static.2.1, nstatic.2.1, hProots]
  have hprF : dag.parent_to_range = dagN.parent_to_range := by
    rw [ixpr, hes.static.2.2.1]
  have hicF : dag.index_to_child = dagN.index_to_child := by
    rw [ixic, hes.static.2.2.2.1]
  have hnodeN : ∀ {j : Nat} {nj : GPDAGNode}, dag.dag_nodes.get? j = some nj →
      ∃ n0, dagN.dag_nodes.get? j = some n0 ∧ nj.id = n0.id ∧
        nj.subsplit = n0.subsplit := by
    intro j nj hj
    rw [hnodesF] at hj
    have hjlen : j < dagN.dag_nodes.length := by
      have : j < dagE.dag_nodes.length := by
        by_contra hcon
        rw [List.get?_eq_none.mpr (by omega)] at hj
        exact absurd hj (by simp)
      omega
    obtain ⟨n0, hn0⟩ : ∃ n0, dagN.dag_nodes.get? j = some n0 := by
      rw [List.get?_eq_get hjlen]
      exact ⟨_, rfl⟩
    obtain ⟨hid, hsub⟩ := hes.base j nj n0 hj hn0
    exact ⟨n0, hn0, hid, hsub⟩
  have hsyncF : dag.subsplit_to_index =
      dag.dag_nodes.map (fun n => (n.subsplit, n.id)) := by
    rw [hstiF, nok.sync, hnodesF]
    apply List.ext_get?
    intro j
    rw [List.get?_map, List.get?_map]
    cases hj : dagE.dag_nodes.get? j with
    | none =>
      have hN2 : dagN.dag_nodes.get? j = none := by
        rw [List.get?_eq_none] at hj ⊢
        omega
      rw [hN2]
    | some nj =>
      obtain ⟨n0, hn0, hid, hsub⟩ := hnodeN (by rw [hnodesF]; exact hj)
      rw [hn0]
      simp [hid, hsub]
  have hidsF : ∀ i (hI : i < dag.dag_nodes.length),
      (dag.dag_nodes.get ⟨i, hI⟩).id = i := by
    intro i hI
    have hq : dag.dag_nodes.get? i = some (dag.dag_nodes.get ⟨i, hI⟩) :=
      List.get?_eq_get hI
    obtain ⟨n0, hn0, hid, hsub⟩ := hnodeN hq
    rw [hid]
    have hjlen : i < dagN.dag_nodes.length := by omega
    have h2 := nok.ids i hjlen
    rw [List.get?_eq_get hjlen] at hn0
    simp only [Option.some.injEq] at hn0
    rw [← hn0]
    exact h2
  have hnodupF : (dag.subsplit_to_index.map Prod.fst).Nodup := by
    rw [hstiF]
    exact nok.nodupKeys
  have hlen2TF : ∀ n ∈ dag.dag_nodes, n.subsplit.length = 2 * T := by
    intro n hn
    obtain ⟨j, hj⟩ := List.mem_iff_get?.mp hn
    obtain ⟨n0, hn0, _, hsub⟩ := hnodeN hj
    rw [hsub]
    exact nok.len2T n0 (List.get?_mem hn0)
  have hfakesF : ∀ t, t < T → ∀ n, dag.dag_nodes.get? t = some n →
      n.subsplit = fakeSubsplit T t ∧ n.leafwardSorted = [] ∧
      n.leafwardRotated = [] := by
    intro t ht n hn
    obtain ⟨n0, hn0, _, hsub⟩ := hnodeN hn
    have hfk := (nfakes t ht).1
    rw [hn0] at hfk
    simp only [Option.some.injEq] at hfk
    have hlwe := hes.lwUnproc t n (by rw [← hnodesF]; exact hn) (Or.inl ht)
    refine ⟨?_, hlwe.1, hlwe.2⟩
    rw [hsub, hfk]
  have hlwF : ∀ i n, dag.dag_nodes.get? i = some n → T ≤ i →
      (∃ cs qs, getChildrenSubsplits dag n.subsplit true = some cs ∧
        mapFindAll dag.subsplit_to_index cs = some qs ∧
        n.leafwardSorted = qs) ∧
      (∃ cs qs,
        getChildrenSubsplits dag (rotateSubsplit n.subsplit) true = some cs ∧
        mapFindAll dag.subsplit_to_index cs = some qs ∧
        n.leafwardRotated = qs) := by
    intro i n hn hTi
    have hilen : i < dagN.dag_nodes.length := by
      by_contra hcon
      rw [hnodesF, List.get?_eq_none.mpr (by omega)] at hn
      exact absurd hn (by simp)
    obtain ⟨hS, hR⟩ := hes.lwDone i n (by rw [← hnodesF]; exact hn) hTi hilen
    have hchc : ∀ s b, getChildrenSubsplits dag s b =
        getChildrenSubsplits dagE s b := fun s b =>
      getChildrenSubsplits_congr (by rw [hprF, hes.static.2.2.1])
        (by rw [hicF, hes.static.2.2.2.1]) s b
    constructor
    · obtain ⟨cs, qs, h1, h2, h3⟩ := hS
      refine ⟨cs, qs, ?_, ?_, h3⟩
      · rw [hchc]
        exact h1
      · rw [hstiF, ← hstiE]
        exact h2
    · obtain ⟨cs, qs, h1, h2, h3⟩ := hR
      refine ⟨cs, qs, ?_, ?_, h3⟩
      · rw [hchc]
        exact h1
      · rw [hstiF, ← hstiE]
        exact h2
  have hpostF : ∀ i, T ≤ i → postOrderAt dag i := by
    intro i hTi n hn c hc
    obtain ⟨n0, hn0, _, hsub⟩ := hnodeN hn
    have hc' : childOfDFS dagN n0.subsplit c := by
      rw [← hsub]
      exact (childOfDFS_congr hprF hicF).mp hc
    obtain ⟨q, hq, hqi⟩ := npost i hTi n0 hn0 c hc'
    refine ⟨q, ?_, hqi⟩
    rw [hstiF]
    exact hq
  have hedgeDecrF : ∀ i n, dag.dag_nodes.get? i = some n →
      ∀ q ∈ n.leafwardSorted ++ n.leafwardRotated, q < i := by
    intro i n hn q hq
    by_cases hTi : T ≤ i
    · obtain ⟨hS, hR⟩ := hlwF i n hn hTi
      obtain ⟨n0, hn0, _, hsub⟩ := hnodeN hn
      rcases List.mem_append.mp hq with h1 | h2
      · obtain ⟨cs, qs, hcs, hqs, hlst⟩ := hS
        obtain ⟨qs', hqs', _, hb'⟩ := connect_children_props nok (npost i hTi)
          hrangesN hfakeN hprF hicF hstiF hn0 hTi false
          (by
            rw [← hsub]
            exact hcs)
        rw [hqs] at hqs'
        simp only [Option.some.injEq] at hqs'
        subst hqs'
        rw [hlst] at h1
        exact hb' q h1
      · obtain ⟨cs, qs, hcs, hqs, hlst⟩ := hR
        obtain ⟨qs', hqs', _, hb'⟩ := connect_children_props nok (npost i hTi)
          hrangesN hfakeN hprF hicF hstiF hn0 hTi true
          (by
            rw [← hsub]
            exact hcs)
        rw [hqs] at hqs'
        simp only [Option.some.injEq] at hqs'
        subst hqs'
        rw [hlst] at h2
        exact hb' q h2
    · obtain ⟨_, hl1, hl2⟩ := hfakesF i (by omega) n hn
      rw [hl1, hl2] at hq
      exact absurd hq (by simp)
  have hrootwardF : ∀ j n, dag.dag_nodes.get? j = some n →
      (∀ w ∈ n.rootwardSorted, T ≤ w ∧ j < w ∧ w < dag.dag_nodes.length ∧
        ∃ nw, dag.dag_nodes.get? w = some nw ∧ j ∈ nw.leafwardSorted) ∧
      (∀ w ∈ n.rootwardRotated, T ≤ w ∧ j < w ∧ w < dag.dag_nodes.length ∧
        ∃ nw, dag.dag_nodes.get? w = some nw ∧ j ∈ nw.leafwardRotated) := by
    intro j n hn
    obtain ⟨hS, hR⟩ := hes.rootward j n (by rw [← hnodesF]; exact hn)
    constructor
    · intro w hw
      obtain ⟨h1, h2, h3, nw, h4, h5⟩ := hS w hw
      exact ⟨h1, h2, by omega, nw, by rw [hnodesF]; exact h4, h5⟩
    · intro w hw
      obtain ⟨h1, h2, h3, nw, h4, h5⟩ := hR w hw
      exact ⟨h1, h2, by omega, nw, by rw [hnodesF]; exact h4, h5⟩
  have hstaticN : StaticOK T dagN := StaticOK.of_staticEq nstatic hPstatic
  have hreach : ∀ K v, v ∈ vis → 2 * T + 1 - countTrue v ≤ K →
      ∀ q, mapFind dag.subsplit_to_index v = some q →
      ∃ root_id, (∃ r ∈ dag.rootsplits,
        mapFind dag.subsplit_to_index (r ++ bitsetComplement r) =
          some root_id) ∧
        (root_id = q ∨ LeafwardReach dag root_id q) := by
    intro K
    induction K with
    | zero =>
      intro v hv hK q hq
      obtain ⟨hqlen, hsubq⟩ := mapFind_sync_of hsyncF hidsF hq
      have hvlen : v.length = 2 * T := by
        rw [← hsubq]
        exact hlen2TF _ (List.get_mem _ _ _)
      have : countTrue v ≤ 2 * T := by
        rw [← hvlen]
        have h2 : v.count true ≤ v.length := List.count_le_length true v
        exact h2
      omega
    | succ K ihK =>
      intro v hv hK q hq
      rcases hvis4 v hv with ⟨r, hr, hveq⟩ | ⟨p, hp, hpc⟩
      · refine ⟨q, ⟨r, ?_, ?_⟩, Or.inl rfl⟩
        · rw [hrootsF, ← hProots]
          exact hr
        · rw [← hveq]
          exact hq
      · have hpfind : (mapFind dag.subsplit_to_index p).isSome := by
          rw [hstiF]
          exact hvis2 p hp
        cases hpq : mapFind dag.subsplit_to_index p with
        | none => rw [hpq] at hpfind; exact absurd hpfind (by simp)
        | some qp =>
          have hdecr : countTrue v < countTrue p := by
            rcases hpc with ⟨cs0, hcs0, hmem⟩ | ⟨cs0, hcs0, hmem⟩
            · exact (hstaticN.decr p cs0 hcs0 v hmem).2
            · have := (hstaticN.decr (rotateSubsplit p) cs0 hcs0 v hmem).2
              rwa [rotateSubsplit_countTrue] at this
          obtain ⟨hqplen, hsubp⟩ := mapFind_sync_of hsyncF hidsF hpq
          have hqpT : T ≤ qp := by
            by_contra hcon
            have hfk := hfakesF qp (by omega) _
              (List.get?_eq_get hqplen)
            exact hvis3 p hp qp (by omega) (by rw [← hsubp, hfk.1])
          have hnp : dag.dag_nodes.get? qp =
              some (dag.dag_nodes.get ⟨qp, hqplen⟩) := List.get?_eq_get hqplen
          obtain ⟨hS, hR⟩ := hlwF qp _ hnp hqpT
          have hedge : q ∈ (dag.dag_nodes.get ⟨qp, hqplen⟩).leafwardSorted ++
              (dag.dag_nodes.get ⟨qp, hqplen⟩).leafwardRotated := by
            rcases hpc with ⟨cs0, hcs0, hmem⟩ | ⟨cs0, hcs0, hmem⟩
            · obtain ⟨cs, qs, hcs, hqs, hlst⟩ := hS
              have hcs0' : getChildrenSubsplits dag p true = some cs0 := by
                rw [getChildrenSubsplits_congr hprF hicF]
                exact getChildren_true_of_false_mem hcs0 hmem
              rw [← hsubp] at hcs0'
              rw [hcs0'] at hcs
              simp only [Option.some.injEq] at hcs
              subst hcs
              obtain ⟨qv, hqv, hqvmem⟩ :=
                mapFindAll_mem hqs v hmem
              rw [hq] at hqv
              simp only [Option.some.injEq] at hqv
              subst hqv
              rw [← hlst] at hqvmem
              exact List.mem_append.mpr (Or.inl hqvmem)
            · obtain ⟨cs, qs, hcs, hqs, hlst⟩ := hR
              have hcs0' : getChildrenSubsplits dag (rotateSubsplit p) true =
                  some cs0 := by
                rw [getChildrenSubsplits_congr hprF hicF]
                exact getChildren_true_of_false_mem hcs0 hmem
              rw [← hsubp] at hcs0'
              rw [hcs0'] at hcs
              simp only [Option.some.injEq] at hcs
              subst hcs
              obtain ⟨qv, hqv, hqvmem⟩ :=
                mapFindAll_mem hqs v hmem
              rw [hq] at hqv
              simp only [Option.some.injEq] at hqv
              subst hqv
              rw [← hlst] at hqvmem
              exact List.mem_append.mpr (Or.inr hqvmem)
          obtain ⟨root_id, hroot, hpath⟩ := ihK p hp (by omega) qp hpq
          refine ⟨root_id, hroot, Or.inr ?_⟩
          rcases hpath with h1 | h1
          · rw [h1]
            exact LeafwardReach.edge hnp hedge
          · exact LeafwardReach.step h1 (LeafwardReach.edge hnp hedge)
  refine ⟨?_, hrootsF⟩
  constructor
  case taxon => exact htxF
  case sync => exact hsyncF
  case ids => exact hidsF
  case len2T => exact hlen2TF
  case nodupKeys => exact hnodupF
  case tle => omega
  case fakes => exact hfakesF
  case fakeFind =>
    intro t ht
    rw [hstiF]
    exact hfakeN t ht
  case rootsLen =>
    intro r hr
    rw [hrootsF] at hr
    exact (hwf.2.1 r hr).1
  case rootsAny =>
    intro r hr
    rw [hrootsF] at hr
    exact (hwf.2.1 r hr).2
  case rootsNodup =>
    rw [hrootsF]
    exact hwf.1
  case rootsCreated =>
    intro r hr
    rw [hstiF]
    have : r ∈ dagP.rootsplits := by
      rw [hProots, ← hrootsF]
      exact hr
    exact nroots r this
  case ranges =>
    intro p a b hfind
    rw [hprF] at hfind
    rw [hicF]
    exact hrangesN p a b hfind
  case lw => exact hlwF
  case edgeDecr => exact hedgeDecrF
  case rootward => exact hrootwardF
  case postorder => exact hpostF
  case idxDense => exact ixdense
  case idxNodup => exact ixnodup
  case idxRoots =>
    intro j r hj
    apply ixroots
    rw [← ixr, hj]
  case idxOrigin =>
    intro kv hkv
    rcases ixorigin kv hkv with ⟨r, hr, hk⟩ | ⟨n, hn, horig⟩
    · refine Or.inl ⟨r, ?_, hk⟩
      rw [← ixr] at hr
      exact hr
    · refine Or.inr ⟨n, ?_, ?_⟩
      · rw [hnodesF, ← htxE]
        exact hn
      · rcases horig with ⟨q, c, h1, h2, h3⟩ | ⟨q, c, h1, h2, h3⟩
        · exact Or.inl ⟨q, c, h1, by rw [hnodesF]; exact h2, h3⟩
        · exact Or.inr ⟨q, c, h1, by rw [hnodesF]; exact h2, h3⟩
  case idxEdges =>
    intro n hn
    have hn' : n ∈ dagE.dag_nodes.drop dagE.taxon_count := by
      rw [htxE]
      rw [hnodesF] at hn
      exact hn
    obtain ⟨h1, h2⟩ := ixedges n hn'
    constructor
    · intro q hq
      obtain ⟨c, hc, hsome⟩ := h1 q hq
      exact ⟨c, by rw [hnodesF]; exact hc, hsome⟩
    · intro q hq
      obtain ⟨c, hc, hsome⟩ := h2 q hq
      exact ⟨c, by rw [hnodesF]; exact hc, hsome⟩
  case reach =>
    intro i n hn hTi
    obtain ⟨n0, hn0, _, hsub⟩ := hnodeN hn
    have hmem : n.subsplit ∈ vis := by
      rw [hsub]
      exact hvis1 i hTi n0 hn0
    have hself : mapFind dag.subsplit_to_index n.subsplit = some i :=
      mapFind_self hsyncF hidsF hnodupF hn
    exact hreach (2 * T + 1) n.subsplit hmem (by omega) i hself
/-- **C3**: in the DAG produced by construction, every node's integer id is
strictly greater than the id of every node reachable from it by following
leafward edges (post-order insertion), and the `T` fake-leaf nodes occupy
exactly the ids `0` through `T-1`: position `t < T` holds the fake subsplit
for taxon `t`, and any node carrying a fake subsplit for taxon `t < T` sits
at position `t`. -/
theorem construction_postorder_ids {T : Nat} {rc : List Bitset}
    {pcss : List (Bitset × List Bitset)} {fuel : Nat} {dag : GPDAG}
    (h : buildGPDAG T rc pcss fuel = some dag) (hwf : InputWF T rc pcss) :
    (∀ i q, LeafwardReach dag i q → q < i) ∧
    (∀ t, t < T → ∀ n, dag.dag_nodes.get? t = some n →
      n.subsplit = fakeSubsplit T t) ∧
    (∀ i n, dag.dag_nodes.get? i = some n →
      ∀ t, t < T → n.subsplit = fakeSubsplit T t → i = t) := by
  obtain ⟨bd, -⟩ := buildGPDAG_spec h hwf
  refine ⟨?_, ?_, ?_⟩
  · intro i q hreach
    induction hreach with
    | edge h1 h2 => exact bd.edgeDecr _ _ h1 _ h2
    | step h1 h2 ih1 ih2 => omega
  · intro t ht n hn
    exact (bd.fakes t ht n hn).1
  · intro i n hn t ht hsub
    have h1 := mapFind_self bd.sync bd.ids bd.nodupKeys hn
    have h2 := bd.fakeFind t ht
    rw [hsub, h2] at h1
    simp only [Option.some.injEq] at h1
    omega

/-- Closed witness for `construction_postorder_ids` on the three-taxon
example DAG. -/
theorem construction_postorder_ids_witness :
    (buildGPDAG 3 exampleRootsplitCounter examplePCSSCounter 20 =
        some exampleDag ∧
      InputWF 3 exampleRootsplitCounter examplePCSSCounter) ∧
    ((∀ i q, LeafwardReach exampleDag i q → q < i) ∧
      (∀ t, t < 3 → ∀ n, exampleDag.dag_nodes.get? t = some n →
        n.subsplit = fakeSubsplit 3 t) ∧
      (∀ i n, exampleDag.dag_nodes.get? i = some n →
        ∀ t, t < 3 → n.subsplit = fakeSubsplit 3 t → i = t)) :=
  ⟨⟨by decide, by decide⟩,
    construction_postorder_ids
      (show buildGPDAG 3 exampleRootsplitCounter examplePCSSCounter 20 =
        some exampleDag by decide)
      (by decide)⟩
theorem marginalLikelihoodFrom_get (dag : GPDAG) :
    ∀ (l : List Bitset) (k : Nat) (ops : GPOperationVector),
      marginalLikelihoodFrom dag l k = some ops →
      ∀ j r, l.get? j = some r →
        ∃ rid, mapFind dag.subsplit_to_index (r ++ bitsetComplement r) =
            some rid ∧
          ops.get? j = some (GPOperation.IncrementMarginalLikelihood
            (getPLVIndex dag PLVType.R_HAT rid) (k + j)
            (getPLVIndex dag PLVType.P rid)) := by
  intro l
  induction l with
  | nil =>
    intro k ops h j r hj
    simp at hj
  | cons r0 rest ih =>
    intro k ops h j r hj
    unfold marginalLikelihoodFrom at h
    simp only [Option.bind_eq_bind, Option.pure_def] at h
    rw [Option.bind_eq_some] at h
    obtain ⟨rid0, hrid0, h⟩ := h
    rw [Option.bind_eq_some] at h
    obtain ⟨ops', hops', h⟩ := h
    simp only [Option.some.injEq] at h
    cases j with
    | zero =>
      simp only [List.get?_cons_zero, Option.some.injEq] at hj
      subst hj
      exact ⟨rid0, hrid0, by rw [← h]; rfl⟩
    | succ j =>
      obtain ⟨rid, h1, h2⟩ :=
        ih (k + 1) ops' hops' j r (by simpa using hj)
      refine ⟨rid, h1, ?_⟩
      rw [← h]
      have harith : k + 1 + j = k + (j + 1) := by omega
      rw [harith] at h2
      simpa using h2

theorem setRhatToStationaryFrom_get (dag : GPDAG) :
    ∀ (l : List Bitset) (k : Nat) (ops : GPOperationVector),
      setRhatToStationaryFrom dag l k = some ops →
      ∀ j r, l.get? j = some r →
        ∃ rid, mapFind dag.subsplit_to_index (r ++ bitsetComplement r) =
            some rid ∧
          ops.get? j = some (GPOperation.SetToStationaryDistribution
            (getPLVIndex dag PLVType.R_HAT rid) (k + j)) := by
  intro l
  induction l with
  | nil =>
    intro k ops h j r hj
    simp at hj
  | cons r0 rest ih =>
    intro k ops h j r hj
    unfold setRhatToStationaryFrom at h
    simp only [Option.bind_eq_bind, Option.pure_def] at h
    rw [Option.bind_eq_some] at h
    obtain ⟨rid0, hrid0, h⟩ := h
    rw [Option.bind_eq_some] at h
    obtain ⟨ops', hops', h⟩ := h
    simp only [Option.some.injEq] at h
    cases j with
    | zero =>
      simp only [List.get?_cons_zero, Option.some.injEq] at hj
      subst hj
      exact ⟨rid0, hrid0, by rw [← h]; rfl⟩
    | succ j =>
      obtain ⟨rid, h1, h2⟩ :=
        ih (k + 1) ops' hops' j r (by simpa using hj)
      refine ⟨rid, h1, ?_⟩
      rw [← h]
      have harith : k + 1 + j = k + (j + 1) := by omega
      rw [harith] at h2
      simpa using h2

theorem stageConcat_mem (dag : GPDAG) :
    ∀ (stages : List (GPOperationVector × Nat)) (i j : Nat)
      (hj : j < stages.length),
      GPOperation.IncrementMarginalLikelihood
          (getPLVIndex dag PLVType.R_HAT (stages.get ⟨j, hj⟩).2) (i + j)
          (getPLVIndex dag PLVType.P (stages.get ⟨j, hj⟩).2) ∈
        stageConcat dag stages i := by
  intro stages
  induction stages with
  | nil =>
    intro i j hj
    simp at hj
  | cons s rest ih =>
    intro i j hj
    obtain ⟨Δ, rid⟩ := s
    cases j with
    | zero =>
      simp [stageConcat]
    | succ j =>
      have hj' : j < rest.length := by simpa using hj
      have hmem := ih (i + 1) j hj'
      simp only [stageConcat, List.append_assoc, List.mem_append]
      right; right
      have harith : i + 1 + j = i + (j + 1) := by omega
      rw [harith] at hmem
      simpa using hmem

/-- **C10**: for every rootsplit stored at position `j` of `rootsplits`, the
parameter index assigned by `BuildPCSPIndexer` to its full root subsplit
(rootsplit concatenated with its complement) equals `j`, and every
`IncrementMarginalLikelihood` and `SetToStationaryDistribution` operation
emitted for that rootsplit — by `MarginalLikelihood`, `SetRhatToStationary`
and `SBNParameterOptimization` — carries rootsplit index `j`. -/
theorem rootsplit_index_agreement {T : Nat} {rc : List Bitset}
    {pcss : List (Bitset × List Bitset)} {fuel : Nat} {dag : GPDAG}
    (h : buildGPDAG T rc pcss fuel = some dag) (hwf : InputWF T rc pcss) :
    ∀ j r, dag.rootsplits.get? j = some r →
      mapFind dag.gpcsp_indexer (r ++ bitsetComplement r) = some j ∧
      (∀ ops, marginalLikelihood dag = some ops →
        ∃ rid, mapFind dag.subsplit_to_index (r ++ bitsetComplement r) =
            some rid ∧
          ops.get? j = some (GPOperation.IncrementMarginalLikelihood
            (getPLVIndex dag PLVType.R_HAT rid) j
            (getPLVIndex dag PLVType.P rid))) ∧
      (∀ ops, setRhatToStationary dag = some ops →
        ∃ rid, mapFind dag.subsplit_to_index (r ++ bitsetComplement r) =
            some rid ∧
          ops.get? j = some (GPOperation.SetToStationaryDistribution
            (getPLVIndex dag PLVType.R_HAT rid) j)) ∧
      (∀ fl ops, sbnParameterOptimization dag fl = some ops →
        ∃ rid, mapFind dag.subsplit_to_index (r ++ bitsetComplement r) =
            some rid ∧
          GPOperation.IncrementMarginalLikelihood
            (getPLVIndex dag PLVType.R_HAT rid) j
            (getPLVIndex dag PLVType.P rid) ∈ ops) := by
  obtain ⟨bd, -⟩ := buildGPDAG_spec h hwf
  intro j r hget
  refine ⟨bd.idxRoots j r hget, ?_, ?_, ?_⟩
  · intro ops hops
    unfold marginalLikelihood at hops
    obtain ⟨rid, h1, h2⟩ :=
      marginalLikelihoodFrom_get dag dag.rootsplits 0 ops hops j r hget
    rw [Nat.zero_add] at h2
    exact ⟨rid, h1, h2⟩
  · intro ops hops
    unfold setRhatToStationary at hops
    obtain ⟨rid, h1, h2⟩ :=
      setRhatToStationaryFrom_get dag dag.rootsplits 0 ops hops j r hget
    rw [Nat.zero_add] at h2
    exact ⟨rid, h1, h2⟩
  · intro fl ops hops
    unfold sbnParameterOptimization at hops
    simp only [Option.bind_eq_bind, Option.pure_def] at hops
    rw [Option.bind_eq_some] at hops
    obtain ⟨stfin, hfrom, hops⟩ := hops
    simp only [Option.some.injEq] at hops
    obtain ⟨stages, hlen, hres, hper⟩ :=
      sbnPOFrom_stages dag fl dag.rootsplits 0 ([], []) stfin hfrom
    have hj : j < stages.length := by
      rw [hlen]
      exact List.get?_eq_some.mp hget |>.choose
    obtain ⟨⟨r', hr', hfind⟩, -⟩ := hper j hj
    rw [hget] at hr'
    simp only [Option.some.injEq] at hr'
    subst hr'
    refine ⟨(stages.get ⟨j, hj⟩).2, hfind, ?_⟩
    have hmem := stageConcat_mem dag stages 0 j hj
    rw [Nat.zero_add] at hmem
    rw [← hops]
    apply List.mem_append_left
    rw [hres]
    exact List.mem_append_right _ hmem

/-- Closed witness for `rootsplit_index_agreement` on the three-taxon
example DAG. -/
theorem rootsplit_index_agreement_witness :
    (buildGPDAG 3 exampleRootsplitCounter examplePCSSCounter 20 =
        some exampleDag ∧
      InputWF 3 exampleRootsplitCounter examplePCSSCounter) ∧
    (∀ j r, exampleDag.rootsplits.get? j = some r →
      mapFind exampleDag.gpcsp_indexer (r ++ bitsetComplement r) = some j ∧
      (∀ ops, marginalLikelihood exampleDag = some ops →
        ∃ rid,
          mapFind exampleDag.subsplit_to_index (r ++ bitsetComplement r) =
            some rid ∧
          ops.get? j = some (GPOperation.IncrementMarginalLikelihood
            (getPLVIndex exampleDag PLVType.R_HAT rid) j
            (getPLVIndex exampleDag PLVType.P rid))) ∧
      (∀ ops, setRhatToStationary exampleDag = some ops →
        ∃ rid,
          mapFind exampleDag.subsplit_to_index (r ++ bitsetComplement r) =
            some rid ∧
          ops.get? j = some (GPOperation.SetToStationaryDistribution
            (getPLVIndex exampleDag PLVType.R_HAT rid) j)) ∧
      (∀ fl ops, sbnParameterOptimization exampleDag fl = some ops →
        ∃ rid,
          mapFind exampleDag.subsplit_to_index (r ++ bitsetComplement r) =
            some rid ∧
          GPOperation.IncrementMarginalLikelihood
            (getPLVIndex exampleDag PLVType.R_HAT rid) j
            (getPLVIndex exampleDag PLVType.P rid) ∈ ops)) :=
  ⟨⟨by decide, by decide⟩,
    rootsplit_index_agreement
      (show buildGPDAG 3 exampleRootsplitCounter examplePCSSCounter 20 =
        some exampleDag by decide)
      (by decide)⟩
/-- **C2** (amended): after construction, `gpcsp_indexer` assigns, over its
own key set, exactly the dense index range `[0, P)` with `P` its size and no
key repeated — so it is a bijection between its keys and `[0, P)` — and that
key set consists of the full rootsplit subsplits (each mapped to its
rootsplit's position) together with the PCSPs of the DAG's leafward edges in
both orientations, including the edges to fake leaves; every leafward-edge
PCSP of a real node is a key.  (The key set strictly contains
`{rootsplits} ∪ {harvested PCSPs}` in general: edges to fake leaves also get
indices.) -/
theorem gpcsp_indexer_dense_bijection {T : Nat} {rc : List Bitset}
    {pcss : List (Bitset × List Bitset)} {fuel : Nat} {dag : GPDAG}
    (h : buildGPDAG T rc pcss fuel = some dag) (hwf : InputWF T rc pcss) :
    dag.gpcsp_indexer.map Prod.snd = List.range dag.gpcsp_indexer.length ∧
    (dag.gpcsp_indexer.map Prod.fst).Nodup ∧
    (∀ j r, dag.rootsplits.get? j = some r →
      mapFind dag.gpcsp_indexer (r ++ bitsetComplement r) = some j) ∧
    (∀ kv ∈ dag.gpcsp_indexer,
      (∃ r ∈ dag.rootsplits, kv.1 = r ++ bitsetComplement r) ∨
      (∃ n ∈ dag.dag_nodes.drop T,
        (∃ q c, q ∈ n.leafwardSorted ∧ dag.dag_nodes.get? q = some c ∧
          kv.1 = n.subsplit ++ c.subsplit) ∨
        (∃ q c, q ∈ n.leafwardRotated ∧ dag.dag_nodes.get? q = some c ∧
          kv.1 = rotateSubsplit n.subsplit ++ c.subsplit))) ∧
    (∀ n ∈ dag.dag_nodes.drop T,
      (∀ q ∈ n.leafwardSorted, ∃ c, dag.dag_nodes.get? q = some c ∧
        (mapFind dag.gpcsp_indexer (n.subsplit ++ c.subsplit)).isSome) ∧
      (∀ q ∈ n.leafwardRotated, ∃ c, dag.dag_nodes.get? q = some c ∧
        (mapFind dag.gpcsp_indexer
          (rotateSubsplit n.subsplit ++ c.subsplit)).isSome)) := by
  obtain ⟨bd, -⟩ := buildGPDAG_spec h hwf
  exact ⟨bd.idxDense, bd.idxNodup, bd.idxRoots, bd.idxOrigin, bd.idxEdges⟩

/-- Closed witness for `gpcsp_indexer_dense_bijection` on the three-taxon
example DAG. -/
theorem gpcsp_indexer_dense_bijection_witness :
    (buildGPDAG 3 exampleRootsplitCounter examplePCSSCounter 20 =
        some exampleDag ∧
      InputWF 3 exampleRootsplitCounter examplePCSSCounter) ∧
    (exampleDag.gpcsp_indexer.map Prod.snd =
        List.range exampleDag.gpcsp_indexer.length ∧
      (exampleDag.gpcsp_indexer.map Prod.fst).Nodup ∧
      (∀ j r, exampleDag.rootsplits.get? j = some r →
        mapFind exampleDag.gpcsp_indexer (r ++ bitsetComplement r) =
          some j) ∧
      (∀ kv ∈ exampleDag.gpcsp_indexer,
        (∃ r ∈ exampleDag.rootsplits, kv.1 = r ++ bitsetComplement r) ∨
        (∃ n ∈ exampleDag.dag_nodes.drop 3,
          (∃ q c, q ∈ n.leafwardSorted ∧
            exampleDag.dag_nodes.get? q = some c ∧
            kv.1 = n.subsplit ++ c.subsplit) ∨
          (∃ q c, q ∈ n.leafwardRotated ∧
            exampleDag.dag_nodes.get? q = some c ∧
            kv.1 = rotateSubsplit n.subsplit ++ c.subsplit))) ∧
      (∀ n ∈ exampleDag.dag_nodes.drop 3,
        (∀ q ∈ n.leafwardSorted, ∃ c,
          exampleDag.dag_nodes.get? q = some c ∧
          (mapFind exampleDag.gpcsp_indexer
            (n.subsplit ++ c.subsplit)).isSome) ∧
        (∀ q ∈ n.leafwardRotated, ∃ c,
          exampleDag.dag_nodes.get? q = some c ∧
          (mapFind exampleDag.gpcsp_indexer
            (rotateSubsplit n.subsplit ++ c.subsplit)).isSome))) :=
  ⟨⟨by decide, by decide⟩,
    gpcsp_indexer_dense_bijection
      (show buildGPDAG 3 exampleRootsplitCounter examplePCSSCounter 20 =
        some exampleDag by decide)
      (by decide)⟩
/-- `w` occurs strictly before `v` in the list `l`: some prefix of `l`
contains `w` but not `v`. -/
def beforeIn (l : List Nat) (w v : Nat) : Prop :=
  ∃ l₁ l₂, l = l₁ ++ l₂ ∧ w ∈ l₁ ∧ v ∉ l₁

theorem beforeIn_append {l ext : List Nat} {w v : Nat}
    (h : beforeIn l w v) : beforeIn (l ++ ext) w v := by
  obtain ⟨l₁, l₂, rfl, hw, hv⟩ := h
  exact ⟨l₁, l₂ ++ ext, by simp, hw, hv⟩

theorem beforeIn_mem {l : List Nat} {w v : Nat} (h : beforeIn l w v) :
    w ∈ l := by
  obtain ⟨l₁, l₂, rfl, hw, hv⟩ := h
  exact List.mem_append_left _ hw

theorem beforeIn_indexOf {l : List Nat} {w v : Nat} (h : beforeIn l w v) :
    l.indexOf w < l.indexOf v := by
  obtain ⟨l₁, l₂, rfl, hw, hv⟩ := h
  rw [List.indexOf_append_of_mem hw, List.indexOf_append_of_not_mem hv]
  have := List.indexOf_lt_length.mpr hw
  omega

/-- Reachability along an adjacency function. -/
inductive AdjReach (adj : Nat → Option (List Nat)) : Nat → Nat → Prop
  | edge {i w : Nat} {l : List Nat} : adj i = some l → w ∈ l →
      AdjReach adj i w
  | step {i j w : Nat} : AdjReach adj i j → AdjReach adj j w →
      AdjReach adj i w

/-- Full characterization of one `depthFirstTraverse` call over an
adjacency whose neighbor ids strictly increase and stay at or above `T`:
the call appends a block `Δ` of previously unvisited nodes ending in `id`,
and every appended node is preceded in the final order by all of its
neighbors. -/
theorem depthFirstTraverse_spec {T : Nat} (adj : Nat → Option (List Nat))
    (Hadj : ∀ i l, adj i = some l → ∀ w ∈ l, i < w ∧ T ≤ w) :
    ∀ (fuel id : Nat) (order visited : List Nat)
      (out : List Nat × List Nat),
      depthFirstTraverse adj fuel id (order, visited) = some out →
      id ∉ visited →
      (∀ v ∈ visited, v ∈ order ∨ v < id) →
      (∀ v ∈ order, v ∈ visited) →
      ∃ Δ, out.1 = order ++ Δ ∧ id ∈ Δ ∧
        (∀ v ∈ Δ, v ∉ visited) ∧
        (∀ v ∈ Δ, v = id ∨ T ≤ v) ∧
        (∀ v, v ∈ out.2 ↔ (v ∈ visited ∨ v ∈ Δ)) ∧
        Δ.Nodup ∧
        (∀ v ∈ Δ, ∀ l, adj v = some l → ∀ w ∈ l, beforeIn out.1 w v) := by
  intro fuel
  induction fuel with
  | zero =>
    intro id order visited out h
    simp [depthFirstTraverse] at h
  | succ fuel ihf =>
    have foldLem : ∀ (ns : List Nat) (id₀ : Nat) (o vis : List Nat)
        (out : List Nat × List Nat),
        foldlOpt (fun child_id (st : List Nat × List Nat) =>
            if child_id ∈ st.2 then some st
            else depthFirstTraverse adj fuel child_id st) ns (o, vis) =
          some out →
        (∀ w ∈ ns, id₀ < w ∧ T ≤ w) →
        id₀ ∈ vis → id₀ ∉ o →
        (∀ v ∈ vis, v ∈ o ∨ v < id₀ ∨ v = id₀) →
        (∀ v ∈ o, v ∈ vis) →
        ∃ Δ, out.1 = o ++ Δ ∧
          (∀ v ∈ Δ, v ∉ vis) ∧
          (∀ v ∈ Δ, T ≤ v) ∧
          (∀ v, v ∈ out.2 ↔ (v ∈ vis ∨ v ∈ Δ)) ∧
          Δ.Nodup ∧
          (∀ v ∈ Δ, ∀ l, adj v = some l → ∀ w ∈ l, beforeIn out.1 w v) ∧
          (∀ w ∈ ns, w ∈ out.1) := by
      intro ns
      induction ns with
      | nil =>
        intro id₀ o vis out h hns hidv hido hvis ho
        simp only [foldlOpt, Option.some.injEq] at h
        subst h
        exact ⟨[], by simp, by simp, by simp, by simp, List.nodup_nil,
          by simp, by simp⟩
      | cons w ns ih =>
        intro id₀ o vis out h hns hidv hido hvis ho
        have hwid : id₀ < w ∧ T ≤ w := hns w (List.mem_cons_self w ns)
        rw [foldlOpt_cons] at h
        by_cases hw : w ∈ vis
        · rw [if_pos hw] at h
          obtain ⟨Δ, h1, h2, h3, h4, h5, h6, h7⟩ :=
            ih id₀ o vis out h (fun x hx => hns x (List.mem_cons_of_mem _ hx))
              hidv hido hvis ho
          refine ⟨Δ, h1, h2, h3, h4, h5, h6, ?_⟩
          intro x hx
          rcases List.mem_cons.mp hx with hx | hx
          · subst hx
            rcases hvis x hw with hxo | hxlt | hxe
            · rw [h1]; exact List.mem_append_left _ hxo
            · omega
            · omega
          · exact h7 x hx
        · rw [if_neg hw] at h
          cases hrec : depthFirstTraverse adj fuel w (o, vis) with
          | none =>
            rw [hrec] at h
            exact Option.noConfusion h
          | some st₁ =>
            rw [hrec] at h
            obtain ⟨Δ₁, hst1, hwΔ₁, hΔ₁vis, hΔ₁T, hst₁2, hΔ₁nd, hΔ₁ord⟩ :=
              ihf w o vis st₁ hrec hw
                (fun v hv => by
                  rcases hvis v hv with h1 | h1 | h1
                  · exact Or.inl h1
                  · exact Or.inr (by omega)
                  · exact Or.inr (by omega))
                ho
            have hidvis₁ : id₀ ∈ st₁.2 := (hst₁2 id₀).mpr (Or.inl hidv)
            have hido₁ : id₀ ∉ st₁.1 := by
              rw [hst1]
              intro hc
              rcases List.mem_append.mp hc with hc | hc
              · exact hido hc
              · exact hΔ₁vis id₀ hc hidv
            obtain ⟨Δ₂, hout1, hΔ₂vis, hΔ₂T, hout2, hΔ₂nd, hΔ₂ord, hns₂⟩ :=
              ih id₀ st₁.1 st₁.2 out
                (by
                  have : st₁ = (st₁.1, st₁.2) := rfl
                  rw [← this]
                  exact h)
                (fun x hx => hns x (List.mem_cons_of_mem _ hx))
                hidvis₁ hido₁
                (fun v hv => by
                  rcases (hst₁2 v).mp hv with h1 | h1
                  · rcases hvis v h1 with h2 | h2 | h2
                    · exact Or.inl (by rw [hst1]; exact List.mem_append_left _ h2)
                    · exact Or.inr (Or.inl h2)
                    · exact Or.inr (Or.inr h2)
                  · exact Or.inl (by rw [hst1]; exact List.mem_append_right _ h1))
                (fun v hv => by
                  rw [hst1] at hv
                  rcases List.mem_append.mp hv with h1 | h1
                  · exact (hst₁2 v).mpr (Or.inl (ho v h1))
                  · exact (hst₁2 v).mpr (Or.inr h1))
            have hΔ₁sub : ∀ v ∈ Δ₁, v ∈ st₁.1 := by
              intro v hv
              rw [hst1]
              exact List.mem_append_right _ hv
            refine ⟨Δ₁ ++ Δ₂, ?_, ?_, ?_, ?_, ?_, ?_, ?_⟩
            · rw [hout1, hst1, List.append_assoc]
            · intro v hv
              rcases List.mem_append.mp hv with h1 | h1
              · exact hΔ₁vis v h1
              · intro hc
                exact hΔ₂vis v h1 ((hst₁2 v).mpr (Or.inl hc))
            · intro v hv
              rcases List.mem_append.mp hv with h1 | h1
              · rcases hΔ₁T v h1 with h2 | h2
                · omega
                · exact h2
              · exact hΔ₂T v h1
            · intro v
              constructor
              · intro hv
                rcases (hout2 v).mp hv with h1 | h1
                · rcases (hst₁2 v).mp h1 with h2 | h2
                  · exact Or.inl h2
                  · exact Or.inr (List.mem_append_left _ h2)
                · exact Or.inr (List.mem_append_right _ h1)
              · intro hv
                rcases hv with h1 | h1
                · exact (hout2 v).mpr (Or.inl ((hst₁2 v).mpr (Or.inl h1)))
                · rcases List.mem_append.mp h1 with h2 | h2
                  · exact (hout2 v).mpr (Or.inl ((hst₁2 v).mpr (Or.inr h2)))
                  · exact (hout2 v).mpr (Or.inr h2)
            · rw [List.nodup_append]
              refine ⟨hΔ₁nd, hΔ₂nd, ?_⟩
              intro v hv hc
              exact hΔ₂vis v hc ((hst₁2 v).mpr (Or.inr hv))
            · intro v hv l hl x hx
              rcases List.mem_append.mp hv with h1 | h1
              · rw [hout1]
                exact beforeIn_append (hΔ₁ord v h1 l hl x hx)
              · exact hΔ₂ord v h1 l hl x hx
            · intro x hx
              rcases List.mem_cons.mp hx with h1 | h1
              · subst h1
                rw [hout1]
                exact List.mem_append_left _ (hΔ₁sub x hwΔ₁)
              · exact hns₂ x h1
    intro id order visited out h hid hvis ho
    unfold depthFirstTraverse at h
    simp only [Option.bind_eq_bind, Option.pure_def] at h
    rw [Option.bind_eq_some] at h
    obtain ⟨vis₁, hins, h⟩ := h
    unfold safeInsertSet at hins
    rw [if_neg hid] at hins
    simp only [Option.some.injEq] at hins
    subst hins
    rw [Option.bind_eq_some] at h
    obtain ⟨ns, hadj, h⟩ := h
    rw [Option.bind_eq_some] at h
    obtain ⟨stf, hfold, h⟩ := h
    simp only [Option.some.injEq] at h
    subst h
    have hido : id ∉ order := fun hc => hid (ho id hc)
    obtain ⟨Δf, hf1, hfvis, hfT, hf2, hfnd, hford, hfns⟩ :=
      foldLem ns id order (id :: visited) stf hfold
        (Hadj id ns hadj) (List.mem_cons_self id visited) hido
        (fun v hv => by
          rcases List.mem_cons.mp hv with h1 | h1
          · exact Or.inr (Or.inr h1)
          · rcases hvis v h1 with h2 | h2
            · exact Or.inl h2
            · exact Or.inr (Or.inl h2))
        (fun v hv => List.mem_cons_of_mem _ (ho v hv))
    have hidΔf : id ∉ Δf :=
      fun hc => hfvis id hc (List.mem_cons_self id visited)
    have hidstf : id ∉ stf.1 := by
      rw [hf1]
      intro hc
      rcases List.mem_append.mp hc with hc | hc
      · exact hido hc
      · exact hidΔf hc
    refine ⟨Δf ++ [id], ?_, ?_, ?_, ?_, ?_, ?_, ?_⟩
    · show stf.1 ++ [id] = order ++ (Δf ++ [id])
      rw [hf1, List.append_assoc]
    · exact List.mem_append_right _ (List.mem_singleton.mpr rfl)
    · intro v hv
      rcases List.mem_append.mp hv with h1 | h1
      · exact fun hc =>
          hfvis v h1 (List.mem_cons_of_mem _ hc)
      · rw [List.mem_singleton] at h1
        subst h1
        exact hid
    · intro v hv
      rcases List.mem_append.mp hv with h1 | h1
      · exact Or.inr (hfT v h1)
      · rw [List.mem_singleton] at h1
        exact Or.inl h1
    · intro v
      show v ∈ stf.2 ↔ _
      constructor
      · intro hv
        rcases (hf2 v).mp hv with h1 | h1
        · rcases List.mem_cons.mp h1 with h2 | h2
          · exact Or.inr (List.mem_append_right _
              (List.mem_singleton.mpr h2))
          · exact Or.inl h2
        · exact Or.inr (List.mem_append_left _ h1)
      · intro hv
        rcases hv with h1 | h1
        · exact (hf2 v).mpr (Or.inl (List.mem_cons_of_mem _ h1))
        · rcases List.mem_append.mp h1 with h2 | h2
          · exact (hf2 v).mpr (Or.inr h2)
          · rw [List.mem_singleton] at h2
            subst h2
            exact (hf2 v).mpr (Or.inl (List.mem_cons_self v visited))
    · rw [List.nodup_append]
      refine ⟨hfnd, List.nodup_singleton id, ?_⟩
      intro v hv hc
      rw [List.mem_singleton] at hc
      subst hc
      exact hidΔf hv
    · intro v hv l hl x hx
      rcases List.mem_append.mp hv with h1 | h1
      · show beforeIn (stf.1 ++ [id]) x v
        exact beforeIn_append (hford v h1 l hl x hx)
      · rw [List.mem_singleton] at h1
        subst h1
        rw [hadj] at hl
        simp only [Option.some.injEq] at hl
        subst hl
        exact ⟨stf.1, [v], rfl, hfns x hx, hidstf⟩

/-- Characterization of a fold of `depthFirstTraverse` calls over a list
of start leaves: the emitted visit order has no duplicates and lists every
node after all of its adjacency neighbors. -/
theorem dftFoldLeaves {T : Nat} (adj : Nat → Option (List Nat))
    (Hadj : ∀ i l, adj i = some l → ∀ w ∈ l, i < w ∧ T ≤ w) (fl : Nat) :
    ∀ (ts o vis : List Nat) (out : List Nat × List Nat),
      foldlOpt (fun t st => depthFirstTraverse adj fl t st) ts (o, vis) =
        some out →
      (∀ t ∈ ts, t < T ∧ t ∉ vis) → ts.Nodup →
      (∀ v, v ∈ vis ↔ v ∈ o) → o.Nodup →
      (∀ v ∈ o, ∀ l, adj v = some l → ∀ w ∈ l, beforeIn o w v) →
      ∃ Δ, out.1 = o ++ Δ ∧ (∀ v ∈ Δ, v ∈ ts ∨ T ≤ v) ∧
        (∀ v, v ∈ out.2 ↔ v ∈ out.1) ∧ out.1.Nodup ∧
        (∀ v ∈ out.1, ∀ l, adj v = some l → ∀ w ∈ l,
          beforeIn out.1 w v) := by
  intro ts
  induction ts with
  | nil =>
    intro o vis out h hts htnd hvis hnd hord
    simp only [foldlOpt, Option.some.injEq] at h
    subst h
    exact ⟨[], by simp, by simp, hvis, hnd, hord⟩
  | cons t ts ih =>
    intro o vis out h hts htnd hvis hnd hord
    have ht : t < T ∧ t ∉ vis := hts t (List.mem_cons_self t ts)
    rw [foldlOpt_cons] at h
    cases hrec : depthFirstTraverse adj fl t (o, vis) with
    | none =>
      rw [hrec] at h
      exact Option.noConfusion h
    | some st₁ =>
      rw [hrec] at h
      obtain ⟨Δ₁, hst1, htΔ₁, hΔ₁vis, hΔ₁T, hst₁2, hΔ₁nd, hΔ₁ord⟩ :=
        depthFirstTraverse_spec adj Hadj fl t o vis st₁ hrec ht.2
          (fun v hv => Or.inl ((hvis v).mp hv))
          (fun v hv => (hvis v).mpr hv)
      have hst1nd : st₁.1.Nodup := by
        rw [hst1, List.nodup_append]
        refine ⟨hnd, hΔ₁nd, ?_⟩
        intro v hv hc
        exact hΔ₁vis v hc ((hvis v).mpr hv)
      have hst1ord : ∀ v ∈ st₁.1, ∀ l, adj v = some l → ∀ w ∈ l,
          beforeIn st₁.1 w v := by
        intro v hv l hl w hw
        rw [hst1] at hv
        rcases List.mem_append.mp hv with h1 | h1
        · rw [hst1]
          exact beforeIn_append (hord v h1 l hl w hw)
        · exact hΔ₁ord v h1 l hl w hw
      obtain ⟨Δ₂, hout1, hΔ₂T, hout2, houtnd, houtord⟩ :=
        ih st₁.1 st₁.2 out
          (by
            have : st₁ = (st₁.1, st₁.2) := rfl
            rw [← this]
            exact h)
          (fun x hx => by
            have hx' := hts x (List.mem_cons_of_mem _ hx)
            refine ⟨hx'.1, ?_⟩
            intro hc
            rcases (hst₁2 x).mp hc with h1 | h1
            · exact hx'.2 h1
            · rcases hΔ₁T x h1 with h2 | h2
              · exact (List.nodup_cons.mp htnd).1 (h2 ▸ hx)
              · omega)
          (List.nodup_cons.mp htnd).2
          (fun v => by
            constructor
            · intro hv
              rcases (hst₁2 v).mp hv with h1 | h1
              · rw [hst1]
                exact List.mem_append_left _ ((hvis v).mp h1)
              · rw [hst1]
                exact List.mem_append_right _ h1
            · intro hv
              rw [hst1] at hv
              rcases List.mem_append.mp hv with h1 | h1
              · exact (hst₁2 v).mpr (Or.inl ((hvis v).mpr h1))
              · exact (hst₁2 v).mpr (Or.inr h1))
          hst1nd hst1ord
      refine ⟨Δ₁ ++ Δ₂, ?_, ?_, hout2, houtnd, houtord⟩
      · rw [hout1, hst1, List.append_assoc]
      · intro v hv
        rcases List.mem_append.mp hv with h1 | h1
        · rcases hΔ₁T v h1 with h2 | h2
          · exact Or.inl (h2 ▸ List.mem_cons_self t ts)
          · exact Or.inr h2
        · rcases hΔ₂T v h1 with h2 | h2
          · exact Or.inl (List.mem_cons_of_mem _ h2)
          · exact Or.inr h2

/-- **C8** (amended): the upward traversal order produced by
`LeafwardPassTraversal` (depth-first from every leaf following rootward
adjacency, appending each node after its unvisited rootward neighbors are
processed) has no duplicates and places every node **after** every node
reachable from it via **rootward** edges — not after the nodes reachable
via leafward edges, as the claim states; those appear later, as the
recorded counterexample shows. -/
theorem upward_traversal_rootward_order {T : Nat} {rc : List Bitset}
    {pcss : List (Bitset × List Bitset)} {fuel : Nat} {dag : GPDAG}
    {fl : Nat} {order : List Nat}
    (h : buildGPDAG T rc pcss fuel = some dag) (hwf : InputWF T rc pcss)
    (ht : leafwardPassTraversal dag fl = some order) :
    order.Nodup ∧
    ∀ v ∈ order, ∀ w, AdjReach (rootwardAdj dag) v w →
      w ∈ order ∧ order.indexOf w < order.indexOf v := by
  obtain ⟨bd, -⟩ := buildGPDAG_spec h hwf
  have Hadj : ∀ i l, rootwardAdj dag i = some l → ∀ w ∈ l, i < w ∧ T ≤ w := by
    intro i l hl w hwl
    unfold rootwardAdj at hl
    simp only [Option.bind_eq_bind, Option.pure_def] at hl
    rw [Option.bind_eq_some] at hl
    obtain ⟨node, hnode, hl⟩ := hl
    simp only [Option.some.injEq] at hl
    subst hl
    obtain ⟨hs, hr⟩ := bd.rootward i node hnode
    rcases List.mem_append.mp hwl with h1 | h1
    · obtain ⟨hT, hlt, -⟩ := hs w h1
      exact ⟨hlt, hT⟩
    · obtain ⟨hT, hlt, -⟩ := hr w h1
      exact ⟨hlt, hT⟩
  unfold leafwardPassTraversal at ht
  simp only [Option.bind_eq_bind, Option.pure_def] at ht
  rw [Option.bind_eq_some] at ht
  obtain ⟨st, hst, ht⟩ := ht
  simp only [Option.some.injEq] at ht
  obtain ⟨Δ, hΔ1, -, -, hnd, hord⟩ :=
    dftFoldLeaves (rootwardAdj dag) Hadj fl
      (List.range dag.taxon_count) [] [] st hst
      (fun t hmem => by
        rw [List.mem_range, bd.taxon] at hmem
        exact ⟨hmem, by simp⟩)
      (List.nodup_range _)
      (fun v => by simp) List.nodup_nil
      (fun v hv => by simp at hv)
  subst ht
  refine ⟨hnd, ?_⟩
  have hstep : ∀ v ∈ st.1, ∀ w, AdjReach (rootwardAdj dag) v w →
      w ∈ st.1 ∧ st.1.indexOf w < st.1.indexOf v := by
    have hone : ∀ i w, AdjReach (rootwardAdj dag) i w → i ∈ st.1 →
        w ∈ st.1 ∧ st.1.indexOf w < st.1.indexOf i := by
      intro i w hr
      induction hr with
      | edge ha hwl =>
        intro hi
        rename_i i' w' l'
        have hb := hord i' hi l' ha w' hwl
        exact ⟨beforeIn_mem hb, beforeIn_indexOf hb⟩
      | step h1 h2 ih1 ih2 =>
        intro hi
        obtain ⟨hj, hlt1⟩ := ih1 hi
        obtain ⟨hw, hlt2⟩ := ih2 hj
        exact ⟨hw, by omega⟩
    exact fun v hv w hr => hone v w hr hv
  exact hstep

/-- Closed witness for `upward_traversal_rootward_order` on the
three-taxon example DAG. -/
theorem upward_traversal_rootward_order_witness :
    (buildGPDAG 3 exampleRootsplitCounter examplePCSSCounter 20 =
        some exampleDag ∧
      InputWF 3 exampleRootsplitCounter examplePCSSCounter ∧
      leafwardPassTraversal exampleDag 20 = some [4, 3, 6, 5, 0, 1, 2]) ∧
    ([4, 3, 6, 5, 0, 1, 2] : List Nat).Nodup ∧
    (∀ v ∈ ([4, 3, 6, 5, 0, 1, 2] : List Nat), ∀ w,
      AdjReach (rootwardAdj exampleDag) v w →
        w ∈ ([4, 3, 6, 5, 0, 1, 2] : List Nat) ∧
        ([4, 3, 6, 5, 0, 1, 2] : List Nat).indexOf w <
          ([4, 3, 6, 5, 0, 1, 2] : List Nat).indexOf v) :=
  ⟨⟨by decide, by decide, by decide⟩,
    upward_traversal_rootward_order
      (show buildGPDAG 3 exampleRootsplitCounter examplePCSSCounter 20 =
        some exampleDag by decide)
      (by decide)
      (show leafwardPassTraversal exampleDag 20 =
        some [4, 3, 6, 5, 0, 1, 2] by decide)⟩
theorem node_id_of_get {dag : GPDAG}
    (hids : ∀ i (h : i < dag.dag_nodes.length),
      (dag.dag_nodes.get ⟨i, h⟩).id = i)
    {i : Nat} {n : GPDAGNode} (h : dag.dag_nodes.get? i = some n) :
    n.id = i := by
  obtain ⟨hi, hget⟩ := List.get?_eq_some.mp h
  rw [← hget]
  exact hids i hi

theorem mem_drop_of_get {l : List GPDAGNode} {T i : Nat} {n : GPDAGNode}
    (hT : T ≤ i) (h : l.get? i = some n) : n ∈ l.drop T := by
  have h2 : (l.drop T).get? (i - T) = some n := by
    rw [List.get?_drop]
    rwa [Nat.add_sub_cancel' hT]
  exact List.get?_mem h2

theorem countTrue_rotate (b : Bitset) :
    countTrue (rotateSubsplit b) = countTrue b := by
  unfold countTrue rotateSubsplit
  rw [List.count_append]
  conv_rhs => rw [← List.take_append_drop (b.length / 2) b]
  rw [List.count_append]
  omega

theorem splitChunk_append {T : Nat} {b : Bitset} (hlen : b.length = 2 * T) :
    b = splitChunk b 0 ++ splitChunk b 1 := by
  unfold splitChunk
  rw [hlen]
  have h2 : 2 * T / 2 = T := by omega
  rw [h2]
  simp only [Nat.zero_mul, Nat.one_mul, List.drop_zero]
  have h3 : (b.drop T).take T = b.drop T := by
    apply List.take_of_length_le
    rw [List.length_drop, hlen]
    omega
  rw [h3, List.take_append_drop]

theorem countTrue_pos_of_any {b : Bitset} (h : bitsetAny b = true) :
    0 < countTrue b := by
  unfold bitsetAny at h
  rw [List.any_eq_true] at h
  obtain ⟨x, hx, hxt⟩ := h
  simp only [id_eq] at hxt
  subst hxt
  exact List.count_pos_iff_mem.mpr hx

theorem getChildrenSubsplits_count {T : Nat} {dag : GPDAG}
    (hranges : ∀ p a b, mapFind dag.parent_to_range p = some (a, b) →
      ∃ ch, lookupRange dag.index_to_child a (b - a) = some ch ∧ ch.Nodup ∧
        ∀ c ∈ ch, c.length = 2 * T ∧ countTrue c < countTrue p)
    {s : Bitset} (hlen : s.length = 2 * T) {b : Bool} {cs : List Bitset}
    (h : getChildrenSubsplits dag s b = some cs) :
    ∀ c ∈ cs, countTrue c < countTrue s := by
  unfold getChildrenSubsplits at h
  cases hfind : mapFind dag.parent_to_range s with
  | some pr =>
    rw [hfind] at h
    obtain ⟨a2, b2⟩ := pr
    obtain ⟨ch, hch, -, hcount⟩ := hranges s a2 b2 hfind
    have h2 : lookupRange dag.index_to_child a2 (b2 - a2) = some cs := h
    rw [hch] at h2
    simp only [Option.some.injEq] at h2
    subst h2
    intro c hc
    exact (hcount c hc).2
  | none =>
    rw [hfind] at h
    by_cases hb : b = true
    · subst hb
      rw [if_pos rfl] at h
      by_cases hcond : (bitsetAny (splitChunk s 0) &&
          (singletonOption (splitChunk s 1)).isSome) = true
      · rw [if_pos hcond] at h
        simp only [Option.some.injEq] at h
        subst h
        intro c hc
        rw [List.mem_singleton] at hc
        subst hc
        rw [Bool.and_eq_true] at hcond
        have h0 : 0 < countTrue (splitChunk s 0) :=
          countTrue_pos_of_any hcond.1
        have hdecomp := splitChunk_append hlen
        conv_rhs => rw [hdecomp]
        unfold countTrue
        rw [List.count_append, List.count_append]
        have hrep : (List.replicate (s.length / 2) false).count true = 0 := by
          simp [List.count_replicate]
        unfold countTrue at h0
        omega
      · rw [if_neg hcond] at h
        simp only [Option.some.injEq] at h
        subst h
        intro c hc
        exact absurd hc (by simp)
    · rw [if_neg hb] at h
      simp only [Option.some.injEq] at h
      subst h
      intro c hc
      exact absurd hc (by simp)

/-- Every leafward edge goes to a node whose subsplit has strictly fewer
set bits. -/
theorem edge_countTrue {T : Nat} {dag : GPDAG} (bd : BuiltDAG T dag) :
    ∀ i n, dag.dag_nodes.get? i = some n →
      ∀ q ∈ n.leafwardSorted ++ n.leafwardRotated,
        ∃ c, dag.dag_nodes.get? q = some c ∧
          countTrue c.subsplit < countTrue n.subsplit := by
  intro i n hn q hq
  by_cases hiT : i < T
  · obtain ⟨-, he1, he2⟩ := bd.fakes i hiT n hn
    rw [he1, he2] at hq
    exact absurd hq (by simp)
  · have hlw := bd.lw i n hn (by omega)
    rcases List.mem_append.mp hq with h1 | h1
    · obtain ⟨⟨cs, qs, hcs, hqs, hls⟩, -⟩ := hlw
      rw [hls] at h1
      obtain ⟨c₀, hc₀cs, hc₀find⟩ := mapFindAll_mem_rev hqs q h1
      obtain ⟨hqlen, hcsub⟩ := mapFind_sync_of bd.sync bd.ids hc₀find
      refine ⟨dag.dag_nodes.get ⟨q, hqlen⟩, List.get?_eq_get hqlen, ?_⟩
      rw [hcsub]
      exact getChildrenSubsplits_count bd.ranges
        (bd.len2T n (List.get?_mem hn)) hcs c₀ hc₀cs
    · obtain ⟨-, cs, qs, hcs, hqs, hls⟩ := hlw
      rw [hls] at h1
      obtain ⟨c₀, hc₀cs, hc₀find⟩ := mapFindAll_mem_rev hqs q h1
      obtain ⟨hqlen, hcsub⟩ := mapFind_sync_of bd.sync bd.ids hc₀find
      refine ⟨dag.dag_nodes.get ⟨q, hqlen⟩, List.get?_eq_get hqlen, ?_⟩
      rw [hcsub]
      have hrlen : (rotateSubsplit n.subsplit).length = 2 * T := by
        rw [rotateSubsplit_length]
        exact bd.len2T n (List.get?_mem hn)
      have hcount := getChildrenSubsplits_count bd.ranges hrlen hcs c₀ hc₀cs
      rwa [countTrue_rotate] at hcount

theorem reach_countTrue {T : Nat} {dag : GPDAG} (bd : BuiltDAG T dag) :
    ∀ i q, LeafwardReach dag i q →
      ∃ ni nq, dag.dag_nodes.get? i = some ni ∧
        dag.dag_nodes.get? q = some nq ∧
        countTrue nq.subsplit < countTrue ni.subsplit := by
  intro i q h
  induction h with
  | edge hn hmem =>
    rename_i i' q' n
    obtain ⟨c, hc, hcount⟩ := edge_countTrue bd i' n hn q' hmem
    exact ⟨n, c, hn, hc, hcount⟩
  | step h1 h2 ih1 ih2 =>
    obtain ⟨ni, nj, hni, hnj, hc1⟩ := ih1
    obtain ⟨nj2, nq, hnj2, hnq, hc2⟩ := ih2
    rw [hnj] at hnj2
    simp only [Option.some.injEq] at hnj2
    subst hnj2
    exact ⟨ni, nq, hni, hnq, by omega⟩

theorem root_id_countTrue {T : Nat} {dag : GPDAG} (bd : BuiltDAG T dag)
    {r : Bitset} (hr : r ∈ dag.rootsplits) {rid : Nat}
    (hfind : mapFind dag.subsplit_to_index (r ++ bitsetComplement r) =
      some rid) :
    ∃ n, dag.dag_nodes.get? rid = some n ∧ countTrue n.subsplit = T := by
  obtain ⟨hlt, hsub⟩ := mapFind_sync_of bd.sync bd.ids hfind
  refine ⟨_, List.get?_eq_get hlt, ?_⟩
  rw [hsub]
  exact countTrue_root_full (bd.rootsLen r hr)

theorem node_countTrue_le {T : Nat} {dag : GPDAG} (bd : BuiltDAG T dag) :
    ∀ j nj, dag.dag_nodes.get? j = some nj → countTrue nj.subsplit ≤ T := by
  intro j nj hnj
  by_cases hjT : j < T
  · have hf := (bd.fakes j hjT nj hnj).1
    rw [hf]
    unfold fakeSubsplit countTrue
    rw [List.count_append]
    have hrep : (List.replicate T false).count true = 0 := by
      simp [List.count_replicate]
    have hoh : (oneHot T j).count true ≤ T := by
      have := List.count_le_length true (oneHot T j)
      unfold oneHot at this ⊢
      rwa [List.length_map, List.length_range] at this
    omega
  · obtain ⟨root_id, ⟨r, hr, hfind⟩, hcase⟩ := bd.reach j nj hnj (by omega)
    obtain ⟨nr, hnr, hcr⟩ := root_id_countTrue bd hr hfind
    rcases hcase with h1 | h1
    · subst h1
      rw [hnr] at hnj
      simp only [Option.some.injEq] at hnj
      subst hnj
      omega
    · obtain ⟨nr2, nj2, hnr2, hnj2, hlt⟩ := reach_countTrue bd root_id j h1
      rw [hnr] at hnr2
      rw [hnj] at hnj2
      simp only [Option.some.injEq] at hnr2 hnj2
      subst hnr2
      subst hnj2
      omega

/-- No node reaches a rootsplit node by leafward edges. -/
theorem root_not_reached {T : Nat} {dag : GPDAG} (bd : BuiltDAG T dag)
    {r : Bitset} (hr : r ∈ dag.rootsplits) {rid : Nat}
    (hfind : mapFind dag.subsplit_to_index (r ++ bitsetComplement r) =
      some rid) :
    ∀ j, ¬ LeafwardReach dag j rid := by
  intro j hreach
  obtain ⟨nj, nrid, hnj, hnrid, hlt⟩ := reach_countTrue bd j rid hreach
  obtain ⟨nr, hnr, hcr⟩ := root_id_countTrue bd hr hfind
  rw [hnr] at hnrid
  simp only [Option.some.injEq] at hnrid
  subst hnrid
  have := node_countTrue_le bd j nj hnj
  omega

/-- Two rootsplits whose full subsplits look up the same node id are
equal. -/
theorem roots_ids_inj {T : Nat} {dag : GPDAG} (bd : BuiltDAG T dag)
    {r r₂ : Bitset} (hr : r ∈ dag.rootsplits) (hr₂ : r₂ ∈ dag.rootsplits)
    {rid : Nat}
    (hf : mapFind dag.subsplit_to_index (r ++ bitsetComplement r) =
      some rid)
    (hf₂ : mapFind dag.subsplit_to_index (r₂ ++ bitsetComplement r₂) =
      some rid) :
    r = r₂ := by
  obtain ⟨h1, hs1⟩ := mapFind_sync_of bd.sync bd.ids hf
  obtain ⟨h2, hs2⟩ := mapFind_sync_of bd.sync bd.ids hf₂
  have heq : r ++ bitsetComplement r = r₂ ++ bitsetComplement r₂ := by
    rw [← hs1, ← hs2]
  have htake := congrArg (List.take T) heq
  rw [show T = r.length from (bd.rootsLen r hr).symm] at htake
  rw [List.take_left] at htake
  rw [show r.length = r₂.length by
    rw [bd.rootsLen r hr, bd.rootsLen r₂ hr₂]] at htake
  rw [List.take_left] at htake
  exact htake
/-- A fold whose every step appends operations containing no `Zero`
appends operations containing no `Zero`. -/
theorem appendFold_spec {α : Type} (step : α → GPOperationVector → Option GPOperationVector) :
    ∀ (l : List α),
      (∀ x ∈ l, ∀ ops, ∃ δ, step x ops = some (ops ++ δ) ∧
        ∀ z, δ.count (GPOperation.Zero z) = 0) →
      ∀ ops, ∃ δ, foldlOpt step l ops = some (ops ++ δ) ∧
        ∀ z, δ.count (GPOperation.Zero z) = 0 := by
  intro l
  induction l with
  | nil =>
    intro hstep ops
    exact ⟨[], by simp [foldlOpt], by simp⟩
  | cons x xs ih =>
    intro hstep ops
    obtain ⟨δ₁, h1, hc1⟩ := hstep x (List.mem_cons_self x xs) ops
    obtain ⟨δ₂, h2, hc2⟩ :=
      ih (fun y hy => hstep y (List.mem_cons_of_mem _ hy)) (ops ++ δ₁)
    refine ⟨δ₁ ++ δ₂, ?_, ?_⟩
    · rw [foldlOpt_cons, h1]
      rw [← List.append_assoc]
      exact h2
    · intro z
      rw [List.count_append, hc1 z, hc2 z]

/-- Every rootward parent of a node yields a successful PCSP lookup for the
edge back down to the node. -/
theorem parent_pcsp_isSome {T : Nat} {dag : GPDAG} (bd : BuiltDAG T dag) :
    ∀ j n, dag.dag_nodes.get? j = some n →
      (∀ w ∈ n.rootwardSorted, ∃ nw, dag.dag_nodes.get? w = some nw ∧
        (mapFind dag.gpcsp_indexer (nw.subsplit ++ n.subsplit)).isSome) ∧
      (∀ w ∈ n.rootwardRotated, ∃ nw, dag.dag_nodes.get? w = some nw ∧
        (mapFind dag.gpcsp_indexer
          (rotateSubsplit nw.subsplit ++ n.subsplit)).isSome) := by
  intro j n hn
  obtain ⟨hs, hr⟩ := bd.rootward j n hn
  constructor
  · intro w hw
    obtain ⟨hT, hlt, hwN, nw, hnw, hjmem⟩ := hs w hw
    obtain ⟨hidx, -⟩ := bd.idxEdges nw (mem_drop_of_get hT hnw)
    obtain ⟨c, hc, hsome⟩ := hidx j hjmem
    rw [hn] at hc
    simp only [Option.some.injEq] at hc
    subst hc
    exact ⟨nw, hnw, hsome⟩
  · intro w hw
    obtain ⟨hT, hlt, hwN, nw, hnw, hjmem⟩ := hr w hw
    obtain ⟨-, hidx⟩ := bd.idxEdges nw (mem_drop_of_get hT hnw)
    obtain ⟨c, hc, hsome⟩ := hidx j hjmem
    rw [hn] at hc
    simp only [Option.some.injEq] at hc
    subst hc
    exact ⟨nw, hnw, hsome⟩

/-- Every leafward child of a real node yields a successful PCSP lookup. -/
theorem child_pcsp_isSome {T : Nat} {dag : GPDAG} (bd : BuiltDAG T dag) :
    ∀ i n, dag.dag_nodes.get? i = some n → T ≤ i → ∀ (rot : Bool),
      ∀ c ∈ (if rot then n.leafwardRotated else n.leafwardSorted),
        ∃ cn, dag.dag_nodes.get? c = some cn ∧
          (mapFind dag.gpcsp_indexer
            ((if rot then rotateSubsplit n.subsplit else n.subsplit) ++
              cn.subsplit)).isSome := by
  intro i n hn hT rot c hc
  obtain ⟨hidx1, hidx2⟩ := bd.idxEdges n (mem_drop_of_get hT hn)
  cases rot with
  | false => exact hidx1 c hc
  | true => exact hidx2 c hc

/-- `UpdateRHat` succeeds on any node of the built DAG and appends
operations containing no `Zero`. -/
theorem updateRHat_spec {T : Nat} {dag : GPDAG} (bd : BuiltDAG T dag)
    {node_id : Nat} {node : GPDAGNode}
    (hn : dag.dag_nodes.get? node_id = some node) :
    ∀ (rot : Bool) ops, ∃ δ,
      updateRHat dag node_id rot ops = some (ops ++ δ) ∧
      ∀ z, δ.count (GPOperation.Zero z) = 0 := by
  intro rot ops
  obtain ⟨hps, hpr⟩ := parent_pcsp_isSome bd node_id node hn
  cases rot with
  | false =>
    obtain ⟨δ, hfold, hcount⟩ :=
      appendFold_spec _ node.rootwardSorted
        (fun p hp accops => by
          obtain ⟨pn, hpn, hsome⟩ := hps p hp
          obtain ⟨gp, hgp⟩ := Option.isSome_iff_exists.mp hsome
          refine ⟨[GPOperation.EvolvePLVWeightedBySBNParameter
              (getPLVIndex dag PLVType.R_HAT node_id) gp
              (getPLVIndex dag PLVType.R p)], ?_, ?_⟩
          · exact Option.bind_eq_some.mpr ⟨pn, hpn,
              Option.bind_eq_some.mpr ⟨gp, hgp, rfl⟩⟩
          · intro z
            simp [List.count_cons])
        ops
    exact ⟨δ, Option.bind_eq_some.mpr ⟨node, hn, hfold⟩, hcount⟩
  | true =>
    obtain ⟨δ, hfold, hcount⟩ :=
      appendFold_spec _ node.rootwardRotated
        (fun p hp accops => by
          obtain ⟨pn, hpn, hsome⟩ := hpr p hp
          obtain ⟨gp, hgp⟩ := Option.isSome_iff_exists.mp hsome
          refine ⟨[GPOperation.EvolvePLVWeightedBySBNParameter
              (getPLVIndex dag PLVType.R_HAT node_id) gp
              (getPLVIndex dag PLVType.R_TILDE p)], ?_, ?_⟩
          · exact Option.bind_eq_some.mpr ⟨pn, hpn,
              Option.bind_eq_some.mpr ⟨gp, hgp, rfl⟩⟩
          · intro z
            simp [List.count_cons])
        ops
    exact ⟨δ, Option.bind_eq_some.mpr ⟨node, hn, hfold⟩, hcount⟩

/-- `OptimizeBranchLengthUpdatePHat` succeeds on any leafward edge of a real
node and appends operations containing no `Zero`. -/
theorem optimizeBranchLengthUpdatePHat_spec {T : Nat} {dag : GPDAG}
    (bd : BuiltDAG T dag) {node_id : Nat} {node : GPDAGNode}
    (hn : dag.dag_nodes.get? node_id = some node) (hT : T ≤ node_id)
    (rot : Bool) {c : Nat}
    (hc : c ∈ (if rot then node.leafwardRotated else node.leafwardSorted)) :
    ∀ ops, ∃ δ,
      optimizeBranchLengthUpdatePHat dag node_id c rot ops =
        some (ops ++ δ) ∧
      ∀ z, δ.count (GPOperation.Zero z) = 0 := by
  intro ops
  obtain ⟨cn, hcn, hsome⟩ := child_pcsp_isSome bd node_id node hn hT rot c hc
  obtain ⟨gp, hgp⟩ := Option.isSome_iff_exists.mp hsome
  refine ⟨[GPOperation.OptimizeBranchLength
      (getPLVIndex dag PLVType.P c)
      (getPLVIndex dag (if rot then PLVType.R_TILDE else PLVType.R) node_id)
      gp,
    GPOperation.EvolvePLVWeightedBySBNParameter
      (getPLVIndex dag
        (if rot then PLVType.P_HAT_TILDE else PLVType.P_HAT) node_id)
      gp (getPLVIndex dag PLVType.P c)], ?_, ?_⟩
  · exact Option.bind_eq_some.mpr ⟨node, hn,
      Option.bind_eq_some.mpr ⟨cn, hcn,
        Option.bind_eq_some.mpr ⟨gp, hgp, rfl⟩⟩⟩
  · intro z
    cases rot <;> simp [List.count_cons]

/-- `UpdatePHatComputeLikelihood` succeeds on any leafward edge of a real
node and appends operations containing no `Zero`. -/
theorem updatePHatComputeLikelihood_spec {T : Nat} {dag : GPDAG}
    (bd : BuiltDAG T dag) {node_id : Nat} {node : GPDAGNode}
    (hn : dag.dag_nodes.get? node_id = some node) (hT : T ≤ node_id)
    (rot : Bool) {c : Nat}
    (hc : c ∈ (if rot then node.leafwardRotated else node.leafwardSorted)) :
    ∀ ops, ∃ δ,
      updatePHatComputeLikelihood dag node_id c rot ops = some (ops ++ δ) ∧
      ∀ z, δ.count (GPOperation.Zero z) = 0 := by
  intro ops
  obtain ⟨cn, hcn, hsome⟩ := child_pcsp_isSome bd node_id node hn hT rot c hc
  obtain ⟨gp, hgp⟩ := Option.isSome_iff_exists.mp hsome
  refine ⟨[GPOperation.EvolvePLVWeightedBySBNParameter
      (getPLVIndex dag
        (if rot then PLVType.P_HAT_TILDE else PLVType.P_HAT) node_id)
      gp (getPLVIndex dag PLVType.P c),
    GPOperation.Likelihood gp
      (getPLVIndex dag (if rot then PLVType.R_TILDE else PLVType.R) node.id)
      (getPLVIndex dag PLVType.P cn.id)], ?_, ?_⟩
  · exact Option.bind_eq_some.mpr ⟨node, hn,
      Option.bind_eq_some.mpr ⟨cn, hcn,
        Option.bind_eq_some.mpr ⟨gp, hgp, rfl⟩⟩⟩
  · intro z
    cases rot <;> simp [List.count_cons]

/-- `OptimizeSBNParameters` appends operations containing no `Zero`. -/
theorem optimizeSBNParameters_spec (dag : GPDAG) (s : Bitset)
    (ops : GPOperationVector) :
    ∃ δ, optimizeSBNParameters dag s ops = ops ++ δ ∧
      ∀ z, δ.count (GPOperation.Zero z) = 0 := by
  unfold optimizeSBNParameters
  cases hfind : mapFind dag.subsplit_to_range s with
  | none => exact ⟨[], by rw [List.append_nil], by simp⟩
  | some pr =>
    by_cases hgt : pr.2 - pr.1 > 1
    · refine ⟨[GPOperation.UpdateSBNProbabilities pr.1 pr.2], ?_, ?_⟩
      · show (if pr.2 - pr.1 > 1 then
            ops ++ [GPOperation.UpdateSBNProbabilities pr.1 pr.2]
          else ops) =
          ops ++ [GPOperation.UpdateSBNProbabilities pr.1 pr.2]
        rw [if_pos hgt]
      · intro z
        simp [List.count_cons]
    · refine ⟨[], ?_, by simp⟩
      show (if pr.2 - pr.1 > 1 then
          ops ++ [GPOperation.UpdateSBNProbabilities pr.1 pr.2]
        else ops) = ops ++ []
      rw [if_neg hgt, List.append_nil]
theorem count_zero_single (a b : Nat) :
    [GPOperation.Zero a].count (GPOperation.Zero b) = if b = a then 1 else 0 := by
  by_cases h : b = a
  · subst h
    simp [List.count_cons]
  · simp [List.count_cons, h]

theorem count_zero_mult2 (a b c d e f w : Nat) :
    [GPOperation.Multiply a b c,
      GPOperation.Multiply d e f].count (GPOperation.Zero w) = 0 := by
  simp [List.count_cons]

theorem count_zero_mult_zero (a b c d w : Nat) :
    [GPOperation.Multiply a b c,
      GPOperation.Zero d].count (GPOperation.Zero w) =
      if w = d then 1 else 0 := by
  by_cases h : w = d
  · subst h
    simp [List.count_cons]
  · simp [List.count_cons, h]

theorem foldlOpt_cons_eq {α σ : Type} {step : α → σ → Option σ} {x : α}
    {xs : List α} {st : σ} {out : σ} (st₁ : σ)
    (h1 : step x st = some st₁) (h2 : foldlOpt step xs st₁ = some out) :
    foldlOpt step (x :: xs) st = some out := by
  rw [foldlOpt_cons, h1]
  exact h2

/-- The common postcondition of one recursive scheduler call on `id` from
state `(ops, vis)`: the output extends `ops` by a block `Δ` and the visited
set by a block `newv` of previously unvisited nodes containing `id`, every
newly visited node is `id` or a leafward descendant of `id`, the children
of every newly visited node are visited afterwards, and `Δ` holds the
per-node `Zero(P̂)` marker exactly once for each newly visited real
node. -/
def SchedPost (dag : GPDAG) (T id : Nat) (ops : GPOperationVector)
    (vis : List Nat) (out : Option (GPOperationVector × List Nat)) : Prop :=
  ∃ (Δ : GPOperationVector) (newv vis2 : List Nat),
    out = some (ops ++ Δ, vis2) ∧
    (∀ v, v ∈ vis2 ↔ (v ∈ vis ∨ v ∈ newv)) ∧
    id ∈ newv ∧
    (∀ v ∈ newv, v ∉ vis) ∧
    (∀ v ∈ newv, v = id ∨ LeafwardReach dag id v) ∧
    (∀ v ∈ newv, ∀ n, dag.dag_nodes.get? v = some n →
      ∀ c ∈ n.leafwardSorted ++ n.leafwardRotated, c ∈ vis2) ∧
    (∀ m, m < dag.dag_nodes.length →
      Δ.count (GPOperation.Zero (dag.dag_nodes.length + m)) =
        if T ≤ m ∧ m ∈ newv then 1 else 0)

/-- Specification of a scheduler child loop: guarded recursion into each
unvisited child followed by a per-edge emitter that appends no `Zero`. -/
theorem schedChildFold {T : Nat} {dag : GPDAG} (node_id : Nat)
    (emit : Nat → GPOperationVector → Option GPOperationVector)
    (recur : Nat → GPOperationVector × List Nat →
      Option (GPOperationVector × List Nat)) :
    ∀ (cs : List Nat) (ops₀ : GPOperationVector) (vis₀ : List Nat),
      (∀ c ∈ cs, LeafwardReach dag node_id c) →
      (∀ c ∈ cs, ∀ accops, ∃ δ, emit c accops = some (accops ++ δ) ∧
        ∀ z, δ.count (GPOperation.Zero z) = 0) →
      (∀ c ∈ cs, ∀ ops vis, c ∉ vis →
        SchedPost dag T c ops vis (recur c (ops, vis))) →
      ∃ (Δ : GPOperationVector) (newv vis2 : List Nat),
        foldlOpt (fun child_id (st : GPOperationVector × List Nat) => do
            let st ←
              if child_id ∈ st.2 then pure st
              else recur child_id st
            let ops ← emit child_id st.1
            pure (ops, st.2)) cs (ops₀, vis₀) = some (ops₀ ++ Δ, vis2) ∧
        (∀ v, v ∈ vis2 ↔ (v ∈ vis₀ ∨ v ∈ newv)) ∧
        (∀ v ∈ newv, v ∉ vis₀) ∧
        (∀ v ∈ newv, LeafwardReach dag node_id v) ∧
        (∀ v ∈ newv, ∀ n, dag.dag_nodes.get? v = some n →
          ∀ c ∈ n.leafwardSorted ++ n.leafwardRotated, c ∈ vis2) ∧
        (∀ c ∈ cs, c ∈ vis2) ∧
        (∀ m, m < dag.dag_nodes.length →
          Δ.count (GPOperation.Zero (dag.dag_nodes.length + m)) =
            if T ≤ m ∧ m ∈ newv then 1 else 0) := by
  intro cs
  induction cs with
  | nil =>
    intro ops₀ vis₀ hcs hemit hrec
    refine ⟨[], [], vis₀, by rw [List.append_nil, foldlOpt_nil], ?_, ?_, ?_,
      ?_, ?_, ?_⟩
    · intro v
      simp
    · intro v hv
      exact absurd hv (by simp)
    · intro v hv
      exact absurd hv (by simp)
    · intro v hv
      exact absurd hv (by simp)
    · intro c hc
      exact absurd hc (by simp)
    · intro m hm
      simp
  | cons c cs ih =>
    intro ops₀ vis₀ hcs hemit hrec
    by_cases hc : c ∈ vis₀
    · obtain ⟨δ, hδ, hδc⟩ := hemit c (List.mem_cons_self c cs) ops₀
      obtain ⟨Δ2, newv2, vis2, heq2, hiff2, hnv2, hrv2, hclo2, hcs2, hcnt2⟩ :=
        ih (ops₀ ++ δ) vis₀
          (fun x hx => hcs x (List.mem_cons_of_mem _ hx))
          (fun x hx => hemit x (List.mem_cons_of_mem _ hx))
          (fun x hx => hrec x (List.mem_cons_of_mem _ hx))
      refine ⟨δ ++ Δ2, newv2, vis2, ?_, hiff2, hnv2, hrv2, hclo2, ?_, ?_⟩
      · refine foldlOpt_cons_eq (ops₀ ++ δ, vis₀) ?_ ?_
        · show (if c ∈ vis₀ then
              Option.bind (some (ops₀, vis₀)) (fun st =>
                Option.bind (emit c st.1) (fun ops => some (ops, st.2)))
            else
              Option.bind (recur c (ops₀, vis₀)) (fun st =>
                Option.bind (emit c st.1) (fun ops => some (ops, st.2)))) =
            some (ops₀ ++ δ, vis₀)
          rw [if_pos hc]
          exact Option.bind_eq_some.mpr ⟨(ops₀, vis₀), rfl,
            Option.bind_eq_some.mpr ⟨ops₀ ++ δ, hδ, rfl⟩⟩
        · rw [← List.append_assoc]
          exact heq2
      · intro x hx
        rcases List.mem_cons.mp hx with h1 | h1
        · subst h1
          exact (hiff2 x).mpr (Or.inl hc)
        · exact hcs2 x h1
      · intro m hm
        rw [List.count_append, hδc _, hcnt2 m hm, Nat.zero_add]
    · obtain ⟨Δ1, newv1, vis1, heq1, hiff1, hidnv1, hnv1, hrv1, hclo1, hcnt1⟩ :=
        hrec c (List.mem_cons_self c cs) ops₀ vis₀ hc
      obtain ⟨δ, hδ, hδc⟩ := hemit c (List.mem_cons_self c cs) (ops₀ ++ Δ1)
      obtain ⟨Δ2, newv2, vis2, heq2, hiff2, hnv2, hrv2, hclo2, hcs2, hcnt2⟩ :=
        ih ((ops₀ ++ Δ1) ++ δ) vis1
          (fun x hx => hcs x (List.mem_cons_of_mem _ hx))
          (fun x hx => hemit x (List.mem_cons_of_mem _ hx))
          (fun x hx => hrec x (List.mem_cons_of_mem _ hx))
      have hvis₀1 : ∀ v, v ∈ vis₀ → v ∈ vis1 :=
        fun v hv => (hiff1 v).mpr (Or.inl hv)
      have hvis12 : ∀ v, v ∈ vis1 → v ∈ vis2 :=
        fun v hv => (hiff2 v).mpr (Or.inl hv)
      refine ⟨Δ1 ++ δ ++ Δ2, newv1 ++ newv2, vis2, ?_, ?_, ?_, ?_, ?_, ?_, ?_⟩
      · refine foldlOpt_cons_eq ((ops₀ ++ Δ1) ++ δ, vis1) ?_ ?_
        · show (if c ∈ vis₀ then
              Option.bind (some (ops₀, vis₀)) (fun st =>
                Option.bind (emit c st.1) (fun ops => some (ops, st.2)))
            else
              Option.bind (recur c (ops₀, vis₀)) (fun st =>
                Option.bind (emit c st.1) (fun ops => some (ops, st.2)))) =
            some ((ops₀ ++ Δ1) ++ δ, vis1)
          rw [if_neg hc]
          exact Option.bind_eq_some.mpr ⟨(ops₀ ++ Δ1, vis1), heq1,
            Option.bind_eq_some.mpr ⟨(ops₀ ++ Δ1) ++ δ, hδ, rfl⟩⟩
        · have hre : ((ops₀ ++ Δ1) ++ δ) ++ Δ2 = ops₀ ++ (Δ1 ++ δ ++ Δ2) := by
            simp [List.append_assoc]
          rw [← hre]
          exact heq2
      · intro v
        constructor
        · intro hv
          rcases (hiff2 v).mp hv with h1 | h1
          · rcases (hiff1 v).mp h1 with h2 | h2
            · exact Or.inl h2
            · exact Or.inr (List.mem_append_left _ h2)
          · exact Or.inr (List.mem_append_right _ h1)
        · intro hv
          rcases hv with h1 | h1
          · exact hvis12 v (hvis₀1 v h1)
          · rcases List.mem_append.mp h1 with h2 | h2
            · exact hvis12 v ((hiff1 v).mpr (Or.inr h2))
            · exact (hiff2 v).mpr (Or.inr h2)
      · intro v hv
        rcases List.mem_append.mp hv with h1 | h1
        · exact hnv1 v h1
        · exact fun hcon => hnv2 v h1 (hvis₀1 v hcon)
      · intro v hv
        rcases List.mem_append.mp hv with h1 | h1
        · rcases hrv1 v h1 with h2 | h2
          · subst h2
            exact hcs v (List.mem_cons_self v cs)
          · exact LeafwardReach.step (hcs c (List.mem_cons_self c cs)) h2
        · exact hrv2 v h1
      · intro v hv n hn x hx
        rcases List.mem_append.mp hv with h1 | h1
        · exact hvis12 x (hclo1 v h1 n hn x hx)
        · exact hclo2 v h1 n hn x hx
      · intro x hx
        rcases List.mem_cons.mp hx with h1 | h1
        · subst h1
          exact hvis12 x ((hiff1 x).mpr (Or.inr hidnv1))
        · exact hcs2 x h1
      · intro m hm
        rw [List.count_append, List.count_append, hcnt1 m hm, hδc _,
          hcnt2 m hm]
        by_cases hT : T ≤ m
        · by_cases h1 : m ∈ newv1
          · have h2 : m ∉ newv2 :=
              fun hx => hnv2 m hx ((hiff1 m).mpr (Or.inr h1))
            simp [hT, h1, h2]
          · by_cases h2 : m ∈ newv2
            · simp [hT, h1, h2]
            · simp [hT, h1, h2]
        · simp [hT]

/-- Full specification of one `ScheduleBranchLengthOptimization` call on an
unvisited node of the built DAG with enough fuel: it succeeds and
`SchedPost` holds. -/
theorem sblo_spec {T : Nat} {dag : GPDAG} (bd : BuiltDAG T dag) :
    ∀ (fuel id : Nat) (ops : GPOperationVector) (vis : List Nat),
      id < dag.dag_nodes.length → id + 1 ≤ fuel → id ∉ vis →
      SchedPost dag T id ops vis
        (scheduleBranchLengthOptimization dag fuel id (ops, vis)) := by
  intro fuel
  induction fuel with
  | zero =>
    intro id ops vis h1 h2 h3
    omega
  | succ fuel ih =>
    intro id ops vis hidN hfuel hvis
    have hnode : dag.dag_nodes.get? id =
        some (dag.dag_nodes.get ⟨id, hidN⟩) := List.get?_eq_get hidN
    set node := dag.dag_nodes.get ⟨id, hidN⟩ with hnodedef
    have hnid : node.id = id := node_id_of_get bd.ids hnode
    have hrest : ∀ (ops₁ : GPOperationVector),
        ∃ (Δt : GPOperationVector) (newv vis2 : List Nat),
          (if nodeIsLeaf dag node = true then some (ops₁, id :: vis)
           else do
            let operations := ops₁ ++
              [GPOperation.Zero (getPLVIndex dag PLVType.P_HAT id)]
            let st ← foldlOpt
              (fun child_id (st : GPOperationVector × List Nat) => do
                let st ←
                  if child_id ∈ st.2 then pure st
                  else scheduleBranchLengthOptimization dag fuel child_id st
                let ops ← optimizeBranchLengthUpdatePHat dag id child_id
                  false st.1
                pure (ops, st.2))
              node.leafwardSorted (operations, id :: vis)
            let operations := st.1 ++
              [GPOperation.Multiply (getPLVIndex dag PLVType.R_TILDE id)
                 (getPLVIndex dag PLVType.R_HAT id)
                 (getPLVIndex dag PLVType.P_HAT id),
               GPOperation.Zero (getPLVIndex dag PLVType.P_HAT_TILDE id)]
            let st' ← foldlOpt
              (fun child_id (st' : GPOperationVector × List Nat) => do
                let st' ←
                  if child_id ∈ st'.2 then pure st'
                  else scheduleBranchLengthOptimization dag fuel child_id st'
                let ops ← optimizeBranchLengthUpdatePHat dag id child_id
                  true st'.1
                pure (ops, st'.2))
              node.leafwardRotated (operations, st.2)
            pure (st'.1 ++
              [GPOperation.Multiply (getPLVIndex dag PLVType.R id)
                 (getPLVIndex dag PLVType.R_HAT id)
                 (getPLVIndex dag PLVType.P_HAT_TILDE id),
               GPOperation.Multiply (getPLVIndex dag PLVType.P id)
                 (getPLVIndex dag PLVType.P_HAT id)
                 (getPLVIndex dag PLVType.P_HAT_TILDE id)], st'.2)) =
            some (ops₁ ++ Δt, vis2) ∧
          (∀ v, v ∈ vis2 ↔ (v ∈ vis ∨ v ∈ newv)) ∧
          id ∈ newv ∧
          (∀ v ∈ newv, v ∉ vis) ∧
          (∀ v ∈ newv, v = id ∨ LeafwardReach dag id v) ∧
          (∀ v ∈ newv, ∀ n, dag.dag_nodes.get? v = some n →
            ∀ c ∈ n.leafwardSorted ++ n.leafwardRotated, c ∈ vis2) ∧
          (∀ m, m < dag.dag_nodes.length →
            Δt.count (GPOperation.Zero (dag.dag_nodes.length + m)) =
              if T ≤ m ∧ m ∈ newv then 1 else 0) := by
      intro ops₁
      by_cases hleaf : nodeIsLeaf dag node = true
      · have hidT : id < T := by
          unfold nodeIsLeaf at hleaf
          rw [hnid, bd.taxon] at hleaf
          exact of_decide_eq_true hleaf
        refine ⟨[], [id], id :: vis, ?_, ?_, ?_, ?_, ?_, ?_, ?_⟩
        · rw [if_pos hleaf, List.append_nil]
        · intro v
          simp [List.mem_cons, Or.comm]
        · simp
        · intro v hv
          rw [List.mem_singleton] at hv
          subst hv
          exact hvis
        · intro v hv
          rw [List.mem_singleton] at hv
          exact Or.inl hv
        · intro v hv n hn x hx
          rw [List.mem_singleton] at hv
          subst hv
          rw [hnode] at hn
          simp only [Option.some.injEq] at hn
          subst hn
          obtain ⟨-, he1, he2⟩ := bd.fakes v hidT node hnode
          rw [he1, he2] at hx
          exact absurd hx (by simp)
        · intro m hm
          have hnm : ¬(T ≤ m ∧ m ∈ [id]) := by
            rintro ⟨h1, h2⟩
            rw [List.mem_singleton] at h2
            omega
          rw [if_neg hnm]
          simp
      · have hidT : T ≤ id := by
          unfold nodeIsLeaf at hleaf
          rw [hnid, bd.taxon] at hleaf
          exact Nat.le_of_not_lt (fun hcon => hleaf (decide_eq_true hcon))
        have hchild : ∀ c ∈ node.leafwardSorted ++ node.leafwardRotated,
            c < id := fun c hcm => bd.edgeDecr id node hnode c hcm
        obtain ⟨Δs, newvs, visS, heqS, hiffS, hnvS, hrvS, hcloS, hcsS, hcntS⟩ :=
          schedChildFold id
            (fun c a => optimizeBranchLengthUpdatePHat dag id c false a)
            (fun c st => scheduleBranchLengthOptimization dag fuel c st)
            node.leafwardSorted
            (ops₁ ++ [GPOperation.Zero (getPLVIndex dag PLVType.P_HAT id)])
            (id :: vis)
            (fun c hc => LeafwardReach.edge hnode (List.mem_append_left _ hc))
            (fun c hc accops =>
              optimizeBranchLengthUpdatePHat_spec bd hnode hidT false hc
                accops)
            (fun c hc ops2 vis2 hnv =>
              ih c ops2 vis2
                (by have := hchild c (List.mem_append_left _ hc); omega)
                (by have := hchild c (List.mem_append_left _ hc); omega) hnv)
        obtain ⟨Δr, newvr, visR, heqR, hiffR, hnvR, hrvR, hcloR, hcsR, hcntR⟩ :=
          schedChildFold id
            (fun c a => optimizeBranchLengthUpdatePHat dag id c true a)
            (fun c st => scheduleBranchLengthOptimization dag fuel c st)
            node.leafwardRotated
            (((ops₁ ++ [GPOperation.Zero (getPLVIndex dag PLVType.P_HAT id)]) ++
                Δs) ++
              [GPOperation.Multiply (getPLVIndex dag PLVType.R_TILDE id)
                 (getPLVIndex dag PLVType.R_HAT id)
                 (getPLVIndex dag PLVType.P_HAT id),
               GPOperation.Zero (getPLVIndex dag PLVType.P_HAT_TILDE id)])
            visS
            (fun c hc => LeafwardReach.edge hnode (List.mem_append_right _ hc))
            (fun c hc accops =>
              optimizeBranchLengthUpdatePHat_spec bd hnode hidT true hc
                accops)
            (fun c hc ops2 vis2 hnv =>
              ih c ops2 vis2
                (by have := hchild c (List.mem_append_right _ hc); omega)
                (by have := hchild c (List.mem_append_right _ hc); omega) hnv)
        have hvisS : ∀ v, v ∈ visS → v ∈ visR :=
          fun v hv => (hiffR v).mpr (Or.inl hv)
        have hidvisS : id ∈ visS := (hiffS id).mpr (Or.inl (by simp))
        refine ⟨[GPOperation.Zero (getPLVIndex dag PLVType.P_HAT id)] ++
            (Δs ++
              ([GPOperation.Multiply (getPLVIndex dag PLVType.R_TILDE id)
                  (getPLVIndex dag PLVType.R_HAT id)
                  (getPLVIndex dag PLVType.P_HAT id),
                GPOperation.Zero (getPLVIndex dag PLVType.P_HAT_TILDE id)] ++
                (Δr ++
                  [GPOperation.Multiply (getPLVIndex dag PLVType.R id)
                     (getPLVIndex dag PLVType.R_HAT id)
                     (getPLVIndex dag PLVType.P_HAT_TILDE id),
                   GPOperation.Multiply (getPLVIndex dag PLVType.P id)
                     (getPLVIndex dag PLVType.P_HAT id)
                     (getPLVIndex dag PLVType.P_HAT_TILDE id)]))),
          id :: (newvs ++ newvr), visR, ?_, ?_, ?_, ?_, ?_, ?_, ?_⟩
        · rw [if_neg hleaf]
          simp only [Option.bind_eq_bind, Option.pure_def]
          refine Option.bind_eq_some.mpr ⟨_, heqS, ?_⟩
          refine Option.bind_eq_some.mpr ⟨_, heqR, ?_⟩
          show some _ = some _
          rw [Option.some.injEq, Prod.mk.injEq]
          refine ⟨?_, rfl⟩
          simp [List.append_assoc]
        · intro v
          constructor
          · intro hv
            rcases (hiffR v).mp hv with h1 | h1
            · rcases (hiffS v).mp h1 with h2 | h2
              · rcases List.mem_cons.mp h2 with h3 | h3
                · subst h3
                  exact Or.inr (by simp)
                · exact Or.inl h3
              · exact Or.inr (by simp [h2])
            · exact Or.inr (by simp [h1])
          · intro hv
            rcases hv with h1 | h1
            · exact hvisS v ((hiffS v).mpr (Or.inl (List.mem_cons_of_mem _ h1)))
            · rcases List.mem_cons.mp h1 with h2 | h2
              · subst h2
                exact hvisS v hidvisS
              · rcases List.mem_append.mp h2 with h3 | h3
                · exact hvisS v ((hiffS v).mpr (Or.inr h3))
                · exact (hiffR v).mpr (Or.inr h3)
        · simp
        · intro v hv
          rcases List.mem_cons.mp hv with h1 | h1
          · subst h1
            exact hvis
          · rcases List.mem_append.mp h1 with h2 | h2
            · intro hcon
              exact hnvS v h2 (List.mem_cons_of_mem _ hcon)
            · intro hcon
              exact hnvR v h2 ((hiffS v).mpr (Or.inl
                (List.mem_cons_of_mem _ hcon)))
        · intro v hv
          rcases List.mem_cons.mp hv with h1 | h1
          · exact Or.inl h1
          · rcases List.mem_append.mp h1 with h2 | h2
            · exact Or.inr (hrvS v h2)
            · exact Or.inr (hrvR v h2)
        · intro v hv n hn x hx
          rcases List.mem_cons.mp hv with h1 | h1
          · subst h1
            rw [hnode] at hn
            simp only [Option.some.injEq] at hn
            subst hn
            rcases List.mem_append.mp hx with h2 | h2
            · exact hvisS x (hcsS x h2)
            · exact hcsR x h2
          · rcases List.mem_append.mp h1 with h2 | h2
            · exact hvisS x (hcloS v h2 n hn x hx)
            · exact hcloR v h2 n hn x hx
        · intro m hm
          have hmarker : [GPOperation.Zero
              (getPLVIndex dag PLVType.P_HAT id)].count
              (GPOperation.Zero (dag.dag_nodes.length + m)) =
              if m = id then 1 else 0 := by
            rw [count_zero_single]
            by_cases hmi : m = id
            · rw [if_pos hmi, if_pos]
              simp only [getPLVIndex, getPLVIndexStatic]
              omega
            · rw [if_neg hmi, if_neg]
              simp only [getPLVIndex, getPLVIndexStatic]
              omega
          have hmid : [GPOperation.Multiply
              (getPLVIndex dag PLVType.R_TILDE id)
              (getPLVIndex dag PLVType.R_HAT id)
              (getPLVIndex dag PLVType.P_HAT id),
              GPOperation.Zero (getPLVIndex dag PLVType.P_HAT_TILDE id)].count
              (GPOperation.Zero (dag.dag_nodes.length + m)) = 0 := by
            rw [count_zero_mult_zero, if_neg]
            simp only [getPLVIndex, getPLVIndexStatic]
            omega
          rw [List.count_append, List.count_append, List.count_append,
            List.count_append, hmarker, hcntS m hm, hmid, hcntR m hm,
            count_zero_mult2]
          have hvisS2 : ∀ x, x ∈ newvs → x ∈ visS :=
            fun x hx => (hiffS x).mpr (Or.inr hx)
          have hdisjSR : m ∈ newvs → m ∉ newvr :=
            fun h1 h2 => hnvR m h2 (hvisS2 m h1)
          have hidS : m = id → m ∉ newvs := by
            intro h1 h2
            subst h1
            exact hnvS m h2 (List.mem_cons_self m vis)
          have hidR : m = id → m ∉ newvr := by
            intro h1 h2
            subst h1
            exact hnvR m h2 hidvisS
          by_cases hmi : m = id
          · have h1 := hidS hmi
            have h2 := hidR hmi
            subst hmi
            simp [hidT, h1, h2]
          · by_cases hT : T ≤ m
            · by_cases h1 : m ∈ newvs
              · have h2 := hdisjSR h1
                simp [hT, h1, h2, hmi]
              · by_cases h2 : m ∈ newvr
                · simp [hT, h1, h2, hmi]
                · simp [hT, h1, h2, hmi]
            · simp [hT, hmi]
    by_cases hroot : nodeIsRoot dag node = true
    · obtain ⟨Δt, newv, vis2, htail, hiff, hid, hnv, hrv, hclo, hcnt⟩ :=
        hrest ops
      refine ⟨Δt, newv, vis2, ?_, hiff, hid, hnv, hrv, hclo, hcnt⟩
      unfold scheduleBranchLengthOptimization
      simp only [Option.bind_eq_bind, Option.pure_def]
      refine Option.bind_eq_some.mpr ⟨node, hnode, ?_⟩
      rw [if_neg (by simp [hroot])]
      refine Option.bind_eq_some.mpr ⟨ops, rfl, ?_⟩
      exact htail
    · have hroot2 : nodeIsRoot dag node = false := by
        simpa using hroot
      obtain ⟨δa, ha, hac⟩ := updateRHat_spec bd hnode false
        (ops ++ [GPOperation.Zero (getPLVIndex dag PLVType.R_HAT id)])
      obtain ⟨δb, hb, hbc⟩ := updateRHat_spec bd hnode true
        ((ops ++ [GPOperation.Zero (getPLVIndex dag PLVType.R_HAT id)]) ++ δa)
      obtain ⟨Δt, newv, vis2, htail, hiff, hid, hnv, hrv, hclo, hcnt⟩ :=
        hrest ((((ops ++
            [GPOperation.Zero (getPLVIndex dag PLVType.R_HAT id)]) ++
            δa) ++ δb) ++
          [GPOperation.Multiply (getPLVIndex dag PLVType.R id)
             (getPLVIndex dag PLVType.R_HAT id)
             (getPLVIndex dag PLVType.P_HAT_TILDE id),
           GPOperation.Multiply (getPLVIndex dag PLVType.R_TILDE id)
             (getPLVIndex dag PLVType.R_HAT id)
             (getPLVIndex dag PLVType.P_HAT id)])
      refine ⟨([GPOperation.Zero (getPLVIndex dag PLVType.R_HAT id)] ++
          (δa ++ (δb ++
            [GPOperation.Multiply (getPLVIndex dag PLVType.R id)
               (getPLVIndex dag PLVType.R_HAT id)
               (getPLVIndex dag PLVType.P_HAT_TILDE id),
             GPOperation.Multiply (getPLVIndex dag PLVType.R_TILDE id)
               (getPLVIndex dag PLVType.R_HAT id)
               (getPLVIndex dag PLVType.P_HAT id)]))) ++ Δt,
        newv, vis2, ?_, hiff, hid, hnv, hrv, hclo, ?_⟩
      · unfold scheduleBranchLengthOptimization
        simp only [Option.bind_eq_bind, Option.pure_def]
        refine Option.bind_eq_some.mpr ⟨node, hnode, ?_⟩
        rw [if_pos (by rw [hroot2]; rfl)]
        refine Option.bind_eq_some.mpr ⟨_, ha, ?_⟩
        refine Option.bind_eq_some.mpr ⟨_, hb, ?_⟩
        refine Option.bind_eq_some.mpr ⟨_, rfl, ?_⟩
        have hshape : ((((ops ++
            [GPOperation.Zero (getPLVIndex dag PLVType.R_HAT id)]) ++ δa) ++
            δb) ++
            [GPOperation.Multiply (getPLVIndex dag PLVType.R id)
               (getPLVIndex dag PLVType.R_HAT id)
               (getPLVIndex dag PLVType.P_HAT_TILDE id),
             GPOperation.Multiply (getPLVIndex dag PLVType.R_TILDE id)
               (getPLVIndex dag PLVType.R_HAT id)
               (getPLVIndex dag PLVType.P_HAT id)]) ++ Δt =
            ops ++ (([GPOperation.Zero (getPLVIndex dag PLVType.R_HAT id)] ++
              (δa ++ (δb ++
                [GPOperation.Multiply (getPLVIndex dag PLVType.R id)
                   (getPLVIndex dag PLVType.R_HAT id)
                   (getPLVIndex dag PLVType.P_HAT_TILDE id),
                 GPOperation.Multiply (getPLVIndex dag PLVType.R_TILDE id)
                   (getPLVIndex dag PLVType.R_HAT id)
                   (getPLVIndex dag PLVType.P_HAT id)]))) ++ Δt) := by
          simp [List.append_assoc]
        rw [← hshape]
        exact htail
      · intro m hm
        have hz : [GPOperation.Zero (getPLVIndex dag PLVType.R_HAT id)].count
            (GPOperation.Zero (dag.dag_nodes.length + m)) = 0 := by
          rw [count_zero_single, if_neg]
          simp only [getPLVIndex, getPLVIndexStatic]
          omega
        rw [List.count_append, List.count_append, List.count_append,
          List.count_append, hz, hac, hbc, count_zero_mult2, hcnt m hm]
        simp
/-- Full specification of one `ScheduleSBNParametersOptimization` call on an
unvisited node of the built DAG with enough fuel: it succeeds and
`SchedPost` holds. -/
theorem sspo_spec {T : Nat} {dag : GPDAG} (bd : BuiltDAG T dag) :
    ∀ (fuel id : Nat) (ops : GPOperationVector) (vis : List Nat),
      id < dag.dag_nodes.length → id + 1 ≤ fuel → id ∉ vis →
      SchedPost dag T id ops vis
        (scheduleSBNParametersOptimization dag fuel id (ops, vis)) := by
  intro fuel
  induction fuel with
  | zero =>
    intro id ops vis h1 h2 h3
    omega
  | succ fuel ih =>
    intro id ops vis hidN hfuel hvis
    have hnode : dag.dag_nodes.get? id =
        some (dag.dag_nodes.get ⟨id, hidN⟩) := List.get?_eq_get hidN
    set node := dag.dag_nodes.get ⟨id, hidN⟩ with hnodedef
    have hnid : node.id = id := node_id_of_get bd.ids hnode
    have hrest : ∀ (ops₁ : GPOperationVector),
        ∃ (Δt : GPOperationVector) (newv vis2 : List Nat),
          (if nodeIsLeaf dag node = true then some (ops₁, id :: vis)
           else do
            let operations := ops₁ ++
              [GPOperation.Zero (getPLVIndex dag PLVType.P_HAT id)]
            let st ← foldlOpt
              (fun child_id (st : GPOperationVector × List Nat) => do
                let st ←
                  if child_id ∈ st.2 then pure st
                  else scheduleSBNParametersOptimization dag fuel child_id st
                let ops ← updatePHatComputeLikelihood dag id child_id
                  false st.1
                pure (ops, st.2))
              node.leafwardSorted (operations, id :: vis)
            let operations := optimizeSBNParameters dag node.subsplit st.1
            let operations := operations ++
              [GPOperation.Multiply (getPLVIndex dag PLVType.R_TILDE id)
                 (getPLVIndex dag PLVType.R_HAT id)
                 (getPLVIndex dag PLVType.P_HAT id),
               GPOperation.Zero (getPLVIndex dag PLVType.P_HAT_TILDE id)]
            let st' ← foldlOpt
              (fun child_id (st' : GPOperationVector × List Nat) => do
                let st' ←
                  if child_id ∈ st'.2 then pure st'
                  else scheduleSBNParametersOptimization dag fuel child_id st'
                let ops ← updatePHatComputeLikelihood dag id child_id
                  true st'.1
                pure (ops, st'.2))
              node.leafwardRotated (operations, st.2)
            let operations :=
              optimizeSBNParameters dag (rotateSubsplit node.subsplit) st'.1
            pure (operations ++
              [GPOperation.Multiply (getPLVIndex dag PLVType.R id)
                 (getPLVIndex dag PLVType.R_HAT id)
                 (getPLVIndex dag PLVType.P_HAT_TILDE id),
               GPOperation.Multiply (getPLVIndex dag PLVType.P id)
                 (getPLVIndex dag PLVType.P_HAT id)
                 (getPLVIndex dag PLVType.P_HAT_TILDE id)], st'.2)) =
            some (ops₁ ++ Δt, vis2) ∧
          (∀ v, v ∈ vis2 ↔ (v ∈ vis ∨ v ∈ newv)) ∧
          id ∈ newv ∧
          (∀ v ∈ newv, v ∉ vis) ∧
          (∀ v ∈ newv, v = id ∨ LeafwardReach dag id v) ∧
          (∀ v ∈ newv, ∀ n, dag.dag_nodes.get? v = some n →
            ∀ c ∈ n.leafwardSorted ++ n.leafwardRotated, c ∈ vis2) ∧
          (∀ m, m < dag.dag_nodes.length →
            Δt.count (GPOperation.Zero (dag.dag_nodes.length + m)) =
              if T ≤ m ∧ m ∈ newv then 1 else 0) := by
      intro ops₁
      by_cases hleaf : nodeIsLeaf dag node = true
      · have hidT : id < T := by
          unfold nodeIsLeaf at hleaf
          rw [hnid, bd.taxon] at hleaf
          exact of_decide_eq_true hleaf
        refine ⟨[], [id], id :: vis, ?_, ?_, ?_, ?_, ?_, ?_, ?_⟩
        · rw [if_pos hleaf, List.append_nil]
        · intro v
          simp [List.mem_cons, Or.comm]
        · simp
        · intro v hv
          rw [List.mem_singleton] at hv
          subst hv
          exact hvis
        · intro v hv
          rw [List.mem_singleton] at hv
          exact Or.inl hv
        · intro v hv n hn x hx
          rw [List.mem_singleton] at hv
          subst hv
          rw [hnode] at hn
          simp only [Option.some.injEq] at hn
          subst hn
          obtain ⟨-, he1, he2⟩ := bd.fakes v hidT node hnode
          rw [he1, he2] at hx
          exact absurd hx (by simp)
        · intro m hm
          have hnm : ¬(T ≤ m ∧ m ∈ [id]) := by
            rintro ⟨h1, h2⟩
            rw [List.mem_singleton] at h2
            omega
          rw [if_neg hnm]
          simp
      · have hidT : T ≤ id := by
          unfold nodeIsLeaf at hleaf
          rw [hnid, bd.taxon] at hleaf
          exact Nat.le_of_not_lt (fun hcon => hleaf (decide_eq_true hcon))
        have hchild : ∀ c ∈ node.leafwardSorted ++ node.leafwardRotated,
            c < id := fun c hcm => bd.edgeDecr id node hnode c hcm
        obtain ⟨Δs, newvs, visS, heqS, hiffS, hnvS, hrvS, hcloS, hcsS, hcntS⟩ :=
          schedChildFold id
            (fun c a => updatePHatComputeLikelihood dag id c false a)
            (fun c st => scheduleSBNParametersOptimization dag fuel c st)
            node.leafwardSorted
            (ops₁ ++ [GPOperation.Zero (getPLVIndex dag PLVType.P_HAT id)])
            (id :: vis)
            (fun c hc => LeafwardReach.edge hnode (List.mem_append_left _ hc))
            (fun c hc accops =>
              updatePHatComputeLikelihood_spec bd hnode hidT false hc accops)
            (fun c hc ops2 vis2 hnv =>
              ih c ops2 vis2
                (by have := hchild c (List.mem_append_left _ hc); omega)
                (by have := hchild c (List.mem_append_left _ hc); omega) hnv)
        obtain ⟨δo1, ho1, ho1c⟩ := optimizeSBNParameters_spec dag node.subsplit
          ((ops₁ ++ [GPOperation.Zero (getPLVIndex dag PLVType.P_HAT id)]) ++
            Δs)
        obtain ⟨Δr, newvr, visR, heqR, hiffR, hnvR, hrvR, hcloR, hcsR, hcntR⟩ :=
          schedChildFold id
            (fun c a => updatePHatComputeLikelihood dag id c true a)
            (fun c st => scheduleSBNParametersOptimization dag fuel c st)
            node.leafwardRotated
            ((((ops₁ ++
                [GPOperation.Zero (getPLVIndex dag PLVType.P_HAT id)]) ++
                Δs) ++ δo1) ++
              [GPOperation.Multiply (getPLVIndex dag PLVType.R_TILDE id)
                 (getPLVIndex dag PLVType.R_HAT id)
                 (getPLVIndex dag PLVType.P_HAT id),
               GPOperation.Zero (getPLVIndex dag PLVType.P_HAT_TILDE id)])
            visS
            (fun c hc => LeafwardReach.edge hnode (List.mem_append_right _ hc))
            (fun c hc accops =>
              updatePHatComputeLikelihood_spec bd hnode hidT true hc accops)
            (fun c hc ops2 vis2 hnv =>
              ih c ops2 vis2
                (by have := hchild c (List.mem_append_right _ hc); omega)
                (by have := hchild c (List.mem_append_right _ hc); omega) hnv)
        obtain ⟨δo2, ho2, ho2c⟩ := optimizeSBNParameters_spec dag
          (rotateSubsplit node.subsplit)
          (((((ops₁ ++
              [GPOperation.Zero (getPLVIndex dag PLVType.P_HAT id)]) ++
              Δs) ++ δo1) ++
            [GPOperation.Multiply (getPLVIndex dag PLVType.R_TILDE id)
               (getPLVIndex dag PLVType.R_HAT id)
               (getPLVIndex dag PLVType.P_HAT id),
             GPOperation.Zero (getPLVIndex dag PLVType.P_HAT_TILDE id)]) ++
            Δr)
        have hvisS : ∀ v, v ∈ visS → v ∈ visR :=
          fun v hv => (hiffR v).mpr (Or.inl hv)
        have hidvisS : id ∈ visS := (hiffS id).mpr (Or.inl (by simp))
        refine ⟨[GPOperation.Zero (getPLVIndex dag PLVType.P_HAT id)] ++
            (Δs ++ (δo1 ++
              ([GPOperation.Multiply (getPLVIndex dag PLVType.R_TILDE id)
                  (getPLVIndex dag PLVType.R_HAT id)
                  (getPLVIndex dag PLVType.P_HAT id),
                GPOperation.Zero (getPLVIndex dag PLVType.P_HAT_TILDE id)] ++
                (Δr ++ (δo2 ++
                  [GPOperation.Multiply (getPLVIndex dag PLVType.R id)
                     (getPLVIndex dag PLVType.R_HAT id)
                     (getPLVIndex dag PLVType.P_HAT_TILDE id),
                   GPOperation.Multiply (getPLVIndex dag PLVType.P id)
                     (getPLVIndex dag PLVType.P_HAT id)
                     (getPLVIndex dag PLVType.P_HAT_TILDE id)]))))),
          id :: (newvs ++ newvr), visR, ?_, ?_, ?_, ?_, ?_, ?_, ?_⟩
        · rw [if_neg hleaf]
          simp only [Option.bind_eq_bind, Option.pure_def]
          refine Option.bind_eq_some.mpr ⟨_, heqS, ?_⟩
          show Option.bind
              (foldlOpt
                (fun child_id (st' : GPOperationVector × List Nat) => do
                  let st' ←
                    if child_id ∈ st'.2 then pure st'
                    else scheduleSBNParametersOptimization dag fuel child_id st'
                  let ops ← updatePHatComputeLikelihood dag id child_id
                    true st'.1
                  pure (ops, st'.2))
                node.leafwardRotated
                (optimizeSBNParameters dag node.subsplit
                    ((ops₁ ++
                      [GPOperation.Zero (getPLVIndex dag PLVType.P_HAT id)]) ++
                      Δs) ++
                  [GPOperation.Multiply (getPLVIndex dag PLVType.R_TILDE id)
                     (getPLVIndex dag PLVType.R_HAT id)
                     (getPLVIndex dag PLVType.P_HAT id),
                   GPOperation.Zero (getPLVIndex dag PLVType.P_HAT_TILDE id)],
                  visS))
              (fun st' =>
                some (optimizeSBNParameters dag (rotateSubsplit node.subsplit)
                    st'.1 ++
                  [GPOperation.Multiply (getPLVIndex dag PLVType.R id)
                     (getPLVIndex dag PLVType.R_HAT id)
                     (getPLVIndex dag PLVType.P_HAT_TILDE id),
                   GPOperation.Multiply (getPLVIndex dag PLVType.P id)
                     (getPLVIndex dag PLVType.P_HAT id)
                     (getPLVIndex dag PLVType.P_HAT_TILDE id)], st'.2)) = _
          rw [ho1]
          refine Option.bind_eq_some.mpr ⟨_, heqR, ?_⟩
          show some (optimizeSBNParameters dag (rotateSubsplit node.subsplit)
              (((((ops₁ ++
                [GPOperation.Zero (getPLVIndex dag PLVType.P_HAT id)]) ++
                Δs) ++ δo1) ++
                [GPOperation.Multiply (getPLVIndex dag PLVType.R_TILDE id)
                   (getPLVIndex dag PLVType.R_HAT id)
                   (getPLVIndex dag PLVType.P_HAT id),
                 GPOperation.Zero (getPLVIndex dag PLVType.P_HAT_TILDE id)]) ++
                Δr) ++
              [GPOperation.Multiply (getPLVIndex dag PLVType.R id)
                 (getPLVIndex dag PLVType.R_HAT id)
                 (getPLVIndex dag PLVType.P_HAT_TILDE id),
               GPOperation.Multiply (getPLVIndex dag PLVType.P id)
                 (getPLVIndex dag PLVType.P_HAT id)
                 (getPLVIndex dag PLVType.P_HAT_TILDE id)], visR) = _
          rw [ho2, Option.some.injEq, Prod.mk.injEq]
          refine ⟨?_, rfl⟩
          simp [List.append_assoc]
        · intro v
          constructor
          · intro hv
            rcases (hiffR v).mp hv with h1 | h1
            · rcases (hiffS v).mp h1 with h2 | h2
              · rcases List.mem_cons.mp h2 with h3 | h3
                · subst h3
                  exact Or.inr (by simp)
                · exact Or.inl h3
              · exact Or.inr (by simp [h2])
            · exact Or.inr (by simp [h1])
          · intro hv
            rcases hv with h1 | h1
            · exact hvisS v ((hiffS v).mpr (Or.inl (List.mem_cons_of_mem _ h1)))
            · rcases List.mem_cons.mp h1 with h2 | h2
              · subst h2
                exact hvisS v hidvisS
              · rcases List.mem_append.mp h2 with h3 | h3
                · exact hvisS v ((hiffS v).mpr (Or.inr h3))
                · exact (hiffR v).mpr (Or.inr h3)
        · simp
        · intro v hv
          rcases List.mem_cons.mp hv with h1 | h1
          · subst h1
            exact hvis
          · rcases List.mem_append.mp h1 with h2 | h2
            · intro hcon
              exact hnvS v h2 (List.mem_cons_of_mem _ hcon)
            · intro hcon
              exact hnvR v h2 ((hiffS v).mpr (Or.inl
                (List.mem_cons_of_mem _ hcon)))
        · intro v hv
          rcases List.mem_cons.mp hv with h1 | h1
          · exact Or.inl h1
          · rcases List.mem_append.mp h1 with h2 | h2
            · exact Or.inr (hrvS v h2)
            · exact Or.inr (hrvR v h2)
        · intro v hv n hn x hx
          rcases List.mem_cons.mp hv with h1 | h1
          · subst h1
            rw [hnode] at hn
            simp only [Option.some.injEq] at hn
            subst hn
            rcases List.mem_append.mp hx with h2 | h2
            · exact hvisS x (hcsS x h2)
            · exact hcsR x h2
          · rcases List.mem_append.mp h1 with h2 | h2
            · exact hvisS x (hcloS v h2 n hn x hx)
            · exact hcloR v h2 n hn x hx
        · intro m hm
          have hmarker : [GPOperation.Zero
              (getPLVIndex dag PLVType.P_HAT id)].count
              (GPOperation.Zero (dag.dag_nodes.length + m)) =
              if m = id then 1 else 0 := by
            rw [count_zero_single]
            by_cases hmi : m = id
            · rw [if_pos hmi, if_pos]
              simp only [getPLVIndex, getPLVIndexStatic]
              omega
            · rw [if_neg hmi, if_neg]
              simp only [getPLVIndex, getPLVIndexStatic]
              omega
          have hmid : [GPOperation.Multiply
              (getPLVIndex dag PLVType.R_TILDE id)
              (getPLVIndex dag PLVType.R_HAT id)
              (getPLVIndex dag PLVType.P_HAT id),
              GPOperation.Zero (getPLVIndex dag PLVType.P_HAT_TILDE id)].count
              (GPOperation.Zero (dag.dag_nodes.length + m)) = 0 := by
            rw [count_zero_mult_zero, if_neg]
            simp only [getPLVIndex, getPLVIndexStatic]
            omega
          rw [List.count_append, List.count_append, List.count_append,
            List.count_append, List.count_append, List.count_append,
            hmarker, hcntS m hm, ho1c, hmid, hcntR m hm, ho2c,
            count_zero_mult2]
          have hvisS2 : ∀ x, x ∈ newvs → x ∈ visS :=
            fun x hx => (hiffS x).mpr (Or.inr hx)
          have hdisjSR : m ∈ newvs → m ∉ newvr :=
            fun h1 h2 => hnvR m h2 (hvisS2 m h1)
          have hidS : m = id → m ∉ newvs := by
            intro h1 h2
            subst h1
            exact hnvS m h2 (List.mem_cons_self m vis)
          have hidR : m = id → m ∉ newvr := by
            intro h1 h2
            subst h1
            exact hnvR m h2 hidvisS
          by_cases hmi : m = id
          · have h1 := hidS hmi
            have h2 := hidR hmi
            subst hmi
            simp [hidT, h1, h2]
          · by_cases hT : T ≤ m
            · by_cases h1 : m ∈ newvs
              · have h2 := hdisjSR h1
                simp [hT, h1, h2, hmi]
              · by_cases h2 : m ∈ newvr
                · simp [hT, h1, h2, hmi]
                · simp [hT, h1, h2, hmi]
            · simp [hT, hmi]
    by_cases hroot : nodeIsRoot dag node = true
    · obtain ⟨Δt, newv, vis2, htail, hiff, hid, hnv, hrv, hclo, hcnt⟩ :=
        hrest ops
      refine ⟨Δt, newv, vis2, ?_, hiff, hid, hnv, hrv, hclo, hcnt⟩
      unfold scheduleSBNParametersOptimization
      simp only [Option.bind_eq_bind, Option.pure_def]
      refine Option.bind_eq_some.mpr ⟨node, hnode, ?_⟩
      rw [if_neg (by simp [hroot])]
      refine Option.bind_eq_some.mpr ⟨ops, rfl, ?_⟩
      exact htail
    · have hroot2 : nodeIsRoot dag node = false := by
        simpa using hroot
      obtain ⟨δa, ha, hac⟩ := updateRHat_spec bd hnode false
        (ops ++ [GPOperation.Zero (getPLVIndex dag PLVType.R_HAT id)])
      obtain ⟨δb, hb, hbc⟩ := updateRHat_spec bd hnode true
        ((ops ++ [GPOperation.Zero (getPLVIndex dag PLVType.R_HAT id)]) ++ δa)
      obtain ⟨Δt, newv, vis2, htail, hiff, hid, hnv, hrv, hclo, hcnt⟩ :=
        hrest ((((ops ++
            [GPOperation.Zero (getPLVIndex dag PLVType.R_HAT id)]) ++
            δa) ++ δb) ++
          [GPOperation.Multiply (getPLVIndex dag PLVType.R id)
             (getPLVIndex dag PLVType.R_HAT id)
             (getPLVIndex dag PLVType.P_HAT_TILDE id),
           GPOperation.Multiply (getPLVIndex dag PLVType.R_TILDE id)
             (getPLVIndex dag PLVType.R_HAT id)
             (getPLVIndex dag PLVType.P_HAT id)])
      refine ⟨([GPOperation.Zero (getPLVIndex dag PLVType.R_HAT id)] ++
          (δa ++ (δb ++
            [GPOperation.Multiply (getPLVIndex dag PLVType.R id)
               (getPLVIndex dag PLVType.R_HAT id)
               (getPLVIndex dag PLVType.P_HAT_TILDE id),
             GPOperation.Multiply (getPLVIndex dag PLVType.R_TILDE id)
               (getPLVIndex dag PLVType.R_HAT id)
               (getPLVIndex dag PLVType.P_HAT id)]))) ++ Δt,
        newv, vis2, ?_, hiff, hid, hnv, hrv, hclo, ?_⟩
      · unfold scheduleSBNParametersOptimization
        simp only [Option.bind_eq_bind, Option.pure_def]
        refine Option.bind_eq_some.mpr ⟨node, hnode, ?_⟩
        rw [if_pos (by rw [hroot2]; rfl)]
        refine Option.bind_eq_some.mpr ⟨_, ha, ?_⟩
        refine Option.bind_eq_some.mpr ⟨_, hb, ?_⟩
        refine Option.bind_eq_some.mpr ⟨_, rfl, ?_⟩
        have hshape : ((((ops ++
            [GPOperation.Zero (getPLVIndex dag PLVType.R_HAT id)]) ++ δa) ++
            δb) ++
            [GPOperation.Multiply (getPLVIndex dag PLVType.R id)
               (getPLVIndex dag PLVType.R_HAT id)
               (getPLVIndex dag PLVType.P_HAT_TILDE id),
             GPOperation.Multiply (getPLVIndex dag PLVType.R_TILDE id)
               (getPLVIndex dag PLVType.R_HAT id)
               (getPLVIndex dag PLVType.P_HAT id)]) ++ Δt =
            ops ++ (([GPOperation.Zero (getPLVIndex dag PLVType.R_HAT id)] ++
              (δa ++ (δb ++
                [GPOperation.Multiply (getPLVIndex dag PLVType.R id)
                   (getPLVIndex dag PLVType.R_HAT id)
                   (getPLVIndex dag PLVType.P_HAT_TILDE id),
                 GPOperation.Multiply (getPLVIndex dag PLVType.R_TILDE id)
                   (getPLVIndex dag PLVType.R_HAT id)
                   (getPLVIndex dag PLVType.P_HAT id)]))) ++ Δt) := by
          simp [List.append_assoc]
        rw [← hshape]
        exact htail
      · intro m hm
        have hz : [GPOperation.Zero (getPLVIndex dag PLVType.R_HAT id)].count
            (GPOperation.Zero (dag.dag_nodes.length + m)) = 0 := by
          rw [count_zero_single, if_neg]
          simp only [getPLVIndex, getPLVIndexStatic]
          omega
        rw [List.count_append, List.count_append, List.count_append,
          List.count_append, hz, hac, hbc, count_zero_mult2, hcnt m hm]
        simp
theorem count_zero_iml (a b c w : Nat) :
    [GPOperation.IncrementMarginalLikelihood a b c].count
      (GPOperation.Zero w) = 0 := by
  simp [List.count_cons]

theorem count_zero_usp (a b w : Nat) :
    [GPOperation.UpdateSBNProbabilities a b].count (GPOperation.Zero w) = 0 := by
  simp [List.count_cons]

/-- A visited set closed under single leafward edges is closed under
leafward reachability. -/
theorem visited_reach_closed {dag : GPDAG} {vis : List Nat}
    (hclo : ∀ v ∈ vis, ∀ n, dag.dag_nodes.get? v = some n →
      ∀ c ∈ n.leafwardSorted ++ n.leafwardRotated, c ∈ vis) :
    ∀ i q, LeafwardReach dag i q → i ∈ vis → q ∈ vis := by
  intro i q hr
  induction hr with
  | edge h1 h2 =>
    intro hi
    exact hclo _ hi _ h1 _ h2
  | step h1 h2 ih1 ih2 =>
    intro hi
    exact ih2 (ih1 hi)

/-- The rootsplit loop of `BranchLengthOptimization`: every rootsplit node
is scheduled, the newly visited nodes are exactly rootsplit nodes and their
leafward descendants, and the `Zero(P̂)` marker appears once per newly
visited real node. -/
theorem bloRootsFold {T : Nat} {dag : GPDAG} (bd : BuiltDAG T dag)
    (fl : Nat) (hfl : dag.dag_nodes.length ≤ fl) :
    ∀ (rl : List Bitset) (ops₀ : GPOperationVector) (vis₀ : List Nat),
      rl.Nodup →
      (∀ r ∈ rl, r ∈ dag.rootsplits) →
      (∀ r ∈ rl, ∀ rid, mapFind dag.subsplit_to_index
        (r ++ bitsetComplement r) = some rid → rid ∉ vis₀) →
      ∃ (Δ : GPOperationVector) (newv vis2 : List Nat),
        foldlOpt (fun rootsplit (st : GPOperationVector × List Nat) => do
            let root_id ← mapFind dag.subsplit_to_index
              (rootsplit ++ bitsetComplement rootsplit)
            scheduleBranchLengthOptimization dag fl root_id st)
          rl (ops₀, vis₀) = some (ops₀ ++ Δ, vis2) ∧
        (∀ v, v ∈ vis2 ↔ (v ∈ vis₀ ∨ v ∈ newv)) ∧
        (∀ v ∈ newv, v ∉ vis₀) ∧
        (∀ v ∈ newv, ∃ r ∈ rl, ∃ rid,
          mapFind dag.subsplit_to_index (r ++ bitsetComplement r) =
            some rid ∧ (v = rid ∨ LeafwardReach dag rid v)) ∧
        (∀ v ∈ newv, ∀ n, dag.dag_nodes.get? v = some n →
          ∀ c ∈ n.leafwardSorted ++ n.leafwardRotated, c ∈ vis2) ∧
        (∀ r ∈ rl, ∀ rid, mapFind dag.subsplit_to_index
          (r ++ bitsetComplement r) = some rid → rid ∈ vis2) ∧
        (∀ m, m < dag.dag_nodes.length →
          Δ.count (GPOperation.Zero (dag.dag_nodes.length + m)) =
            if T ≤ m ∧ m ∈ newv then 1 else 0) := by
  intro rl
  induction rl with
  | nil =>
    intro ops₀ vis₀ hnd hroots hfresh
    refine ⟨[], [], vis₀, by rw [List.append_nil, foldlOpt_nil], ?_, ?_, ?_,
      ?_, ?_, ?_⟩
    · intro v
      simp
    · intro v hv
      exact absurd hv (by simp)
    · intro v hv
      exact absurd hv (by simp)
    · intro v hv
      exact absurd hv (by simp)
    · intro r hr
      exact absurd hr (by simp)
    · intro m hm
      simp
  | cons r rest ih =>
    intro ops₀ vis₀ hnd hroots hfresh
    have hr : r ∈ dag.rootsplits := hroots r (List.mem_cons_self r rest)
    obtain ⟨rid, hrid⟩ :=
      Option.isSome_iff_exists.mp (bd.rootsCreated r hr)
    obtain ⟨hridN, -⟩ := mapFind_sync_of bd.sync bd.ids hrid
    have hridvis : rid ∉ vis₀ :=
      hfresh r (List.mem_cons_self r rest) rid hrid
    obtain ⟨Δ1, newv1, vis1, heq1, hiff1, hid1, hnv1, hrv1, hclo1, hcnt1⟩ :=
      sblo_spec bd fl rid ops₀ vis₀ hridN (by omega) hridvis
    obtain ⟨Δ2, newv2, vis2, heq2, hiff2, hnv2, horig2, hclo2, hroots2, hcnt2⟩ :=
      ih (ops₀ ++ Δ1) vis1 (List.nodup_cons.mp hnd).2
        (fun x hx => hroots x (List.mem_cons_of_mem _ hx))
        (fun r2 hr2 rid2 hrid2 hmem => by
          rcases (hiff1 rid2).mp hmem with h1 | h1
          · exact hfresh r2 (List.mem_cons_of_mem _ hr2) rid2 hrid2 h1
          · rcases hrv1 rid2 h1 with h2 | h2
            · subst h2
              have := roots_ids_inj bd
                (hroots r2 (List.mem_cons_of_mem _ hr2)) hr hrid2 hrid
              subst this
              exact (List.nodup_cons.mp hnd).1 hr2
            · exact root_not_reached bd
                (hroots r2 (List.mem_cons_of_mem _ hr2)) hrid2 rid h2)
    have hvis12 : ∀ v, v ∈ vis1 → v ∈ vis2 :=
      fun v hv => (hiff2 v).mpr (Or.inl hv)
    refine ⟨Δ1 ++ Δ2, newv1 ++ newv2, vis2, ?_, ?_, ?_, ?_, ?_, ?_, ?_⟩
    · refine foldlOpt_cons_eq (ops₀ ++ Δ1, vis1) ?_ ?_
      · exact Option.bind_eq_some.mpr ⟨rid, hrid, heq1⟩
      · rw [← List.append_assoc]
        exact heq2
    · intro v
      constructor
      · intro hv
        rcases (hiff2 v).mp hv with h1 | h1
        · rcases (hiff1 v).mp h1 with h2 | h2
          · exact Or.inl h2
          · exact Or.inr (List.mem_append_left _ h2)
        · exact Or.inr (List.mem_append_right _ h1)
      · intro hv
        rcases hv with h1 | h1
        · exact hvis12 v ((hiff1 v).mpr (Or.inl h1))
        · rcases List.mem_append.mp h1 with h2 | h2
          · exact hvis12 v ((hiff1 v).mpr (Or.inr h2))
          · exact (hiff2 v).mpr (Or.inr h2)
    · intro v hv
      rcases List.mem_append.mp hv with h1 | h1
      · exact hnv1 v h1
      · exact fun hcon => hnv2 v h1 ((hiff1 v).mpr (Or.inl hcon))
    · intro v hv
      rcases List.mem_append.mp hv with h1 | h1
      · exact ⟨r, List.mem_cons_self r rest, rid, hrid, hrv1 v h1⟩
      · obtain ⟨r2, hr2, rid2, hrid2, hcase⟩ := horig2 v h1
        exact ⟨r2, List.mem_cons_of_mem _ hr2, rid2, hrid2, hcase⟩
    · intro v hv n hn x hx
      rcases List.mem_append.mp hv with h1 | h1
      · exact hvis12 x (hclo1 v h1 n hn x hx)
      · exact hclo2 v h1 n hn x hx
    · intro r2 hr2 rid2 hrid2
      rcases List.mem_cons.mp hr2 with h1 | h1
      · subst h1
        rw [hrid] at hrid2
        simp only [Option.some.injEq] at hrid2
        subst hrid2
        exact hvis12 _ ((hiff1 _).mpr (Or.inr hid1))
      · exact hroots2 r2 h1 rid2 hrid2
    · intro m hm
      rw [List.count_append, hcnt1 m hm, hcnt2 m hm]
      have hdisj : m ∈ newv1 → m ∉ newv2 :=
        fun h1 h2 => hnv2 m h2 ((hiff1 m).mpr (Or.inr h1))
      by_cases hT : T ≤ m
      · by_cases h1 : m ∈ newv1
        · have h2 := hdisj h1
          simp [hT, h1, h2]
        · by_cases h2 : m ∈ newv2
          · simp [hT, h1, h2]
          · simp [hT, h1, h2]
      · simp [hT]
/-- The rootsplit loop of `SBNParameterOptimization`
(`sbnParameterOptimizationFrom`): like `bloRootsFold`, with one
`IncrementMarginalLikelihood` (never a `Zero`) appended per rootsplit. -/
theorem sbnFromFold {T : Nat} {dag : GPDAG} (bd : BuiltDAG T dag)
    (fl : Nat) (hfl : dag.dag_nodes.length ≤ fl) :
    ∀ (rl : List Bitset) (idx : Nat) (ops₀ : GPOperationVector)
      (vis₀ : List Nat),
      rl.Nodup →
      (∀ r ∈ rl, r ∈ dag.rootsplits) →
      (∀ r ∈ rl, ∀ rid, mapFind dag.subsplit_to_index
        (r ++ bitsetComplement r) = some rid → rid ∉ vis₀) →
      ∃ (Δ : GPOperationVector) (newv vis2 : List Nat),
        sbnParameterOptimizationFrom dag fl rl idx (ops₀, vis₀) =
          some (ops₀ ++ Δ, vis2) ∧
        (∀ v, v ∈ vis2 ↔ (v ∈ vis₀ ∨ v ∈ newv)) ∧
        (∀ v ∈ newv, v ∉ vis₀) ∧
        (∀ v ∈ newv, ∃ r ∈ rl, ∃ rid,
          mapFind dag.subsplit_to_index (r ++ bitsetComplement r) =
            some rid ∧ (v = rid ∨ LeafwardReach dag rid v)) ∧
        (∀ v ∈ newv, ∀ n, dag.dag_nodes.get? v = some n →
          ∀ c ∈ n.leafwardSorted ++ n.leafwardRotated, c ∈ vis2) ∧
        (∀ r ∈ rl, ∀ rid, mapFind dag.subsplit_to_index
          (r ++ bitsetComplement r) = some rid → rid ∈ vis2) ∧
        (∀ m, m < dag.dag_nodes.length →
          Δ.count (GPOperation.Zero (dag.dag_nodes.length + m)) =
            if T ≤ m ∧ m ∈ newv then 1 else 0) := by
  intro rl
  induction rl with
  | nil =>
    intro idx ops₀ vis₀ hnd hroots hfresh
    refine ⟨[], [], vis₀, ?_, ?_, ?_, ?_, ?_, ?_, ?_⟩
    · simp only [sbnParameterOptimizationFrom, List.append_nil]
    · intro v
      simp
    · intro v hv
      exact absurd hv (by simp)
    · intro v hv
      exact absurd hv (by simp)
    · intro v hv
      exact absurd hv (by simp)
    · intro r hr
      exact absurd hr (by simp)
    · intro m hm
      simp
  | cons r rest ih =>
    intro idx ops₀ vis₀ hnd hroots hfresh
    have hr : r ∈ dag.rootsplits := hroots r (List.mem_cons_self r rest)
    obtain ⟨rid, hrid⟩ :=
      Option.isSome_iff_exists.mp (bd.rootsCreated r hr)
    obtain ⟨hridN, -⟩ := mapFind_sync_of bd.sync bd.ids hrid
    have hridvis : rid ∉ vis₀ :=
      hfresh r (List.mem_cons_self r rest) rid hrid
    obtain ⟨Δ1, newv1, vis1, heq1, hiff1, hid1, hnv1, hrv1, hclo1, hcnt1⟩ :=
      sspo_spec bd fl rid ops₀ vis₀ hridN (by omega) hridvis
    obtain ⟨Δ2, newv2, vis2, heq2, hiff2, hnv2, horig2, hclo2, hroots2, hcnt2⟩ :=
      ih (idx + 1)
        ((ops₀ ++ Δ1) ++
          [GPOperation.IncrementMarginalLikelihood
            (getPLVIndex dag PLVType.R_HAT rid) idx
            (getPLVIndex dag PLVType.P rid)])
        vis1 (List.nodup_cons.mp hnd).2
        (fun x hx => hroots x (List.mem_cons_of_mem _ hx))
        (fun r2 hr2 rid2 hrid2 hmem => by
          rcases (hiff1 rid2).mp hmem with h1 | h1
          · exact hfresh r2 (List.mem_cons_of_mem _ hr2) rid2 hrid2 h1
          · rcases hrv1 rid2 h1 with h2 | h2
            · subst h2
              have := roots_ids_inj bd
                (hroots r2 (List.mem_cons_of_mem _ hr2)) hr hrid2 hrid
              subst this
              exact (List.nodup_cons.mp hnd).1 hr2
            · exact root_not_reached bd
                (hroots r2 (List.mem_cons_of_mem _ hr2)) hrid2 rid h2)
    have hvis12 : ∀ v, v ∈ vis1 → v ∈ vis2 :=
      fun v hv => (hiff2 v).mpr (Or.inl hv)
    refine ⟨Δ1 ++
        ([GPOperation.IncrementMarginalLikelihood
          (getPLVIndex dag PLVType.R_HAT rid) idx
          (getPLVIndex dag PLVType.P rid)] ++ Δ2),
      newv1 ++ newv2, vis2, ?_, ?_, ?_, ?_, ?_, ?_, ?_⟩
    · unfold sbnParameterOptimizationFrom
      simp only [Option.bind_eq_bind, Option.pure_def]
      refine Option.bind_eq_some.mpr ⟨rid, hrid, ?_⟩
      refine Option.bind_eq_some.mpr ⟨(ops₀ ++ Δ1, vis1), heq1, ?_⟩
      have hshape : ((ops₀ ++ Δ1) ++
          [GPOperation.IncrementMarginalLikelihood
            (getPLVIndex dag PLVType.R_HAT rid) idx
            (getPLVIndex dag PLVType.P rid)]) ++ Δ2 =
          ops₀ ++ (Δ1 ++
            ([GPOperation.IncrementMarginalLikelihood
              (getPLVIndex dag PLVType.R_HAT rid) idx
              (getPLVIndex dag PLVType.P rid)] ++ Δ2)) := by
        simp [List.append_assoc]
      rw [← hshape]
      exact heq2
    · intro v
      constructor
      · intro hv
        rcases (hiff2 v).mp hv with h1 | h1
        · rcases (hiff1 v).mp h1 with h2 | h2
          · exact Or.inl h2
          · exact Or.inr (List.mem_append_left _ h2)
        · exact Or.inr (List.mem_append_right _ h1)
      · intro hv
        rcases hv with h1 | h1
        · exact hvis12 v ((hiff1 v).mpr (Or.inl h1))
        · rcases List.mem_append.mp h1 with h2 | h2
          · exact hvis12 v ((hiff1 v).mpr (Or.inr h2))
          · exact (hiff2 v).mpr (Or.inr h2)
    · intro v hv
      rcases List.mem_append.mp hv with h1 | h1
      · exact hnv1 v h1
      · exact fun hcon => hnv2 v h1 ((hiff1 v).mpr (Or.inl hcon))
    · intro v hv
      rcases List.mem_append.mp hv with h1 | h1
      · exact ⟨r, List.mem_cons_self r rest, rid, hrid, hrv1 v h1⟩
      · obtain ⟨r2, hr2, rid2, hrid2, hcase⟩ := horig2 v h1
        exact ⟨r2, List.mem_cons_of_mem _ hr2, rid2, hrid2, hcase⟩
    · intro v hv n hn x hx
      rcases List.mem_append.mp hv with h1 | h1
      · exact hvis12 x (hclo1 v h1 n hn x hx)
      · exact hclo2 v h1 n hn x hx
    · intro r2 hr2 rid2 hrid2
      rcases List.mem_cons.mp hr2 with h1 | h1
      · subst h1
        rw [hrid] at hrid2
        simp only [Option.some.injEq] at hrid2
        subst hrid2
        exact hvis12 _ ((hiff1 _).mpr (Or.inr hid1))
      · exact hroots2 r2 h1 rid2 hrid2
    · intro m hm
      rw [List.count_append, List.count_append, hcnt1 m hm, count_zero_iml,
        hcnt2 m hm]
      have hdisj : m ∈ newv1 → m ∉ newv2 :=
        fun h1 h2 => hnv2 m h2 ((hiff1 m).mpr (Or.inr h1))
      by_cases hT : T ≤ m
      · by_cases h1 : m ∈ newv1
        · have h2 := hdisj h1
          simp [hT, h1, h2]
        · by_cases h2 : m ∈ newv2
          · simp [hT, h1, h2]
          · simp [hT, h1, h2]
      · simp [hT]

/-- **C1**: for a DAG built from a well-formed tree collection and enough
fuel, the operation vector returned by `BranchLengthOptimization`, and
likewise the one returned by `SBNParameterOptimization`, schedules every
non-fake node exactly once: the `Zero(P̂(m))` operation heading node `m`'s
per-node block appears exactly once in each returned sequence, for every
real (non-fake) node id `m`, no matter how many rootward parents `m` has or
from how many rootsplit roots it is reachable. -/
theorem schedule_each_node_exactly_once {T : Nat} {rc : List Bitset}
    {pcss : List (Bitset × List Bitset)} {fuel : Nat} {dag : GPDAG}
    (h : buildGPDAG T rc pcss fuel = some dag) (hwf : InputWF T rc pcss)
    {fl : Nat} (hfl : dag.dag_nodes.length ≤ fl)
    {opsB opsS : GPOperationVector}
    (hB : branchLengthOptimization dag fl = some opsB)
    (hS : sbnParameterOptimization dag fl = some opsS) :
    ∀ m, T ≤ m → m < dag.dag_nodes.length →
      opsB.count (GPOperation.Zero (getPLVIndex dag PLVType.P_HAT m)) = 1 ∧
      opsS.count (GPOperation.Zero (getPLVIndex dag PLVType.P_HAT m)) = 1 := by
  obtain ⟨bd, -⟩ := buildGPDAG_spec h hwf
  obtain ⟨ΔB, newvB, visB, heqB, hiffB, -, -, hcloB, hrootsB, hcntB⟩ :=
    bloRootsFold bd fl hfl dag.rootsplits [] [] bd.rootsNodup
      (fun r hr => hr) (fun r hr rid hrid hmem => absurd hmem (by simp))
  obtain ⟨ΔS, newvS, visS, heqS, hiffS, -, -, hcloS, hrootsS, hcntS⟩ :=
    sbnFromFold bd fl hfl dag.rootsplits 0 [] [] bd.rootsNodup
      (fun r hr => hr) (fun r hr rid hrid hmem => absurd hmem (by simp))
  unfold branchLengthOptimization at hB
  simp only [Option.bind_eq_bind, Option.pure_def] at hB
  rw [Option.bind_eq_some] at hB
  obtain ⟨stB, hfoldB, hB⟩ := hB
  simp only [Option.some.injEq] at hB
  have hfoldB2 : some stB = some (([] : GPOperationVector) ++ ΔB, visB) :=
    hfoldB.symm.trans heqB
  simp only [Option.some.injEq] at hfoldB2
  have hstB1 : stB.1 = ΔB := by rw [hfoldB2]; rfl
  unfold sbnParameterOptimization at hS
  simp only [Option.bind_eq_bind, Option.pure_def] at hS
  rw [Option.bind_eq_some] at hS
  obtain ⟨stS, hfromS, hS⟩ := hS
  simp only [Option.some.injEq] at hS
  have hfromS2 : some stS = some (([] : GPOperationVector) ++ ΔS, visS) :=
    hfromS.symm.trans heqS
  simp only [Option.some.injEq] at hfromS2
  have hstS1 : stS.1 = ΔS := by rw [hfromS2]; rfl
  have hvisBnew : ∀ v, v ∈ visB ↔ v ∈ newvB := by
    intro v
    rw [hiffB v]
    simp
  have hvisSnew : ∀ v, v ∈ visS ↔ v ∈ newvS := by
    intro v
    rw [hiffS v]
    simp
  have hcloB2 : ∀ v ∈ visB, ∀ n, dag.dag_nodes.get? v = some n →
      ∀ c ∈ n.leafwardSorted ++ n.leafwardRotated, c ∈ visB :=
    fun v hv => hcloB v ((hvisBnew v).mp hv)
  have hcloS2 : ∀ v ∈ visS, ∀ n, dag.dag_nodes.get? v = some n →
      ∀ c ∈ n.leafwardSorted ++ n.leafwardRotated, c ∈ visS :=
    fun v hv => hcloS v ((hvisSnew v).mp hv)
  intro m hmT hmN
  have hnodem : dag.dag_nodes.get? m =
      some (dag.dag_nodes.get ⟨m, hmN⟩) := List.get?_eq_get hmN
  obtain ⟨root_id, ⟨r, hrm, hfindm⟩, hcase⟩ :=
    bd.reach m (dag.dag_nodes.get ⟨m, hmN⟩) hnodem hmT
  have hmB : m ∈ visB := by
    rcases hcase with h1 | h1
    · exact h1 ▸ hrootsB r hrm root_id hfindm
    · exact visited_reach_closed hcloB2 root_id m h1
        (hrootsB r hrm root_id hfindm)
  have hmS : m ∈ visS := by
    rcases hcase with h1 | h1
    · exact h1 ▸ hrootsS r hrm root_id hfindm
    · exact visited_reach_closed hcloS2 root_id m h1
        (hrootsS r hrm root_id hfindm)
  have hplv : GPOperation.Zero (getPLVIndex dag PLVType.P_HAT m) =
      GPOperation.Zero (dag.dag_nodes.length + m) := rfl
  constructor
  · rw [← hB, hstB1, hplv]
    have := hcntB m hmN
    rw [if_pos ⟨hmT, (hvisBnew m).mp hmB⟩] at this
    simpa using this
  · rw [← hS, hstS1, List.count_append, hplv, count_zero_usp]
    have := hcntS m hmN
    rw [if_pos ⟨hmT, (hvisSnew m).mp hmS⟩] at this
    simpa using this

/-- The operation vector of `BranchLengthOptimization` on the three-taxon
example DAG. -/
def exampleBranchOps : GPOperationVector :=
  (branchLengthOptimization exampleDag 20).getD []

/-- Closed witness for `schedule_each_node_exactly_once` on the
three-taxon example DAG. -/
theorem schedule_each_node_exactly_once_witness :
    (buildGPDAG 3 exampleRootsplitCounter examplePCSSCounter 20 =
        some exampleDag ∧
      InputWF 3 exampleRootsplitCounter examplePCSSCounter ∧
      exampleDag.dag_nodes.length ≤ 20 ∧
      branchLengthOptimization exampleDag 20 = some exampleBranchOps ∧
      sbnParameterOptimization exampleDag 20 = some exampleSbnOps) ∧
    (∀ m, 3 ≤ m → m < exampleDag.dag_nodes.length →
      exampleBranchOps.count
        (GPOperation.Zero (getPLVIndex exampleDag PLVType.P_HAT m)) = 1 ∧
      exampleSbnOps.count
        (GPOperation.Zero (getPLVIndex exampleDag PLVType.P_HAT m)) = 1) :=
  ⟨⟨by decide, by decide, by decide, by decide, by decide⟩,
    schedule_each_node_exactly_once
      (show buildGPDAG 3 exampleRootsplitCounter examplePCSSCounter 20 =
        some exampleDag by decide)
      (by decide)
      (show exampleDag.dag_nodes.length ≤ 20 by decide)
      (show branchLengthOptimization exampleDag 20 =
        some exampleBranchOps by decide)
      (show sbnParameterOptimization exampleDag 20 =
        some exampleSbnOps by decide)⟩
/-- Totality of `depthFirstTraverse` over an adjacency that is total below
`N` and strictly decreases a measure, started on an unvisited node: the
call succeeds and every newly visited node is the start node or
adjacency-reachable from it. -/
theorem dft_total (adj : Nat → Option (List Nat)) (meas : Nat → Nat)
    (N : Nat)
    (Hadj : ∀ i, i < N → ∃ l, adj i = some l ∧
      ∀ w ∈ l, w < N ∧ meas w < meas i) :
    ∀ (fuel id : Nat) (o vis : List Nat), id < N → meas id < fuel →
      id ∉ vis →
      ∃ (out : List Nat × List Nat) (Δn : List Nat),
        depthFirstTraverse adj fuel id (o, vis) = some out ∧
        (∀ v, v ∈ out.2 ↔ (v ∈ vis ∨ v ∈ Δn)) ∧
        (∀ v ∈ Δn, v ∉ vis) ∧
        (∀ v ∈ Δn, v = id ∨ AdjReach adj id v) ∧
        (∀ v ∈ out.1, v ∈ o ∨ v ∈ Δn) := by
  intro fuel
  induction fuel with
  | zero =>
    intro id o vis h1 h2 h3
    omega
  | succ fuel ihf =>
    intro id o vis hidN hmeas hvis
    obtain ⟨l, hl, hlw⟩ := Hadj id hidN
    have foldTotal : ∀ (ns : List Nat),
        (∀ w ∈ ns, w < N ∧ meas w < meas id ∧ AdjReach adj id w) →
        ∀ (st1 : List Nat × List Nat),
          ∃ (st2 : List Nat × List Nat) (Δn : List Nat),
            foldlOpt (fun child_id (st : List Nat × List Nat) =>
                if child_id ∈ st.2 then some st
                else depthFirstTraverse adj fuel child_id st)
              ns st1 = some st2 ∧
            (∀ v, v ∈ st2.2 ↔ (v ∈ st1.2 ∨ v ∈ Δn)) ∧
            (∀ v ∈ Δn, v ∉ st1.2) ∧
            (∀ v ∈ Δn, AdjReach adj id v) ∧
            (∀ v ∈ st2.1, v ∈ st1.1 ∨ v ∈ Δn) := by
      intro ns
      induction ns with
      | nil =>
        intro hns st1
        refine ⟨st1, [], by rw [foldlOpt_nil], ?_, ?_, ?_, ?_⟩
        · intro v
          simp
        · intro v hv
          exact absurd hv (by simp)
        · intro v hv
          exact absurd hv (by simp)
        · intro v hv
          exact Or.inl hv
      | cons w ns ih =>
        intro hns st1
        obtain ⟨hwN, hwm, hwr⟩ := hns w (List.mem_cons_self w ns)
        by_cases hw : w ∈ st1.2
        · obtain ⟨st2, Δn, heq2, hiff2, hnv2, hr2, ho2⟩ :=
            ih (fun x hx => hns x (List.mem_cons_of_mem _ hx)) st1
          refine ⟨st2, Δn, ?_, hiff2, hnv2, hr2, ho2⟩
          refine foldlOpt_cons_eq st1 ?_ heq2
          rw [if_pos hw]
        · obtain ⟨out1, Δ1, heq1, hiff1, hnv1, hr1, ho1⟩ :=
            ihf w st1.1 st1.2 hwN (by omega) hw
          obtain ⟨st2, Δ2, heq2, hiff2, hnv2, hr2, ho2⟩ :=
            ih (fun x hx => hns x (List.mem_cons_of_mem _ hx)) out1
          refine ⟨st2, Δ1 ++ Δ2, ?_, ?_, ?_, ?_, ?_⟩
          · refine foldlOpt_cons_eq out1 ?_ heq2
            rw [if_neg hw]
            exact heq1
          · intro v
            constructor
            · intro hv
              rcases (hiff2 v).mp hv with h1 | h1
              · rcases (hiff1 v).mp h1 with h2 | h2
                · exact Or.inl h2
                · exact Or.inr (List.mem_append_left _ h2)
              · exact Or.inr (List.mem_append_right _ h1)
            · intro hv
              rcases hv with h1 | h1
              · exact (hiff2 v).mpr (Or.inl ((hiff1 v).mpr (Or.inl h1)))
              · rcases List.mem_append.mp h1 with h2 | h2
                · exact (hiff2 v).mpr (Or.inl ((hiff1 v).mpr (Or.inr h2)))
                · exact (hiff2 v).mpr (Or.inr h2)
          · intro v hv
            rcases List.mem_append.mp hv with h1 | h1
            · exact hnv1 v h1
            · exact fun hcon =>
                hnv2 v h1 ((hiff1 v).mpr (Or.inl hcon))
          · intro v hv
            rcases List.mem_append.mp hv with h1 | h1
            · rcases hr1 v h1 with h2 | h2
              · subst h2
                exact hwr
              · exact AdjReach.step hwr h2
            · exact hr2 v h1
          · intro v hv
            rcases ho2 v hv with h1 | h1
            · rcases ho1 v h1 with h2 | h2
              · exact Or.inl h2
              · exact Or.inr (List.mem_append_left _ h2)
            · exact Or.inr (List.mem_append_right _ h1)
    obtain ⟨st2, Δn, heqF, hiffF, hnvF, hrF, hoF⟩ :=
      foldTotal l
        (fun w hw => ⟨(hlw w hw).1, (hlw w hw).2, AdjReach.edge hl hw⟩)
        (o, id :: vis)
    refine ⟨(st2.1 ++ [id], st2.2), id :: Δn, ?_, ?_, ?_, ?_, ?_⟩
    · unfold depthFirstTraverse
      simp only [Option.bind_eq_bind, Option.pure_def]
      refine Option.bind_eq_some.mpr ⟨id :: vis, ?_, ?_⟩
      · unfold safeInsertSet
        rw [if_neg hvis]
      · refine Option.bind_eq_some.mpr ⟨l, hl, ?_⟩
        refine Option.bind_eq_some.mpr ⟨st2, heqF, rfl⟩
    · intro v
      constructor
      · intro hv
        rcases (hiffF v).mp hv with h1 | h1
        · rcases List.mem_cons.mp h1 with h2 | h2
          · exact Or.inr (by simp [h2])
          · exact Or.inl h2
        · exact Or.inr (List.mem_cons_of_mem _ h1)
      · intro hv
        rcases hv with h1 | h1
        · exact (hiffF v).mpr (Or.inl (List.mem_cons_of_mem _ h1))
        · rcases List.mem_cons.mp h1 with h2 | h2
          · subst h2
            exact (hiffF v).mpr (Or.inl (List.mem_cons_self v vis))
          · exact (hiffF v).mpr (Or.inr h2)
    · intro v hv
      rcases List.mem_cons.mp hv with h1 | h1
      · subst h1
        exact hvis
      · exact fun hcon => hnvF v h1 (List.mem_cons_of_mem _ hcon)
    · intro v hv
      rcases List.mem_cons.mp hv with h1 | h1
      · exact Or.inl h1
      · exact Or.inr (hrF v h1)
    · intro v hv
      rcases List.mem_append.mp hv with h1 | h1
      · rcases hoF v h1 with h2 | h2
        · exact Or.inl h2
        · exact Or.inr (List.mem_cons_of_mem _ h2)
      · rw [List.mem_singleton] at h1
        exact Or.inr (by simp [h1])

theorem adjReach_lt (adj : Nat → Option (List Nat)) (N : Nat)
    (Hb : ∀ i l, adj i = some l → ∀ w ∈ l, w < N) :
    ∀ i v, AdjReach adj i v → v < N := by
  intro i v h
  induction h with
  | edge h1 h2 => exact Hb _ _ h1 _ h2
  | step h1 h2 ih1 ih2 => exact ih2

theorem adjReach_rootward_T {T : Nat} {dag : GPDAG} (bd : BuiltDAG T dag) :
    ∀ i v, AdjReach (rootwardAdj dag) i v → T ≤ v := by
  intro i v h
  induction h with
  | edge h1 h2 =>
    rename_i i2 v2 l
    unfold rootwardAdj at h1
    simp only [Option.bind_eq_bind, Option.pure_def] at h1
    rw [Option.bind_eq_some] at h1
    obtain ⟨n, hn, h1⟩ := h1
    simp only [Option.some.injEq] at h1
    subst h1
    obtain ⟨hs, hr⟩ := bd.rootward i2 n hn
    rcases List.mem_append.mp h2 with hx | hx
    · exact (hs v2 hx).1
    · exact (hr v2 hx).1
  | step h1 h2 ih1 ih2 => exact ih2

theorem adjReach_rootward_lt {T : Nat} {dag : GPDAG} (bd : BuiltDAG T dag) :
    ∀ i v, AdjReach (rootwardAdj dag) i v → v < dag.dag_nodes.length := by
  refine adjReach_lt _ _ ?_
  intro i l hl w hw
  unfold rootwardAdj at hl
  simp only [Option.bind_eq_bind, Option.pure_def] at hl
  rw [Option.bind_eq_some] at hl
  obtain ⟨n, hn, hl⟩ := hl
  simp only [Option.some.injEq] at hl
  subst hl
  obtain ⟨hs, hr⟩ := bd.rootward i n hn
  rcases List.mem_append.mp hw with hx | hx
  · exact (hs w hx).2.2.1
  · exact (hr w hx).2.2.1

theorem adjReach_leafward_reach {dag : GPDAG} :
    ∀ i v, AdjReach (leafwardAdj dag) i v → LeafwardReach dag i v := by
  intro i v h
  induction h with
  | edge h1 h2 =>
    rename_i i2 v2 l
    unfold leafwardAdj at h1
    simp only [Option.bind_eq_bind, Option.pure_def] at h1
    rw [Option.bind_eq_some] at h1
    obtain ⟨n, hn, h1⟩ := h1
    simp only [Option.some.injEq] at h1
    subst h1
    exact LeafwardReach.edge hn h2
  | step h1 h2 ih1 ih2 => exact LeafwardReach.step ih1 ih2

theorem reach_lt {T : Nat} {dag : GPDAG} (bd : BuiltDAG T dag) :
    ∀ i q, LeafwardReach dag i q → q < dag.dag_nodes.length := by
  intro i q h
  obtain ⟨ni, nq, hni, hnq, -⟩ := reach_countTrue bd i q h
  exact (List.get?_eq_some.mp hnq).1

/-- The rootward adjacency instance of the traversal hypotheses. -/
theorem hadjRootward {T : Nat} {dag : GPDAG} (bd : BuiltDAG T dag) :
    ∀ i, i < dag.dag_nodes.length → ∃ l, rootwardAdj dag i = some l ∧
      ∀ w ∈ l, w < dag.dag_nodes.length ∧
        dag.dag_nodes.length - w < dag.dag_nodes.length - i := by
  intro i hi
  have hn : dag.dag_nodes.get? i = some (dag.dag_nodes.get ⟨i, hi⟩) :=
    List.get?_eq_get hi
  refine ⟨(dag.dag_nodes.get ⟨i, hi⟩).rootwardSorted ++
    (dag.dag_nodes.get ⟨i, hi⟩).rootwardRotated, ?_, ?_⟩
  · unfold rootwardAdj
    simp only [Option.bind_eq_bind, Option.pure_def]
    exact Option.bind_eq_some.mpr ⟨_, hn, rfl⟩
  · intro w hw
    obtain ⟨hs, hr⟩ := bd.rootward i _ hn
    rcases List.mem_append.mp hw with hx | hx
    · obtain ⟨-, h1, h2, -⟩ := hs w hx
      omega
    · obtain ⟨-, h1, h2, -⟩ := hr w hx
      omega

/-- The leafward adjacency instance of the traversal hypotheses. -/
theorem hadjLeafward {T : Nat} {dag : GPDAG} (bd : BuiltDAG T dag) :
    ∀ i, i < dag.dag_nodes.length → ∃ l, leafwardAdj dag i = some l ∧
      ∀ w ∈ l, w < dag.dag_nodes.length ∧ w + 1 < i + 1 := by
  intro i hi
  have hn : dag.dag_nodes.get? i = some (dag.dag_nodes.get ⟨i, hi⟩) :=
    List.get?_eq_get hi
  refine ⟨(dag.dag_nodes.get ⟨i, hi⟩).leafwardSorted ++
    (dag.dag_nodes.get ⟨i, hi⟩).leafwardRotated, ?_, ?_⟩
  · unfold leafwardAdj
    simp only [Option.bind_eq_bind, Option.pure_def]
    exact Option.bind_eq_some.mpr ⟨_, hn, rfl⟩
  · intro w hw
    have := bd.edgeDecr i _ hn w hw
    omega

/-- `LeafwardPassTraversal` succeeds on the built DAG with enough fuel, and
its visit order holds valid node ids. -/
theorem leafwardPassTraversal_total {T : Nat} {dag : GPDAG}
    (bd : BuiltDAG T dag) {fl : Nat}
    (hfl : dag.dag_nodes.length < fl) :
    ∃ order, leafwardPassTraversal dag fl = some order ∧
      ∀ v ∈ order, v < dag.dag_nodes.length := by
  have hfold : ∀ (ts : List Nat), ts.Nodup → (∀ t ∈ ts, t < T) →
      ∀ (o vis : List Nat), (∀ t ∈ ts, t ∉ vis) →
        (∀ v ∈ o, v < dag.dag_nodes.length) →
        ∃ (st2 : List Nat × List Nat),
          foldlOpt (fun leaf_idx st => rootwardDepthFirst dag fl leaf_idx st)
            ts (o, vis) = some st2 ∧
          (∀ v ∈ st2.1, v < dag.dag_nodes.length) ∧
          (∀ v ∈ st2.2, v ∈ vis ∨ v ∈ ts ∨ T ≤ v) := by
    intro ts
    induction ts with
    | nil =>
      intro hnd hts o vis hfresh ho
      refine ⟨(o, vis), by rw [foldlOpt_nil], ho, ?_⟩
      intro v hv
      exact Or.inl hv
    | cons t ts ih =>
      intro hnd hts o vis hfresh ho
      have htT : t < T := hts t (List.mem_cons_self t ts)
      have htN : t < dag.dag_nodes.length := by
        have := bd.tle
        omega
      obtain ⟨out1, Δ1, heq1, hiff1, hnv1, hr1, ho1⟩ :=
        dft_total (rootwardAdj dag)
          (fun i => dag.dag_nodes.length - i) dag.dag_nodes.length
          (hadjRootward bd) fl t o vis htN
          (by show dag.dag_nodes.length - t < fl; omega)
          (hfresh t (List.mem_cons_self t ts))
      obtain ⟨st2, heq2, hst2o, hst2v⟩ :=
        ih (List.nodup_cons.mp hnd).2
          (fun x hx => hts x (List.mem_cons_of_mem _ hx))
          out1.1 out1.2
          (fun x hx hcon => by
            rcases (hiff1 x).mp hcon with h1 | h1
            · exact hfresh x (List.mem_cons_of_mem _ hx) h1
            · rcases hr1 x h1 with h2 | h2
              · subst h2
                exact (List.nodup_cons.mp hnd).1 hx
              · have := adjReach_rootward_T bd t x h2
                have := hts x (List.mem_cons_of_mem _ hx)
                omega)
          (fun v hv => by
            rcases ho1 v hv with h1 | h1
            · exact ho v h1
            · rcases hr1 v h1 with h2 | h2
              · omega
              · exact adjReach_rootward_lt bd t v h2)
      refine ⟨st2, ?_, hst2o, ?_⟩
      · refine foldlOpt_cons_eq out1 ?_ ?_
        · show depthFirstTraverse (rootwardAdj dag) fl t (o, vis) = some out1
          exact heq1
        · exact heq2
      · intro v hv
        rcases hst2v v hv with h1 | h1 | h1
        · rcases (hiff1 v).mp h1 with h2 | h2
          · exact Or.inl h2
          · rcases hr1 v h2 with h3 | h3
            · exact Or.inr (Or.inl (by simp [h3]))
            · exact Or.inr (Or.inr (adjReach_rootward_T bd t v h3))
        · exact Or.inr (Or.inl (List.mem_cons_of_mem _ h1))
        · exact Or.inr (Or.inr h1)
  obtain ⟨st2, heq, hord, -⟩ :=
    hfold (List.range dag.taxon_count) (List.nodup_range _)
      (fun t ht => by
        rw [List.mem_range, bd.taxon] at ht
        exact ht)
      [] []
      (fun t ht => by simp)
      (fun v hv => by simp at hv)
  refine ⟨st2.1, ?_, hord⟩
  unfold leafwardPassTraversal
  simp only [Option.bind_eq_bind, Option.pure_def]
  exact Option.bind_eq_some.mpr ⟨st2, heq, rfl⟩

/-- `RootwardPassTraversal` succeeds on the built DAG with enough fuel, and
its visit order holds valid node ids. -/
theorem rootwardPassTraversal_total {T : Nat} {dag : GPDAG}
    (bd : BuiltDAG T dag) {fl : Nat}
    (hfl : dag.dag_nodes.length < fl) :
    ∃ order, rootwardPassTraversal dag fl = some order ∧
      ∀ v ∈ order, v < dag.dag_nodes.length := by
  have hfold : ∀ (rl : List Bitset), rl.Nodup →
      (∀ r ∈ rl, r ∈ dag.rootsplits) →
      ∀ (o vis : List Nat),
        (∀ r ∈ rl, ∀ rid, mapFind dag.subsplit_to_index
          (r ++ bitsetComplement r) = some rid → rid ∉ vis) →
        (∀ v ∈ o, v < dag.dag_nodes.length) →
        ∃ (st2 : List Nat × List Nat) (newv : List Nat),
          foldlOpt (fun rootsplit (st : List Nat × List Nat) => do
              let root_idx ← mapFind dag.subsplit_to_index
                (rootsplit ++ bitsetComplement rootsplit)
              leafwardDepthFirst dag fl root_idx st)
            rl (o, vis) = some st2 ∧
          (∀ v ∈ st2.1, v < dag.dag_nodes.length) ∧
          (∀ v, v ∈ st2.2 ↔ (v ∈ vis ∨ v ∈ newv)) ∧
          (∀ v ∈ newv, ∃ r ∈ rl, ∃ rid,
            mapFind dag.subsplit_to_index (r ++ bitsetComplement r) =
              some rid ∧ (v = rid ∨ LeafwardReach dag rid v)) := by
    intro rl
    induction rl with
    | nil =>
      intro hnd hroots o vis hfresh ho
      refine ⟨(o, vis), [], by rw [foldlOpt_nil], ho, ?_, ?_⟩
      · intro v
        simp
      · intro v hv
        exact absurd hv (by simp)
    | cons r rest ih =>
      intro hnd hroots o vis hfresh ho
      have hr : r ∈ dag.rootsplits := hroots r (List.mem_cons_self r rest)
      obtain ⟨rid, hrid⟩ :=
        Option.isSome_iff_exists.mp (bd.rootsCreated r hr)
      obtain ⟨hridN, -⟩ := mapFind_sync_of bd.sync bd.ids hrid
      obtain ⟨out1, Δ1, heq1, hiff1, hnv1, hr1, ho1⟩ :=
        dft_total (leafwardAdj dag) (fun i => i + 1) dag.dag_nodes.length
          (hadjLeafward bd) fl rid o vis hridN
          (by show rid + 1 < fl; omega)
          (hfresh r (List.mem_cons_self r rest) rid hrid)
      obtain ⟨st2, newv2, heq2, hst2o, hiff2, horig2⟩ :=
        ih (List.nodup_cons.mp hnd).2
          (fun x hx => hroots x (List.mem_cons_of_mem _ hx))
          out1.1 out1.2
          (fun r2 hr2 rid2 hrid2 hcon => by
            rcases (hiff1 rid2).mp hcon with h1 | h1
            · exact hfresh r2 (List.mem_cons_of_mem _ hr2) rid2 hrid2 h1
            · rcases hr1 rid2 h1 with h2 | h2
              · subst h2
                have := roots_ids_inj bd
                  (hroots r2 (List.mem_cons_of_mem _ hr2)) hr hrid2 hrid
                subst this
                exact (List.nodup_cons.mp hnd).1 hr2
              · exact root_not_reached bd
                  (hroots r2 (List.mem_cons_of_mem _ hr2)) hrid2 rid
                  (adjReach_leafward_reach rid rid2 h2))
          (fun v hv => by
            rcases ho1 v hv with h1 | h1
            · exact ho v h1
            · rcases hr1 v h1 with h2 | h2
              · omega
              · exact reach_lt bd rid v (adjReach_leafward_reach rid v h2))
      refine ⟨st2, Δ1 ++ newv2, ?_, hst2o, ?_, ?_⟩
      · refine foldlOpt_cons_eq out1 ?_ ?_
        · exact Option.bind_eq_some.mpr ⟨rid, hrid, heq1⟩
        · exact heq2
      · intro v
        constructor
        · intro hv
          rcases (hiff2 v).mp hv with h1 | h1
          · rcases (hiff1 v).mp h1 with h2 | h2
            · exact Or.inl h2
            · exact Or.inr (List.mem_append_left _ h2)
          · exact Or.inr (List.mem_append_right _ h1)
        · intro hv
          rcases hv with h1 | h1
          · exact (hiff2 v).mpr (Or.inl ((hiff1 v).mpr (Or.inl h1)))
          · rcases List.mem_append.mp h1 with h2 | h2
            · exact (hiff2 v).mpr (Or.inl ((hiff1 v).mpr (Or.inr h2)))
            · exact (hiff2 v).mpr (Or.inr h2)
      · intro v hv
        rcases List.mem_append.mp hv with h1 | h1
        · refine ⟨r, List.mem_cons_self r rest, rid, hrid, ?_⟩
          rcases hr1 v h1 with h2 | h2
          · exact Or.inl h2
          · exact Or.inr (adjReach_leafward_reach rid v h2)
        · obtain ⟨r2, hr2, rid2, hrid2, hcase⟩ := horig2 v h1
          exact ⟨r2, List.mem_cons_of_mem _ hr2, rid2, hrid2, hcase⟩
  obtain ⟨st2, newv, heq, hord, -, -⟩ :=
    hfold dag.rootsplits bd.rootsNodup (fun r hr => hr) [] []
      (fun r hr rid hrid hcon => by simp at hcon)
      (fun v hv => by simp at hv)
  refine ⟨st2.1, ?_, hord⟩
  unfold rootwardPassTraversal
  simp only [Option.bind_eq_bind, Option.pure_def]
  exact Option.bind_eq_some.mpr ⟨st2, heq, rfl⟩
